import Mathlib

/-
  Shallow embedding of the order-management core in src/main.cpp
  (carlcook/Throttling).  C++ pointers to `Operation` / `Order` objects are
  replaced by natural-number identifiers (`opId` / `orderId`); the global
  mutable singletons (`orders`, `throttle`, `marketOperations`, `quotes`)
  become the fields of `EngineState`.  Pseudo-random oracle draws become
  explicit function arguments.  Paths that are fatal in the C++ program
  (the `throw` on a missing previous operation, the `exit(-1)` of the
  book-cross assertion, the `assert` in AmendOrder, and reads that would be
  undefined behaviour on dangling references) are modelled with `Except`.
-/

namespace Throttling

inductive Side
  | Buy
  | Sell
deriving DecidableEq, Repr

inductive OrderState
  | PriorToMarket
  | OnMarket
  | DeleteSentToMarket
  | Finalised
deriving DecidableEq, Repr

inductive OperationType
  | InsertOrder
  | InsertQuote
  | AmendOrder
  | DeleteOrder
  | DeleteQuote
deriving DecidableEq, Repr

inductive OperationState
  | Initial
  | Queued
  | SentToMarket
  | Acked
deriving DecidableEq, Repr

/-- `struct Operation` (src/main.cpp:60-77).  The `Order& order` back
reference becomes `orderId`; the `Operation* previousOperation` pointer
becomes `Option Nat` holding the previous operation's id.  The C++ struct
leaves `price`/`qty` uninitialised on quote operations and
`bidPrice`/`bidQty`/`askPrice`/`askQty` uninitialised on order operations;
those fields are never read, and the embedding sets them to 0. -/
structure Operation where
  opId : Nat
  orderId : Nat
  previousOperation : Option Nat
  operationType : OperationType
  operationState : OperationState
  price : Int
  qty : Int
  bidPrice : Int
  bidQty : Int
  askPrice : Int
  askQty : Int
deriving DecidableEq, Repr

/-- `struct Order` (src/main.cpp:85-93), with an id added for reference. -/
structure Order where
  orderId : Nat
  price : Int
  qty : Int
  side : Side
  orderState : OrderState
  operations : List Operation
  isQuote : Bool
deriving DecidableEq, Repr

/-- The global mutable state of the program: `orders`, `throttle`
(src/main.cpp:148-151), `marketOperations` (src/main.cpp:321) and the
`quotes` pointer; `nextId` is the allocator for fresh ids. -/
structure EngineState where
  orders : List Order
  throttle : List Nat
  marketOperations : List Nat
  quotesId : Nat
  nextId : Nat
deriving DecidableEq, Repr

/-- `UpperPrice` (src/main.cpp:15). -/
def UpperPrice : Int := 9

/-- `std::numeric_limits<int>::max()` as used in CheckPendingInsertOrAmend. -/
def intMax : Int := 2147483647

/-- `std::numeric_limits<int>::min()` as used in CheckPendingInsertOrAmend. -/
def intMin : Int := -2147483648

/-- Fatal outcomes of the C++ program: `throw` in SendToMarket, `exit(-1)`
in PrintOrderBook, the `assert` in AmendOrder, and reads that would be
undefined behaviour (dangling references, `back()` on an empty vector). -/
inductive Err
  | danglingOp
  | missingPrev
  | emptyHistory
  | assertFailed
  | inCross
  | noOrder
deriving DecidableEq, Repr

instance instDecEqExcept {ε α : Type} [DecidableEq ε] [DecidableEq α] :
    DecidableEq (Except ε α) := fun a b =>
  match a, b with
  | Except.ok x, Except.ok y =>
    if h : x = y then isTrue (by rw [h]) else isFalse (by intro hc; cases hc; exact h rfl)
  | Except.error e, Except.error f =>
    if h : e = f then isTrue (by rw [h]) else isFalse (by intro hc; cases hc; exact h rfl)
  | Except.ok _, Except.error _ => isFalse (by intro hc; cases hc)
  | Except.error _, Except.ok _ => isFalse (by intro hc; cases hc)

/-- `GetLivePrice` (src/main.cpp:156-178): fold the order's history,
overwriting the last acked price with every Acked insert/amend and folding
every other (pending) insert/amend price into the in-flight accumulator
with the comparator; return the comparator of the two accumulators.
`livePriceStep` is the loop body (acc = (inflightPrice, lastAckedPrice)). -/
def livePriceStep (comparitor : Int → Int → Int) (acc : Int × Int) (operation : Operation) : Int × Int :=
  if operation.operationType = OperationType.AmendOrder ∨
     operation.operationType = OperationType.InsertOrder then
    if operation.operationState = OperationState.Acked then
      (acc.1, operation.price)
    else
      (comparitor operation.price acc.1, acc.2)
  else acc

def GetLivePrice (comparitor : Int → Int → Int) (order : Order) : Int :=
  let r := order.operations.foldl (livePriceStep comparitor) (order.price, order.price)
  comparitor r.1 r.2

/-- All operations of all orders, in store order. -/
def allOps (st : EngineState) : List Operation :=
  st.orders.flatMap (fun o => o.operations)

/-- Resolve an operation id (a C++ `Operation*`) in the entity store. -/
def findOp (st : EngineState) (i : Nat) : Option Operation :=
  (allOps st).find? (fun p => p.opId = i)

/-- Resolve an order id (a C++ `Order*`) in the entity store. -/
def findOrder (st : EngineState) (oid : Nat) : Option Order :=
  st.orders.find? (fun o => o.orderId = oid)

/-- Mutate the order with id `oid` in place. -/
def updateOrder (st : EngineState) (oid : Nat) (f : Order → Order) : EngineState :=
  { st with orders := st.orders.map (fun o => if o.orderId = oid then f o else o) }

/-- Mutate the operation with id `i` (wherever it lives) in place. -/
def updateOp (st : EngineState) (i : Nat) (f : Operation → Operation) : EngineState :=
  { st with orders := st.orders.map (fun o =>
      { o with operations := o.operations.map (fun p => if p.opId = i then f p else p) }) }

/-- `operation.operationState = s` through a reference. -/
def setOpState (st : EngineState) (i : Nat) (s : OperationState) : EngineState :=
  updateOp st i (fun p => { p with operationState := s })

/-- The quote entity's operation history (`quotes->operations`). -/
def quoteOps (st : EngineState) : List Operation :=
  match findOrder st st.quotesId with
  | some q => q.operations
  | none => []

/-- The buy-side quote scan of `CheckPendingInsertOrAmend`
(src/main.cpp:185-199): walk the quote history; ignore operations whose
`askQty` is the sentinel -1; an Acked operation overwrites the
last-acked-ask accumulator, any other operation lowers the
lowest-unacked-ask accumulator.  Returns (lastAckedPrice, lowestUnackedPrice);
`quoteAskStep` is the loop body. -/
def quoteAskStep (acc : Int × Int) (q : Operation) : Int × Int :=
  if q.askQty = -1 then acc
  else if q.operationState = OperationState.Acked then (q.askPrice, acc.2)
  else (acc.1, min acc.2 q.askPrice)

def QuoteAskScan (qops : List Operation) : Int × Int :=
  qops.foldl quoteAskStep (intMax, intMax)

/-- The sell-side quote scan of `CheckPendingInsertOrAmend`
(src/main.cpp:209-223), symmetric with maxima over bid prices.
Returns (lastAckedPrice, highestUnackedPrice); `quoteBidStep` is the loop
body. -/
def quoteBidStep (acc : Int × Int) (q : Operation) : Int × Int :=
  if q.bidQty = -1 then acc
  else if q.operationState = OperationState.Acked then (q.bidPrice, acc.2)
  else (acc.1, max acc.2 q.bidPrice)

def QuoteBidScan (qops : List Operation) : Int × Int :=
  qops.foldl quoteBidStep (intMin, intMin)

/-- Phase 2 of `CheckPendingInsertOrAmend` (src/main.cpp:232-262): walk all
orders, skipping same-side, Finalised and DeleteSentToMarket orders; a
pending buy passes an opposing order iff its live max is strictly below the
order's live min (symmetric for sells); the first failure returns false. -/
def CheckAgainstOrders (pendingOrder : Order) : List Order → Bool
  | [] => true
  | o :: rest =>
    if o.side = pendingOrder.side then CheckAgainstOrders pendingOrder rest
    else if o.orderState = OrderState.Finalised then CheckAgainstOrders pendingOrder rest
    else if o.orderState = OrderState.DeleteSentToMarket then CheckAgainstOrders pendingOrder rest
    else if pendingOrder.side = Side.Buy then
      if GetLivePrice (fun a b => max a b) pendingOrder <
         GetLivePrice (fun a b => min a b) o then
        CheckAgainstOrders pendingOrder rest
      else false
    else
      if GetLivePrice (fun a b => min a b) pendingOrder >
         GetLivePrice (fun a b => max a b) o then
        CheckAgainstOrders pendingOrder rest
      else false

/-- `CheckPendingInsertOrAmend` (src/main.cpp:180-263): phase 1 checks the
pending order against the quote history (a buy crosses iff its price is ≥
the minimum of the two ask accumulators; a sell crosses iff its price is ≤
the maximum of the two bid accumulators), phase 2 checks it against every
other live order. -/
def CheckPendingInsertOrAmend (st : EngineState) (pendingOrder : Order) : Bool :=
  if pendingOrder.side = Side.Buy then
    if pendingOrder.price ≥ min (QuoteAskScan (quoteOps st)).1 (QuoteAskScan (quoteOps st)).2 then
      false
    else CheckAgainstOrders pendingOrder st.orders
  else
    if pendingOrder.price ≤ max (QuoteBidScan (quoteOps st)).1 (QuoteBidScan (quoteOps st)).2 then
      false
    else CheckAgainstOrders pendingOrder st.orders

/-- The order walk of `CheckPendingQuote` (src/main.cpp:567-605): skip the
quote entity itself, Finalised and DeleteSentToMarket orders; against a buy
order the quote passes iff its ask is active and strictly above the buy's
live max; against a sell order iff its bid is active and strictly below the
sell's live min.  (When the relevant side is inactive the C++ falls through
to `return false`.) -/
def CheckQuoteAgainstOrders (quoteOperation : Operation) : List Order → Bool
  | [] => true
  | o :: rest =>
    if o.isQuote then CheckQuoteAgainstOrders quoteOperation rest
    else if o.orderState = OrderState.Finalised then CheckQuoteAgainstOrders quoteOperation rest
    else if o.orderState = OrderState.DeleteSentToMarket then CheckQuoteAgainstOrders quoteOperation rest
    else if o.side = Side.Buy then
      if quoteOperation.askQty > -1 then
        if quoteOperation.askPrice > GetLivePrice (fun a b => max a b) o then
          CheckQuoteAgainstOrders quoteOperation rest
        else false
      else false
    else
      if quoteOperation.bidQty > -1 then
        if quoteOperation.bidPrice < GetLivePrice (fun a b => min a b) o then
          CheckQuoteAgainstOrders quoteOperation rest
        else false
      else false

/-- `CheckPendingQuote` (src/main.cpp:567-605). -/
def CheckPendingQuote (st : EngineState) (quoteOperation : Operation) : Bool :=
  CheckQuoteAgainstOrders quoteOperation st.orders

/-- `CheckThrottle` (src/main.cpp:265-271): the window is closed whenever
the queue is non-empty; otherwise the Bernoulli oracle draw decides. -/
def CheckThrottle (st : EngineState) (draw : Bool) : Bool :=
  if st.throttle.isEmpty then draw else false

/-- `RemoveFromThrottle` (src/main.cpp:273-284): remove from the throttle
queue every operation belonging to the given order. -/
def RemoveFromThrottle (st : EngineState) (oid : Nat) : EngineState :=
  { st with throttle := st.throttle.filter (fun tid =>
      match findOp st tid with
      | some p => p.orderId ≠ oid
      | none => true) }

/-- The history rewrite of `RemoveDiscardedOperations` (src/main.cpp:286-306)
on one order's operation list: erase every Queued operation other than
`thisId`, and copy the first erased operation's `previousOperation` into the
operation `thisId`. -/
def RemoveDiscardedFromList (ops : List Operation) (thisId : Nat) : List Operation :=
  match (ops.filter (fun p => p.opId ≠ thisId ∧ p.operationState = OperationState.Queued)).head? with
  | none => ops.filter (fun p => p.opId = thisId ∨ p.operationState ≠ OperationState.Queued)
  | some q => (ops.filter (fun p => p.opId = thisId ∨ p.operationState ≠ OperationState.Queued)).map
      (fun p => if p.opId = thisId then { p with previousOperation := q.previousOperation } else p)

/-- `RemoveDiscardedOperations` (src/main.cpp:286-306) lifted to the store. -/
def RemoveDiscardedOperations (st : EngineState) (i : Nat) : EngineState :=
  match findOp st i with
  | none => st
  | some p => updateOrder st p.orderId
      (fun o => { o with operations := RemoveDiscardedFromList o.operations i })

/-- `PushToThrottle` (src/main.cpp:308-318): conflate away the order's
previously queued operations (`RemoveFromThrottle`), append the new one to
the queue, mark it Queued, then purge superseded Queued operations from
the history (`RemoveDiscardedOperations`). -/
def PushToThrottle (st : EngineState) (i : Nat) : EngineState :=
  match findOp st i with
  | none => st
  | some p =>
    RemoveDiscardedOperations
      (setOpState
        { RemoveFromThrottle st p.orderId with
            throttle := (RemoveFromThrottle st p.orderId).throttle ++ [i] }
        i OperationState.Queued) i

/-- Resolve a shadow-book entry to the operation and its owning order. -/
def resolveBookEntry (st : EngineState) (i : Nat) : Option (Operation × Order) :=
  match findOp st i with
  | none => none
  | some p =>
    match findOrder st p.orderId with
    | none => none
    | some o => some (p, o)

/-- One book entry's contribution to the aggregated bid quantity at a price
level, following the aggregation loop of `PrintOrderBook`
(src/main.cpp:323-347). -/
def bidContribution (p : Operation) (o : Order) (price : Int) : Int :=
  if o.isQuote then
    (if p.bidQty > -1 ∧ p.bidPrice = price then p.bidQty else 0)
  else
    (if o.side = Side.Buy ∧ p.price = price then p.qty else 0)

/-- One book entry's contribution to the aggregated ask quantity at a price
level (src/main.cpp:323-347). -/
def askContribution (p : Operation) (o : Order) (price : Int) : Int :=
  if o.isQuote then
    (if p.askQty > -1 ∧ p.askPrice = price then p.askQty else 0)
  else
    (if o.side = Side.Sell ∧ p.price = price then p.qty else 0)

/-- `bids[price]` after the aggregation loop of `PrintOrderBook`. -/
def bidsAt (st : EngineState) (price : Int) : Int :=
  st.marketOperations.foldl
    (fun acc i =>
      match resolveBookEntry st i with
      | none => acc
      | some r => acc + bidContribution r.1 r.2 price) 0

/-- `asks[price]` after the aggregation loop of `PrintOrderBook`. -/
def asksAt (st : EngineState) (price : Int) : Int :=
  st.marketOperations.foldl
    (fun acc i =>
      match resolveBookEntry st i with
      | none => acc
      | some r => acc + askContribution r.1 r.2 price) 0

/-- The book-cross assertion of `PrintOrderBook` (src/main.cpp:349-371):
some price level in [1, UpperPrice] has both a non-zero aggregated bid
quantity and a non-zero aggregated ask quantity; the process then prints
the IN CROSS banner and exits non-zero. -/
def InCross (st : EngineState) : Bool :=
  (List.range 9).any (fun k =>
    decide (bidsAt st ((k : Int) + 1) ≠ 0 ∧ asksAt st ((k : Int) + 1) ≠ 0))

/-- `operation.operationType` is one of the two delete types, the test on
src/main.cpp:379 and src/main.cpp:757. -/
def isDeleteType (t : OperationType) : Bool :=
  t = OperationType.DeleteOrder ∨ t = OperationType.DeleteQuote

/-- The append step of the shadow-book update (src/main.cpp:396-400):
inserts and amends (order or quote) are appended, deletes are not. -/
def bookAppend (book : List Nat) (p : Operation) : List Nat :=
  if p.operationType = OperationType.InsertOrder ∨
     p.operationType = OperationType.AmendOrder ∨
     p.operationType = OperationType.InsertQuote then book ++ [p.opId] else book

/-- The shadow-book update inside `SendToMarket` (src/main.cpp:384-400):
if the operation has a previous operation it must be present in the book
(else the C++ throws) and is erased; inserts and amends (order or quote)
are then appended. -/
def UpdateMarketBook (book : List Nat) (p : Operation) : Except Err (List Nat) :=
  match p.previousOperation with
  | some prevId =>
    if book.contains prevId then
      Except.ok (bookAppend (book.erase prevId) p)
    else Except.error Err.missingPrev
  | none => Except.ok (bookAppend book p)

/-- The operation/order state writes of `SendToMarket`
(src/main.cpp:376-382): the operation becomes SentToMarket and the owning
order becomes DeleteSentToMarket (deletes) or OnMarket (everything else). -/
def sendStateUpdate (st : EngineState) (i : Nat) (p : Operation) : EngineState :=
  updateOrder (setOpState st i OperationState.SentToMarket) p.orderId
    (fun o =>
      { o with orderState :=
                 if isDeleteType p.operationType then OrderState.DeleteSentToMarket
                 else OrderState.OnMarket })

/-- `SendToMarket` (src/main.cpp:374-402): mark the operation SentToMarket,
move the owning order to DeleteSentToMarket (deletes) or OnMarket
(everything else), update the shadow book, and run the book-cross assertion
(`PrintOrderBook`), which is fatal if it fires. -/
def SendToMarket (st : EngineState) (i : Nat) : Except Err EngineState :=
  match findOp st i with
  | none => Except.error Err.danglingOp
  | some p =>
    match UpdateMarketBook st.marketOperations p with
    | Except.error e => Except.error e
    | Except.ok book =>
      if InCross { sendStateUpdate st i p with marketOperations := book } then
        Except.error Err.inCross
      else
        Except.ok { sendStateUpdate st i p with marketOperations := book }

/-- The promotion body of `AckOrderOperations` (src/main.cpp:720-731): the
operation becomes Acked; an acked DeleteOrder finalises the owning order;
anything else puts the order OnMarket unless it is already
DeleteSentToMarket. -/
def ackOne (p : Operation) (ost : OrderState) : Operation × OrderState :=
  let p' := { p with operationState := OperationState.Acked }
  if p.operationType = OperationType.DeleteOrder then (p', OrderState.Finalised)
  else if ost = OrderState.DeleteSentToMarket then (p', ost)
  else (p', OrderState.OnMarket)

/-- The inner loop of `AckOrderOperations` (src/main.cpp:714-735) over one
order's history, threading the owning order's state and the remaining ack
budget; the budget check happens before every element, as in the C++. -/
def ackOpsList : List Operation → OrderState → Nat → (List Operation × OrderState × Nat)
  | [], ost, budget => ([], ost, budget)
  | p :: rest, ost, budget =>
    if budget = 0 then (p :: rest, ost, 0)
    else if p.operationState = OperationState.SentToMarket then
      let a := ackOne p ost
      let r := ackOpsList rest a.2 (budget - 1)
      (a.1 :: r.1, r.2.1, r.2.2)
    else
      let r := ackOpsList rest ost budget
      (p :: r.1, r.2.1, r.2.2)

/-- The outer loop of `AckOrderOperations` (src/main.cpp:710-736): walk the
orders in store order, skipping Finalised ones, acknowledging SentToMarket
operations until the budget runs out. -/
def ackOrdersList : List Order → Nat → (List Order × Nat)
  | [], b => ([], b)
  | o :: rest, b =>
    if o.orderState = OrderState.Finalised then
      let r := ackOrdersList rest b
      (o :: r.1, r.2)
    else
      let x := ackOpsList o.operations o.orderState b
      let o' := { o with operations := x.1, orderState := x.2.1 }
      let r := ackOrdersList rest x.2.2
      (o' :: r.1, r.2)

/-- `AckOrderOperations` (src/main.cpp:704-737) with the oracle's draw of
the number of operations to acknowledge passed in. -/
def AckOrderOperations (st : EngineState) (numItemsToAck : Nat) : EngineState :=
  { st with orders := (ackOrdersList st.orders numItemsToAck).1 }

/-- One drain pass of `ProcessThrottleQueue` (src/main.cpp:752-779) over
the reversed queue (youngest first): while the window is positive, dispatch
every operation whose delete-ness matches `del`, removing it from the queue
and decrementing the window; keep the rest. -/
def drainPass (del : Bool) : EngineState → Nat → List Nat → Except Err (EngineState × Nat × List Nat)
  | st, w, [] => Except.ok (st, w, [])
  | st, w, tid :: rest =>
    if w = 0 then Except.ok (st, 0, tid :: rest)
    else
      match findOp st tid with
      | none => Except.error Err.danglingOp
      | some p =>
        if isDeleteType p.operationType = del then
          match SendToMarket st tid with
          | Except.error e => Except.error e
          | Except.ok st' => drainPass del st' (w - 1) rest
        else
          match drainPass del st w rest with
          | Except.error e => Except.error e
          | Except.ok r => Except.ok (r.1, r.2.1, tid :: r.2.2)

/-- `ProcessThrottleQueue` (src/main.cpp:739-780) with the oracle's window
draw passed in: nothing happens on an empty queue; otherwise pass 1 drains
deletes from the tail (youngest first), pass 2 drains the other operation
types with the remaining window; dispatched entries leave the queue. -/
def ProcessThrottleQueue (st : EngineState) (window : Nat) : Except Err EngineState :=
  if st.throttle.isEmpty then Except.ok st
  else
    match drainPass true st window st.throttle.reverse with
    | Except.error e => Except.error e
    | Except.ok r1 =>
      match drainPass false r1.1 r1.2.1 r1.2.2 with
      | Except.error e => Except.error e
      | Except.ok r2 => Except.ok { r2.1 with throttle := r2.2.2.reverse }

/-- `GetRandomLiveOrder` (src/main.cpp:461-481) with the oracle's sequence
of index draws passed in: return the first drawn order that is OnMarket or
PriorToMarket and not the quote entity; out-of-range draws are skipped
(the C++ draws indices in [0, size] and skips the end iterator). -/
def GetRandomLiveOrder (st : EngineState) : List Nat → Option Order
  | [] => none
  | d :: rest =>
    match st.orders.get? d with
    | none => GetRandomLiveOrder st rest
    | some o =>
      if (o.orderState = OrderState.OnMarket ∨ o.orderState = OrderState.PriorToMarket) ∧
         ¬ o.isQuote then some o
      else GetRandomLiveOrder st rest

/-- The oracle draws consumed by one action: order price/qty/side
(`RandomPrice`, `RandomQty`, `RandomSide`), the Bernoulli throttle draw
(plus a second one for the delete issued by a rejected amend), the index
draws of `GetRandomLiveOrder` and the quote's four side values. -/
structure ActionInputs where
  price : Int
  qty : Int
  side : Side
  throttleOpen : Bool
  throttleOpen2 : Bool
  picks : List Nat
  bidPrice : Int
  bidQty : Int
  askPrice : Int
  askQty : Int
deriving DecidableEq, Repr

/-- `InsertOrder` (src/main.cpp:427-459): allocate the order and its
InsertOrder operation, discard both if the cross guard rejects, otherwise
queue or dispatch depending on the throttle. -/
def InsertOrderAct (st : EngineState) (inp : ActionInputs) : Except Err EngineState :=
  let oid := st.nextId
  let i := st.nextId + 1
  let newOp : Operation :=
    { opId := i, orderId := oid, previousOperation := none,
      operationType := OperationType.InsertOrder, operationState := OperationState.Initial,
      price := inp.price, qty := inp.qty, bidPrice := 0, bidQty := 0, askPrice := 0, askQty := 0 }
  let newOrder : Order :=
    { orderId := oid, price := inp.price, qty := inp.qty, side := inp.side,
      orderState := OrderState.PriorToMarket, operations := [newOp], isQuote := false }
  let st1 := { st with orders := st.orders ++ [newOrder], nextId := st.nextId + 2 }
  if ¬ CheckPendingInsertOrAmend st1 newOrder then
    Except.ok { st1 with orders := st1.orders.dropLast }
  else if ¬ CheckThrottle st1 inp.throttleOpen then
    Except.ok (PushToThrottle st1 i)
  else
    SendToMarket st1 i

/-- `DeleteOrder` (src/main.cpp:483-522): record the delete operation with
`previousOperation` pointing at the last history entry; a PriorToMarket
order is purged from the throttle and disposed immediately; otherwise the
queued residue is conflated away, the order is marked DeleteSentToMarket
and the delete is queued or dispatched. -/
def DeleteOrderAct (st : EngineState) (oid : Nat) (draw : Bool) : Except Err EngineState :=
  match findOrder st oid with
  | none => Except.error Err.noOrder
  | some order =>
    match order.operations.getLast? with
    | none => Except.error Err.emptyHistory
    | some prevOp =>
      let i := st.nextId
      let dOp : Operation :=
        { opId := i, orderId := oid, previousOperation := some prevOp.opId,
          operationType := OperationType.DeleteOrder, operationState := OperationState.Initial,
          price := order.price, qty := order.qty,
          bidPrice := 0, bidQty := 0, askPrice := 0, askQty := 0 }
      let st1 := { updateOrder st oid (fun o => { o with operations := o.operations ++ [dOp] })
                   with nextId := st.nextId + 1 }
      if order.orderState = OrderState.PriorToMarket then
        let st2 := RemoveFromThrottle st1 oid
        let st3 := updateOrder st2 oid (fun o => { o with orderState := OrderState.Finalised })
        Except.ok { st3 with orders := st3.orders.filter (fun o => o.orderId ≠ oid) }
      else
        let st2 := RemoveFromThrottle st1 oid
        let st3 := RemoveDiscardedOperations st2 i
        let st4 := updateOrder st3 oid (fun o => { o with orderState := OrderState.DeleteSentToMarket })
        if ¬ CheckThrottle st4 draw then Except.ok (PushToThrottle st4 i)
        else SendToMarket st4 i

/-- `AmendOrder` (src/main.cpp:524-559): pick a live order, update its
price/qty immediately, record the amend with `previousOperation` pointing
at the previous last history entry; a rejected amend is popped and the
order is scheduled for deletion; otherwise the amend is queued or (after
the assert that the previous operation is not Queued) dispatched. -/
def AmendOrderAct (st : EngineState) (inp : ActionInputs) : Except Err EngineState :=
  match GetRandomLiveOrder st inp.picks with
  | none => Except.ok st
  | some order =>
    let oid := order.orderId
    match order.operations.getLast? with
    | none => Except.error Err.emptyHistory
    | some prevOp =>
      let stA := updateOrder st oid (fun o => { o with price := inp.price, qty := inp.qty })
      let i := stA.nextId
      let aOp : Operation :=
        { opId := i, orderId := oid, previousOperation := some prevOp.opId,
          operationType := OperationType.AmendOrder, operationState := OperationState.Initial,
          price := inp.price, qty := inp.qty,
          bidPrice := 0, bidQty := 0, askPrice := 0, askQty := 0 }
      let st1 := { updateOrder stA oid (fun o => { o with operations := o.operations ++ [aOp] })
                   with nextId := stA.nextId + 1 }
      match findOrder st1 oid with
      | none => Except.error Err.noOrder
      | some order1 =>
        if ¬ CheckPendingInsertOrAmend st1 order1 then
          let st2 := updateOrder st1 oid (fun o => { o with operations := o.operations.dropLast })
          DeleteOrderAct st2 oid inp.throttleOpen2
        else if ¬ CheckThrottle st1 inp.throttleOpen then
          Except.ok (PushToThrottle st1 i)
        else
          if prevOp.operationState = OperationState.Queued then Except.error Err.assertFailed
          else SendToMarket st1 i

/-- `Quote` (src/main.cpp:619-656): append an InsertQuote operation to the
quote entity's history with `previousOperation` pointing at the previous
last entry; pop it again if the cross guard rejects; otherwise queue or
dispatch. -/
def QuoteAct (st : EngineState) (inp : ActionInputs) : Except Err EngineState :=
  match findOrder st st.quotesId with
  | none => Except.error Err.noOrder
  | some q =>
    let prev : Option Nat := (q.operations.getLast?).map (fun p => p.opId)
    let i := st.nextId
    let qOp : Operation :=
      { opId := i, orderId := st.quotesId, previousOperation := prev,
        operationType := OperationType.InsertQuote, operationState := OperationState.Initial,
        price := 0, qty := 0,
        bidPrice := inp.bidPrice, bidQty := inp.bidQty,
        askPrice := inp.askPrice, askQty := inp.askQty }
    let st1 := { updateOrder st st.quotesId (fun o => { o with operations := o.operations ++ [qOp] })
                 with nextId := st.nextId + 1 }
    if ¬ CheckPendingQuote st1 qOp then
      Except.ok (updateOrder st1 st.quotesId (fun o => { o with operations := o.operations.dropLast }))
    else if ¬ CheckThrottle st1 inp.throttleOpen then
      Except.ok (PushToThrottle st1 i)
    else SendToMarket st1 i

/-- `DeleteQuote` (src/main.cpp:561-565): the body is an empty TODO stub;
nothing in the state is touched. -/
def DeleteQuoteAct (st : EngineState) : Except Err EngineState :=
  Except.ok st

/-- `enum class Action` (src/main.cpp:17-31). -/
inductive Action
  | INSERT_ORDER
  | QUOTE_ONCE
  | QUOTE_TWICE
  | QUOTE_THREE_TIMES
  | QUOTE_FOUR_TIMES
  | QUOTE_FIVE_TIMES
  | QUOTE_SIX_TIMES
  | AMEND_ONCE
  | AMEND_TWICE
  | AMEND_THREE_TIMES
  | DELETE_ORDER
  | DELETE_QUOTE
deriving DecidableEq, Repr

/-- `PerformAction` (src/main.cpp:658-689). -/
def PerformAction (st : EngineState) (a : Action) (inp : ActionInputs) : Except Err EngineState :=
  match a with
  | Action.INSERT_ORDER => InsertOrderAct st inp
  | Action.DELETE_ORDER =>
    match GetRandomLiveOrder st inp.picks with
    | some o => DeleteOrderAct st o.orderId inp.throttleOpen
    | none => Except.ok st
  | Action.AMEND_ONCE => AmendOrderAct st inp
  | Action.AMEND_TWICE => AmendOrderAct st inp
  | Action.AMEND_THREE_TIMES => AmendOrderAct st inp
  | Action.QUOTE_ONCE => QuoteAct st inp
  | Action.QUOTE_TWICE => QuoteAct st inp
  | Action.QUOTE_THREE_TIMES => QuoteAct st inp
  | Action.QUOTE_FOUR_TIMES => QuoteAct st inp
  | Action.QUOTE_FIVE_TIMES => QuoteAct st inp
  | Action.QUOTE_SIX_TIMES => QuoteAct st inp
  | Action.DELETE_QUOTE => DeleteQuoteAct st

/-- `InitQuotes` (src/main.cpp:607-617): the single process-wide quote
entity, created at startup with price 0, qty -1 and a random side. -/
def InitQuotes (sideDraw : Side) : EngineState :=
  { orders := [{ orderId := 0, price := 0, qty := -1, side := sideDraw,
                 orderState := OrderState.PriorToMarket, operations := [], isQuote := true }],
    throttle := [], marketOperations := [], quotesId := 0, nextId := 1 }

/-- The oracle draws consumed by one driver tick: the generated actions
with their inputs, the drain window and the ack budget. -/
structure TickInput where
  acts : List (Action × ActionInputs)
  window : Nat
  acks : Nat

/-- The order garbage collection of the driver loop (src/main.cpp:792-796). -/
def GCOrders (st : EngineState) : EngineState :=
  if 1000 < st.orders.length then
    { st with orders := st.orders.filter (fun o => o.orderState ≠ OrderState.Finalised) }
  else st

/-- The quote-history garbage collection of the driver loop
(src/main.cpp:798-806). -/
def GCQuotes (st : EngineState) : EngineState :=
  match findOrder st st.quotesId with
  | none => st
  | some q =>
    if 200 < q.operations.length then
      match q.operations.get? 150 with
      | some p =>
        if p.operationState = OperationState.Acked then
          updateOrder st st.quotesId (fun o => { o with operations := o.operations.drop 150 })
        else st
      | none => st
    else st

/-- `GenerateOrderOperations` (src/main.cpp:691-702) with the oracle's
action/input draws passed in. -/
def runActs : EngineState → List (Action × ActionInputs) → Except Err EngineState
  | st, [] => Except.ok st
  | st, a :: rest =>
    match PerformAction st a.1 a.2 with
    | Except.error e => Except.error e
    | Except.ok st' => runActs st' rest

/-- One iteration of the driver loop (src/main.cpp:785-807): generate,
drain the throttle, apply acks, garbage-collect. -/
def Tick (st : EngineState) (t : TickInput) : Except Err EngineState :=
  match runActs st t.acts with
  | Except.error e => Except.error e
  | Except.ok st1 =>
    match ProcessThrottleQueue st1 t.window with
    | Except.error e => Except.error e
    | Except.ok st2 => Except.ok (GCQuotes (GCOrders (AckOrderOperations st2 t.acks)))

/-- The driver loop (src/main.cpp:782-808) run for finitely many ticks. -/
def runTicks : EngineState → List TickInput → Except Err EngineState
  | st, [] => Except.ok st
  | st, t :: rest =>
    match Tick st t with
    | Except.error e => Except.error e
    | Except.ok st' => runTicks st' rest

/-- The ranges of the oracle draws feeding one action (src/main.cpp:404-425
and 633-636): prices in [1, UpperPrice], quantities in [1, 100], quote bid
in [1, UpperPrice - 1] and quote ask in [bid + 1, UpperPrice]. -/
def ValidInputs (inp : ActionInputs) : Prop :=
  1 ≤ inp.price ∧ inp.price ≤ UpperPrice ∧
  1 ≤ inp.qty ∧ inp.qty ≤ 100 ∧
  1 ≤ inp.bidPrice ∧ inp.bidPrice ≤ UpperPrice - 1 ∧
  inp.bidPrice < inp.askPrice ∧ inp.askPrice ≤ UpperPrice ∧
  1 ≤ inp.bidQty ∧ inp.bidQty ≤ 100 ∧
  1 ≤ inp.askQty ∧ inp.askQty ≤ 100

/-! ### Spec-side definitions, written from the spec's words, for the
refinement claims C3 and C9. -/

/-- An operation counts towards the quote's ask side iff its ask is active
(qty not the -1 sentinel). -/
def activeAsk (p : Operation) : Bool := p.askQty ≠ -1

/-- An operation counts towards the quote's bid side iff its bid is active. -/
def activeBid (p : Operation) : Bool := p.bidQty ≠ -1

/-- Claim C3's reading of the acked-ask accumulator: the MINIMUM ask price
over Acked quote operations with an active ask. -/
def minAckedAskClaim (qops : List Operation) : Int :=
  (qops.filter (fun p => activeAsk p && (p.operationState = OperationState.Acked : Bool))).foldl
    (fun m p => min m p.askPrice) intMax

/-- The spec's `lastAckedAsk`: the ask price of the LAST Acked quote
operation with an active ask (intMax when there is none). -/
def lastAckedAskSpec (qops : List Operation) : Int :=
  match (qops.filter (fun p => activeAsk p && (p.operationState = OperationState.Acked : Bool))).getLast? with
  | some p => p.askPrice
  | none => intMax

/-- The spec's `lowestUnackedAsk`: the minimum ask price over non-Acked
quote operations with an active ask. -/
def minUnackedAsk (qops : List Operation) : Int :=
  (qops.filter (fun p => activeAsk p && (p.operationState ≠ OperationState.Acked : Bool))).foldl
    (fun m p => min m p.askPrice) intMax

/-- The spec's `lastAckedBid` for the sell side, symmetric with
`lastAckedAskSpec`. -/
def lastAckedBidSpec (qops : List Operation) : Int :=
  match (qops.filter (fun p => activeBid p && (p.operationState = OperationState.Acked : Bool))).getLast? with
  | some p => p.bidPrice
  | none => intMin

/-- The spec's `highestUnackedBid` for the sell side, symmetric with
`minUnackedAsk`. -/
def maxUnackedBid (qops : List Operation) : Int :=
  (qops.filter (fun p => activeBid p && (p.operationState ≠ OperationState.Acked : Bool))).foldl
    (fun m p => max m p.bidPrice) intMin

/-- An operation participates in the live-price evaluation iff it is an
InsertOrder or AmendOrder (claim C9). -/
def livePriceRelevant (p : Operation) : Bool :=
  p.operationType = OperationType.AmendOrder || p.operationType = OperationType.InsertOrder

/-- Claim C9's in-flight accumulator, generalised over the initial value:
fold, via the comparator, the price of every non-Acked
InsertOrder/AmendOrder. -/
def inflightFoldFrom (cmp : Int → Int → Int) (a : Int) (ops : List Operation) : Int :=
  (ops.filter
      (fun p => livePriceRelevant p && (p.operationState ≠ OperationState.Acked : Bool))).foldl
    (fun acc p => cmp p.price acc) a

/-- Claim C9's last-acked accumulator, generalised over the initial value:
overwritten by each Acked InsertOrder/AmendOrder in history order. -/
def lastAckedFoldFrom (b : Int) (ops : List Operation) : Int :=
  (ops.filter
      (fun p => livePriceRelevant p && (p.operationState = OperationState.Acked : Bool))).foldl
    (fun _ p => p.price) b

/-- Claim C9's in-flight accumulator, initialised to the order's price
field. -/
def inflightFold (cmp : Int → Int → Int) (order : Order) : Int :=
  inflightFoldFrom cmp order.price order.operations

/-- Claim C9's last-acked accumulator, initialised to the order's price
field. -/
def lastAckedFold (order : Order) : Int :=
  lastAckedFoldFrom order.price order.operations

/-- A comparator in the sense of the claims: a binary selection over Int
(both `min` and `max`, the only instantiations in the program, qualify). -/
def Selective (cmp : Int → Int → Int) : Prop :=
  ∀ a b : Int, cmp a b = a ∨ cmp a b = b

/-- `lastAckedAskSpec` generalised over the initial accumulator value. -/
def lastAckedAskFrom (a : Int) (qops : List Operation) : Int :=
  match (qops.filter (fun p => activeAsk p && (p.operationState = OperationState.Acked : Bool))).getLast? with
  | some p => p.askPrice
  | none => a

/-- `minUnackedAsk` generalised over the initial accumulator value. -/
def minUnackedAskFrom (u : Int) (qops : List Operation) : Int :=
  (qops.filter (fun p => activeAsk p && (p.operationState ≠ OperationState.Acked : Bool))).foldl
    (fun m p => min m p.askPrice) u

/-- `lastAckedBidSpec` generalised over the initial accumulator value. -/
def lastAckedBidFrom (a : Int) (qops : List Operation) : Int :=
  match (qops.filter (fun p => activeBid p && (p.operationState = OperationState.Acked : Bool))).getLast? with
  | some p => p.bidPrice
  | none => a

/-- `maxUnackedBid` generalised over the initial accumulator value. -/
def maxUnackedBidFrom (u : Int) (qops : List Operation) : Int :=
  (qops.filter (fun p => activeBid p && (p.operationState ≠ OperationState.Acked : Bool))).foldl
    (fun m p => max m p.bidPrice) u

/-! ### The throttled-amend step used by claim C5: the amend-creation part
of `AmendOrder` (src/main.cpp:530-539) followed by `PushToThrottle`, i.e.
exactly what `AmendOrder` does when the cross guard passes and the
throttle window is closed. -/

/-- The amend operation `AmendOrder` allocates (src/main.cpp:532-539):
fresh id, `previousOperation` pointing at the previous last history entry,
Initial state, carrying the new price/qty. -/
def mkAmend (st : EngineState) (oid : Nat) (prevOp : Operation) (pr q : Int) : Operation :=
  { opId := st.nextId, orderId := oid, previousOperation := some prevOp.opId,
    operationType := OperationType.AmendOrder, operationState := OperationState.Initial,
    price := pr, qty := q, bidPrice := 0, bidQty := 0, askPrice := 0, askQty := 0 }

/-- Create an amend operation on order `oid` exactly as `AmendOrder` does
(price/qty updated immediately, `previousOperation` pointing at the last
history entry) and push it to the throttle. -/
def QueueAmend (st : EngineState) (oid : Nat) (pr q : Int) : EngineState :=
  match findOrder st oid with
  | none => st
  | some order =>
    match order.operations.getLast? with
    | none => st
    | some prevOp =>
      PushToThrottle
        { updateOrder (updateOrder st oid (fun o => { o with price := pr, qty := q })) oid
            (fun o => { o with operations := o.operations ++ [mkAmend st oid prevOp pr q] })
          with nextId := st.nextId + 1 }
        st.nextId

/-- `n` successive throttled amends of order `oid`, with the `k`-th amend
drawing price/qty `ps k` (the last applied amend is `ps (n-1)`). -/
def QueueAmendSeq (oid : Nat) (ps : Nat → Int × Int) : Nat → EngineState → EngineState
  | 0, st => st
  | n + 1, st => QueueAmend (QueueAmendSeq oid ps n st) oid (ps n).1 (ps n).2

/-- The queued amend operation produced by the `(k+1)`-st throttled amend
of the C5 scenario: fresh id, `previousOperation` pointing at the last
pre-existing history entry, Queued, carrying the `k`-th price/qty draw. -/
def c5AmendOp (st0 : EngineState) (oid prevId : Nat) (ps : Nat → Int × Int) (k : Nat) : Operation :=
  { opId := st0.nextId + k, orderId := oid, previousOperation := some prevId,
    operationType := OperationType.AmendOrder, operationState := OperationState.Queued,
    price := (ps k).1, qty := (ps k).2, bidPrice := 0, bidQty := 0, askPrice := 0, askQty := 0 }

/-- The full engine state after `k+1` successive throttled amends of order
`oid` starting from `st0` (whose original history is `baseOps`): the order
carries its original history plus the single newest amend (every
superseded amend conflated away), the throttle holds the original entries
plus exactly that amend, and `k+1` ids have been consumed. -/
def C5State (st0 : EngineState) (oid prevId : Nat) (baseOps : List Operation)
    (ps : Nat → Int × Int) (k : Nat) : EngineState :=
  { st0 with
    orders := st0.orders.map (fun o =>
      if o.orderId = oid then
        { o with price := (ps k).1, qty := (ps k).2,
                 operations := baseOps ++ [c5AmendOp st0 oid prevId ps k] }
      else o),
    throttle := st0.throttle ++ [st0.nextId + k],
    nextId := st0.nextId + k + 1 }

/-- Structural well-formedness of the entity store, matching what the C++
object graph guarantees by construction: order ids and operation ids are
unique, operations carry their owner's id, and all ids are below the
allocator. -/
structure BaseWF (st : EngineState) : Prop where
  ordersNodup : (st.orders.map (fun o => o.orderId)).Nodup
  opsNodup : ((allOps st).map (fun p => p.opId)).Nodup
  owner : ∀ o ∈ st.orders, ∀ p ∈ o.operations, p.orderId = o.orderId
  opsFresh : ∀ p ∈ allOps st, p.opId < st.nextId
  ordersFresh : ∀ o ∈ st.orders, o.orderId < st.nextId
  throttleFresh : ∀ tid ∈ st.throttle, tid < st.nextId

/-! ### Concrete states used by counterexamples and witnesses. -/

/-- Build an order operation (order operations leave the quote fields 0). -/
def mkOrderOp (i oid : Nat) (prev : Option Nat) (t : OperationType) (s : OperationState) (pr q : Int) : Operation :=
  { opId := i, orderId := oid, previousOperation := prev, operationType := t,
    operationState := s, price := pr, qty := q,
    bidPrice := 0, bidQty := 0, askPrice := 0, askQty := 0 }

/-- Build a quote operation (quote operations leave price/qty 0). -/
def mkQuoteOp (i oid : Nat) (prev : Option Nat) (s : OperationState) (bp bq ap aq : Int) : Operation :=
  { opId := i, orderId := oid, previousOperation := prev,
    operationType := OperationType.InsertQuote, operationState := s,
    price := 0, qty := 0, bidPrice := bp, bidQty := bq, askPrice := ap, askQty := aq }

/-- Build a non-quote order. -/
def mkOrder (oid : Nat) (pr q : Int) (sd : Side) (ost : OrderState) (ops : List Operation) : Order :=
  { orderId := oid, price := pr, qty := q, side := sd, orderState := ost,
    operations := ops, isQuote := false }

/-- A resting buy order, acked at price 5 (scenario of claim C2). -/
def c2buyOrder : Order :=
  mkOrder 1 5 10 Side.Buy OrderState.OnMarket
    [mkOrderOp 1 1 none OperationType.InsertOrder OperationState.Acked 5 10]

/-- The empty quote entity. -/
def emptyQuoteOrder (sideDraw : Side) : Order :=
  { orderId := 0, price := 0, qty := -1, side := sideDraw,
    orderState := OrderState.PriorToMarket, operations := [], isQuote := true }

/-- State for claim C2: the quote entity plus exactly one live non-quote
order, an acked buy at 5. -/
def c2state : EngineState :=
  { orders := [emptyQuoteOrder Side.Buy, c2buyOrder],
    throttle := [], marketOperations := [1], quotesId := 0, nextId := 2 }

/-- The proposed quote of claim C2: bid 10@5, ask 10@6. -/
def c2quoteOp : Operation :=
  { opId := 2, orderId := 0, previousOperation := none,
    operationType := OperationType.InsertQuote, operationState := OperationState.Initial,
    price := 0, qty := 0, bidPrice := 5, bidQty := 10, askPrice := 6, askQty := 10 }

/-- State for claim C3: the quote history holds two Acked InsertQuote
operations with active asks at 3 and then 7. -/
def c3state : EngineState :=
  { orders := [{ emptyQuoteOrder Side.Buy with operations :=
        [mkQuoteOp 1 0 none OperationState.Acked 1 5 3 5,
         mkQuoteOp 2 0 (some 1) OperationState.Acked 1 5 7 5] }],
    throttle := [], marketOperations := [2], quotesId := 0, nextId := 3 }

/-- The pending buy order of claim C3, at price 5 (between the two acked
quote asks 3 and 7). -/
def c3pending : Order :=
  mkOrder 3 5 10 Side.Buy OrderState.PriorToMarket
    [mkOrderOp 4 3 none OperationType.InsertOrder OperationState.Initial 5 10]

/-- State for claim C4: the quote entity as set up by `InitQuotes`
(orderState PriorToMarket), holding one not-yet-dispatched InsertQuote. -/
def c4state : EngineState :=
  { orders := [{ emptyQuoteOrder Side.Buy with operations :=
        [mkQuoteOp 1 0 none OperationState.Initial 4 10 6 10] }],
    throttle := [], marketOperations := [], quotesId := 0, nextId := 2 }

/-- The quote order's state after dispatching the InsertQuote of
`c4state`. -/
def c4afterState : Option OrderState :=
  match SendToMarket c4state 1 with
  | Except.ok st => (findOrder st 0).map (fun o => o.orderState)
  | Except.error _ => none

/-- The full state after dispatching the InsertQuote of `c4state`. -/
def c4resultState : EngineState :=
  match SendToMarket c4state 1 with
  | Except.ok st => st
  | Except.error _ => c4state

/-- State for claim C6's literal example: throttle queue
[insertA, deleteB, amendC]; order B's acked insert rests in the book and
its delete is queued; orders A's insert and C's amend are queued. -/
def c6state : EngineState :=
  { orders :=
      [emptyQuoteOrder Side.Buy,
       mkOrder 1 2 5 Side.Buy OrderState.PriorToMarket
         [mkOrderOp 2 1 none OperationType.InsertOrder OperationState.Queued 2 5],
       mkOrder 3 8 5 Side.Sell OrderState.DeleteSentToMarket
         [mkOrderOp 4 3 none OperationType.InsertOrder OperationState.Acked 8 5,
          mkOrderOp 5 3 (some 4) OperationType.DeleteOrder OperationState.Queued 8 5],
       mkOrder 6 3 5 Side.Buy OrderState.OnMarket
         [mkOrderOp 7 6 none OperationType.InsertOrder OperationState.Acked 3 5,
          mkOrderOp 8 6 (some 7) OperationType.AmendOrder OperationState.Queued 3 5]],
    throttle := [2, 5, 8], marketOperations := [4, 7], quotesId := 0, nextId := 9 }

/-- `c6state` after draining with window 1: exactly deleteB (opId 5) has
dispatched — it is SentToMarket, order B's book entry (opId 4) is gone,
and insertA (2) and amendC (8) remain queued. -/
def c6expected : EngineState :=
  { orders :=
      [emptyQuoteOrder Side.Buy,
       mkOrder 1 2 5 Side.Buy OrderState.PriorToMarket
         [mkOrderOp 2 1 none OperationType.InsertOrder OperationState.Queued 2 5],
       mkOrder 3 8 5 Side.Sell OrderState.DeleteSentToMarket
         [mkOrderOp 4 3 none OperationType.InsertOrder OperationState.Acked 8 5,
          mkOrderOp 5 3 (some 4) OperationType.DeleteOrder OperationState.SentToMarket 8 5],
       mkOrder 6 3 5 Side.Buy OrderState.OnMarket
         [mkOrderOp 7 6 none OperationType.InsertOrder OperationState.Acked 3 5,
          mkOrderOp 8 6 (some 7) OperationType.AmendOrder OperationState.Queued 3 5]],
    throttle := [2, 8], marketOperations := [7], quotesId := 0, nextId := 9 }

/-- A one-order state used by the C8 witness: a sell order whose acked
insert (opId 1) rests in the book, with its amend (opId 2) about to be
dispatched. -/
def c8state : EngineState :=
  { orders :=
      [mkOrder 0 7 5 Side.Sell OrderState.OnMarket
         [mkOrderOp 1 0 none OperationType.InsertOrder OperationState.Acked 6 5,
          mkOrderOp 2 0 (some 1) OperationType.AmendOrder OperationState.Initial 7 5]],
    throttle := [], marketOperations := [1], quotesId := 5, nextId := 3 }

/-- `c8state` with the amend's `previousOperation` rewired to an id absent
from the book, for the fatal-branch half of the C8 witness. -/
def c8badState : EngineState :=
  { c8state with orders :=
      [mkOrder 0 7 5 Side.Sell OrderState.OnMarket
         [mkOrderOp 1 0 none OperationType.InsertOrder OperationState.Acked 6 5,
          mkOrderOp 2 0 (some 9) OperationType.AmendOrder OperationState.Initial 7 5]] }

/-- `c8state` after dispatching the amend (opId 2): the amend is
SentToMarket and has replaced the insert (opId 1) in the book. -/
def c8okState : EngineState :=
  { orders :=
      [mkOrder 0 7 5 Side.Sell OrderState.OnMarket
         [mkOrderOp 1 0 none OperationType.InsertOrder OperationState.Acked 6 5,
          mkOrderOp 2 0 (some 1) OperationType.AmendOrder OperationState.SentToMarket 7 5]],
    throttle := [], marketOperations := [2], quotesId := 5, nextId := 3 }

/-- The pending sell order used in the C3 witness to instantiate the
sell-side half of the amended claim. -/
def c3pendingSell : Order :=
  mkOrder 3 5 10 Side.Sell OrderState.PriorToMarket
    [mkOrderOp 4 3 none OperationType.InsertOrder OperationState.Initial 5 10]

/-- An order whose history holds no InsertOrder/AmendOrder operation
(only a DeleteOrder), used in the C9 witness. -/
def c9order : Order :=
  mkOrder 1 4 2 Side.Buy OrderState.OnMarket
    [mkOrderOp 1 1 none OperationType.DeleteOrder OperationState.Initial 4 2]

/-- A DeleteOrder operation in SentToMarket state, used in the C7 witness. -/
def c7deleteOp : Operation :=
  mkOrderOp 1 1 (some 0) OperationType.DeleteOrder OperationState.SentToMarket 4 2

/-- An InsertOrder operation in SentToMarket state, used in the C7 witness. -/
def c7insertOp : Operation :=
  mkOrderOp 2 1 none OperationType.InsertOrder OperationState.SentToMarket 4 2

/-- The order as it stands after the C5 conflation scenario: price/qty from
the newest draw, history equal to the original history plus the single
surviving queued amend. -/
def c5FinalOrder (st0 : EngineState) (oid prevId : Nat) (ord : Order)
    (ps : Nat → Int × Int) (k : Nat) : Order :=
  { ord with price := (ps k).1, qty := (ps k).2,
             operations := ord.operations ++ [c5AmendOp st0 oid prevId ps k] }

/-- The single acked insert that forms the pre-existing history of the C5
witness order. -/
def c5lst : Operation :=
  mkOrderOp 10 1 none OperationType.InsertOrder OperationState.Acked 5 2

/-- The C5 witness order: one acked insert in its history, nothing queued. -/
def c5ord : Order := mkOrder 1 5 2 Side.Buy OrderState.OnMarket [c5lst]

/-- The C5 witness state: just the witness order, an empty throttle. -/
def c5st0 : EngineState :=
  { orders := [c5ord], throttle := [], marketOperations := [10], quotesId := 0, nextId := 11 }

/-- The price/qty draws of the C5 witness amends. -/
def c5ps (k : Nat) : Int × Int := ((6 : Int) + k, 3)

/-! ### Definitions for the reachability invariant of claim C1. -/

/-- An order the cross guards treat as live: OnMarket or PriorToMarket
(src/main.cpp:237-240, 473, 575-578). -/
def liveOrd (o : Order) : Prop :=
  o.orderState = OrderState.OnMarket ∨ o.orderState = OrderState.PriorToMarket

instance instDecLiveOrd (o : Order) : Decidable (liveOrd o) := by
  unfold liveOrd
  infer_instance

/-- An operation that has been sent to the market (acknowledged or not). -/
def isDispatchedOp (p : Operation) : Bool :=
  p.operationState = OperationState.SentToMarket ∨ p.operationState = OperationState.Acked

/-- The last operation of an order's history that has been dispatched; when
the shadow book holds an entry for the order, it is this operation. -/
def lastDispatched (o : Order) : Option Operation :=
  (o.operations.filter (fun p => isDispatchedOp p)).getLast?

/-- The effective quote ask of phase 1 of `CheckPendingInsertOrAmend`: the
minimum of the two ask accumulators (src/main.cpp:200). -/
def askScanMin (st : EngineState) : Int :=
  min (QuoteAskScan (quoteOps st)).1 (QuoteAskScan (quoteOps st)).2

/-- The effective quote bid of phase 1 of `CheckPendingInsertOrAmend`: the
maximum of the two bid accumulators (src/main.cpp:224). -/
def bidScanMax (st : EngineState) : Int :=
  max (QuoteBidScan (quoteOps st)).1 (QuoteBidScan (quoteOps st)).2

/-- The price level at which a shadow-book entry aggregates into the bid
column of `PrintOrderBook`, if any. -/
def entryBid (p : Operation) (o : Order) : Option Int :=
  if o.isQuote then (if p.bidQty > -1 then some p.bidPrice else none)
  else if o.side = Side.Buy then some p.price else none

/-- The price level at which a shadow-book entry aggregates into the ask
column of `PrintOrderBook`, if any. -/
def entryAsk (p : Operation) (o : Order) : Option Int :=
  if o.isQuote then (if p.askQty > -1 then some p.askPrice else none)
  else if o.side = Side.Sell then some p.price else none

/-- The shadow book is strictly separated: every bid level of every
resolvable entry lies strictly below every ask level of every resolvable
entry.  This is the heart of the no-cross invariant. -/
def BookSep (st : EngineState) : Prop :=
  ∀ i ∈ st.marketOperations, ∀ j ∈ st.marketOperations,
    ∀ p o p' o' b a,
      resolveBookEntry st i = some (p, o) → resolveBookEntry st j = some (p', o') →
      entryBid p o = some b → entryAsk p' o' = some a → b < a

/-- No Queued DeleteOrder operation exists anywhere in the store.  This
holds exactly when every pending delete has been dispatched, which is the
precondition under which non-delete operations are allowed to reach the
market. -/
def NoQD (st : EngineState) : Prop :=
  ∀ p ∈ allOps st, p.operationState = OperationState.Queued →
    p.operationType ≠ OperationType.DeleteOrder

/-- Positional history predicate: a Queued operation is the last of its
order's history (equivalently, nothing before the last entry is Queued). -/
def QueuedLastL (l : List Operation) : Prop :=
  ∀ p ∈ l.dropLast, p.operationState ≠ OperationState.Queued

/-- Positional history predicate: everything before an Acked operation is
Acked (acknowledgements happen in history order). -/
def AckedPrefixL (l : List Operation) : Prop :=
  ∀ l1 p l2, l = l1 ++ p :: l2 → p.operationState = OperationState.Acked →
    ∀ r ∈ l1, r.operationState = OperationState.Acked

/-- Positional history predicate: a DeleteOrder operation is the last of
its order's history (no operation is ever recorded after a delete). -/
def DeleteLastL (l : List Operation) : Prop :=
  ∀ p ∈ l.dropLast, p.operationType ≠ OperationType.DeleteOrder

/-- The throttle-facing part of the C1 invariant, stated over an explicit
queue value `V` so that it can be threaded through the two drain passes
(whose intermediate states keep a stale `throttle` field). -/
structure ThrOK (st : EngineState) (V : List Nat) : Prop where
  thrNodup : V.Nodup
  thrQueued : ∀ t ∈ V, ∃ p, findOp st t = some p ∧ p.operationState = OperationState.Queued
  queuedThr : ∀ p ∈ allOps st, p.operationState = OperationState.Queued → p.opId ∈ V

/-- The throttle-independent part of the C1 reachability invariant. -/
structure InvCore (st : EngineState) : Prop where
  ordersNodup : (st.orders.map (fun o => o.orderId)).Nodup
  opsNodup : ((allOps st).map (fun p => p.opId)).Nodup
  owner : ∀ o ∈ st.orders, ∀ p ∈ o.operations, p.orderId = o.orderId
  opsFresh : ∀ p ∈ allOps st, p.opId < st.nextId
  ordersFresh : ∀ o ∈ st.orders, o.orderId < st.nextId
  bookNodup : st.marketOperations.Nodup
  bookResolves : ∀ i ∈ st.marketOperations, ∃ p o,
    findOp st i = some p ∧ findOrder st p.orderId = some o ∧
    isDispatchedOp p = true ∧ isDeleteType p.operationType = false
  quoteWF : ∃ q, findOrder st st.quotesId = some q ∧ q.isQuote = true
  isQuoteId : ∀ o ∈ st.orders, o.isQuote = true → o.orderId = st.quotesId
  quoteOpWF : ∀ p ∈ quoteOps st, p.operationType = OperationType.InsertQuote ∧
    p.bidPrice < p.askPrice ∧ 1 ≤ p.bidQty ∧ 1 ≤ p.askQty
  orderOpWF : ∀ o ∈ st.orders, o.isQuote = false → ∀ p ∈ o.operations,
    p.operationType = OperationType.InsertOrder ∨ p.operationType = OperationType.AmendOrder ∨
    p.operationType = OperationType.DeleteOrder
  queuedLast : ∀ o ∈ st.orders, QueuedLastL o.operations
  ackedPrefix : ∀ o ∈ st.orders, AckedPrefixL o.operations
  deleteLast : ∀ o ∈ st.orders, DeleteLastL o.operations
  chain : ∀ o ∈ st.orders, ∀ q, o.operations.getLast? = some q →
    q.operationState = OperationState.Queued →
    q.previousOperation = (lastDispatched o).map (fun p => p.opId)
  entryIn : ∀ o ∈ st.orders, ∀ d, lastDispatched o = some d →
    isDeleteType d.operationType = false → d.opId ∈ st.marketOperations
  entryOut : ∀ o ∈ st.orders, ∀ i ∈ st.marketOperations, ∀ p, findOp st i = some p →
    p.orderId = o.orderId → ∃ d, lastDispatched o = some d ∧ i = d.opId
  stateHist : ∀ o ∈ st.orders,
    (o.orderState = OrderState.PriorToMarket → lastDispatched o = none) ∧
    (o.orderState = OrderState.OnMarket → ∃ d, lastDispatched o = some d ∧
      isDeleteType d.operationType = false) ∧
    (o.orderState = OrderState.Finalised →
      (∃ d, lastDispatched o = some d ∧ isDeleteType d.operationType = true) ∧
      (∀ p ∈ o.operations, p.operationState ≠ OperationState.Queued)) ∧
    (o.orderState = OrderState.DeleteSentToMarket →
      (∃ q, o.operations.getLast? = some q ∧ isDispatchedOp q = false ∧
        q.operationType = OperationType.DeleteOrder) ∨
      (∃ d, lastDispatched o = some d ∧ isDeleteType d.operationType = true))
  queuedDelZombie : ∀ o ∈ st.orders, ∀ p ∈ o.operations,
    p.operationState = OperationState.Queued → p.operationType = OperationType.DeleteOrder →
    o.orderState = OrderState.DeleteSentToMarket
  sep : ∀ b ∈ st.orders, ∀ s ∈ st.orders, b.isQuote = false → s.isQuote = false →
    b.side = Side.Buy → s.side = Side.Sell → liveOrd b → liveOrd s →
    GetLivePrice (fun a b => max a b) b < GetLivePrice (fun a b => min a b) s
  sepQA : ∀ b ∈ st.orders, b.isQuote = false → b.side = Side.Buy → liveOrd b →
    GetLivePrice (fun a b => max a b) b < askScanMin st
  sepQB : ∀ s ∈ st.orders, s.isQuote = false → s.side = Side.Sell → liveOrd s →
    bidScanMax st < GetLivePrice (fun a b => min a b) s
  bookSep : BookSep st

/-- No operation anywhere in the store is still Initial; Initial is a
transient state inside one action. -/
def NoInit (st : EngineState) : Prop :=
  ∀ p ∈ allOps st, p.operationState ≠ OperationState.Initial

/-- The full C1 reachability invariant. -/
def Inv (st : EngineState) : Prop :=
  InvCore st ∧ ThrOK st st.throttle ∧ NoInit st

/-- The mid-action variant of `InvCore`: the order `oid` has just had a
fresh Initial operation appended to its history, so the queued-last clause
is only known for the history without its last element; every other clause
of `InvCore` holds verbatim. -/
structure InvQL (st : EngineState) (oid : Nat) : Prop where
  ordersNodup : (st.orders.map (fun o => o.orderId)).Nodup
  opsNodup : ((allOps st).map (fun p => p.opId)).Nodup
  owner : ∀ o ∈ st.orders, ∀ p ∈ o.operations, p.orderId = o.orderId
  opsFresh : ∀ p ∈ allOps st, p.opId < st.nextId
  ordersFresh : ∀ o ∈ st.orders, o.orderId < st.nextId
  bookNodup : st.marketOperations.Nodup
  bookResolves : ∀ i ∈ st.marketOperations, ∃ p o,
    findOp st i = some p ∧ findOrder st p.orderId = some o ∧
    isDispatchedOp p = true ∧ isDeleteType p.operationType = false
  quoteWF : ∃ q, findOrder st st.quotesId = some q ∧ q.isQuote = true
  isQuoteId : ∀ o ∈ st.orders, o.isQuote = true → o.orderId = st.quotesId
  quoteOpWF : ∀ p ∈ quoteOps st, p.operationType = OperationType.InsertQuote ∧
    p.bidPrice < p.askPrice ∧ 1 ≤ p.bidQty ∧ 1 ≤ p.askQty
  orderOpWF : ∀ o ∈ st.orders, o.isQuote = false → ∀ p ∈ o.operations,
    p.operationType = OperationType.InsertOrder ∨ p.operationType = OperationType.AmendOrder ∨
    p.operationType = OperationType.DeleteOrder
  queuedLast : ∀ o ∈ st.orders, o.orderId ≠ oid → QueuedLastL o.operations
  queuedLastOwn : ∀ o ∈ st.orders, o.orderId = oid → QueuedLastL o.operations.dropLast
  ackedPrefix : ∀ o ∈ st.orders, AckedPrefixL o.operations
  deleteLast : ∀ o ∈ st.orders, DeleteLastL o.operations
  chain : ∀ o ∈ st.orders, ∀ q, o.operations.getLast? = some q →
    q.operationState = OperationState.Queued →
    q.previousOperation = (lastDispatched o).map (fun p => p.opId)
  entryIn : ∀ o ∈ st.orders, ∀ d, lastDispatched o = some d →
    isDeleteType d.operationType = false → d.opId ∈ st.marketOperations
  entryOut : ∀ o ∈ st.orders, ∀ i ∈ st.marketOperations, ∀ p, findOp st i = some p →
    p.orderId = o.orderId → ∃ d, lastDispatched o = some d ∧ i = d.opId
  stateHist : ∀ o ∈ st.orders,
    (o.orderState = OrderState.PriorToMarket → lastDispatched o = none) ∧
    (o.orderState = OrderState.OnMarket → ∃ d, lastDispatched o = some d ∧
      isDeleteType d.operationType = false) ∧
    (o.orderState = OrderState.Finalised →
      (∃ d, lastDispatched o = some d ∧ isDeleteType d.operationType = true) ∧
      (∀ p ∈ o.operations, p.operationState ≠ OperationState.Queued)) ∧
    (o.orderState = OrderState.DeleteSentToMarket →
      (∃ q, o.operations.getLast? = some q ∧ isDispatchedOp q = false ∧
        q.operationType = OperationType.DeleteOrder) ∨
      (∃ d, lastDispatched o = some d ∧ isDeleteType d.operationType = true))
  queuedDelZombie : ∀ o ∈ st.orders, ∀ p ∈ o.operations,
    p.operationState = OperationState.Queued → p.operationType = OperationType.DeleteOrder →
    o.orderState = OrderState.DeleteSentToMarket
  sep : ∀ b ∈ st.orders, ∀ s ∈ st.orders, b.isQuote = false → s.isQuote = false →
    b.side = Side.Buy → s.side = Side.Sell → liveOrd b → liveOrd s →
    GetLivePrice (fun a b => max a b) b < GetLivePrice (fun a b => min a b) s
  sepQA : ∀ b ∈ st.orders, b.isQuote = false → b.side = Side.Buy → liveOrd b →
    GetLivePrice (fun a b => max a b) b < askScanMin st
  sepQB : ∀ s ∈ st.orders, s.isQuote = false → s.side = Side.Sell → liveOrd s →
    bidScanMax st < GetLivePrice (fun a b => min a b) s
  bookSep : BookSep st

/-- The price-separation-free part of `InvCore`: every clause except the
three live-order separation clauses.  These clauses survive the price
rewrite an amend performs on its order even when the cross guard rejects
the amend, so they are the right interface for the delete issued by a
rejected amend. -/
structure InvBase (st : EngineState) : Prop where
  ordersNodup : (st.orders.map (fun o => o.orderId)).Nodup
  opsNodup : ((allOps st).map (fun p => p.opId)).Nodup
  owner : ∀ o ∈ st.orders, ∀ p ∈ o.operations, p.orderId = o.orderId
  opsFresh : ∀ p ∈ allOps st, p.opId < st.nextId
  ordersFresh : ∀ o ∈ st.orders, o.orderId < st.nextId
  bookNodup : st.marketOperations.Nodup
  bookResolves : ∀ i ∈ st.marketOperations, ∃ p o,
    findOp st i = some p ∧ findOrder st p.orderId = some o ∧
    isDispatchedOp p = true ∧ isDeleteType p.operationType = false
  quoteWF : ∃ q, findOrder st st.quotesId = some q ∧ q.isQuote = true
  isQuoteId : ∀ o ∈ st.orders, o.isQuote = true → o.orderId = st.quotesId
  quoteOpWF : ∀ p ∈ quoteOps st, p.operationType = OperationType.InsertQuote ∧
    p.bidPrice < p.askPrice ∧ 1 ≤ p.bidQty ∧ 1 ≤ p.askQty
  orderOpWF : ∀ o ∈ st.orders, o.isQuote = false → ∀ p ∈ o.operations,
    p.operationType = OperationType.InsertOrder ∨ p.operationType = OperationType.AmendOrder ∨
    p.operationType = OperationType.DeleteOrder
  queuedLast : ∀ o ∈ st.orders, QueuedLastL o.operations
  ackedPrefix : ∀ o ∈ st.orders, AckedPrefixL o.operations
  deleteLast : ∀ o ∈ st.orders, DeleteLastL o.operations
  chain : ∀ o ∈ st.orders, ∀ q, o.operations.getLast? = some q →
    q.operationState = OperationState.Queued →
    q.previousOperation = (lastDispatched o).map (fun p => p.opId)
  entryIn : ∀ o ∈ st.orders, ∀ d, lastDispatched o = some d →
    isDeleteType d.operationType = false → d.opId ∈ st.marketOperations
  entryOut : ∀ o ∈ st.orders, ∀ i ∈ st.marketOperations, ∀ p, findOp st i = some p →
    p.orderId = o.orderId → ∃ d, lastDispatched o = some d ∧ i = d.opId
  stateHist : ∀ o ∈ st.orders,
    (o.orderState = OrderState.PriorToMarket → lastDispatched o = none) ∧
    (o.orderState = OrderState.OnMarket → ∃ d, lastDispatched o = some d ∧
      isDeleteType d.operationType = false) ∧
    (o.orderState = OrderState.Finalised →
      (∃ d, lastDispatched o = some d ∧ isDeleteType d.operationType = true) ∧
      (∀ p ∈ o.operations, p.operationState ≠ OperationState.Queued)) ∧
    (o.orderState = OrderState.DeleteSentToMarket →
      (∃ q, o.operations.getLast? = some q ∧ isDispatchedOp q = false ∧
        q.operationType = OperationType.DeleteOrder) ∨
      (∃ d, lastDispatched o = some d ∧ isDeleteType d.operationType = true))
  queuedDelZombie : ∀ o ∈ st.orders, ∀ p ∈ o.operations,
    p.operationState = OperationState.Queued → p.operationType = OperationType.DeleteOrder →
    o.orderState = OrderState.DeleteSentToMarket
  bookSep : BookSep st

/-- `InvQL` with the three live-order separation clauses restricted to
orders other than `oid`: the mid-action invariant on the path where the
order `oid` is about to be deleted, so its own separation no longer
matters. -/
structure InvQLx (st : EngineState) (oid : Nat) : Prop where
  ordersNodup : (st.orders.map (fun o => o.orderId)).Nodup
  opsNodup : ((allOps st).map (fun p => p.opId)).Nodup
  owner : ∀ o ∈ st.orders, ∀ p ∈ o.operations, p.orderId = o.orderId
  opsFresh : ∀ p ∈ allOps st, p.opId < st.nextId
  ordersFresh : ∀ o ∈ st.orders, o.orderId < st.nextId
  bookNodup : st.marketOperations.Nodup
  bookResolves : ∀ i ∈ st.marketOperations, ∃ p o,
    findOp st i = some p ∧ findOrder st p.orderId = some o ∧
    isDispatchedOp p = true ∧ isDeleteType p.operationType = false
  quoteWF : ∃ q, findOrder st st.quotesId = some q ∧ q.isQuote = true
  isQuoteId : ∀ o ∈ st.orders, o.isQuote = true → o.orderId = st.quotesId
  quoteOpWF : ∀ p ∈ quoteOps st, p.operationType = OperationType.InsertQuote ∧
    p.bidPrice < p.askPrice ∧ 1 ≤ p.bidQty ∧ 1 ≤ p.askQty
  orderOpWF : ∀ o ∈ st.orders, o.isQuote = false → ∀ p ∈ o.operations,
    p.operationType = OperationType.InsertOrder ∨ p.operationType = OperationType.AmendOrder ∨
    p.operationType = OperationType.DeleteOrder
  queuedLast : ∀ o ∈ st.orders, o.orderId ≠ oid → QueuedLastL o.operations
  queuedLastOwn : ∀ o ∈ st.orders, o.orderId = oid → QueuedLastL o.operations.dropLast
  ackedPrefix : ∀ o ∈ st.orders, AckedPrefixL o.operations
  deleteLast : ∀ o ∈ st.orders, DeleteLastL o.operations
  chain : ∀ o ∈ st.orders, ∀ q, o.operations.getLast? = some q →
    q.operationState = OperationState.Queued →
    q.previousOperation = (lastDispatched o).map (fun p => p.opId)
  entryIn : ∀ o ∈ st.orders, ∀ d, lastDispatched o = some d →
    isDeleteType d.operationType = false → d.opId ∈ st.marketOperations
  entryOut : ∀ o ∈ st.orders, ∀ i ∈ st.marketOperations, ∀ p, findOp st i = some p →
    p.orderId = o.orderId → ∃ d, lastDispatched o = some d ∧ i = d.opId
  stateHist : ∀ o ∈ st.orders,
    (o.orderState = OrderState.PriorToMarket → lastDispatched o = none) ∧
    (o.orderState = OrderState.OnMarket → ∃ d, lastDispatched o = some d ∧
      isDeleteType d.operationType = false) ∧
    (o.orderState = OrderState.Finalised →
      (∃ d, lastDispatched o = some d ∧ isDeleteType d.operationType = true) ∧
      (∀ p ∈ o.operations, p.operationState ≠ OperationState.Queued)) ∧
    (o.orderState = OrderState.DeleteSentToMarket →
      (∃ q, o.operations.getLast? = some q ∧ isDispatchedOp q = false ∧
        q.operationType = OperationType.DeleteOrder) ∨
      (∃ d, lastDispatched o = some d ∧ isDeleteType d.operationType = true))
  queuedDelZombie : ∀ o ∈ st.orders, ∀ p ∈ o.operations,
    p.operationState = OperationState.Queued → p.operationType = OperationType.DeleteOrder →
    o.orderState = OrderState.DeleteSentToMarket
  sep : ∀ b ∈ st.orders, ∀ s ∈ st.orders, b.orderId ≠ oid → s.orderId ≠ oid →
    b.isQuote = false → s.isQuote = false →
    b.side = Side.Buy → s.side = Side.Sell → liveOrd b → liveOrd s →
    GetLivePrice (fun a b => max a b) b < GetLivePrice (fun a b => min a b) s
  sepQA : ∀ b ∈ st.orders, b.orderId ≠ oid → b.isQuote = false → b.side = Side.Buy →
    liveOrd b → GetLivePrice (fun a b => max a b) b < askScanMin st
  sepQB : ∀ s ∈ st.orders, s.orderId ≠ oid → s.isQuote = false → s.side = Side.Sell →
    liveOrd s → bidScanMax st < GetLivePrice (fun a b => min a b) s
  bookSep : BookSep st

/-- The operation-state rewrite `SendToMarket` performs on the entity
store, as a function on operations. -/
def sentTweak (i : Nat) (r : Operation) : Operation :=
  if r.opId = i then { r with operationState := OperationState.SentToMarket } else r

/-- The order-level rewrite `SendToMarket` performs: the owning order's
state becomes DeleteSentToMarket or OnMarket. -/
def sentOrdTweak (p : Operation) (o : Order) : Order :=
  if o.orderId = p.orderId then
    { o with orderState :=
        if isDeleteType p.operationType then OrderState.DeleteSentToMarket
        else OrderState.OnMarket }
  else o

/-- The history rewrite seen by every order under `setOpState`. -/
def mapOpsTweak (i : Nat) (o : Order) : Order :=
  { o with operations := o.operations.map (sentTweak i) }

instance instDecValidInputs (inp : ActionInputs) : Decidable (ValidInputs inp) := by
  unfold ValidInputs
  infer_instance

/-- The pointwise effect of one ack round on an operation: either untouched,
or a SentToMarket operation promoted to Acked. -/
def ackRel (p pp : Operation) : Prop :=
  pp = p ∨ (p.operationState = OperationState.SentToMarket ∧
    pp = { p with operationState := OperationState.Acked })

/-- The per-order effect of one ack round: identity on Finalised orders,
otherwise the history is promoted pointwise and the order state follows
`ackOne`. -/
def ackStateT (o : Order) (oo : Order) : Prop :=
  oo.orderState = o.orderState ∨
  (oo.orderState = OrderState.OnMarket ∧ o.orderState ≠ OrderState.DeleteSentToMarket ∧
    ∃ pp ∈ oo.operations, pp.operationState = OperationState.Acked) ∨
  (oo.orderState = OrderState.Finalised ∧
    ∃ pp ∈ oo.operations, pp.operationType = OperationType.DeleteOrder ∧
      pp.operationState = OperationState.Acked)

def ackOrdRel (o : Order) (oo : Order) : Prop :=
  oo.orderId = o.orderId ∧ oo.price = o.price ∧ oo.qty = o.qty ∧ oo.side = o.side ∧
  oo.isQuote = o.isQuote ∧ List.Forall₂ ackRel o.operations oo.operations ∧
  (DeleteLastL o.operations → ackStateT o oo) ∧
  (o.orderState = OrderState.Finalised → oo = o) ∧
  ((∀ p ∈ o.operations, p.operationState ≠ OperationState.Initial) →
    QueuedLastL o.operations → AckedPrefixL o.operations → AckedPrefixL oo.operations)

/-- The DeleteOrder operation `DeleteOrder` allocates (src/main.cpp:496-505),
as a function of the pre-state and the resolved order and last history
entry. -/
def dOpD (st : EngineState) (oid : Nat) (O0 : Order) (prevOp : Operation) : Operation :=
  { opId := st.nextId, orderId := oid, previousOperation := some prevOp.opId,
    operationType := OperationType.DeleteOrder, operationState := OperationState.Initial,
    price := O0.price, qty := O0.qty, bidPrice := 0, bidQty := 0, askPrice := 0, askQty := 0 }

/-- The state after `DeleteOrder` has recorded its operation
(src/main.cpp:496-507). -/
def stD (st : EngineState) (oid : Nat) (O0 : Order) (prevOp : Operation) : EngineState :=
  { updateOrder st oid
      (fun o => { o with operations := o.operations ++ [dOpD st oid O0 prevOp] })
    with nextId := st.nextId + 1 }

/-- The state right before the delete is queued or dispatched
(src/main.cpp:514-518): throttle purged, queued residue conflated, order
marked DeleteSentToMarket. -/
def st4D (st : EngineState) (oid : Nat) (O0 : Order) (prevOp : Operation) : EngineState :=
  updateOrder
    (RemoveDiscardedOperations (RemoveFromThrottle (stD st oid O0 prevOp) oid) st.nextId)
    oid (fun o => { o with orderState := OrderState.DeleteSentToMarket })

/-- The AmendOrder operation `AmendOrder` allocates (src/main.cpp:536-545). -/
def aOpD (st : EngineState) (oid : Nat) (inp : ActionInputs) (prevOp : Operation) : Operation :=
  { opId := st.nextId, orderId := oid, previousOperation := some prevOp.opId,
    operationType := OperationType.AmendOrder, operationState := OperationState.Initial,
    price := inp.price, qty := inp.qty, bidPrice := 0, bidQty := 0, askPrice := 0, askQty := 0 }

/-- The state after `AmendOrder` has rewritten the order's price/qty in
place and recorded its operation (src/main.cpp:531-547). -/
def stAm (st : EngineState) (oid : Nat) (inp : ActionInputs) (prevOp : Operation) : EngineState :=
  { updateOrder (updateOrder st oid (fun o => { o with price := inp.price, qty := inp.qty })) oid
      (fun o => { o with operations := o.operations ++ [aOpD st oid inp prevOp] })
    with nextId := st.nextId + 1 }

/-- The InsertQuote operation `Quote` allocates (src/main.cpp:626-641). -/
def qOpD (st : EngineState) (inp : ActionInputs) (q : Order) : Operation :=
  { opId := st.nextId, orderId := st.quotesId,
    previousOperation := (q.operations.getLast?).map (fun p => p.opId),
    operationType := OperationType.InsertQuote, operationState := OperationState.Initial,
    price := 0, qty := 0, bidPrice := inp.bidPrice, bidQty := inp.bidQty,
    askPrice := inp.askPrice, askQty := inp.askQty }

/-- The state after `Quote` has recorded its operation
(src/main.cpp:642-643). -/
def stQ (st : EngineState) (inp : ActionInputs) (q : Order) : EngineState :=
  { updateOrder st st.quotesId
      (fun o => { o with operations := o.operations ++ [qOpD st inp q] })
    with nextId := st.nextId + 1 }

/-- The InsertOrder operation `InsertOrder` allocates (src/main.cpp:430-441). -/
def iOpD (st : EngineState) (inp : ActionInputs) : Operation :=
  { opId := st.nextId + 1, orderId := st.nextId, previousOperation := none,
    operationType := OperationType.InsertOrder, operationState := OperationState.Initial,
    price := inp.price, qty := inp.qty, bidPrice := 0, bidQty := 0, askPrice := 0, askQty := 0 }

/-- The order `InsertOrder` allocates (src/main.cpp:427-429, 442-444). -/
def newOrderD (st : EngineState) (inp : ActionInputs) : Order :=
  { orderId := st.nextId, price := inp.price, qty := inp.qty, side := inp.side,
    orderState := OrderState.PriorToMarket, operations := [iOpD st inp], isQuote := false }

/-- The state after `InsertOrder` has allocated its order and operation
(src/main.cpp:427-444). -/
def stIns (st : EngineState) (inp : ActionInputs) : EngineState :=
  { st with orders := st.orders ++ [newOrderD st inp], nextId := st.nextId + 2 }

/-! ## Helper lemmas -/

theorem flatMap_operations_congr (l : List Order) (F : Order → Order)
    (h : ∀ o, (F o).operations = o.operations) :
    (l.map F).flatMap (fun o => o.operations) = l.flatMap (fun o => o.operations) := by
  induction l with
  | nil => rfl
  | cons o t ih => simp [h, ih]

theorem allOps_mapOps (st : EngineState) (g : Operation → Operation) :
    allOps { st with orders := st.orders.map (fun o => { o with operations := o.operations.map g }) } =
    (allOps st).map g := by
  simp [allOps]
  induction st.orders with
  | nil => rfl
  | cons o t ih => simp [ih]

theorem findOp_mapOps (st : EngineState) (g : Operation → Operation)
    (hg : ∀ p, (g p).opId = p.opId) (j : Nat) :
    findOp { st with orders := st.orders.map (fun o => { o with operations := o.operations.map g }) } j =
    (findOp st j).map g := by
  rw [findOp, allOps_mapOps, List.find?_map, findOp]
  have hpred : ((fun p : Operation => decide (p.opId = j)) ∘ g) =
      (fun p : Operation => decide (p.opId = j)) := by
    funext p
    simp [Function.comp, hg]
  rw [hpred]

theorem findOp_setOpState (st : EngineState) (i : Nat) (s : OperationState) (j : Nat) :
    findOp (setOpState st i s) j =
    (findOp st j).map (fun p => if p.opId = i then { p with operationState := s } else p) := by
  apply findOp_mapOps
  intro p
  by_cases h : p.opId = i <;> simp [h]

theorem allOps_updateOrder (st : EngineState) (oid : Nat) (f : Order → Order)
    (hf : ∀ o, (f o).operations = o.operations) :
    allOps (updateOrder st oid f) = allOps st := by
  simp only [allOps, updateOrder]
  apply flatMap_operations_congr
  intro o
  by_cases h : o.orderId = oid <;> simp [h, hf]

theorem findOp_updateOrder (st : EngineState) (oid : Nat) (f : Order → Order)
    (hf : ∀ o, (f o).operations = o.operations) (j : Nat) :
    findOp (updateOrder st oid f) j = findOp st j := by
  rw [findOp, allOps_updateOrder st oid f hf, findOp]

theorem findOrder_updateOrder (st : EngineState) (oid : Nat) (f : Order → Order)
    (hf : ∀ o, (f o).orderId = o.orderId) (k : Nat) :
    findOrder (updateOrder st oid f) k =
    (findOrder st k).map (fun o => if o.orderId = oid then f o else o) := by
  rw [findOrder, updateOrder, List.find?_map, findOrder]
  have hpred : ((fun o : Order => decide (o.orderId = k)) ∘ fun o => if o.orderId = oid then f o else o) =
      (fun o : Order => decide (o.orderId = k)) := by
    funext o
    by_cases h : o.orderId = oid <;> simp [Function.comp, h, hf]
  rw [hpred]

theorem findOrder_mapOps (st : EngineState) (g : Operation → Operation) (k : Nat) :
    findOrder { st with orders := st.orders.map (fun o => { o with operations := o.operations.map g }) } k =
    (findOrder st k).map (fun o => { o with operations := o.operations.map g }) := by
  rw [findOrder, findOrder, List.find?_map]
  congr 1

theorem findOp_updateOrderState (st : EngineState) (oid : Nat) (g : Order → OrderState) (j : Nat) :
    findOp (updateOrder st oid (fun o => { o with orderState := g o })) j = findOp st j :=
  findOp_updateOrder st oid (fun o => { o with orderState := g o }) (fun _ => rfl) j

theorem findOrder_updateOrderState (st : EngineState) (oid : Nat) (g : Order → OrderState) (k : Nat) :
    findOrder (updateOrder st oid (fun o => { o with orderState := g o })) k =
    (findOrder st k).map (fun o => if o.orderId = oid then { o with orderState := g o } else o) :=
  findOrder_updateOrder st oid (fun o => { o with orderState := g o }) (fun _ => rfl) k

theorem sendToMarket_eq (st : EngineState) (i : Nat) (p : Operation)
    (hfind : findOp st i = some p) :
    SendToMarket st i =
      match UpdateMarketBook st.marketOperations p with
      | Except.error e => Except.error e
      | Except.ok book =>
        if InCross { sendStateUpdate st i p with marketOperations := book } then
          Except.error Err.inCross
        else
          Except.ok { sendStateUpdate st i p with marketOperations := book } := by
  rw [SendToMarket, hfind]

theorem sendToMarket_ok_orders (st : EngineState) (i : Nat) (p : Operation) (st' : EngineState)
    (hfind : findOp st i = some p) (h : SendToMarket st i = Except.ok st') :
    st'.orders = (sendStateUpdate st i p).orders := by
  rw [sendToMarket_eq st i p hfind] at h
  split at h
  · exact absurd h (by simp)
  · split at h
    · exact absurd h (by simp)
    · cases h
      rfl

theorem sendToMarket_type_stable (st : EngineState) (i : Nat) (p : Operation) (st' : EngineState)
    (hfind : findOp st i = some p) (h : SendToMarket st i = Except.ok st') (j : Nat) :
    (findOp st' j).map (fun q => q.operationType) = (findOp st j).map (fun q => q.operationType) := by
  have horders := sendToMarket_ok_orders st i p st' hfind h
  have hfo : findOp st' j = findOp (sendStateUpdate st i p) j := by
    rw [findOp, findOp, allOps, allOps, horders]
  rw [hfo, sendStateUpdate, findOp_updateOrderState, findOp_setOpState]
  rcases findOp st j with _ | q
  · rfl
  · by_cases hq : q.opId = i <;> simp [hq]

/-! ## Claim theorems (C2, C4, C7, C10) -/

/-- C2 counterexample: with exactly one live non-quote order — an acked
buy at 5 — the proposed quote bid 10@5, ask 10@6 is NOT rejected:
`CheckPendingQuote` returns true, contradicting the claim that it returns
false and the quote is discarded. -/
theorem C2_counterexample : CheckPendingQuote c2state c2quoteOp = true := by decide

/-- C2 (amended): against a state holding the quote entity and exactly one
live non-quote BUY order, `CheckPendingQuote` tests only the quote's ask
side: it accepts the quote iff the quote's ask price is strictly above the
buy order's live maximum (`GetLivePrice max`).  The quote's bid price is
never compared against a buy order, so a quote with bid 5 and ask 6
against an acked buy at 5 is accepted, not rejected. -/
theorem C2_amended (q o : Order) (qop : Operation) (st : EngineState)
    (hst : st.orders = [q, o]) (hq : q.isQuote = true) (ho : o.isQuote = false)
    (hside : o.side = Side.Buy)
    (hlive : o.orderState = OrderState.OnMarket ∨ o.orderState = OrderState.PriorToMarket)
    (hask : qop.askQty > -1) :
    CheckPendingQuote st qop = true ↔
      qop.askPrice > GetLivePrice (fun a b => max a b) o := by
  rcases hlive with h | h <;>
    simp [CheckPendingQuote, hst, CheckQuoteAgainstOrders, hq, ho, hside, h, hask]

/-- C2 witness: the amended rule evaluated at the claim's concrete
scenario — quote ask 6 strictly above the acked buy's live max 5, hence
accepted. -/
theorem C2_witness :
    CheckPendingQuote c2state c2quoteOp = true ∧
    c2quoteOp.askPrice > GetLivePrice (fun a b => max a b) c2buyOrder := by
  constructor
  · exact (C2_amended (emptyQuoteOrder Side.Buy) c2buyOrder c2quoteOp c2state rfl rfl rfl rfl
      (Or.inl rfl) (by decide)).mpr (by decide)
  · decide

/-- C4 counterexample: the quote order starts PriorToMarket in `c4state`,
and dispatching its InsertQuote (opId 1) moves its orderState to OnMarket —
a core operation does change the quote's orderState from its startup
value, so the quote's orderState is not inert. -/
theorem C4_counterexample :
    (findOrder c4state 0).map (fun o => o.orderState) = some OrderState.PriorToMarket ∧
    c4afterState = some OrderState.OnMarket := by decide

/-- C4 (amended): the quote entity's orderState is NOT inert: dispatching
any InsertQuote operation through `SendToMarket` sets the owning (quote)
order's orderState to OnMarket, and acking an InsertQuote through the
promotion body of `AckOrderOperations` likewise sets it to OnMarket unless
the order is already DeleteSentToMarket. -/
theorem C4_amended (st : EngineState) (i : Nat) (p : Operation) (st' : EngineState)
    (hfind : findOp st i = some p) (htype : p.operationType = OperationType.InsertQuote)
    (hok : SendToMarket st i = Except.ok st') :
    ((findOrder st' p.orderId).map (fun o => o.orderState) =
      (findOrder st p.orderId).map (fun _ => OrderState.OnMarket)) ∧
    (∀ ost : OrderState, (ackOne p ost).2 =
      if ost = OrderState.DeleteSentToMarket then ost else OrderState.OnMarket) := by
  constructor
  · have horders := sendToMarket_ok_orders st i p st' hfind hok
    have hfo : findOrder st' p.orderId = findOrder (sendStateUpdate st i p) p.orderId := by
      rw [findOrder, findOrder, horders]
    rw [hfo, sendStateUpdate, findOrder_updateOrderState, setOpState, updateOp]
    rw [findOrder_mapOps]
    rcases h2 : findOrder st p.orderId with _ | o
    · rfl
    · have ho : o.orderId = p.orderId := by
        rw [findOrder] at h2
        simpa using List.find?_some h2
      simp [ho, htype, isDeleteType]
  · intro ost
    by_cases h : ost = OrderState.DeleteSentToMarket <;>
      simp [ackOne, htype, h]

/-- C4 witness: the amended statement evaluated at the concrete dispatch
of `c4state`'s InsertQuote. -/
theorem C4_witness :
    (findOrder c4resultState 0).map (fun o => o.orderState) = some OrderState.OnMarket := by
  have h := C4_amended c4state 1 (mkQuoteOp 1 0 none OperationState.Initial 4 10 6 10)
    c4resultState (by decide) rfl (by decide)
  exact h.1.trans (by decide)

/-- C7: for every operation promoted by the ack loop (`ackOne`, the
promotion body of `AckOrderOperations`, applied to a SentToMarket
operation — no DeleteQuote operation is ever created, the DeleteQuote
action being a stub): the operation becomes Acked; a delete finalises the
owning order; any other type puts the order OnMarket unless it is already
DeleteSentToMarket, which is never regressed.  The head of the ack fold
(`ackOpsList`) on a SentToMarket operation with non-zero budget is exactly
this promotion. -/
theorem C7_theorem (p : Operation) (ost : OrderState)
    (hsent : p.operationState = OperationState.SentToMarket)
    (hnq : p.operationType ≠ OperationType.DeleteQuote) :
    (ackOne p ost).1.operationState = OperationState.Acked ∧
    (isDeleteType p.operationType = true → (ackOne p ost).2 = OrderState.Finalised) ∧
    (isDeleteType p.operationType = false →
      (ackOne p ost).2 = if ost = OrderState.DeleteSentToMarket then ost else OrderState.OnMarket) ∧
    (∀ (rest : List Operation) (b : Nat), b ≠ 0 →
      (ackOpsList (p :: rest) ost b).1.head? = some (ackOne p ost).1) := by
  refine ⟨?_, ?_, ?_, ?_⟩
  · rw [ackOne]
    split
    · rfl
    · split <;> rfl
  · intro hdel
    rcases htype : p.operationType with _ | _ | _ | _ | _ <;>
      simp [htype, isDeleteType] at hdel ⊢ <;> simp [ackOne, htype] <;> exact absurd htype hnq
  · intro hdel
    rcases htype : p.operationType with _ | _ | _ | _ | _ <;>
      simp [htype, isDeleteType] at hdel ⊢ <;>
      by_cases h : ost = OrderState.DeleteSentToMarket <;> simp [ackOne, htype, h]
  · intro rest b hb
    rw [ackOpsList]
    simp [hb, hsent]

/-- C7 witness: the promotion evaluated at a concrete SentToMarket
DeleteOrder (finalises) and a concrete SentToMarket InsertOrder on an
OnMarket order (stays OnMarket). -/
theorem C7_witness :
    (ackOne c7deleteOp OrderState.DeleteSentToMarket).2 = OrderState.Finalised ∧
    (ackOne c7insertOp OrderState.OnMarket).2 = OrderState.OnMarket ∧
    (ackOne c7insertOp OrderState.OnMarket).1.operationState = OperationState.Acked := by
  refine ⟨(C7_theorem c7deleteOp OrderState.DeleteSentToMarket (by decide) (by decide)).2.1 (by decide), ?_, ?_⟩
  · exact ((C7_theorem c7insertOp OrderState.OnMarket (by decide) (by decide)).2.2.1 (by decide)).trans (by decide)
  · exact (C7_theorem c7insertOp OrderState.OnMarket (by decide) (by decide)).1

/-! ## Fold characterisation lemmas for C3 and C9 -/

theorem getLast?_cons_eq {α : Type} (a : α) (l : List α) :
    (a :: l).getLast? = some (l.getLast?.getD a) := by
  induction l generalizing a with
  | nil => rfl
  | cons b t ih => simp [List.getLast?_cons_cons, ih b]

theorem quoteAskScan_aux (qops : List Operation) :
    ∀ a u : Int, qops.foldl quoteAskStep (a, u) = (lastAckedAskFrom a qops, minUnackedAskFrom u qops) := by
  induction qops with
  | nil => intro a u; rfl
  | cons p rest ih =>
    intro a u
    rw [List.foldl_cons]
    by_cases hqty : p.askQty = -1
    · have hstep : quoteAskStep (a, u) p = (a, u) := by simp [quoteAskStep, hqty]
      rw [hstep, ih, lastAckedAskFrom, lastAckedAskFrom, minUnackedAskFrom, minUnackedAskFrom,
        List.filter_cons_of_neg (by simp [activeAsk, hqty]),
        List.filter_cons_of_neg (by simp [activeAsk, hqty])]
    · by_cases hack : p.operationState = OperationState.Acked
      · have hstep : quoteAskStep (a, u) p = (p.askPrice, u) := by simp [quoteAskStep, hqty, hack]
        rw [hstep, ih]
        apply Prod.ext
        · show lastAckedAskFrom p.askPrice rest = lastAckedAskFrom a (p :: rest)
          rw [lastAckedAskFrom, lastAckedAskFrom,
            List.filter_cons_of_pos (by simp [activeAsk, hqty, hack]), getLast?_cons_eq]
          rcases (rest.filter fun q => activeAsk q && decide (q.operationState = OperationState.Acked)).getLast? with _ | x <;> rfl
        · show minUnackedAskFrom u rest = minUnackedAskFrom u (p :: rest)
          rw [minUnackedAskFrom, minUnackedAskFrom,
            List.filter_cons_of_neg (by simp [activeAsk, hqty, hack])]
      · have hstep : quoteAskStep (a, u) p = (a, min u p.askPrice) := by
          simp [quoteAskStep, hqty, hack]
        rw [hstep, ih]
        apply Prod.ext
        · show lastAckedAskFrom a rest = lastAckedAskFrom a (p :: rest)
          rw [lastAckedAskFrom, lastAckedAskFrom,
            List.filter_cons_of_neg (by simp [activeAsk, hqty, hack])]
        · show minUnackedAskFrom (min u p.askPrice) rest = minUnackedAskFrom u (p :: rest)
          rw [minUnackedAskFrom, minUnackedAskFrom,
            List.filter_cons_of_pos (by simp [activeAsk, hqty, hack]), List.foldl_cons]

theorem quoteBidScan_aux (qops : List Operation) :
    ∀ a u : Int, qops.foldl quoteBidStep (a, u) = (lastAckedBidFrom a qops, maxUnackedBidFrom u qops) := by
  induction qops with
  | nil => intro a u; rfl
  | cons p rest ih =>
    intro a u
    rw [List.foldl_cons]
    by_cases hqty : p.bidQty = -1
    · have hstep : quoteBidStep (a, u) p = (a, u) := by simp [quoteBidStep, hqty]
      rw [hstep, ih, lastAckedBidFrom, lastAckedBidFrom, maxUnackedBidFrom, maxUnackedBidFrom,
        List.filter_cons_of_neg (by simp [activeBid, hqty]),
        List.filter_cons_of_neg (by simp [activeBid, hqty])]
    · by_cases hack : p.operationState = OperationState.Acked
      · have hstep : quoteBidStep (a, u) p = (p.bidPrice, u) := by simp [quoteBidStep, hqty, hack]
        rw [hstep, ih]
        apply Prod.ext
        · show lastAckedBidFrom p.bidPrice rest = lastAckedBidFrom a (p :: rest)
          rw [lastAckedBidFrom, lastAckedBidFrom,
            List.filter_cons_of_pos (by simp [activeBid, hqty, hack]), getLast?_cons_eq]
          rcases (rest.filter fun q => activeBid q && decide (q.operationState = OperationState.Acked)).getLast? with _ | x <;> rfl
        · show maxUnackedBidFrom u rest = maxUnackedBidFrom u (p :: rest)
          rw [maxUnackedBidFrom, maxUnackedBidFrom,
            List.filter_cons_of_neg (by simp [activeBid, hqty, hack])]
      · have hstep : quoteBidStep (a, u) p = (a, max u p.bidPrice) := by
          simp [quoteBidStep, hqty, hack]
        rw [hstep, ih]
        apply Prod.ext
        · show lastAckedBidFrom a rest = lastAckedBidFrom a (p :: rest)
          rw [lastAckedBidFrom, lastAckedBidFrom,
            List.filter_cons_of_neg (by simp [activeBid, hqty, hack])]
        · show maxUnackedBidFrom (max u p.bidPrice) rest = maxUnackedBidFrom u (p :: rest)
          rw [maxUnackedBidFrom, maxUnackedBidFrom,
            List.filter_cons_of_pos (by simp [activeBid, hqty, hack]), List.foldl_cons]

theorem livePrice_aux (cmp : Int → Int → Int) (ops : List Operation) :
    ∀ a b : Int, ops.foldl (livePriceStep cmp) (a, b) =
      (inflightFoldFrom cmp a ops, lastAckedFoldFrom b ops) := by
  induction ops with
  | nil => intro a b; rfl
  | cons p rest ih =>
    intro a b
    rw [List.foldl_cons]
    by_cases hrel : p.operationType = OperationType.AmendOrder ∨ p.operationType = OperationType.InsertOrder
    · by_cases hack : p.operationState = OperationState.Acked
      · have hstep : livePriceStep cmp (a, b) p = (a, p.price) := by
          simp [livePriceStep, hrel, hack]
        rw [hstep, ih]
        apply Prod.ext
        · show inflightFoldFrom cmp a rest = inflightFoldFrom cmp a (p :: rest)
          rw [inflightFoldFrom, inflightFoldFrom,
            List.filter_cons_of_neg (by simp [livePriceRelevant, hack])]
        · show lastAckedFoldFrom p.price rest = lastAckedFoldFrom b (p :: rest)
          rw [lastAckedFoldFrom, lastAckedFoldFrom,
            List.filter_cons_of_pos (by rcases hrel with h | h <;> simp [livePriceRelevant, h, hack]),
            List.foldl_cons]
      · have hstep : livePriceStep cmp (a, b) p = (cmp p.price a, b) := by
          simp [livePriceStep, hrel, hack]
        rw [hstep, ih]
        apply Prod.ext
        · show inflightFoldFrom cmp (cmp p.price a) rest = inflightFoldFrom cmp a (p :: rest)
          rw [inflightFoldFrom, inflightFoldFrom,
            List.filter_cons_of_pos (by rcases hrel with h | h <;> simp [livePriceRelevant, h, hack]),
            List.foldl_cons]
        · show lastAckedFoldFrom b rest = lastAckedFoldFrom b (p :: rest)
          rw [lastAckedFoldFrom, lastAckedFoldFrom,
            List.filter_cons_of_neg (by simp [livePriceRelevant, hack])]
    · push_neg at hrel
      have hstep : livePriceStep cmp (a, b) p = (a, b) := by
        simp [livePriceStep, hrel.1, hrel.2]
      have hlr : livePriceRelevant p = false := by
        simp [livePriceRelevant, hrel.1, hrel.2]
      rw [hstep, ih, inflightFoldFrom, inflightFoldFrom, lastAckedFoldFrom, lastAckedFoldFrom,
        List.filter_cons_of_neg (by simp [hlr]), List.filter_cons_of_neg (by simp [hlr])]

/-! ## Claim theorems (C3, C8, C9) -/

/-- C3 counterexample: with a quote history holding two Acked active asks
at 3 and then 7, a pending buy at 5 satisfies the claim's cross condition
(5 ≥ min of the MINIMUM acked ask 3 and the minimum unacked ask), yet
`CheckPendingInsertOrAmend` returns true — the code uses the LAST acked
ask (7), not the minimum over acked asks, so the claim's
characterisation is false. -/
theorem C3_counterexample :
    CheckPendingInsertOrAmend c3state c3pending = true ∧
    c3pending.price ≥ min (minAckedAskClaim (quoteOps c3state)) (minUnackedAsk (quoteOps c3state)) := by
  decide

/-- C3 (amended): phase 1 of `CheckPendingInsertOrAmend` computes the
effective ask as the minimum of (a) the ask price of the LAST Acked quote
operation with an active ask (the fold overwrites, it does not minimise)
and (b) the minimum ask price over non-Acked active-ask operations; the
check returns false iff the pending buy's price is ≥ this effective ask or
phase 2 (the walk over opposing orders) fails; symmetrically for sells
with the last acked bid and the maximum unacked bid. -/
theorem C3_amended (st : EngineState) (pendingOrder : Order) :
    (pendingOrder.side = Side.Buy →
      (CheckPendingInsertOrAmend st pendingOrder = false ↔
        pendingOrder.price ≥ min (lastAckedAskSpec (quoteOps st)) (minUnackedAsk (quoteOps st)) ∨
        CheckAgainstOrders pendingOrder st.orders = false)) ∧
    (pendingOrder.side = Side.Sell →
      (CheckPendingInsertOrAmend st pendingOrder = false ↔
        pendingOrder.price ≤ max (lastAckedBidSpec (quoteOps st)) (maxUnackedBid (quoteOps st)) ∨
        CheckAgainstOrders pendingOrder st.orders = false)) := by
  have hask : QuoteAskScan (quoteOps st) = (lastAckedAskSpec (quoteOps st), minUnackedAsk (quoteOps st)) := by
    rw [QuoteAskScan, quoteAskScan_aux]
    rfl
  have hbid : QuoteBidScan (quoteOps st) = (lastAckedBidSpec (quoteOps st), maxUnackedBid (quoteOps st)) := by
    rw [QuoteBidScan, quoteBidScan_aux]
    rfl
  constructor
  · intro hside
    rw [CheckPendingInsertOrAmend, if_pos hside, hask]
    by_cases hge : pendingOrder.price ≥ min (lastAckedAskSpec (quoteOps st)) (minUnackedAsk (quoteOps st))
    · simp [hge]
    · simp [hge]
  · intro hside
    have hnb : ¬ pendingOrder.side = Side.Buy := by rw [hside]; intro hc; cases hc
    rw [CheckPendingInsertOrAmend, if_neg hnb, hbid]
    by_cases hle : pendingOrder.price ≤ max (lastAckedBidSpec (quoteOps st)) (maxUnackedBid (quoteOps st))
    · simp [hle]
    · simp [hle]

/-- C3 witness: the amended characterisation instantiated at the concrete
buy (against the last acked ask 7) and at a concrete sell. -/
theorem C3_witness :
    (CheckPendingInsertOrAmend c3state c3pending = false ↔
      c3pending.price ≥ min (lastAckedAskSpec (quoteOps c3state)) (minUnackedAsk (quoteOps c3state)) ∨
      CheckAgainstOrders c3pending c3state.orders = false) ∧
    (CheckPendingInsertOrAmend c3state c3pendingSell = false ↔
      c3pendingSell.price ≤ max (lastAckedBidSpec (quoteOps c3state)) (maxUnackedBid (quoteOps c3state)) ∨
      CheckAgainstOrders c3pendingSell c3state.orders = false) :=
  ⟨(C3_amended c3state c3pending).1 rfl, (C3_amended c3state c3pendingSell).2 rfl⟩

/-- C8: when `SendToMarket` dispatches an operation with a non-null
`previousOperation`, the previous operation is located in the shadow book
by exact identity and removed; if absent the dispatch is fatal
(`Err.missingPrev`, the C++ throws after printing a diagnostic).  On
success the book is the old book with the previous entry erased, with the
dispatched operation appended iff it is an InsertOrder, AmendOrder or
InsertQuote — delete operations are never appended. -/
theorem C8_theorem (st : EngineState) (i : Nat) (p : Operation)
    (hfind : findOp st i = some p) :
    (∀ q, p.previousOperation = some q → q ∉ st.marketOperations →
      SendToMarket st i = Except.error Err.missingPrev) ∧
    (∀ st', SendToMarket st i = Except.ok st' →
      st'.marketOperations =
        (match p.previousOperation with
         | some q => st.marketOperations.erase q
         | none => st.marketOperations) ++
        (if isDeleteType p.operationType then [] else [i])) := by
  have hpid : p.opId = i := by
    rw [findOp] at hfind
    simpa using List.find?_some hfind
  have happ : ∀ b : List Nat, bookAppend b p = b ++ (if isDeleteType p.operationType then [] else [i]) := by
    intro b
    rcases htype : p.operationType <;> simp [bookAppend, isDeleteType, htype, hpid]
  constructor
  · intro q hq hmem
    have hbook : UpdateMarketBook st.marketOperations p = Except.error Err.missingPrev := by
      simp only [UpdateMarketBook, hq]
      rw [if_neg (by simpa using hmem)]
    rw [sendToMarket_eq st i p hfind, hbook]
  · intro st' h
    have hbook : UpdateMarketBook st.marketOperations p = Except.ok st'.marketOperations := by
      rw [sendToMarket_eq st i p hfind] at h
      split at h
      · exact absurd h (by simp)
      · rename_i book heq
        split at h
        · exact absurd h (by simp)
        · cases h
          exact heq
    rcases hprev : p.previousOperation with _ | q
    · simp only [UpdateMarketBook, hprev, happ] at hbook
      simp only [hprev]
      injection hbook with hh
      exact hh.symm
    · simp only [UpdateMarketBook, hprev, happ] at hbook
      split at hbook
      · simp only [hprev]
        injection hbook with hh
        exact hh.symm
      · exact absurd hbook (by simp)

/-- C8 witness: the fatal branch at a concrete state whose amend points at
an id absent from the book, and the success branch at the corresponding
well-formed state. -/
theorem C8_witness :
    SendToMarket c8badState 2 = Except.error Err.missingPrev ∧
    SendToMarket c8state 2 = Except.ok c8okState ∧
    c8okState.marketOperations = [2] := by
  refine ⟨?_, by decide, by decide⟩
  exact (C8_theorem c8badState 2
    (mkOrderOp 2 0 (some 9) OperationType.AmendOrder OperationState.Initial 7 5)
    (by decide)).1 9 rfl (by decide)

/-- C9: `GetLivePrice cmp order` equals `cmp` applied to the in-flight
accumulator (the fold, via cmp, of every non-Acked InsertOrder/AmendOrder
price) and the last-acked accumulator (overwritten by each Acked
InsertOrder/AmendOrder in history order), both initialised to the order's
price field; and when the history has no InsertOrder/AmendOrder operation
at all, it returns the order's price field (for selective comparators,
which min and max — the only ones the program uses — are). -/
theorem C9_theorem (cmp : Int → Int → Int) (order : Order) :
    GetLivePrice cmp order = cmp (inflightFold cmp order) (lastAckedFold order) ∧
    (Selective cmp → (∀ p ∈ order.operations, livePriceRelevant p = false) →
      GetLivePrice cmp order = order.price) := by
  constructor
  · rw [GetLivePrice, livePrice_aux, inflightFold, lastAckedFold]
  · intro hsel hnone
    rw [GetLivePrice, livePrice_aux]
    have h1 : order.operations.filter
        (fun p => livePriceRelevant p && decide (¬ p.operationState = OperationState.Acked)) = [] := by
      rw [List.filter_eq_nil_iff]
      intro p hp
      simp [hnone p hp]
    have h2 : order.operations.filter
        (fun p => livePriceRelevant p && decide (p.operationState = OperationState.Acked)) = [] := by
      rw [List.filter_eq_nil_iff]
      intro p hp
      simp [hnone p hp]
    show cmp (inflightFoldFrom cmp order.price order.operations) (lastAckedFoldFrom order.price order.operations) = order.price
    rw [inflightFoldFrom, lastAckedFoldFrom, h1, h2]
    rcases hsel order.price order.price with h | h <;> simpa using h

/-- C9 witness: the characterisation evaluated with cmp = min at an order
whose only operation is a DeleteOrder (so no InsertOrder/AmendOrder is in
the history and the live price is the order's price field). -/
theorem C9_witness :
    GetLivePrice (fun a b => min a b) c9order = c9order.price ∧
    GetLivePrice (fun a b => min a b) c9order =
      min (inflightFold (fun a b => min a b) c9order) (lastAckedFold c9order) := by
  constructor
  · exact (C9_theorem (fun a b => min a b) c9order).2
      (fun a b => min_choice a b) (by decide)
  · exact (C9_theorem (fun a b => min a b) c9order).1

/-! ## Drain-pass characterisation (C6) -/

theorem drainPass_zero (del : Bool) (st : EngineState) (l : List Nat) :
    drainPass del st 0 l = Except.ok (st, 0, l) := by
  cases l with
  | nil => rfl
  | cons tid rest => rw [drainPass, if_pos rfl]

theorem engine_eta (st : EngineState) : ({ st with throttle := st.throttle } : EngineState) = st := rfl

theorem drainPass_spec (del : Bool) (l : List Nat) :
    ∀ (st : EngineState) (w : Nat) (st' : EngineState) (w' : Nat) (l' : List Nat),
      drainPass del st w l = Except.ok (st', w', l') →
      l'.Sublist l ∧ w' + (l.length - l'.length) = w ∧
      (∀ tid ∈ l, tid ∉ l' → ∃ p, findOp st tid = some p ∧ isDeleteType p.operationType = del) ∧
      (∀ j, (findOp st' j).map (fun q => q.operationType) = (findOp st j).map (fun q => q.operationType)) := by
  induction l with
  | nil =>
    intro st w st' w' l' h
    rw [drainPass] at h
    cases h
    exact ⟨List.Sublist.refl _, by simp, by simp, fun j => rfl⟩
  | cons tid rest ih =>
    intro st w st' w' l' h
    rw [drainPass] at h
    by_cases hw : w = 0
    · rw [if_pos hw] at h
      cases h
      refine ⟨List.Sublist.refl _, by simp [hw], ?_, fun j => rfl⟩
      intro t ht ht'
      exact absurd ht ht'
    · rw [if_neg hw] at h
      split at h
      · exact absurd h (by simp)
      · rename_i p hfind
        split at h
        · -- dispatch branch
          rename_i hdel
          split at h
          · exact absurd h (by simp)
          · rename_i st1 hsend
            obtain ⟨hsub, hlen, hmem, htypes⟩ := ih st1 (w - 1) st' w' l' h
            have hstable := sendToMarket_type_stable st tid p st1 hfind hsend
            refine ⟨hsub.cons _, ?_, ?_, ?_⟩
            · have hle : l'.length ≤ rest.length := hsub.length_le
              simp only [List.length_cons]
              omega
            · intro t ht ht'
              rcases List.mem_cons.mp ht with rfl | ht2
              · exact ⟨p, hfind, hdel⟩
              · by_cases htl : t ∈ l'
                · exact absurd htl ht'
                · obtain ⟨p', hp', hdel'⟩ := hmem t ht2 htl
                  have := hstable t
                  rw [hp'] at this
                  rcases hfo : findOp st t with _ | p2
                  · rw [hfo] at this
                    exact absurd this (by simp)
                  · rw [hfo] at this
                    refine ⟨p2, rfl, ?_⟩
                    have htyeq : p'.operationType = p2.operationType := by
                      simpa using this
                    rw [← htyeq]
                    exact hdel'
            · intro j
              rw [htypes j, hstable j]
        · -- keep branch
          split at h
          · exact absurd h (by simp)
          · rename_i r hrec
            cases h
            obtain ⟨hsub, hlen, hmem, htypes⟩ := ih st w r.1 r.2.1 r.2.2 (by rw [hrec])
            refine ⟨hsub.cons₂ _, ?_, ?_, htypes⟩
            · have hle : r.2.2.length ≤ rest.length := hsub.length_le
              simp only [List.length_cons]
              omega
            · intro t ht ht'
              rcases List.mem_cons.mp ht with rfl | ht2
              · exact absurd (List.mem_cons_self _ _) ht'
              · exact hmem t ht2 (fun hc => ht' (List.mem_cons_of_mem _ hc))

/-- C6: `ProcessThrottleQueue` drains youngest-first in two passes.  With
window 0 the queue is untouched.  On the literal example — queue
[insertA, deleteB, amendC] with window 1 — exactly deleteB dispatches and
insertA, amendC remain queued.  In general each pass only dispatches
operations whose delete-ness matches the pass (pass 1 deletes, pass 2 the
rest), removes each dispatched entry from the queue (the remainder is a
sublist), and dispatches at most `w` operations, each dispatch
decrementing the window. -/
theorem C6_theorem :
    (∀ st, ProcessThrottleQueue st 0 = Except.ok st) ∧
    ProcessThrottleQueue c6state 1 = Except.ok c6expected ∧
    (∀ (del : Bool) (l : List Nat) (st : EngineState) (w : Nat) (st' : EngineState) (w' : Nat) (l' : List Nat),
      drainPass del st w l = Except.ok (st', w', l') →
      l'.Sublist l ∧ w' + (l.length - l'.length) = w ∧
      (∀ tid ∈ l, tid ∉ l' → ∃ p, findOp st tid = some p ∧ isDeleteType p.operationType = del)) := by
  refine ⟨?_, by decide, ?_⟩
  · intro st
    rw [ProcessThrottleQueue]
    by_cases h : st.throttle.isEmpty
    · rw [if_pos h]
    · rw [if_neg h]
      simp only [drainPass_zero, List.reverse_reverse]
  · intro del l st w st' w' l' h
    obtain ⟨h1, h2, h3, _⟩ := drainPass_spec del l st w st' w' l' h
    exact ⟨h1, h2, h3⟩

/-- C6 witness: the general pass characterisation applied to the concrete
pass-1 drain of the literal example, plus the window-0 identity at the
example state. -/
theorem C6_witness :
    [8, 2].Sublist c6state.throttle.reverse ∧
    ProcessThrottleQueue c6state 0 = Except.ok c6state := by
  constructor
  · exact (C6_theorem.2.2 true c6state.throttle.reverse c6state 1
      { c6expected with throttle := c6state.throttle } 0 [8, 2] (by decide)).1
  · exact C6_theorem.1 c6state

/-! ## Conflation machinery (C5) -/

theorem engineState_eq (st st' : EngineState) (ho : st.orders = st'.orders)
    (ht : st.throttle = st'.throttle) (hm : st.marketOperations = st'.marketOperations)
    (hq : st.quotesId = st'.quotesId) (hn : st.nextId = st'.nextId) : st = st' := by
  cases st
  cases st'
  cases ho
  cases ht
  cases hm
  cases hq
  cases hn
  rfl

theorem mem_allOps (st : EngineState) (p : Operation) :
    p ∈ allOps st ↔ ∃ o ∈ st.orders, p ∈ o.operations := by
  simp [allOps]

theorem findOrder_some (st : EngineState) (oid : Nat) (o : Order)
    (h : findOrder st oid = some o) : o ∈ st.orders ∧ o.orderId = oid := by
  rw [findOrder] at h
  exact ⟨List.mem_of_find?_eq_some h, by simpa using List.find?_some h⟩

theorem findOp_some_facts (st : EngineState) (i : Nat) (p : Operation)
    (h : findOp st i = some p) : p ∈ allOps st ∧ p.opId = i := by
  rw [findOp] at h
  exact ⟨List.mem_of_find?_eq_some h, by simpa using List.find?_some h⟩

theorem find?_append_ops {l : List Order} {F : Order → Order} {oid : Nat} {w : Operation}
    (hF1 : ∀ o ∈ l, o.orderId = oid → (F o).operations = o.operations ++ [w])
    (hF2 : ∀ o ∈ l, ¬ o.orderId = oid → (F o).operations = o.operations)
    (hex : ∃ o ∈ l, o.orderId = oid)
    (hfr : ∀ o ∈ l, ∀ p ∈ o.operations, p.opId ≠ w.opId) :
    ((l.map F).flatMap (fun o => o.operations)).find? (fun p => p.opId = w.opId) = some w := by
  induction l with
  | nil =>
    obtain ⟨o, ho, _⟩ := hex
    cases ho
  | cons o t ih =>
    rw [List.map_cons, List.flatMap_cons, List.find?_append]
    have hnone : o.operations.find? (fun p => p.opId = w.opId) = none := by
      rw [List.find?_eq_none]
      intro p hp
      simpa using hfr o (List.mem_cons_self o t) p hp
    by_cases ho : o.orderId = oid
    · rw [hF1 o (List.mem_cons_self o t) ho, List.find?_append, hnone]
      simp
    · rw [hF2 o (List.mem_cons_self o t) ho, hnone]
      simp only [Option.none_or]
      apply ih
      · intro o' ho' h
        exact hF1 o' (List.mem_cons_of_mem _ ho') h
      · intro o' ho' h
        exact hF2 o' (List.mem_cons_of_mem _ ho') h
      · obtain ⟨o', ho', hoid'⟩ := hex
        rcases List.mem_cons.mp ho' with rfl | h
        · exact absurd hoid' ho
        · exact ⟨o', h, hoid'⟩
      · intro o' ho' p hp
        exact hfr o' (List.mem_cons_of_mem _ ho') p hp

theorem find?_append_ops_other {l : List Order} {F : Order → Order} {oid : Nat} {w : Operation}
    {j : Nat}
    (hF1 : ∀ o ∈ l, o.orderId = oid → (F o).operations = o.operations ++ [w])
    (hF2 : ∀ o ∈ l, ¬ o.orderId = oid → (F o).operations = o.operations)
    (hj : j ≠ w.opId) :
    ((l.map F).flatMap (fun o => o.operations)).find? (fun p => p.opId = j) =
    (l.flatMap (fun o => o.operations)).find? (fun p => p.opId = j) := by
  induction l with
  | nil => rfl
  | cons o t ih =>
    rw [List.map_cons, List.flatMap_cons, List.flatMap_cons, List.find?_append, List.find?_append]
    rw [ih (fun o' ho' => hF1 o' (List.mem_cons_of_mem _ ho'))
        (fun o' ho' => hF2 o' (List.mem_cons_of_mem _ ho'))]
    congr 1
    by_cases ho : o.orderId = oid
    · rw [hF1 o (List.mem_cons_self o t) ho, List.find?_append]
      have hw : ([w].find? (fun p => p.opId = j)) = none := by
        simp [Ne.symm hj]
      rw [hw, Option.or_none]
    · rw [hF2 o (List.mem_cons_self o t) ho]

theorem queueAmend_eq (S : EngineState) (oid : Nat) (pr q : Int) (os : Order) (lst : Operation)
    (hord : findOrder S oid = some os) (hlast : os.operations.getLast? = some lst) :
    QueueAmend S oid pr q = PushToThrottle
      { updateOrder (updateOrder S oid (fun o => { o with price := pr, qty := q })) oid
          (fun o => { o with operations := o.operations ++ [mkAmend S oid lst pr q] })
        with nextId := S.nextId + 1 } S.nextId := by
  rw [QueueAmend]
  simp only [hord, hlast]

theorem pushToThrottle_eq (st : EngineState) (i : Nat) (p : Operation)
    (hfind : findOp st i = some p) :
    PushToThrottle st i = RemoveDiscardedOperations
      (setOpState
        { RemoveFromThrottle st p.orderId with
            throttle := (RemoveFromThrottle st p.orderId).throttle ++ [i] }
        i OperationState.Queued) i := by
  rw [PushToThrottle, hfind]

theorem removeDiscarded_eq (st : EngineState) (i : Nat) (p : Operation)
    (hfind : findOp st i = some p) :
    RemoveDiscardedOperations st i = updateOrder st p.orderId
      (fun o => { o with operations := RemoveDiscardedFromList o.operations i }) := by
  rw [RemoveDiscardedOperations, hfind]

theorem removeDiscardedFromList_spec (base0 qs0 : List Operation) (wQ : Operation) (i : Nat)
    (hbase0 : ∀ p ∈ base0, p.operationState ≠ OperationState.Queued)
    (hbfr : ∀ p ∈ base0, p.opId ≠ i)
    (hqs0 : qs0 = [] ∨ ∃ qa, qs0 = [qa] ∧ qa.operationState = OperationState.Queued)
    (hqfr : ∀ p ∈ qs0, p.opId ≠ i)
    (hwQ : wQ.opId = i) :
    RemoveDiscardedFromList ((base0 ++ qs0) ++ [wQ]) i =
      base0 ++ [match qs0.head? with
                | none => wQ
                | some qa => { wQ with previousOperation := qa.previousOperation }] := by
  have hbrem : base0.filter
      (fun p => p.opId ≠ i ∧ p.operationState = OperationState.Queued) = [] := by
    rw [List.filter_eq_nil_iff]
    intro p hp
    simp [hbase0 p hp]
  have hbkeep : base0.filter
      (fun p => p.opId = i ∨ p.operationState ≠ OperationState.Queued) = base0 := by
    rw [List.filter_eq_self]
    intro p hp
    simp [hbase0 p hp]
  have hwrem : [wQ].filter
      (fun p => p.opId ≠ i ∧ p.operationState = OperationState.Queued) = [] := by
    simp [hwQ]
  have hwkeep : [wQ].filter
      (fun p => p.opId = i ∨ p.operationState ≠ OperationState.Queued) = [wQ] := by
    simp [hwQ]
  rcases hqs0 with rfl | ⟨qa, rfl, hqa⟩
  · rw [RemoveDiscardedFromList, List.filter_append, List.filter_append, hbrem, hwrem]
    rw [List.filter_append, List.filter_append, hbkeep, hwkeep]
    simp
  · have hqrem : [qa].filter
        (fun p => p.opId ≠ i ∧ p.operationState = OperationState.Queued) = [qa] := by
      simp [hqa, hqfr qa (List.mem_singleton_self qa)]
    have hqkeep : [qa].filter
        (fun p => p.opId = i ∨ p.operationState ≠ OperationState.Queued) = [] := by
      simp [hqa, hqfr qa (List.mem_singleton_self qa)]
    have hbmap : base0.map (fun p =>
        if p.opId = i then { p with previousOperation := qa.previousOperation } else p) = base0 :=
      (List.map_congr_left (fun p hp => if_neg (hbfr p hp))).trans (List.map_id _)
    rw [RemoveDiscardedFromList, List.filter_append, List.filter_append, hbrem, hqrem, hwrem]
    simp only [List.nil_append, List.append_nil, List.head?_cons]
    rw [List.filter_append, List.filter_append, hbkeep, hqkeep, hwkeep]
    simp only [List.nil_append, List.append_nil, List.map_append]
    rw [hbmap]
    simp [hwQ]

theorem queueAmend_spec (S : EngineState) (oid : Nat) (os : Order) (lst : Operation)
    (base0 qs0 : List Operation) (T' : List Nat) (pr q : Int)
    (hord : findOrder S oid = some os)
    (hlast : os.operations.getLast? = some lst)
    (hops : os.operations = base0 ++ qs0)
    (hbase0 : ∀ p ∈ base0, p.operationState ≠ OperationState.Queued)
    (hqs0 : qs0 = [] ∨ ∃ qa, qs0 = [qa] ∧ qa.operationState = OperationState.Queued)
    (hnodup : (S.orders.map (fun o => o.orderId)).Nodup)
    (hfr : ∀ o ∈ S.orders, ∀ p ∈ o.operations, p.opId < S.nextId)
    (hthrfr : ∀ tid ∈ S.throttle, tid < S.nextId)
    (hfilter : S.throttle.filter (fun tid =>
        match findOp S tid with
        | some p => p.orderId ≠ oid
        | none => true) = T') :
    QueueAmend S oid pr q =
      { S with
        orders := S.orders.map (fun o =>
          if o.orderId = oid then
            { o with price := pr, qty := q,
                     operations := base0 ++
                       [{ opId := S.nextId, orderId := oid,
                          previousOperation :=
                            match qs0.head? with
                            | none => some lst.opId
                            | some qa => qa.previousOperation,
                          operationType := OperationType.AmendOrder,
                          operationState := OperationState.Queued,
                          price := pr, qty := q,
                          bidPrice := 0, bidQty := 0, askPrice := 0, askQty := 0 }] }
          else o),
        throttle := T' ++ [S.nextId],
        nextId := S.nextId + 1 } := by
  obtain ⟨hosmem, hosid⟩ := findOrder_some S oid os hord
  rw [queueAmend_eq S oid pr q os lst hord hlast]
  set w : Operation := mkAmend S oid lst pr q with hwdef
  set Fp : Order → Order := fun o => { o with price := pr, qty := q } with hFp
  set Fa : Order → Order := fun o => { o with operations := o.operations ++ [w] } with hFa
  set ST1 : EngineState :=
    { updateOrder (updateOrder S oid Fp) oid Fa with nextId := S.nextId + 1 } with hST1
  have hwid : w.opId = S.nextId := rfl
  have hc1 : ∀ o ∈ S.orders, o.orderId = oid →
      (((fun o => if o.orderId = oid then Fa o else o) ∘
        (fun o => if o.orderId = oid then Fp o else o)) o).operations = o.operations ++ [w] := by
    intro o _ ho
    simp [Function.comp, hFp, hFa, ho]
  have hc2 : ∀ o ∈ S.orders, ¬ o.orderId = oid →
      (((fun o => if o.orderId = oid then Fa o else o) ∘
        (fun o => if o.orderId = oid then Fp o else o)) o).operations = o.operations := by
    intro o _ ho
    simp [Function.comp, hFp, hFa, ho]
  have hfrn : ∀ o ∈ S.orders, ∀ p ∈ o.operations, p.opId ≠ w.opId := by
    intro o ho p hp
    have h2 := hfr o ho p hp
    rw [hwid]
    omega
  have hfind1 : findOp ST1 S.nextId = some w := by
    show List.find? (fun p => p.opId = S.nextId)
      (((S.orders.map (fun o => if o.orderId = oid then Fp o else o)).map
          (fun o => if o.orderId = oid then Fa o else o)).flatMap (fun o => o.operations)) = some w
    rw [List.map_map]
    exact find?_append_ops hc1 hc2 ⟨os, hosmem, hosid⟩ hfrn
  rw [pushToThrottle_eq ST1 S.nextId w hfind1]
  have hfoeq : ∀ tid, tid ≠ S.nextId → findOp ST1 tid = findOp S tid := by
    intro tid htid
    show List.find? (fun p => p.opId = tid)
      (((S.orders.map (fun o => if o.orderId = oid then Fp o else o)).map
          (fun o => if o.orderId = oid then Fa o else o)).flatMap (fun o => o.operations)) =
      List.find? (fun p => p.opId = tid) (S.orders.flatMap (fun o => o.operations))
    rw [List.map_map]
    exact find?_append_ops_other hc1 hc2 (by rw [hwid]; exact htid)
  have hthr1 : (RemoveFromThrottle ST1 w.orderId).throttle = T' := by
    rw [RemoveFromThrottle]
    show S.throttle.filter _ = T'
    rw [← hfilter]
    apply List.filter_congr
    intro tid htid
    have hne : tid ≠ S.nextId := by
      have := hthrfr tid htid
      omega
    rw [hfoeq tid hne]
    rfl
  set ST2 : EngineState :=
    { RemoveFromThrottle ST1 w.orderId with
        throttle := (RemoveFromThrottle ST1 w.orderId).throttle ++ [S.nextId] } with hST2
  set wQ : Operation := { w with operationState := OperationState.Queued } with hwQ
  have hfind4 : findOp (setOpState ST2 S.nextId OperationState.Queued) S.nextId = some wQ := by
    rw [findOp_setOpState]
    have hsame : findOp ST2 S.nextId = some w := hfind1
    rw [hsame]
    show some (if w.opId = S.nextId then { w with operationState := OperationState.Queued } else w) =
      some wQ
    rw [if_pos hwid]
  rw [removeDiscarded_eq _ S.nextId wQ hfind4]
  have hmapops : ∀ o ∈ S.orders, o.operations.map (fun p =>
      if p.opId = S.nextId then { p with operationState := OperationState.Queued } else p) =
      o.operations := by
    intro o ho
    refine (List.map_congr_left (fun p hp => if_neg ?_)).trans (List.map_id _)
    have := hfr o ho p hp
    omega
  refine engineState_eq _ _ ?_ ?_ rfl rfl rfl
  · have hLHS : (updateOrder (setOpState ST2 S.nextId OperationState.Queued) wQ.orderId
        (fun o => { o with operations := RemoveDiscardedFromList o.operations S.nextId })).orders =
        ((((S.orders.map (fun o => if o.orderId = oid then Fp o else o)).map
          (fun o => if o.orderId = oid then Fa o else o)).map
          (fun o => { o with operations := o.operations.map (fun p =>
            if p.opId = S.nextId then { p with operationState := OperationState.Queued } else p) })).map
          (fun o => if o.orderId = oid then
            { o with operations := RemoveDiscardedFromList o.operations S.nextId } else o)) := rfl
    rw [hLHS, List.map_map, List.map_map, List.map_map]
    apply List.map_congr_left
    intro o ho
    simp only [Function.comp_apply]
    by_cases hoid2 : o.orderId = oid
    · have hoeq : o = os := List.inj_on_of_nodup_map hnodup ho hosmem (by rw [hoid2, hosid])
      subst hoeq
      have hwmap : ([w].map (fun p =>
          if p.opId = S.nextId then { p with operationState := OperationState.Queued } else p)) = [wQ] := by
        rw [List.map_cons, List.map_nil, if_pos hwid]
      have hRDL := removeDiscardedFromList_spec base0 qs0 wQ S.nextId hbase0
        (fun p hp => by
          have := hfr o ho p (by rw [hops]; exact List.mem_append_left _ hp)
          omega)
        hqs0
        (fun p hp => by
          have := hfr o ho p (by rw [hops]; exact List.mem_append_right _ hp)
          omega)
        hwid
      simp only [hFp, hFa, hoid2, eq_self_iff_true, if_true]
      rw [List.map_append, hmapops o ho, hwmap, hops, hRDL]
      cases hq : qs0.head? <;> rfl
    · simp only [hFp, hFa, hoid2, if_false, Bool.false_eq_true, hmapops o ho]
  · show (RemoveFromThrottle ST1 w.orderId).throttle ++ [S.nextId] = T' ++ [S.nextId]
    rw [hthr1]

theorem c5_base (st0 : EngineState) (oid : Nat) (ord : Order) (lst : Operation)
    (ps : Nat → Int × Int)
    (hw : BaseWF st0)
    (hord : findOrder st0 oid = some ord)
    (hlast : ord.operations.getLast? = some lst)
    (hnoq : ∀ p ∈ ord.operations, p.operationState ≠ OperationState.Queued)
    (hthr0 : ∀ tid ∈ st0.throttle, ∀ p, findOp st0 tid = some p → p.orderId ≠ oid) :
    QueueAmend st0 oid (ps 0).1 (ps 0).2 = C5State st0 oid lst.opId ord.operations ps 0 := by
  have hfilter : st0.throttle.filter (fun tid =>
      match findOp st0 tid with
      | some p => p.orderId ≠ oid
      | none => true) = st0.throttle := by
    rw [List.filter_eq_self]
    intro tid htid
    rcases hfo : findOp st0 tid with _ | p
    · rfl
    · simpa using hthr0 tid htid p hfo
  have h := queueAmend_spec st0 oid ord lst ord.operations [] st0.throttle
    (ps 0).1 (ps 0).2 hord hlast (List.append_nil _).symm hnoq (Or.inl rfl)
    hw.ordersNodup
    (fun o ho p hp => hw.opsFresh p ((mem_allOps st0 p).mpr ⟨o, ho, hp⟩))
    hw.throttleFresh hfilter
  exact h

theorem c5_step (st0 : EngineState) (oid : Nat) (ord : Order) (lst : Operation)
    (ps : Nat → Int × Int) (k : Nat)
    (hw : BaseWF st0)
    (hord : findOrder st0 oid = some ord)
    (hlast : ord.operations.getLast? = some lst)
    (hnoq : ∀ p ∈ ord.operations, p.operationState ≠ OperationState.Queued)
    (hthr0 : ∀ tid ∈ st0.throttle, ∀ p, findOp st0 tid = some p → p.orderId ≠ oid) :
    QueueAmend (C5State st0 oid lst.opId ord.operations ps k) oid (ps (k + 1)).1 (ps (k + 1)).2 =
      C5State st0 oid lst.opId ord.operations ps (k + 1) := by
  obtain ⟨hordmem, hordid⟩ := findOrder_some st0 oid ord hord
  have hordeq : ∀ o ∈ st0.orders, o.orderId = oid → o = ord := by
    intro o ho hoid
    exact List.inj_on_of_nodup_map hw.ordersNodup ho hordmem (by rw [hoid, hordid])
  set ak : Operation := c5AmendOp st0 oid lst.opId ps k with hak
  set Fk : Order → Order := fun o =>
    { o with price := (ps k).1, qty := (ps k).2, operations := ord.operations ++ [ak] } with hFk
  have hc1 : ∀ o ∈ st0.orders, o.orderId = oid →
      ((fun o => if o.orderId = oid then Fk o else o) o).operations = o.operations ++ [ak] := by
    intro o ho hoid
    show (if o.orderId = oid then Fk o else o).operations = o.operations ++ [ak]
    rw [if_pos hoid, hFk, hordeq o ho hoid]
  have hc2 : ∀ o ∈ st0.orders, ¬ o.orderId = oid →
      ((fun o => if o.orderId = oid then Fk o else o) o).operations = o.operations := by
    intro o _ hoid
    show (if o.orderId = oid then Fk o else o).operations = o.operations
    rw [if_neg hoid]
  have hakid : ak.opId = st0.nextId + k := rfl
  have hfop_other : ∀ tid, tid ≠ st0.nextId + k →
      findOp (C5State st0 oid lst.opId ord.operations ps k) tid = findOp st0 tid := by
    intro tid htid
    show List.find? (fun p => p.opId = tid)
      ((st0.orders.map (fun o => if o.orderId = oid then Fk o else o)).flatMap
        (fun o => o.operations)) =
      List.find? (fun p => p.opId = tid) (st0.orders.flatMap (fun o => o.operations))
    exact find?_append_ops_other hc1 hc2 (by rw [hakid]; exact htid)
  have hfop_self : findOp (C5State st0 oid lst.opId ord.operations ps k) (st0.nextId + k) =
      some ak := by
    show List.find? (fun p => p.opId = st0.nextId + k)
      ((st0.orders.map (fun o => if o.orderId = oid then Fk o else o)).flatMap
        (fun o => o.operations)) = some ak
    have h := find?_append_ops hc1 hc2 ⟨ord, hordmem, hordid⟩ (fun o ho p hp => by
      have := hw.opsFresh p ((mem_allOps st0 p).mpr ⟨o, ho, hp⟩)
      rw [hakid]
      omega)
    rw [← hakid]
    exact h
  have hordK : findOrder (C5State st0 oid lst.opId ord.operations ps k) oid = some (Fk ord) := by
    have h := findOrder_updateOrder st0 oid Fk (fun _ => by rw [hFk]) oid
    rw [hord] at h
    have h2 : findOrder (C5State st0 oid lst.opId ord.operations ps k) oid =
        findOrder (updateOrder st0 oid Fk) oid := rfl
    rw [h2, h]
    simp [hordid]
  have hnodupK : ((C5State st0 oid lst.opId ord.operations ps k).orders.map
      (fun o => o.orderId)).Nodup := by
    have h : (C5State st0 oid lst.opId ord.operations ps k).orders.map (fun o => o.orderId) =
        st0.orders.map (fun o => o.orderId) := by
      show (st0.orders.map _).map _ = _
      rw [List.map_map]
      apply List.map_congr_left
      intro o _
      simp only [Function.comp_apply]
      by_cases ho : o.orderId = oid
      · rw [if_pos ho]
      · rw [if_neg ho]
    rw [h]
    exact hw.ordersNodup
  have hfrK : ∀ o ∈ (C5State st0 oid lst.opId ord.operations ps k).orders,
      ∀ p ∈ o.operations, p.opId < (C5State st0 oid lst.opId ord.operations ps k).nextId := by
    intro o ho p hp
    show p.opId < st0.nextId + k + 1
    obtain ⟨o0, ho0, rfl⟩ := List.mem_map.mp ho
    by_cases h0 : o0.orderId = oid
    · rw [if_pos h0] at hp
      rcases List.mem_append.mp hp with h | h
      · have := hw.opsFresh p ((mem_allOps st0 p).mpr ⟨ord, hordmem, h⟩)
        omega
      · rw [List.mem_singleton.mp h, hakid]
        omega
    · rw [if_neg h0] at hp
      have := hw.opsFresh p ((mem_allOps st0 p).mpr ⟨o0, ho0, hp⟩)
      omega
  have hthrfrK : ∀ tid ∈ (C5State st0 oid lst.opId ord.operations ps k).throttle,
      tid < (C5State st0 oid lst.opId ord.operations ps k).nextId := by
    intro tid htid
    show tid < st0.nextId + k + 1
    rcases List.mem_append.mp htid with h | h
    · have := hw.throttleFresh tid h
      omega
    · rw [List.mem_singleton.mp h]
      omega
  have hfilterK : (C5State st0 oid lst.opId ord.operations ps k).throttle.filter (fun tid =>
      match findOp (C5State st0 oid lst.opId ord.operations ps k) tid with
      | some p => p.orderId ≠ oid
      | none => true) = st0.throttle := by
    show (st0.throttle ++ [st0.nextId + k]).filter _ = st0.throttle
    rw [List.filter_append]
    have h1 : st0.throttle.filter (fun tid =>
        match findOp (C5State st0 oid lst.opId ord.operations ps k) tid with
        | some p => p.orderId ≠ oid
        | none => true) = st0.throttle := by
      rw [List.filter_eq_self]
      intro tid htid
      have hne : tid ≠ st0.nextId + k := by
        have := hw.throttleFresh tid htid
        omega
      rw [hfop_other tid hne]
      rcases hfo : findOp st0 tid with _ | p
      · rfl
      · simpa using hthr0 tid htid p hfo
    have h2 : [st0.nextId + k].filter (fun tid =>
        match findOp (C5State st0 oid lst.opId ord.operations ps k) tid with
        | some p => p.orderId ≠ oid
        | none => true) = [] := by
      have hoidak : ak.orderId = oid := rfl
      simp [List.filter, hfop_self, hoidak]
    rw [h1, h2, List.append_nil]
  have h := queueAmend_spec (C5State st0 oid lst.opId ord.operations ps k) oid
    (Fk ord) ak ord.operations [ak] st0.throttle
    (ps (k + 1)).1 (ps (k + 1)).2
    hordK (List.getLast?_concat _) rfl hnoq
    (Or.inr ⟨ak, rfl, rfl⟩)
    hnodupK hfrK hthrfrK hfilterK
  rw [h]
  refine engineState_eq _ _ ?_ rfl rfl rfl rfl
  show ((st0.orders.map _).map _ : List Order) = st0.orders.map _
  rw [List.map_map]
  apply List.map_congr_left
  intro o _
  simp only [Function.comp_apply]
  by_cases ho : o.orderId = oid
  · simp only [ho, eq_self_iff_true, if_true]
    rfl
  · simp only [ho, if_false, Bool.false_eq_true]

theorem c5_findOp (st0 : EngineState) (oid : Nat) (ord : Order) (prevId : Nat)
    (ps : Nat → Int × Int) (k : Nat)
    (hw : BaseWF st0) (hordmem : ord ∈ st0.orders) (hordid : ord.orderId = oid) :
    findOp (C5State st0 oid prevId ord.operations ps k) (st0.nextId + k) =
      some (c5AmendOp st0 oid prevId ps k) := by
  have hordeq : ∀ o ∈ st0.orders, o.orderId = oid → o = ord := by
    intro o ho hoid
    exact List.inj_on_of_nodup_map hw.ordersNodup ho hordmem (by rw [hoid, hordid])
  set ak : Operation := c5AmendOp st0 oid prevId ps k with hak
  set Fk : Order → Order := fun o =>
    { o with price := (ps k).1, qty := (ps k).2, operations := ord.operations ++ [ak] } with hFk
  have hc1 : ∀ o ∈ st0.orders, o.orderId = oid →
      ((fun o => if o.orderId = oid then Fk o else o) o).operations = o.operations ++ [ak] := by
    intro o ho hoid
    show (if o.orderId = oid then Fk o else o).operations = o.operations ++ [ak]
    rw [if_pos hoid, hFk, hordeq o ho hoid]
  have hc2 : ∀ o ∈ st0.orders, ¬ o.orderId = oid →
      ((fun o => if o.orderId = oid then Fk o else o) o).operations = o.operations := by
    intro o _ hoid
    show (if o.orderId = oid then Fk o else o).operations = o.operations
    rw [if_neg hoid]
  have hakid : ak.opId = st0.nextId + k := rfl
  show List.find? (fun p => p.opId = st0.nextId + k)
    ((st0.orders.map (fun o => if o.orderId = oid then Fk o else o)).flatMap
      (fun o => o.operations)) = some ak
  have h := find?_append_ops hc1 hc2 ⟨ord, hordmem, hordid⟩ (fun o ho p hp => by
    have := hw.opsFresh p ((mem_allOps st0 p).mpr ⟨o, ho, hp⟩)
    rw [hakid]
    omega)
  rw [← hakid]
  exact h

theorem c5_findOrder (st0 : EngineState) (oid : Nat) (ord : Order) (prevId : Nat)
    (ps : Nat → Int × Int) (k : Nat)
    (hw : BaseWF st0) (hord : findOrder st0 oid = some ord) :
    findOrder (C5State st0 oid prevId ord.operations ps k) oid =
      some (c5FinalOrder st0 oid prevId ord ps k) := by
  obtain ⟨hordmem, hordid⟩ := findOrder_some st0 oid ord hord
  set ak : Operation := c5AmendOp st0 oid prevId ps k with hak
  set Fk : Order → Order := fun o =>
    { o with price := (ps k).1, qty := (ps k).2, operations := ord.operations ++ [ak] } with hFk
  have h := findOrder_updateOrder st0 oid Fk (fun _ => by rw [hFk]) oid
  rw [hord] at h
  have h2 : findOrder (C5State st0 oid prevId ord.operations ps k) oid =
      findOrder (updateOrder st0 oid Fk) oid := rfl
  rw [h2, h]
  simp [hordid]
  rfl

/-- C5: conflation of successive throttled amends. Starting from a
well-formed state whose order `oid` has history `ord.operations` (last
entry `lst`, nothing queued) and no throttle entry of its own, after `N ≥ 1`
throttled amends (window closed throughout, the `k`-th drawing price/qty
`ps k`) the state is exactly `C5State … (N-1)`: the throttle holds the
original entries plus exactly one entry for the order — the newest amend
`c5AmendOp … (N-1)` — whose `previousOperation` equals that of the first
conflated queued amend `c5AmendOp … 0` (both point at `lst`), and the
order's history is its original history plus that single amend, so no
superseded Queued operation remains. -/
theorem C5_theorem (st0 : EngineState) (oid : Nat) (ord : Order) (lst : Operation)
    (ps : Nat → Int × Int) (N : Nat) (hN : 1 ≤ N)
    (hw : BaseWF st0)
    (hord : findOrder st0 oid = some ord)
    (hlast : ord.operations.getLast? = some lst)
    (hnoq : ∀ p ∈ ord.operations, p.operationState ≠ OperationState.Queued)
    (hthr0 : ∀ tid ∈ st0.throttle, ∀ p, findOp st0 tid = some p → p.orderId ≠ oid) :
    QueueAmendSeq oid ps N st0 = C5State st0 oid lst.opId ord.operations ps (N - 1) ∧
    (QueueAmendSeq oid ps N st0).throttle = st0.throttle ++ [st0.nextId + (N - 1)] ∧
    findOp (QueueAmendSeq oid ps N st0) (st0.nextId + (N - 1)) =
      some (c5AmendOp st0 oid lst.opId ps (N - 1)) ∧
    findOrder (QueueAmendSeq oid ps N st0) oid =
      some (c5FinalOrder st0 oid lst.opId ord ps (N - 1)) ∧
    (c5AmendOp st0 oid lst.opId ps (N - 1)).previousOperation =
      (c5AmendOp st0 oid lst.opId ps 0).previousOperation ∧
    (c5AmendOp st0 oid lst.opId ps 0).previousOperation = some lst.opId ∧
    ∀ p ∈ (c5FinalOrder st0 oid lst.opId ord ps (N - 1)).operations,
      p.operationState = OperationState.Queued → p = c5AmendOp st0 oid lst.opId ps (N - 1) := by
  obtain ⟨hordmem, hordid⟩ := findOrder_some st0 oid ord hord
  obtain ⟨m, rfl⟩ : ∃ m, N = m + 1 := ⟨N - 1, (Nat.succ_pred_eq_of_pos hN).symm⟩
  have hkey : ∀ n, QueueAmendSeq oid ps (n + 1) st0 =
      C5State st0 oid lst.opId ord.operations ps n := by
    intro n
    induction n with
    | zero => exact c5_base st0 oid ord lst ps hw hord hlast hnoq hthr0
    | succ k ih =>
      show QueueAmend (QueueAmendSeq oid ps (k + 1) st0) oid (ps (k + 1)).1 (ps (k + 1)).2 = _
      rw [ih]
      exact c5_step st0 oid ord lst ps k hw hord hlast hnoq hthr0
  have hsub : m + 1 - 1 = m := rfl
  rw [hsub, hkey m]
  refine ⟨rfl, rfl, c5_findOp st0 oid ord lst.opId ps m hw hordmem hordid,
    c5_findOrder st0 oid ord lst.opId ps m hw hord, rfl, rfl, ?_⟩
  intro p hp hq
  rcases List.mem_append.mp hp with h | h
  · exact absurd hq (hnoq p h)
  · exact List.mem_singleton.mp h

/-- Concrete instance of the C5 conflation theorem: three throttled amends
of the witness order collapse to the single newest queued amend. -/
theorem C5_witness :
    QueueAmendSeq 1 c5ps 3 c5st0 = C5State c5st0 1 10 [c5lst] c5ps 2 ∧
    (QueueAmendSeq 1 c5ps 3 c5st0).throttle = c5st0.throttle ++ [c5st0.nextId + 2] ∧
    findOp (QueueAmendSeq 1 c5ps 3 c5st0) (c5st0.nextId + 2) =
      some (c5AmendOp c5st0 1 10 c5ps 2) ∧
    findOrder (QueueAmendSeq 1 c5ps 3 c5st0) 1 = some (c5FinalOrder c5st0 1 10 c5ord c5ps 2) ∧
    (c5AmendOp c5st0 1 10 c5ps 2).previousOperation =
      (c5AmendOp c5st0 1 10 c5ps 0).previousOperation ∧
    (c5AmendOp c5st0 1 10 c5ps 0).previousOperation = some 10 ∧
    ∀ p ∈ (c5FinalOrder c5st0 1 10 c5ord c5ps 2).operations,
      p.operationState = OperationState.Queued → p = c5AmendOp c5st0 1 10 c5ps 2 :=
  C5_theorem c5st0 1 c5ord c5lst c5ps 3 (by decide)
    ⟨by decide, by decide, by decide, by decide, by decide, by decide⟩
    rfl rfl (by decide)
    (fun tid htid => absurd htid (List.not_mem_nil tid))

/-- C10: the DeleteQuote action is a no-op — `PerformAction` on
DELETE_QUOTE returns the state unchanged (order store, quote entity and
history, throttle queue and shadow book included), because `DeleteQuote`
is an empty stub. -/
theorem C10_theorem (st : EngineState) (inp : ActionInputs) :
    PerformAction st Action.DELETE_QUOTE inp = Except.ok st := rfl

/-! ## C1: the book-cross assertion never fires.
First the aggregation lemma: a strictly separated book never crosses. -/

theorem bookFold_acc (st : EngineState) (f : Operation → Order → Int) :
    ∀ (l : List Nat) (acc : Int),
      (∀ i ∈ l, ∀ p o, resolveBookEntry st i = some (p, o) → f p o = 0) →
      l.foldl (fun acc i => match resolveBookEntry st i with
        | none => acc
        | some r => acc + f r.1 r.2) acc = acc := by
  intro l
  induction l with
  | nil => intro acc _; rfl
  | cons i rest ih =>
    intro acc h
    rw [List.foldl_cons]
    rcases hr : resolveBookEntry st i with _ | r
    · simp only [hr]
      exact ih acc (fun j hj => h j (List.mem_cons_of_mem _ hj))
    · have hz : f r.1 r.2 = 0 := h i (List.mem_cons_self _ _) r.1 r.2 (by rw [hr])
      simp only [hr, hz, add_zero]
      exact ih acc (fun j hj => h j (List.mem_cons_of_mem _ hj))

theorem bidContribution_ne (p : Operation) (o : Order) (v : Int)
    (h : bidContribution p o v ≠ 0) : entryBid p o = some v := by
  rw [bidContribution] at h
  rw [entryBid]
  by_cases hq : o.isQuote
  · rw [if_pos hq] at h ⊢
    by_cases hc : p.bidQty > -1 ∧ p.bidPrice = v
    · rw [if_pos hc.1, hc.2]
    · rw [if_neg hc] at h
      exact absurd rfl h
  · rw [if_neg hq] at h ⊢
    by_cases hc : o.side = Side.Buy ∧ p.price = v
    · rw [if_pos hc.1, hc.2]
    · rw [if_neg hc] at h
      exact absurd rfl h

theorem askContribution_ne (p : Operation) (o : Order) (v : Int)
    (h : askContribution p o v ≠ 0) : entryAsk p o = some v := by
  rw [askContribution] at h
  rw [entryAsk]
  by_cases hq : o.isQuote
  · rw [if_pos hq] at h ⊢
    by_cases hc : p.askQty > -1 ∧ p.askPrice = v
    · rw [if_pos hc.1, hc.2]
    · rw [if_neg hc] at h
      exact absurd rfl h
  · rw [if_neg hq] at h ⊢
    by_cases hc : o.side = Side.Sell ∧ p.price = v
    · rw [if_pos hc.1, hc.2]
    · rw [if_neg hc] at h
      exact absurd rfl h

theorem bidsAt_eq_zero (st : EngineState) (v : Int)
    (h : ∀ i ∈ st.marketOperations, ∀ p o,
      resolveBookEntry st i = some (p, o) → entryBid p o ≠ some v) :
    bidsAt st v = 0 := by
  rw [bidsAt]
  exact bookFold_acc st (fun p o => bidContribution p o v) st.marketOperations 0
    (fun i hi p o hr => by
      by_contra hnz
      exact h i hi p o hr (bidContribution_ne p o v hnz))

theorem asksAt_eq_zero (st : EngineState) (v : Int)
    (h : ∀ i ∈ st.marketOperations, ∀ p o,
      resolveBookEntry st i = some (p, o) → entryAsk p o ≠ some v) :
    asksAt st v = 0 := by
  rw [asksAt]
  exact bookFold_acc st (fun p o => askContribution p o v) st.marketOperations 0
    (fun i hi p o hr => by
      by_contra hnz
      exact h i hi p o hr (askContribution_ne p o v hnz))

theorem bookSep_inCross_false (st : EngineState) (h : BookSep st) : InCross st = false := by
  rw [InCross, List.any_eq_false]
  intro k _
  rw [decide_eq_true_eq]
  rintro ⟨hb, ha⟩
  by_cases hex : ∃ j ∈ st.marketOperations, ∃ p' o',
      resolveBookEntry st j = some (p', o') ∧ entryAsk p' o' = some ((k : Int) + 1)
  · obtain ⟨j, hj, p', o', hr', ha'⟩ := hex
    apply hb
    apply bidsAt_eq_zero
    intro i hi p o hr hbid
    exact lt_irrefl _ (h i hi j hj p o p' o' _ _ hr hr' hbid ha')
  · apply ha
    apply asksAt_eq_zero
    intro i hi p o hr haeq
    exact hex ⟨i, hi, p, o, hr, haeq⟩

/-! ### Fold toolkit: elementwise bounds for the live-price and quote-scan
accumulators. -/

theorem getLivePrice_eq (cmp : Int → Int → Int) (o : Order) :
    GetLivePrice cmp o =
      cmp (inflightFoldFrom cmp o.price o.operations) (lastAckedFoldFrom o.price o.operations) := by
  show cmp (o.operations.foldl (livePriceStep cmp) (o.price, o.price)).1
      (o.operations.foldl (livePriceStep cmp) (o.price, o.price)).2 = _
  rw [livePrice_aux]

theorem foldl_pmax_base (l : List Operation) :
    ∀ a : Int, a ≤ l.foldl (fun acc p => max p.price acc) a := by
  induction l with
  | nil => intro a; exact le_refl a
  | cons x t ih =>
    intro a
    rw [List.foldl_cons]
    exact le_trans (le_max_right x.price a) (ih _)

theorem foldl_pmax_mem (l : List Operation) (p : Operation) (hp : p ∈ l) :
    ∀ a : Int, p.price ≤ l.foldl (fun acc p => max p.price acc) a := by
  induction l with
  | nil => exact absurd hp (List.not_mem_nil p)
  | cons x t ih =>
    intro a
    rw [List.foldl_cons]
    rcases List.mem_cons.mp hp with h | h
    · rw [h]
      exact le_trans (le_max_left x.price a) (foldl_pmax_base t _)
    · exact ih h _

theorem foldl_pmax_le (l : List Operation) (c : Int) :
    ∀ a : Int, a ≤ c → (∀ p ∈ l, p.price ≤ c) →
      l.foldl (fun acc p => max p.price acc) a ≤ c := by
  induction l with
  | nil => intro a ha _; exact ha
  | cons x t ih =>
    intro a ha h
    rw [List.foldl_cons]
    exact ih _ (max_le (h x (List.mem_cons_self _ _)) ha)
      (fun p hp => h p (List.mem_cons_of_mem _ hp))

theorem foldl_pmin_base (l : List Operation) :
    ∀ a : Int, l.foldl (fun acc p => min p.price acc) a ≤ a := by
  induction l with
  | nil => intro a; exact le_refl a
  | cons x t ih =>
    intro a
    rw [List.foldl_cons]
    exact le_trans (ih _) (min_le_right x.price a)

theorem foldl_pmin_mem (l : List Operation) (p : Operation) (hp : p ∈ l) :
    ∀ a : Int, l.foldl (fun acc p => min p.price acc) a ≤ p.price := by
  induction l with
  | nil => exact absurd hp (List.not_mem_nil p)
  | cons x t ih =>
    intro a
    rw [List.foldl_cons]
    rcases List.mem_cons.mp hp with h | h
    · rw [h]
      exact le_trans (foldl_pmin_base t _) (min_le_left x.price a)
    · exact ih h _

theorem foldl_pmin_ge (l : List Operation) (c : Int) :
    ∀ a : Int, c ≤ a → (∀ p ∈ l, c ≤ p.price) →
      c ≤ l.foldl (fun acc p => min p.price acc) a := by
  induction l with
  | nil => intro a ha _; exact ha
  | cons x t ih =>
    intro a ha h
    rw [List.foldl_cons]
    exact ih _ (le_min (h x (List.mem_cons_self _ _)) ha)
      (fun p hp => h p (List.mem_cons_of_mem _ hp))

theorem inflight_max_base (a : Int) (ops : List Operation) :
    a ≤ inflightFoldFrom (fun x y => max x y) a ops :=
  foldl_pmax_base _ a

theorem inflight_max_mem (a : Int) (ops : List Operation) (p : Operation) (hp : p ∈ ops)
    (hrel : livePriceRelevant p = true) (hack : p.operationState ≠ OperationState.Acked) :
    p.price ≤ inflightFoldFrom (fun x y => max x y) a ops :=
  foldl_pmax_mem _ p (List.mem_filter.mpr ⟨hp, by simp [hrel, hack]⟩) a

theorem inflight_max_le (a c : Int) (ops : List Operation) (ha : a ≤ c)
    (h : ∀ p ∈ ops, livePriceRelevant p = true →
      p.operationState ≠ OperationState.Acked → p.price ≤ c) :
    inflightFoldFrom (fun x y => max x y) a ops ≤ c := by
  refine foldl_pmax_le _ c a ha (fun p hp => ?_)
  obtain ⟨hmem, hcond⟩ := List.mem_filter.mp hp
  simp only [Bool.and_eq_true, decide_eq_true_eq] at hcond
  exact h p hmem hcond.1 hcond.2

theorem inflight_min_base (a : Int) (ops : List Operation) :
    inflightFoldFrom (fun x y => min x y) a ops ≤ a :=
  foldl_pmin_base _ a

theorem inflight_min_mem (a : Int) (ops : List Operation) (p : Operation) (hp : p ∈ ops)
    (hrel : livePriceRelevant p = true) (hack : p.operationState ≠ OperationState.Acked) :
    inflightFoldFrom (fun x y => min x y) a ops ≤ p.price :=
  foldl_pmin_mem _ p (List.mem_filter.mpr ⟨hp, by simp [hrel, hack]⟩) a

theorem inflight_min_ge (a c : Int) (ops : List Operation) (ha : c ≤ a)
    (h : ∀ p ∈ ops, livePriceRelevant p = true →
      p.operationState ≠ OperationState.Acked → c ≤ p.price) :
    c ≤ inflightFoldFrom (fun x y => min x y) a ops := by
  refine foldl_pmin_ge _ c a ha (fun p hp => ?_)
  obtain ⟨hmem, hcond⟩ := List.mem_filter.mp hp
  simp only [Bool.and_eq_true, decide_eq_true_eq] at hcond
  exact h p hmem hcond.1 hcond.2

theorem foldl_const_last (l : List Operation) :
    ∀ b : Int, l.foldl (fun _ p => p.price) b =
      match l.getLast? with
      | none => b
      | some p => p.price := by
  induction l with
  | nil => intro b; rfl
  | cons x t ih =>
    intro b
    rw [List.foldl_cons, ih x.price, getLast?_cons_eq]
    rcases h : t.getLast? with _ | p <;> simp [h]

theorem lastAckedFoldFrom_val (b : Int) (ops : List Operation) :
    lastAckedFoldFrom b ops = b ∨
      ∃ p ∈ ops, livePriceRelevant p = true ∧ p.operationState = OperationState.Acked ∧
        lastAckedFoldFrom b ops = p.price := by
  rw [lastAckedFoldFrom, foldl_const_last]
  rcases h : (ops.filter
      (fun p => livePriceRelevant p && (p.operationState = OperationState.Acked : Bool))).getLast? with _ | p
  · exact Or.inl rfl
  · right
    have hmem : p ∈ ops.filter
        (fun p => livePriceRelevant p && (p.operationState = OperationState.Acked : Bool)) := by
      obtain ⟨hne, heq⟩ := List.mem_getLast?_eq_getLast (Option.mem_def.mpr h)
      rw [heq]
      exact List.getLast_mem hne
    obtain ⟨hin, hcond⟩ := List.mem_filter.mp hmem
    simp only [Bool.and_eq_true, decide_eq_true_eq] at hcond
    exact ⟨p, hin, hcond.1, hcond.2, rfl⟩

theorem lastAckedFoldFrom_last (b : Int) (l1 l2 : List Operation) (d : Operation)
    (hrel : livePriceRelevant d = true) (hack : d.operationState = OperationState.Acked)
    (h2 : ∀ r ∈ l2, ¬(livePriceRelevant r = true ∧ r.operationState = OperationState.Acked)) :
    lastAckedFoldFrom b (l1 ++ d :: l2) = d.price := by
  rw [lastAckedFoldFrom, foldl_const_last]
  have hfil : (l1 ++ d :: l2).filter
      (fun p => livePriceRelevant p && (p.operationState = OperationState.Acked : Bool)) =
      (l1.filter (fun p => livePriceRelevant p && (p.operationState = OperationState.Acked : Bool))) ++ [d] := by
    rw [List.filter_append, List.filter_cons_of_pos (by simp [hrel, hack])]
    have h2' : l2.filter
        (fun p => livePriceRelevant p && (p.operationState = OperationState.Acked : Bool)) = [] := by
      rw [List.filter_eq_nil_iff]
      intro r hr
      simp only [Bool.and_eq_true, decide_eq_true_eq]
      intro hc
      exact h2 r hr hc
    rw [h2']
  rw [hfil, List.getLast?_concat]

theorem lastAcked_le_max (o : Order) :
    lastAckedFoldFrom o.price o.operations ≤ GetLivePrice (fun a b => max a b) o := by
  rw [getLivePrice_eq]
  exact le_max_right _ _

theorem min_le_lastAcked (o : Order) :
    GetLivePrice (fun a b => min a b) o ≤ lastAckedFoldFrom o.price o.operations := by
  rw [getLivePrice_eq]
  exact min_le_right _ _

theorem inflight_le_max (o : Order) :
    inflightFoldFrom (fun a b => max a b) o.price o.operations ≤
      GetLivePrice (fun a b => max a b) o := by
  rw [getLivePrice_eq]
  exact le_max_left _ _

theorem min_le_inflight (o : Order) :
    GetLivePrice (fun a b => min a b) o ≤
      inflightFoldFrom (fun a b => min a b) o.price o.operations := by
  rw [getLivePrice_eq]
  exact min_le_left _ _

theorem getLivePrice_le_max (o : Order) (c : Int) (hbase : o.price ≤ c)
    (hun : ∀ p ∈ o.operations, livePriceRelevant p = true →
      p.operationState ≠ OperationState.Acked → p.price ≤ c)
    (hla : lastAckedFoldFrom o.price o.operations ≤ c) :
    GetLivePrice (fun a b => max a b) o ≤ c := by
  rw [getLivePrice_eq]
  exact max_le (inflight_max_le _ _ _ hbase hun) hla

theorem le_getLivePrice_min (o : Order) (c : Int) (hbase : c ≤ o.price)
    (hun : ∀ p ∈ o.operations, livePriceRelevant p = true →
      p.operationState ≠ OperationState.Acked → c ≤ p.price)
    (hla : c ≤ lastAckedFoldFrom o.price o.operations) :
    c ≤ GetLivePrice (fun a b => min a b) o := by
  rw [getLivePrice_eq]
  exact le_min (inflight_min_ge _ _ _ hbase hun) hla

theorem base_le_getLivePrice_max (o : Order) : o.price ≤ GetLivePrice (fun a b => max a b) o :=
  le_trans (inflight_max_base _ _) (inflight_le_max o)

theorem getLivePrice_min_le_base (o : Order) : GetLivePrice (fun a b => min a b) o ≤ o.price :=
  le_trans (min_le_inflight o) (inflight_min_base _ _)

theorem unacked_le_getLivePrice_max (o : Order) (p : Operation) (hp : p ∈ o.operations)
    (hrel : livePriceRelevant p = true) (hack : p.operationState ≠ OperationState.Acked) :
    p.price ≤ GetLivePrice (fun a b => max a b) o :=
  le_trans (inflight_max_mem _ _ p hp hrel hack) (inflight_le_max o)

theorem getLivePrice_min_le_unacked (o : Order) (p : Operation) (hp : p ∈ o.operations)
    (hrel : livePriceRelevant p = true) (hack : p.operationState ≠ OperationState.Acked) :
    GetLivePrice (fun a b => min a b) o ≤ p.price :=
  le_trans (min_le_inflight o) (inflight_min_mem _ _ p hp hrel hack)

theorem quoteAskScan_eq (qops : List Operation) :
    QuoteAskScan qops = (lastAckedAskFrom intMax qops, minUnackedAskFrom intMax qops) := by
  rw [QuoteAskScan, quoteAskScan_aux]

theorem quoteBidScan_eq (qops : List Operation) :
    QuoteBidScan qops = (lastAckedBidFrom intMin qops, maxUnackedBidFrom intMin qops) := by
  rw [QuoteBidScan, quoteBidScan_aux]

theorem foldl_amin_base (l : List Operation) :
    ∀ u : Int, l.foldl (fun m p => min m p.askPrice) u ≤ u := by
  induction l with
  | nil => intro u; exact le_refl u
  | cons x t ih =>
    intro u
    rw [List.foldl_cons]
    exact le_trans (ih _) (min_le_left u x.askPrice)

theorem foldl_amin_mem (l : List Operation) (p : Operation) (hp : p ∈ l) :
    ∀ u : Int, l.foldl (fun m p => min m p.askPrice) u ≤ p.askPrice := by
  induction l with
  | nil => exact absurd hp (List.not_mem_nil p)
  | cons x t ih =>
    intro u
    rw [List.foldl_cons]
    rcases List.mem_cons.mp hp with h | h
    · rw [h]
      exact le_trans (foldl_amin_base t _) (min_le_right u x.askPrice)
    · exact ih h _

theorem foldl_amin_ge (l : List Operation) (c : Int) :
    ∀ u : Int, c ≤ u → (∀ p ∈ l, c ≤ p.askPrice) →
      c ≤ l.foldl (fun m p => min m p.askPrice) u := by
  induction l with
  | nil => intro u hu _; exact hu
  | cons x t ih =>
    intro u hu h
    rw [List.foldl_cons]
    exact ih _ (le_min hu (h x (List.mem_cons_self _ _)))
      (fun p hp => h p (List.mem_cons_of_mem _ hp))

theorem foldl_bmax_base (l : List Operation) :
    ∀ u : Int, u ≤ l.foldl (fun m p => max m p.bidPrice) u := by
  induction l with
  | nil => intro u; exact le_refl u
  | cons x t ih =>
    intro u
    rw [List.foldl_cons]
    exact le_trans (le_max_left u x.bidPrice) (ih _)

theorem foldl_bmax_mem (l : List Operation) (p : Operation) (hp : p ∈ l) :
    ∀ u : Int, p.bidPrice ≤ l.foldl (fun m p => max m p.bidPrice) u := by
  induction l with
  | nil => exact absurd hp (List.not_mem_nil p)
  | cons x t ih =>
    intro u
    rw [List.foldl_cons]
    rcases List.mem_cons.mp hp with h | h
    · rw [h]
      exact le_trans (le_max_right u x.bidPrice) (foldl_bmax_base t _)
    · exact ih h _

theorem foldl_bmax_le (l : List Operation) (c : Int) :
    ∀ u : Int, u ≤ c → (∀ p ∈ l, p.bidPrice ≤ c) →
      l.foldl (fun m p => max m p.bidPrice) u ≤ c := by
  induction l with
  | nil => intro u hu _; exact hu
  | cons x t ih =>
    intro u hu h
    rw [List.foldl_cons]
    exact ih _ (max_le hu (h x (List.mem_cons_self _ _)))
      (fun p hp => h p (List.mem_cons_of_mem _ hp))

theorem minUnackedAskFrom_mem (u : Int) (qops : List Operation) (p : Operation) (hp : p ∈ qops)
    (hact : activeAsk p = true) (hack : p.operationState ≠ OperationState.Acked) :
    minUnackedAskFrom u qops ≤ p.askPrice :=
  foldl_amin_mem _ p (List.mem_filter.mpr ⟨hp, by simp [hact, hack]⟩) u

theorem minUnackedAskFrom_ge (u c : Int) (qops : List Operation) (hu : c ≤ u)
    (h : ∀ p ∈ qops, activeAsk p = true → p.operationState ≠ OperationState.Acked →
      c ≤ p.askPrice) :
    c ≤ minUnackedAskFrom u qops := by
  refine foldl_amin_ge _ c u hu (fun p hp => ?_)
  obtain ⟨hmem, hcond⟩ := List.mem_filter.mp hp
  simp only [Bool.and_eq_true, decide_eq_true_eq] at hcond
  exact h p hmem hcond.1 hcond.2

theorem maxUnackedBidFrom_mem (u : Int) (qops : List Operation) (p : Operation) (hp : p ∈ qops)
    (hact : activeBid p = true) (hack : p.operationState ≠ OperationState.Acked) :
    p.bidPrice ≤ maxUnackedBidFrom u qops :=
  foldl_bmax_mem _ p (List.mem_filter.mpr ⟨hp, by simp [hact, hack]⟩) u

theorem maxUnackedBidFrom_le (u c : Int) (qops : List Operation) (hu : u ≤ c)
    (h : ∀ p ∈ qops, activeBid p = true → p.operationState ≠ OperationState.Acked →
      p.bidPrice ≤ c) :
    maxUnackedBidFrom u qops ≤ c := by
  refine foldl_bmax_le _ c u hu (fun p hp => ?_)
  obtain ⟨hmem, hcond⟩ := List.mem_filter.mp hp
  simp only [Bool.and_eq_true, decide_eq_true_eq] at hcond
  exact h p hmem hcond.1 hcond.2

theorem lastAckedAskFrom_val (a : Int) (qops : List Operation) :
    lastAckedAskFrom a qops = a ∨
      ∃ p ∈ qops, activeAsk p = true ∧ p.operationState = OperationState.Acked ∧
        lastAckedAskFrom a qops = p.askPrice := by
  rw [lastAckedAskFrom]
  rcases h : (qops.filter
      (fun p => activeAsk p && (p.operationState = OperationState.Acked : Bool))).getLast? with _ | p
  · exact Or.inl rfl
  · right
    have hmem : p ∈ qops.filter
        (fun p => activeAsk p && (p.operationState = OperationState.Acked : Bool)) := by
      obtain ⟨hne, heq⟩ := List.mem_getLast?_eq_getLast (Option.mem_def.mpr h)
      rw [heq]
      exact List.getLast_mem hne
    obtain ⟨hin, hcond⟩ := List.mem_filter.mp hmem
    simp only [Bool.and_eq_true, decide_eq_true_eq] at hcond
    exact ⟨p, hin, hcond.1, hcond.2, rfl⟩

theorem lastAckedAskFrom_last (a : Int) (l1 l2 : List Operation) (d : Operation)
    (hact : activeAsk d = true) (hack : d.operationState = OperationState.Acked)
    (h2 : ∀ r ∈ l2, ¬(activeAsk r = true ∧ r.operationState = OperationState.Acked)) :
    lastAckedAskFrom a (l1 ++ d :: l2) = d.askPrice := by
  rw [lastAckedAskFrom]
  have hfil : (l1 ++ d :: l2).filter
      (fun p => activeAsk p && (p.operationState = OperationState.Acked : Bool)) =
      (l1.filter (fun p => activeAsk p && (p.operationState = OperationState.Acked : Bool))) ++ [d] := by
    rw [List.filter_append, List.filter_cons_of_pos (by simp [hact, hack])]
    have h2' : l2.filter
        (fun p => activeAsk p && (p.operationState = OperationState.Acked : Bool)) = [] := by
      rw [List.filter_eq_nil_iff]
      intro r hr
      simp only [Bool.and_eq_true, decide_eq_true_eq]
      intro hc
      exact h2 r hr hc
    rw [h2']
  rw [hfil, List.getLast?_concat]

theorem lastAckedBidFrom_val (a : Int) (qops : List Operation) :
    lastAckedBidFrom a qops = a ∨
      ∃ p ∈ qops, activeBid p = true ∧ p.operationState = OperationState.Acked ∧
        lastAckedBidFrom a qops = p.bidPrice := by
  rw [lastAckedBidFrom]
  rcases h : (qops.filter
      (fun p => activeBid p && (p.operationState = OperationState.Acked : Bool))).getLast? with _ | p
  · exact Or.inl rfl
  · right
    have hmem : p ∈ qops.filter
        (fun p => activeBid p && (p.operationState = OperationState.Acked : Bool)) := by
      obtain ⟨hne, heq⟩ := List.mem_getLast?_eq_getLast (Option.mem_def.mpr h)
      rw [heq]
      exact List.getLast_mem hne
    obtain ⟨hin, hcond⟩ := List.mem_filter.mp hmem
    simp only [Bool.and_eq_true, decide_eq_true_eq] at hcond
    exact ⟨p, hin, hcond.1, hcond.2, rfl⟩

theorem filter_getLast?_decomp {α : Type} (f : α → Bool) :
    ∀ (l : List α) (d : α), (l.filter f).getLast? = some d →
      ∃ l1 l2, l = l1 ++ d :: l2 ∧ (∀ r ∈ l2, f r = false) ∧ f d = true := by
  intro l
  induction l with
  | nil => intro d h; cases h
  | cons x t ih =>
    intro d h
    by_cases hx : f x
    · rw [List.filter_cons_of_pos hx] at h
      rcases hft : (t.filter f).getLast? with _ | d'
      · have hnil : t.filter f = [] := List.getLast?_eq_none.mp hft
        rw [hnil] at h
        have hdx : d = x := (Option.some.inj h).symm
        refine ⟨[], t, by rw [hdx]; rfl, ?_, by rw [hdx]; exact hx⟩
        intro r hr
        by_contra hfr
        have : r ∈ t.filter f := List.mem_filter.mpr ⟨hr, by
          cases hfr' : f r
          · exact absurd hfr' hfr
          · rfl⟩
        rw [hnil] at this
        exact absurd this (List.not_mem_nil r)
      · have heq : (x :: t.filter f).getLast? = some d' := by
          rw [getLast?_cons_eq, hft]
          rfl
        have hdd : d = d' := by
          rw [h] at heq
          exact Option.some.inj heq
        obtain ⟨l1, l2, ht, h2, hfd⟩ := ih d' hft
        exact ⟨x :: l1, l2, by rw [ht, hdd]; rfl, h2, by rw [hdd]; exact hfd⟩
    · rw [List.filter_cons_of_neg hx] at h
      obtain ⟨l1, l2, ht, h2, hfd⟩ := ih d h
      exact ⟨x :: l1, l2, by rw [ht]; rfl, h2, hfd⟩

theorem filter_getLast?_of_decomp {α : Type} (f : α → Bool) (l1 l2 : List α) (d : α)
    (hd : f d = true) (h2 : ∀ r ∈ l2, f r = false) :
    ((l1 ++ d :: l2).filter f).getLast? = some d := by
  have h2' : l2.filter f = [] := List.filter_eq_nil_iff.mpr (fun r hr => by rw [h2 r hr]; decide)
  rw [List.filter_append, List.filter_cons_of_pos hd, h2', List.getLast?_concat]

theorem lastDispatched_decomp (o : Order) (d : Operation) (h : lastDispatched o = some d) :
    ∃ l1 l2, o.operations = l1 ++ d :: l2 ∧ (∀ r ∈ l2, isDispatchedOp r = false) ∧
      isDispatchedOp d = true :=
  filter_getLast?_decomp _ o.operations d h

theorem lastDispatched_of_shape (o : Order) (l1 l2 : List Operation) (d : Operation)
    (hops : o.operations = l1 ++ d :: l2) (hd : isDispatchedOp d = true)
    (h2 : ∀ r ∈ l2, isDispatchedOp r = false) :
    lastDispatched o = some d := by
  rw [lastDispatched, hops]
  exact filter_getLast?_of_decomp _ l1 l2 d hd h2

theorem queued_getLast (l : List Operation) (hQ : QueuedLastL l) (q : Operation) (hq : q ∈ l)
    (hstate : q.operationState = OperationState.Queued) : l.getLast? = some q := by
  have hne : l ≠ [] := List.ne_nil_of_mem hq
  have hsplit : l.dropLast ++ [l.getLast hne] = l := List.dropLast_append_getLast hne
  rcases List.mem_append.mp (hsplit ▸ hq) with h | h
  · exact absurd hstate (hQ q h)
  · rw [List.getLast?_eq_getLast_of_ne_nil hne, List.mem_singleton.mp h]

theorem delete_getLast (l : List Operation) (hD : DeleteLastL l) (q : Operation) (hq : q ∈ l)
    (htype : q.operationType = OperationType.DeleteOrder) : l.getLast? = some q := by
  have hne : l ≠ [] := List.ne_nil_of_mem hq
  have hsplit : l.dropLast ++ [l.getLast hne] = l := List.dropLast_append_getLast hne
  rcases List.mem_append.mp (hsplit ▸ hq) with h | h
  · exact absurd htype (hD q h)
  · rw [List.getLast?_eq_getLast_of_ne_nil hne, List.mem_singleton.mp h]

theorem find?_of_nodup_key (l : List Operation)
    (h : (l.map (fun p => p.opId)).Nodup) (p : Operation) (hp : p ∈ l) :
    l.find? (fun r => r.opId = p.opId) = some p := by
  induction l with
  | nil => exact absurd hp (List.not_mem_nil p)
  | cons x t ih =>
    rw [List.map_cons, List.nodup_cons] at h
    rcases List.mem_cons.mp hp with hh | hh
    · rw [List.find?_cons_of_pos _ (by rw [hh]; simp)]
      rw [hh]
    · have hne : x.opId ≠ p.opId := fun he =>
        h.1 (he ▸ List.mem_map.mpr ⟨p, hh, rfl⟩)
      rw [List.find?_cons_of_neg _ (by simp [hne])]
      exact ih h.2 hh

theorem findOp_of_mem (st : EngineState)
    (h : ((allOps st).map (fun p => p.opId)).Nodup) (p : Operation) (hp : p ∈ allOps st) :
    findOp st p.opId = some p :=
  find?_of_nodup_key (allOps st) h p hp

theorem find?_of_nodup_orderKey (l : List Order)
    (h : (l.map (fun o => o.orderId)).Nodup) (o : Order) (ho : o ∈ l) :
    l.find? (fun r => r.orderId = o.orderId) = some o := by
  induction l with
  | nil => exact absurd ho (List.not_mem_nil o)
  | cons x t ih =>
    rw [List.map_cons, List.nodup_cons] at h
    rcases List.mem_cons.mp ho with hh | hh
    · rw [List.find?_cons_of_pos _ (by rw [hh]; simp)]
      rw [hh]
    · have hne : x.orderId ≠ o.orderId := fun he =>
        h.1 (he ▸ List.mem_map.mpr ⟨o, hh, rfl⟩)
      rw [List.find?_cons_of_neg _ (by simp [hne])]
      exact ih h.2 hh

theorem findOrder_of_mem (st : EngineState)
    (h : (st.orders.map (fun o => o.orderId)).Nodup) (o : Order) (ho : o ∈ st.orders) :
    findOrder st o.orderId = some o :=
  find?_of_nodup_orderKey st.orders h o ho

theorem resolveBookEntry_some (st : EngineState) (i : Nat) (p : Operation) (o : Order)
    (h1 : findOp st i = some p) (h2 : findOrder st p.orderId = some o) :
    resolveBookEntry st i = some (p, o) := by
  simp only [resolveBookEntry, h1, h2]

theorem resolveBookEntry_elim (st : EngineState) (i : Nat) (p : Operation) (o : Order)
    (h : resolveBookEntry st i = some (p, o)) :
    findOp st i = some p ∧ findOrder st p.orderId = some o := by
  rw [resolveBookEntry] at h
  rcases h1 : findOp st i with _ | p'
  · simp only [h1] at h
    exact Option.noConfusion h
  · simp only [h1] at h
    rcases h2 : findOrder st p'.orderId with _ | o'
    · simp only [h2] at h
      exact Option.noConfusion h
    · simp only [h2] at h
      obtain ⟨hp, ho⟩ := Prod.mk.inj (Option.some.inj h)
      subst hp
      subst ho
      exact ⟨rfl, h2⟩

theorem ackedPrefixL_cons (x : Operation) (t : List Operation) :
    AckedPrefixL (x :: t) ↔ AckedPrefixL t ∧
      (x.operationState = OperationState.Acked ∨
        ∀ r ∈ t, r.operationState ≠ OperationState.Acked) := by
  constructor
  · intro h
    constructor
    · intro l1 p l2 hdec hp r hr
      exact h (x :: l1) p l2 (by rw [hdec]; rfl) hp r (List.mem_cons_of_mem _ hr)
    · by_cases hx : x.operationState = OperationState.Acked
      · exact Or.inl hx
      · right
        intro r hr hrA
        obtain ⟨l1, l2, hdec⟩ := List.append_of_mem hr
        exact hx (h (x :: l1) r l2 (by rw [hdec]; rfl) hrA x (List.mem_cons_self _ _))
  · rintro ⟨ht, hx⟩ l1 p l2 hdec hp r hr
    rcases l1 with _ | ⟨y, l1'⟩
    · exact absurd hr (List.not_mem_nil r)
    · have hy : y = x := (List.cons.inj hdec).1.symm
      have hdec' : t = l1' ++ p :: l2 := (List.cons.inj hdec).2
      rcases List.mem_cons.mp hr with hrx | hrl
      · rw [hrx, hy]
        rcases hx with h1 | h1
        · exact h1
        · exact absurd hp (h1 p (hdec' ▸ List.mem_append_right _ (List.mem_cons_self _ _)))
      · exact ht l1' p l2 hdec' hp r hrl

theorem getLast?_mem {α : Type} (l : List α) (a : α) (h : l.getLast? = some a) : a ∈ l := by
  obtain ⟨hne, heq⟩ := List.mem_getLast?_eq_getLast (Option.mem_def.mpr h)
  rw [heq]
  exact List.getLast_mem hne

theorem lastAckedBidFrom_last (a : Int) (l1 l2 : List Operation) (d : Operation)
    (hact : activeBid d = true) (hack : d.operationState = OperationState.Acked)
    (h2 : ∀ r ∈ l2, ¬(activeBid r = true ∧ r.operationState = OperationState.Acked)) :
    lastAckedBidFrom a (l1 ++ d :: l2) = d.bidPrice := by
  rw [lastAckedBidFrom]
  have hfil : (l1 ++ d :: l2).filter
      (fun p => activeBid p && (p.operationState = OperationState.Acked : Bool)) =
      (l1.filter (fun p => activeBid p && (p.operationState = OperationState.Acked : Bool))) ++ [d] := by
    rw [List.filter_append, List.filter_cons_of_pos (by simp [hact, hack])]
    have h2' : l2.filter
        (fun p => activeBid p && (p.operationState = OperationState.Acked : Bool)) = [] := by
      rw [List.filter_eq_nil_iff]
      intro r hr
      simp only [Bool.and_eq_true, decide_eq_true_eq]
      intro hc
      exact h2 r hr hc
    rw [h2']
  rw [hfil, List.getLast?_concat]

/-! ### Derived facts of the C1 invariant: price coverage of book entries
and liveness of their owners. -/

theorem coverage_nonquote (st : EngineState) (hI : InvCore st) (o : Order) (ho : o ∈ st.orders)
    (hq : o.isQuote = false) (d : Operation) (hd : lastDispatched o = some d)
    (hnd : isDeleteType d.operationType = false) :
    GetLivePrice (fun a b => min a b) o ≤ d.price ∧
      d.price ≤ GetLivePrice (fun a b => max a b) o := by
  obtain ⟨l1, l2, hops, h2, hdisp⟩ := lastDispatched_decomp o d hd
  have hdmem : d ∈ o.operations := by
    rw [hops]
    exact List.mem_append_right _ (List.mem_cons_self _ _)
  have htype := hI.orderOpWF o ho hq d hdmem
  have hrel : livePriceRelevant d = true := by
    rcases htype with h | h | h
    · simp [livePriceRelevant, h]
    · simp [livePriceRelevant, h]
    · exact absurd hnd (by simp [isDeleteType, h])
  by_cases hack : d.operationState = OperationState.Acked
  · have hla : lastAckedFoldFrom o.price o.operations = d.price := by
      rw [hops]
      refine lastAckedFoldFrom_last o.price l1 l2 d hrel hack (fun r hr hc => ?_)
      have hdr : isDispatchedOp r = true := by
        simp [isDispatchedOp, hc.2]
      rw [h2 r hr] at hdr
      cases hdr
    constructor
    · rw [← hla]
      exact min_le_lastAcked o
    · rw [← hla]
      exact lastAcked_le_max o
  · exact ⟨getLivePrice_min_le_unacked o d hdmem hrel hack,
      unacked_le_getLivePrice_max o d hdmem hrel hack⟩

theorem coverage_quote (st : EngineState) (hI : InvCore st) (qo : Order)
    (hqo : findOrder st st.quotesId = some qo) (d : Operation) (hd : lastDispatched qo = some d) :
    askScanMin st ≤ d.askPrice ∧ d.bidPrice ≤ bidScanMax st := by
  have hqops : quoteOps st = qo.operations := by
    rw [quoteOps, hqo]
  obtain ⟨l1, l2, hops, h2, hdisp⟩ := lastDispatched_decomp qo d hd
  have hdmem : d ∈ quoteOps st := by
    rw [hqops, hops]
    exact List.mem_append_right _ (List.mem_cons_self _ _)
  obtain ⟨_, hba, hbq, haq⟩ := hI.quoteOpWF d hdmem
  have hactA : activeAsk d = true := by
    simp only [activeAsk, decide_eq_true_eq]
    omega
  have hactB : activeBid d = true := by
    simp only [activeBid, decide_eq_true_eq]
    omega
  rw [askScanMin, bidScanMax, quoteAskScan_eq, quoteBidScan_eq, hqops, hops]
  by_cases hack : d.operationState = OperationState.Acked
  · have hla : lastAckedAskFrom intMax (l1 ++ d :: l2) = d.askPrice := by
      refine lastAckedAskFrom_last intMax l1 l2 d hactA hack (fun r hr hc => ?_)
      have hdr : isDispatchedOp r = true := by
        simp [isDispatchedOp, hc.2]
      rw [h2 r hr] at hdr
      cases hdr
    have hlb : lastAckedBidFrom intMin (l1 ++ d :: l2) = d.bidPrice := by
      refine lastAckedBidFrom_last intMin l1 l2 d hactB hack (fun r hr hc => ?_)
      have hdr : isDispatchedOp r = true := by
        simp [isDispatchedOp, hc.2]
      rw [h2 r hr] at hdr
      cases hdr
    constructor
    · exact le_trans (min_le_left _ _) (le_of_eq hla)
    · exact le_trans (le_of_eq hlb.symm) (le_max_left _ _)
  · constructor
    · refine le_trans (min_le_right _ _) ?_
      exact minUnackedAskFrom_mem intMax (l1 ++ d :: l2) d
        (List.mem_append_right _ (List.mem_cons_self _ _)) hactA hack
    · refine le_trans ?_ (le_max_right _ _)
      exact maxUnackedBidFrom_mem intMin (l1 ++ d :: l2) d
        (List.mem_append_right _ (List.mem_cons_self _ _)) hactB hack

theorem entry_owner_live (st : EngineState) (hI : InvCore st) (hnq : NoQD st)
    (hInd : ∀ r ∈ allOps st, r.operationState = OperationState.Initial →
      r.operationType ≠ OperationType.DeleteOrder)
    (i : Nat) (hi : i ∈ st.marketOperations) (p : Operation) (o : Order)
    (hp : findOp st i = some p) (ho : findOrder st p.orderId = some o) :
    o.isQuote = true ∨ (o.isQuote = false ∧ liveOrd o) := by
  by_cases hq : o.isQuote
  · exact Or.inl hq
  · right
    refine ⟨by simp [hq], ?_⟩
    obtain ⟨homem, hoid⟩ := findOrder_some st p.orderId o ho
    obtain ⟨hpmem, hpid⟩ := findOp_some_facts st i p hp
    have hdelContra : ∀ d, lastDispatched o = some d → isDeleteType d.operationType = true → False := by
      intro d hd hdel
      obtain ⟨d', hd', hieq⟩ := hI.entryOut o homem i hi p hp hoid.symm
      have hdd : d' = d := by
        rw [hd'] at hd
        exact Option.some.inj hd
      subst hdd
      obtain ⟨l1, l2, hops, _, _⟩ := lastDispatched_decomp o d' hd'
      have hdmem : d' ∈ allOps st := (mem_allOps st d').mpr ⟨o, homem, by
        rw [hops]
        exact List.mem_append_right _ (List.mem_cons_self _ _)⟩
      have hfd : findOp st d'.opId = some d' := findOp_of_mem st hI.opsNodup d' hdmem
      rw [← hieq, hp] at hfd
      have hpd : p = d' := Option.some.inj hfd
      obtain ⟨p2, o2, hp2, _, _, hnodel2⟩ := hI.bookResolves i hi
      rw [hp] at hp2
      have hpp2 : p = p2 := Option.some.inj hp2
      rw [← hpp2, hpd] at hnodel2
      rw [hnodel2] at hdel
      cases hdel
    rcases hstate : o.orderState with _ | _ | _ | _
    · exact Or.inr hstate
    · exact Or.inl hstate
    · rcases ((hI.stateHist o homem).2.2.2 hstate) with ⟨qq, hqlast, hqstate, hqtype⟩ | ⟨d, hd, hdel⟩
      · have hqmem : qq ∈ allOps st := (mem_allOps st qq).mpr ⟨o, homem, getLast?_mem _ qq hqlast⟩
        rcases hqq2 : qq.operationState with _ | _ | _ | _
        · exact absurd hqtype (hInd qq hqmem hqq2)
        · exact absurd hqtype (hnq qq hqmem hqq2)
        · rw [isDispatchedOp, hqq2] at hqstate
          simp at hqstate
        · rw [isDispatchedOp, hqq2] at hqstate
          simp at hqstate
      · exact absurd (hdelContra d hd hdel) not_false
    · obtain ⟨⟨d, hd, hdel⟩, _⟩ := (hI.stateHist o homem).2.2.1 hstate
      exact absurd (hdelContra d hd hdel) not_false

/-! ### The dispatch core: a separated book stays separated through
`SendToMarket`'s state writes and book update. -/

theorem entryBid_tweaks (i : Nat) (p r : Operation) (o : Order) :
    entryBid (sentTweak i r) (sentOrdTweak p (mapOpsTweak i o)) = entryBid r o := by
  rw [entryBid, entryBid, sentTweak, sentOrdTweak, mapOpsTweak]
  by_cases h1 : r.opId = i <;> by_cases h2 : o.orderId = p.orderId <;> simp [h1, h2]

theorem entryAsk_tweaks (i : Nat) (p r : Operation) (o : Order) :
    entryAsk (sentTweak i r) (sentOrdTweak p (mapOpsTweak i o)) = entryAsk r o := by
  rw [entryAsk, entryAsk, sentTweak, sentOrdTweak, mapOpsTweak]
  by_cases h1 : r.opId = i <;> by_cases h2 : o.orderId = p.orderId <;> simp [h1, h2]

theorem sentTweak_orderId (i : Nat) (r : Operation) : (sentTweak i r).orderId = r.orderId := by
  rw [sentTweak]
  by_cases h : r.opId = i <;> simp [h]

theorem findOp_stUpdate (st : EngineState) (i : Nat) (p : Operation) (book : List Nat) (j : Nat) :
    findOp { sendStateUpdate st i p with marketOperations := book } j =
      (findOp st j).map (sentTweak i) := by
  have h1 : findOp { sendStateUpdate st i p with marketOperations := book } j =
      findOp (sendStateUpdate st i p) j := rfl
  rw [h1, sendStateUpdate, findOp_updateOrderState, findOp_setOpState]
  rfl

theorem findOrder_stUpdate (st : EngineState) (i : Nat) (p : Operation) (book : List Nat)
    (oid : Nat) :
    findOrder { sendStateUpdate st i p with marketOperations := book } oid =
      ((findOrder st oid).map (mapOpsTweak i)).map (sentOrdTweak p) := by
  have h1 : findOrder { sendStateUpdate st i p with marketOperations := book } oid =
      findOrder (sendStateUpdate st i p) oid := rfl
  rw [h1, sendStateUpdate, findOrder_updateOrderState]
  have h2 : findOrder (setOpState st i OperationState.SentToMarket) oid =
      (findOrder st oid).map (mapOpsTweak i) := by
    rw [setOpState, updateOp]
    exact findOrder_mapOps st _ oid
  rw [h2]
  rfl

theorem resolve_stUpdate (st : EngineState) (i : Nat) (p : Operation) (book : List Nat)
    (j : Nat) (p2 : Operation) (o2 : Order)
    (h : resolveBookEntry { sendStateUpdate st i p with marketOperations := book } j =
      some (p2, o2)) :
    ∃ p1 o1, resolveBookEntry st j = some (p1, o1) ∧
      entryBid p2 o2 = entryBid p1 o1 ∧ entryAsk p2 o2 = entryAsk p1 o1 := by
  obtain ⟨hfop, hford⟩ := resolveBookEntry_elim _ j p2 o2 h
  rw [findOp_stUpdate] at hfop
  rcases h1 : findOp st j with _ | p1
  · rw [h1] at hfop
    cases hfop
  · rw [h1] at hfop
    have hp2 : p2 = sentTweak i p1 := (Option.some.inj hfop).symm
    have hp2id : p2.orderId = p1.orderId := by
      rw [hp2]
      exact sentTweak_orderId i p1
    rw [findOrder_stUpdate, hp2id] at hford
    rcases h2 : findOrder st p1.orderId with _ | o1
    · rw [h2] at hford
      cases hford
    · rw [h2] at hford
      simp only [Option.map_map, Option.map_eq_some'] at hford
      obtain ⟨o1', ho1', ho2⟩ := hford
      have ho1'eq : o1' = o1 := (Option.some.inj ho1').symm
      refine ⟨p1, o1, resolveBookEntry_some st j p1 o1 h1 h2, ?_, ?_⟩
      · rw [← ho2, ← ho1'eq, hp2]
        simp only [Function.comp_apply]
        exact entryBid_tweaks i p p1 o1'
      · rw [← ho2, ← ho1'eq, hp2]
        simp only [Function.comp_apply]
        exact entryAsk_tweaks i p p1 o1'

theorem updateBook_mem (book : List Nat) (p : Operation) (book' : List Nat)
    (hN : book.Nodup)
    (h : UpdateMarketBook book p = Except.ok book') :
    ∀ j ∈ book', j = p.opId ∨ (j ∈ book ∧ p.previousOperation ≠ some j) := by
  intro j hj
  rw [UpdateMarketBook] at h
  rcases hprev : p.previousOperation with _ | prevId
  · simp only [hprev] at h
    have hb : book' = bookAppend book p := (Except.ok.inj h).symm
    rw [hb, bookAppend] at hj
    by_cases ht : p.operationType = OperationType.InsertOrder ∨
        p.operationType = OperationType.AmendOrder ∨ p.operationType = OperationType.InsertQuote
    · rw [if_pos ht] at hj
      rcases List.mem_append.mp hj with h2 | h2
      · exact Or.inr ⟨h2, by simp⟩
      · exact Or.inl (List.mem_singleton.mp h2)
    · rw [if_neg ht] at hj
      exact Or.inr ⟨hj, by simp⟩
  · simp only [hprev] at h
    by_cases hc : book.contains prevId
    · rw [if_pos hc] at h
      have hb : book' = bookAppend (book.erase prevId) p := (Except.ok.inj h).symm
      rw [hb, bookAppend] at hj
      have hmem : ∀ k, k ∈ book.erase prevId → k ∈ book ∧ prevId ≠ k := by
        intro k hk
        exact ⟨List.mem_of_mem_erase hk, fun he => ((List.Nodup.mem_erase_iff hN).mp hk).1 he.symm⟩
      by_cases ht : p.operationType = OperationType.InsertOrder ∨
          p.operationType = OperationType.AmendOrder ∨ p.operationType = OperationType.InsertQuote
      · rw [if_pos ht] at hj
        rcases List.mem_append.mp hj with h2 | h2
        · obtain ⟨hm, hne⟩ := hmem j h2
          exact Or.inr ⟨hm, by simp [hne]⟩
        · exact Or.inl (List.mem_singleton.mp h2)
      · rw [if_neg ht] at hj
        obtain ⟨hm, hne⟩ := hmem j hj
        exact Or.inr ⟨hm, by simp [hne]⟩
    · rw [if_neg hc] at h
      cases h

theorem updateBook_mem_delete (book : List Nat) (p : Operation) (book' : List Nat)
    (hN : book.Nodup) (htype : p.operationType = OperationType.DeleteOrder)
    (h : UpdateMarketBook book p = Except.ok book') :
    ∀ j ∈ book', j ∈ book ∧ p.previousOperation ≠ some j := by
  intro j hj
  have hnapp : ∀ b : List Nat, bookAppend b p = b := by
    intro b
    rw [bookAppend, if_neg]
    simp [htype]
  rw [UpdateMarketBook] at h
  rcases hprev : p.previousOperation with _ | prevId
  · simp only [hprev] at h
    have hb : book' = bookAppend book p := (Except.ok.inj h).symm
    rw [hb, hnapp] at hj
    exact ⟨hj, by simp⟩
  · simp only [hprev] at h
    by_cases hc : book.contains prevId
    · rw [if_pos hc] at h
      have hb : book' = bookAppend (book.erase prevId) p := (Except.ok.inj h).symm
      rw [hb, hnapp] at hj
      refine ⟨List.mem_of_mem_erase hj, ?_⟩
      have hne := ((List.Nodup.mem_erase_iff hN).mp hj).1
      simp only [ne_eq, Option.some.injEq]
      exact fun he => hne he.symm
    · rw [if_neg hc] at h
      cases h

theorem askScanMin_le_unacked (st : EngineState) (p : Operation) (hp : p ∈ quoteOps st)
    (hact : activeAsk p = true) (hna : p.operationState ≠ OperationState.Acked) :
    askScanMin st ≤ p.askPrice := by
  rw [askScanMin, quoteAskScan_eq]
  exact le_trans (min_le_right _ _) (minUnackedAskFrom_mem _ _ p hp hact hna)

theorem unacked_le_bidScanMax (st : EngineState) (p : Operation) (hp : p ∈ quoteOps st)
    (hact : activeBid p = true) (hna : p.operationState ≠ OperationState.Acked) :
    p.bidPrice ≤ bidScanMax st := by
  rw [bidScanMax, quoteBidScan_eq]
  exact le_trans (maxUnackedBidFrom_mem _ _ p hp hact hna) (le_max_right _ _)

theorem quote_order_eq (st : EngineState) (hI : InvCore st) (o : Order) (ho : o ∈ st.orders)
    (hq : o.isQuote = true) : findOrder st st.quotesId = some o ∧ o.orderId = st.quotesId := by
  have hid := hI.isQuoteId o ho hq
  exact ⟨hid ▸ findOrder_of_mem st hI.ordersNodup o ho, hid⟩

theorem entry_resolve_facts (st : EngineState) (hI : InvCore st) (j : Nat)
    (hj : j ∈ st.marketOperations) (p' : Operation) (o' : Order)
    (hres : resolveBookEntry st j = some (p', o')) :
    o' ∈ st.orders ∧ o'.orderId = p'.orderId ∧ lastDispatched o' = some p' ∧ j = p'.opId ∧
      isDeleteType p'.operationType = false ∧ p' ∈ o'.operations := by
  obtain ⟨hfop, hford⟩ := resolveBookEntry_elim st j p' o' hres
  obtain ⟨homem, hoid⟩ := findOrder_some st p'.orderId o' hford
  obtain ⟨d, hd, hjd⟩ := hI.entryOut o' homem j hj p' hfop hoid.symm
  obtain ⟨l1, l2, hops, _, _⟩ := lastDispatched_decomp o' d hd
  have hdmem : d ∈ o'.operations := by
    rw [hops]
    exact List.mem_append_right _ (List.mem_cons_self _ _)
  have hdall : d ∈ allOps st := (mem_allOps st d).mpr ⟨o', homem, hdmem⟩
  have hfd : findOp st d.opId = some d := findOp_of_mem st hI.opsNodup d hdall
  rw [← hjd, hfop] at hfd
  have hpd : p' = d := Option.some.inj hfd
  obtain ⟨p2, o2, hp2, _, _, hnodel2⟩ := hI.bookResolves j hj
  rw [hfop] at hp2
  have hpp2 : p' = p2 := Option.some.inj hp2
  refine ⟨homem, hoid, ?_, ?_, ?_, ?_⟩
  · rw [← hpd] at hd
    exact hd
  · rw [hjd, hpd]
  · rw [hpp2]
    exact hnodel2
  · rw [hpd]
    exact hdmem

theorem entryBid_elim (p : Operation) (o : Order) (b : Int) (h : entryBid p o = some b) :
    (o.isQuote = true ∧ p.bidQty > -1 ∧ b = p.bidPrice) ∨
      (o.isQuote = false ∧ o.side = Side.Buy ∧ b = p.price) := by
  rw [entryBid] at h
  by_cases hq : o.isQuote
  · rw [if_pos hq] at h
    by_cases hb : p.bidQty > -1
    · rw [if_pos hb] at h
      exact Or.inl ⟨hq, hb, (Option.some.inj h).symm⟩
    · rw [if_neg hb] at h
      cases h
  · rw [if_neg hq] at h
    by_cases hs : o.side = Side.Buy
    · rw [if_pos hs] at h
      exact Or.inr ⟨by simp [hq], hs, (Option.some.inj h).symm⟩
    · rw [if_neg hs] at h
      cases h

theorem entryAsk_elim (p : Operation) (o : Order) (a : Int) (h : entryAsk p o = some a) :
    (o.isQuote = true ∧ p.askQty > -1 ∧ a = p.askPrice) ∨
      (o.isQuote = false ∧ o.side = Side.Sell ∧ a = p.price) := by
  rw [entryAsk] at h
  by_cases hq : o.isQuote
  · rw [if_pos hq] at h
    by_cases hb : p.askQty > -1
    · rw [if_pos hb] at h
      exact Or.inl ⟨hq, hb, (Option.some.inj h).symm⟩
    · rw [if_neg hb] at h
      cases h
  · rw [if_neg hq] at h
    by_cases hs : o.side = Side.Sell
    · rw [if_pos hs] at h
      exact Or.inr ⟨by simp [hq], hs, (Option.some.inj h).symm⟩
    · rw [if_neg hs] at h
      cases h

theorem newPairs_sep (st : EngineState) (hI : InvCore st) (hNoQD : NoQD st)
    (hInd : ∀ r ∈ allOps st, r.operationState = OperationState.Initial →
      r.operationType ≠ OperationType.DeleteOrder)
    (p : Operation) (O : Order)
    (hO : findOrder st p.orderId = some O) (hOmem : O ∈ st.orders)
    (hpmem : p ∈ O.operations) (hpNA : p.operationState ≠ OperationState.Acked)
    (hnd : isDeleteType p.operationType = false)
    (hOlive : O.isQuote = false → liveOrd O)
    (hchain : p.previousOperation = (lastDispatched O).map (fun r => r.opId)) :
    (∀ j ∈ st.marketOperations, p.previousOperation ≠ some j →
      ∀ p' o' b a, resolveBookEntry st j = some (p', o') →
        entryBid p' o' = some b → entryAsk p O = some a → b < a) ∧
    (∀ j ∈ st.marketOperations, p.previousOperation ≠ some j →
      ∀ p' o' b a, resolveBookEntry st j = some (p', o') →
        entryBid p O = some b → entryAsk p' o' = some a → b < a) ∧
    (∀ b a, entryBid p O = some b → entryAsk p O = some a → b < a) := by
  have hOtype : O.isQuote = false →
      livePriceRelevant p = true := by
    intro hOq
    rcases hI.orderOpWF O hOmem hOq p hpmem with h | h | h
    · simp [livePriceRelevant, h]
    · simp [livePriceRelevant, h]
    · exact absurd hnd (by simp [isDeleteType, h])
  have hpql : O.isQuote = true → p ∈ quoteOps st ∧ p.bidPrice < p.askPrice ∧
      activeAsk p = true ∧ activeBid p = true := by
    intro hOq
    obtain ⟨hqf, _⟩ := quote_order_eq st hI O hOmem hOq
    have hqops : quoteOps st = O.operations := by
      rw [quoteOps, hqf]
    have hpq : p ∈ quoteOps st := by
      rw [hqops]
      exact hpmem
    obtain ⟨_, hba, hbq, haq⟩ := hI.quoteOpWF p hpq
    refine ⟨hpq, hba, ?_, ?_⟩
    · simp only [activeAsk, decide_eq_true_eq]
      omega
    · simp only [activeBid, decide_eq_true_eq]
      omega
  have hquoteContra : ∀ j ∈ st.marketOperations, p.previousOperation ≠ some j →
      ∀ p' o', resolveBookEntry st j = some (p', o') → o'.isQuote = true →
      O.isQuote = true → False := by
    intro j hj hjne p' o' hres hq' hOq
    obtain ⟨homem', hoid', hld', hjid', hnd', hp'mem⟩ := entry_resolve_facts st hI j hj p' o' hres
    obtain ⟨hqfind, _⟩ := quote_order_eq st hI o' homem' hq'
    obtain ⟨hOfind, _⟩ := quote_order_eq st hI O hOmem hOq
    have hOO' : o' = O := by
      rw [hqfind] at hOfind
      exact Option.some.inj hOfind
    rw [hOO'] at hld'
    have hprev : p.previousOperation = some p'.opId := by
      rw [hchain, hld']
      rfl
    rw [hjid'] at hjne
    exact hjne hprev
  refine ⟨?_, ?_, ?_⟩
  · -- old bid against new ask
    intro j hj hjne p' o' b a hres hb ha
    obtain ⟨homem', hoid', hld', hjid', hnd', hp'mem⟩ := entry_resolve_facts st hI j hj p' o' hres
    obtain ⟨hfop, hford⟩ := resolveBookEntry_elim st j p' o' hres
    rcases entryAsk_elim p O a ha with ⟨hOq, _, haval⟩ | ⟨hOq, hOside, haval⟩
    · -- O is the quote; new ask is p.askPrice
      obtain ⟨hpq, _, _, _⟩ := hpql hOq
      rcases entry_owner_live st hI hNoQD hInd j hj p' o' hfop hford with hq' | ⟨hq', hlive'⟩
      · exact absurd (hquoteContra j hj hjne p' o' hres hq' hOq) not_false
      · rcases entryBid_elim p' o' b hb with ⟨hq2, _, _⟩ | ⟨_, hside', hbval⟩
        · rw [hq2] at hq'
          cases hq'
        · -- live buy order entry against the new quote ask
          have hcov := coverage_nonquote st hI o' homem' hq' p' hld' hnd'
          have h1 : b ≤ GetLivePrice (fun a b => max a b) o' := by
            rw [hbval]
            exact hcov.2
          have h2 := hI.sepQA o' homem' hq' hside' hlive'
          have h3 : askScanMin st ≤ p.askPrice := by
            obtain ⟨hpq2, _, hactA, _⟩ := hpql hOq
            exact askScanMin_le_unacked st p hpq2 hactA hpNA
          rw [haval]
          exact lt_of_le_of_lt h1 (lt_of_lt_of_le h2 h3)
    · -- O is a regular sell order; new ask is p.price
      have hrel := hOtype hOq
      have hlive := hOlive hOq
      have hple : GetLivePrice (fun a b => min a b) O ≤ p.price :=
        getLivePrice_min_le_unacked O p hpmem hrel hpNA
      rcases entry_owner_live st hI hNoQD hInd j hj p' o' hfop hford with hq' | ⟨hq', hlive'⟩
      · -- quote bid entry against the new sell
        rcases entryBid_elim p' o' b hb with ⟨_, _, hbval⟩ | ⟨hq2, _, _⟩
        · obtain ⟨hqfind, _⟩ := quote_order_eq st hI o' homem' hq'
          have hcov := coverage_quote st hI o' hqfind p' hld'
          have h2 := hI.sepQB O hOmem hOq hOside hlive
          rw [haval, hbval]
          exact lt_of_le_of_lt hcov.2 (lt_of_lt_of_le h2 hple)
        · rw [hq'] at hq2
          cases hq2
      · -- order bid entry against the new sell
        rcases entryBid_elim p' o' b hb with ⟨hq2, _, _⟩ | ⟨_, hside', hbval⟩
        · rw [hq2] at hq'
          cases hq'
        · have hcov := coverage_nonquote st hI o' homem' hq' p' hld' hnd'
          have h2 := hI.sep o' homem' O hOmem hq' hOq hside' hOside hlive' hlive
          rw [haval, hbval]
          exact lt_of_le_of_lt hcov.2 (lt_of_lt_of_le h2 hple)
  · -- new bid against old ask
    intro j hj hjne p' o' b a hres hb ha
    obtain ⟨homem', hoid', hld', hjid', hnd', hp'mem⟩ := entry_resolve_facts st hI j hj p' o' hres
    obtain ⟨hfop, hford⟩ := resolveBookEntry_elim st j p' o' hres
    rcases entryBid_elim p O b hb with ⟨hOq, _, hbval⟩ | ⟨hOq, hOside, hbval⟩
    · -- O is the quote; new bid is p.bidPrice
      obtain ⟨hpq, _, _, hactB⟩ := hpql hOq
      rcases entry_owner_live st hI hNoQD hInd j hj p' o' hfop hford with hq' | ⟨hq', hlive'⟩
      · exact absurd (hquoteContra j hj hjne p' o' hres hq' hOq) not_false
      · rcases entryAsk_elim p' o' a ha with ⟨hq2, _, _⟩ | ⟨_, hside', haval⟩
        · rw [hq2] at hq'
          cases hq'
        · -- new quote bid against a live sell entry
          have hcov := coverage_nonquote st hI o' homem' hq' p' hld' hnd'
          have h2 := hI.sepQB o' homem' hq' hside' hlive'
          have h3 : p.bidPrice ≤ bidScanMax st := unacked_le_bidScanMax st p hpq hactB hpNA
          rw [haval, hbval]
          exact lt_of_le_of_lt h3 (lt_of_lt_of_le h2 hcov.1)
    · -- O is a regular buy order; new bid is p.price
      have hrel := hOtype hOq
      have hlive := hOlive hOq
      have hple : p.price ≤ GetLivePrice (fun a b => max a b) O :=
        unacked_le_getLivePrice_max O p hpmem hrel hpNA
      rcases entry_owner_live st hI hNoQD hInd j hj p' o' hfop hford with hq' | ⟨hq', hlive'⟩
      · -- new buy against the quote ask entry
        rcases entryAsk_elim p' o' a ha with ⟨_, _, haval⟩ | ⟨hq2, _, _⟩
        · obtain ⟨hqfind, _⟩ := quote_order_eq st hI o' homem' hq'
          have hcov := coverage_quote st hI o' hqfind p' hld'
          have h2 := hI.sepQA O hOmem hOq hOside hlive
          rw [haval, hbval]
          exact lt_of_le_of_lt hple (lt_of_lt_of_le h2 hcov.1)
        · rw [hq'] at hq2
          cases hq2
      · -- new buy against a live sell entry
        rcases entryAsk_elim p' o' a ha with ⟨hq2, _, _⟩ | ⟨_, hside', haval⟩
        · rw [hq2] at hq'
          cases hq'
        · have hcov := coverage_nonquote st hI o' homem' hq' p' hld' hnd'
          have h2 := hI.sep O hOmem o' homem' hOq hq' hOside hside' hlive hlive'
          rw [haval, hbval]
          exact lt_of_le_of_lt hple (lt_of_lt_of_le h2 hcov.1)
  · -- the new entry against itself
    intro b a hb ha
    rcases entryBid_elim p O b hb with ⟨hOq, _, hbval⟩ | ⟨hOq, hOside, _⟩
    · rcases entryAsk_elim p O a ha with ⟨_, _, haval⟩ | ⟨hq2, _, _⟩
      · obtain ⟨_, hba, _, _⟩ := hpql hOq
        rw [haval, hbval]
        exact hba
      · rw [hOq] at hq2
        cases hq2
    · rcases entryAsk_elim p O a ha with ⟨hq2, _, _⟩ | ⟨_, hside2, _⟩
      · rw [hq2] at hOq
        cases hOq
      · rw [hOside] at hside2
        cases hside2

theorem deleteDispatch_sep (st : EngineState) (i : Nat) (p : Operation)
    (hbookSep : BookSep st) (hnodupB : st.marketOperations.Nodup)
    (htype : p.operationType = OperationType.DeleteOrder)
    (book' : List Nat) (hbook : UpdateMarketBook st.marketOperations p = Except.ok book') :
    BookSep { sendStateUpdate st i p with marketOperations := book' } := by
  intro j hj k hk p2 o2 p2' o2' b a hres2 hres2' hb ha
  obtain ⟨pj, oj, hresj, hbj, haj⟩ := resolve_stUpdate st i p book' j p2 o2 hres2
  obtain ⟨pk, ok, hresk, hbk, hak⟩ := resolve_stUpdate st i p book' k p2' o2' hres2'
  rw [hbj] at hb
  rw [hak] at ha
  obtain ⟨hjm, _⟩ := updateBook_mem_delete st.marketOperations p book' hnodupB htype hbook j hj
  obtain ⟨hkm, _⟩ := updateBook_mem_delete st.marketOperations p book' hnodupB htype hbook k hk
  exact hbookSep j hjm k hkm pj oj pk ok b a hresj hresk hb ha

theorem deleteDispatch_not_cross (st : EngineState) (i : Nat) (p : Operation)
    (hbookSep : BookSep st) (hnodupB : st.marketOperations.Nodup)
    (htype : p.operationType = OperationType.DeleteOrder)
    (book' : List Nat) (hbook : UpdateMarketBook st.marketOperations p = Except.ok book') :
    InCross { sendStateUpdate st i p with marketOperations := book' } = false :=
  bookSep_inCross_false _ (deleteDispatch_sep st i p hbookSep hnodupB htype book' hbook)

theorem updateMarketBook_error (book : List Nat) (p : Operation) (e : Err)
    (h : UpdateMarketBook book p = Except.error e) : e = Err.missingPrev := by
  rw [UpdateMarketBook] at h
  rcases hprev : p.previousOperation with _ | prevId
  · simp only [hprev] at h
    cases h
  · simp only [hprev] at h
    by_cases hc : book.contains prevId
    · rw [if_pos hc] at h
      cases h
    · rw [if_neg hc] at h
      exact (Except.error.inj h).symm

theorem updateBook_sep (st : EngineState) (i : Nat) (p : Operation)
    (hfind : findOp st i = some p) (O : Order) (hO : findOrder st p.orderId = some O)
    (hbookSep : BookSep st)
    (hnodupB : st.marketOperations.Nodup)
    (book' : List Nat) (hbook : UpdateMarketBook st.marketOperations p = Except.ok book')
    (hPObid : ∀ j ∈ st.marketOperations, p.previousOperation ≠ some j →
      ∀ p' o' b a, resolveBookEntry st j = some (p', o') →
        entryBid p' o' = some b → entryAsk p O = some a → b < a)
    (hPOask : ∀ j ∈ st.marketOperations, p.previousOperation ≠ some j →
      ∀ p' o' b a, resolveBookEntry st j = some (p', o') →
        entryBid p O = some b → entryAsk p' o' = some a → b < a)
    (hself : ∀ b a, entryBid p O = some b → entryAsk p O = some a → b < a) :
    BookSep { sendStateUpdate st i p with marketOperations := book' } := by
  have hpid : p.opId = i := (findOp_some_facts st i p hfind).2
  have hresSt : resolveBookEntry st i = some (p, O) := resolveBookEntry_some st i p O hfind hO
  intro j hj k hk p2 o2 p2' o2' b a hres2 hres2' hb ha
  have hj' : j ∈ book' := hj
  have hk' : k ∈ book' := hk
  obtain ⟨pj, oj, hresj, hbj, haj⟩ := resolve_stUpdate st i p book' j p2 o2 hres2
  obtain ⟨pk, ok, hresk, hbk, hak⟩ := resolve_stUpdate st i p book' k p2' o2' hres2'
  rw [hbj] at hb
  rw [hak] at ha
  rcases updateBook_mem st.marketOperations p book' hnodupB hbook j hj' with hji | ⟨hjm, hjne⟩ <;>
    rcases updateBook_mem st.marketOperations p book' hnodupB hbook k hk' with hki | ⟨hkm, hkne⟩
  · -- both are the new entry
    have hj2 : resolveBookEntry st j = some (p, O) := by rw [hji, hpid] at hresj ⊢; exact hresSt
    have hk2 : resolveBookEntry st k = some (p, O) := by rw [hki, hpid] at hresk ⊢; exact hresSt
    rw [hresj] at hj2
    rw [hresk] at hk2
    obtain ⟨hpj, hoj⟩ := Prod.mk.inj (Option.some.inj hj2)
    obtain ⟨hpk, hok⟩ := Prod.mk.inj (Option.some.inj hk2)
    rw [hpj, hoj] at hb
    rw [hpk, hok] at ha
    exact hself b a hb ha
  · -- new entry's bid against an old entry's ask
    have hj2 : resolveBookEntry st j = some (p, O) := by rw [hji, hpid] at hresj ⊢; exact hresSt
    rw [hresj] at hj2
    obtain ⟨hpj, hoj⟩ := Prod.mk.inj (Option.some.inj hj2)
    rw [hpj, hoj] at hb
    exact hPOask k hkm hkne pk ok b a hresk hb ha
  · -- old entry's bid against the new entry's ask
    have hk2 : resolveBookEntry st k = some (p, O) := by rw [hki, hpid] at hresk ⊢; exact hresSt
    rw [hresk] at hk2
    obtain ⟨hpk, hok⟩ := Prod.mk.inj (Option.some.inj hk2)
    rw [hpk, hok] at ha
    exact hPObid j hjm hjne pj oj b a hresj hb ha
  · exact hbookSep j hjm k hkm pj oj pk ok b a hresj hresk hb ha

theorem updateBook_not_cross (st : EngineState) (i : Nat) (p : Operation)
    (hfind : findOp st i = some p) (O : Order) (hO : findOrder st p.orderId = some O)
    (hbookSep : BookSep st)
    (hnodupB : st.marketOperations.Nodup)
    (book2 : List Nat) (hbook : UpdateMarketBook st.marketOperations p = Except.ok book2)
    (hPObid : ∀ j ∈ st.marketOperations, p.previousOperation ≠ some j →
      ∀ p2 o2 b a, resolveBookEntry st j = some (p2, o2) →
        entryBid p2 o2 = some b → entryAsk p O = some a → b < a)
    (hPOask : ∀ j ∈ st.marketOperations, p.previousOperation ≠ some j →
      ∀ p2 o2 b a, resolveBookEntry st j = some (p2, o2) →
        entryBid p O = some b → entryAsk p2 o2 = some a → b < a)
    (hself : ∀ b a, entryBid p O = some b → entryAsk p O = some a → b < a) :
    InCross { sendStateUpdate st i p with marketOperations := book2 } = false :=
  bookSep_inCross_false _
    (updateBook_sep st i p hfind O hO hbookSep hnodupB book2 hbook hPObid hPOask hself)

theorem sendToMarket_ok_elim (st : EngineState) (i : Nat) (p : Operation)
    (hfind : findOp st i = some p) (st' : EngineState)
    (hok : SendToMarket st i = Except.ok st') :
    ∃ book', UpdateMarketBook st.marketOperations p = Except.ok book' ∧
      InCross { sendStateUpdate st i p with marketOperations := book' } = false ∧
      st' = { sendStateUpdate st i p with marketOperations := book' } := by
  rw [sendToMarket_eq st i p hfind] at hok
  rcases hub : UpdateMarketBook st.marketOperations p with e | book'
  · simp only [hub] at hok
    exact Except.noConfusion hok
  · simp only [hub] at hok
    by_cases hc : InCross { sendStateUpdate st i p with marketOperations := book' }
    · rw [if_pos hc] at hok
      cases hok
    · rw [if_neg hc] at hok
      exact ⟨book', rfl, by simpa using hc, (Except.ok.inj hok).symm⟩

theorem sendToMarket_safe (st : EngineState) (hI : InvCore st)
    (i : Nat) (p : Operation)
    (hInd : isDeleteType p.operationType = false → ∀ r ∈ allOps st,
      r.operationState = OperationState.Initial →
      r.operationType ≠ OperationType.DeleteOrder)
    (hfind : findOp st i = some p) (O : Order) (hO : findOrder st p.orderId = some O)
    (hOmem : O ∈ st.orders)
    (hpmem : p ∈ O.operations) (hpNA : p.operationState ≠ OperationState.Acked)
    (hchain : p.previousOperation = (lastDispatched O).map (fun r => r.opId))
    (hOlive : O.isQuote = false → isDeleteType p.operationType = false → liveOrd O)
    (hNoQD : isDeleteType p.operationType = false → NoQD st) :
    SendToMarket st i ≠ Except.error Err.inCross := by
  rw [sendToMarket_eq st i p hfind]
  rcases hub : UpdateMarketBook st.marketOperations p with e | book'
  · intro hcontra
    have he : e = Err.inCross := Except.error.inj hcontra
    have := updateMarketBook_error st.marketOperations p e hub
    rw [he] at this
    cases this
  · by_cases hdel : isDeleteType p.operationType = true
    · have htype : p.operationType = OperationType.DeleteOrder := by
        by_cases hq : O.isQuote
        · obtain ⟨hqf, _⟩ := quote_order_eq st hI O hOmem hq
          have hpq : p ∈ quoteOps st := by
            rw [quoteOps, hqf]
            exact hpmem
          have := (hI.quoteOpWF p hpq).1
          rw [isDeleteType, this] at hdel
          simp at hdel
        · rcases hI.orderOpWF O hOmem (by simp [hq]) p hpmem with h | h | h
          · rw [isDeleteType, h] at hdel
            simp at hdel
          · rw [isDeleteType, h] at hdel
            simp at hdel
          · exact h
      have hnc := deleteDispatch_not_cross st i p hI.bookSep hI.bookNodup htype book' hub
      simp [hnc]
    · have hnd : isDeleteType p.operationType = false := by
        cases h : isDeleteType p.operationType
        · rfl
        · exact absurd h hdel
      obtain ⟨hPObid, hPOask, hself⟩ := newPairs_sep st hI (hNoQD hnd) (hInd hnd) p O hO hOmem hpmem
        hpNA hnd (fun hq => hOlive hq hnd) hchain
      have hnc := updateBook_not_cross st i p hfind O hO hI.bookSep hI.bookNodup book' hub
        hPObid hPOask hself
      simp [hnc]

/-! ### Transport toolkit for the dispatch preservation proof. -/

theorem map_sentTweak_id (i : Nat) (l : List Operation) (h : ∀ r ∈ l, r.opId ≠ i) :
    l.map (sentTweak i) = l := by
  refine (List.map_congr_left (fun r hr => ?_)).trans (List.map_id _)
  rw [sentTweak, if_neg (h r hr)]
  rfl

theorem sentTweak_fields (i : Nat) (r : Operation) :
    (sentTweak i r).opId = r.opId ∧ (sentTweak i r).orderId = r.orderId ∧
    (sentTweak i r).operationType = r.operationType ∧ (sentTweak i r).price = r.price ∧
    (sentTweak i r).previousOperation = r.previousOperation ∧
    (sentTweak i r).bidPrice = r.bidPrice ∧ (sentTweak i r).askPrice = r.askPrice ∧
    (sentTweak i r).bidQty = r.bidQty ∧ (sentTweak i r).askQty = r.askQty := by
  rw [sentTweak]
  by_cases h : r.opId = i <;> simp [h]

theorem sentTweak_queued (i : Nat) (r : Operation)
    (h : (sentTweak i r).operationState = OperationState.Queued) :
    r.operationState = OperationState.Queued ∧ r.opId ≠ i := by
  rw [sentTweak] at h
  by_cases hc : r.opId = i
  · rw [if_pos hc] at h
    cases h
  · rw [if_neg hc] at h
    exact ⟨h, hc⟩

theorem sentTweak_acked (i : Nat) (r : Operation) :
    (sentTweak i r).operationState = OperationState.Acked ↔
      r.operationState = OperationState.Acked ∧ r.opId ≠ i := by
  rw [sentTweak]
  by_cases hc : r.opId = i
  · rw [if_pos hc]
    simp [hc]
  · rw [if_neg hc]
    simp [hc]

theorem orders_stUpdate (st : EngineState) (i : Nat) (p : Operation) (book : List Nat) :
    ({ sendStateUpdate st i p with marketOperations := book } : EngineState).orders =
      st.orders.map (fun o => sentOrdTweak p (mapOpsTweak i o)) := by
  show (sendStateUpdate st i p).orders = _
  rw [sendStateUpdate, setOpState, updateOp, updateOrder]
  show (st.orders.map _).map _ = _
  rw [List.map_map]
  rfl

theorem flatMap_operations_map (l : List Order) (F : Order → Order) (g : Operation → Operation)
    (h : ∀ o, (F o).operations = o.operations.map g) :
    (l.map F).flatMap (fun o => o.operations) =
      (l.flatMap (fun o => o.operations)).map g := by
  induction l with
  | nil => rfl
  | cons x t ih =>
    rw [List.map_cons, List.flatMap_cons, List.flatMap_cons, List.map_append, h x, ih]

theorem allOps_stUpdate (st : EngineState) (i : Nat) (p : Operation) (book : List Nat) :
    allOps { sendStateUpdate st i p with marketOperations := book } =
      (allOps st).map (sentTweak i) := by
  rw [allOps, allOps, orders_stUpdate]
  refine flatMap_operations_map st.orders _ (sentTweak i) (fun o => ?_)
  rw [sentOrdTweak]
  by_cases hc : (mapOpsTweak i o).orderId = p.orderId
  · rw [if_pos hc]
    rfl
  · rw [if_neg hc]
    rfl

theorem owner_unique (st : EngineState)
    (hops : ((allOps st).map (fun p => p.opId)).Nodup)
    (hord : (st.orders.map (fun o => o.orderId)).Nodup)
    (hown : ∀ o ∈ st.orders, ∀ p ∈ o.operations, p.orderId = o.orderId)
    (o1 : Order) (h1 : o1 ∈ st.orders) (o2 : Order) (h2 : o2 ∈ st.orders)
    (q1 : Operation) (hq1 : q1 ∈ o1.operations) (q2 : Operation) (hq2 : q2 ∈ o2.operations)
    (hid : q1.opId = q2.opId) : q1 = q2 ∧ o1 = o2 := by
  have hm1 : q1 ∈ allOps st := (mem_allOps st q1).mpr ⟨o1, h1, hq1⟩
  have hm2 : q2 ∈ allOps st := (mem_allOps st q2).mpr ⟨o2, h2, hq2⟩
  have hqq : q1 = q2 := List.inj_on_of_nodup_map hops hm1 hm2 hid
  refine ⟨hqq, ?_⟩
  have ho1 := hown o1 h1 q1 hq1
  have ho2 := hown o2 h2 q2 hq2
  rw [hqq] at ho1
  exact List.inj_on_of_nodup_map hord h1 h2 (by rw [← ho1, ← ho2])

theorem foldl_livePrice_congr (cmp : Int → Int → Int) (g : Operation → Operation)
    (l : List Operation)
    (h : ∀ r ∈ l, (g r).price = r.price ∧ (g r).operationType = r.operationType ∧
      ((g r).operationState = OperationState.Acked ↔ r.operationState = OperationState.Acked)) :
    ∀ acc : Int × Int, (l.map g).foldl (livePriceStep cmp) acc = l.foldl (livePriceStep cmp) acc := by
  induction l with
  | nil => intro acc; rfl
  | cons x t ih =>
    intro acc
    rw [List.map_cons, List.foldl_cons, List.foldl_cons]
    obtain ⟨hp, ht, ha⟩ := h x (List.mem_cons_self _ _)
    have hstep : livePriceStep cmp acc (g x) = livePriceStep cmp acc x := by
      rw [livePriceStep, livePriceStep, hp, ht]
      by_cases hrel : x.operationType = OperationType.AmendOrder ∨
          x.operationType = OperationType.InsertOrder
      · rw [if_pos hrel, if_pos hrel]
        by_cases hack : x.operationState = OperationState.Acked
        · rw [if_pos (ha.mpr hack), if_pos hack]
        · rw [if_neg (fun hc => hack (ha.mp hc)), if_neg hack]
      · rw [if_neg hrel, if_neg hrel]
    rw [hstep]
    exact ih (fun r hr => h r (List.mem_cons_of_mem _ hr)) _

theorem getLivePrice_map_congr (cmp : Int → Int → Int) (o : Order) (g : Operation → Operation)
    (h : ∀ r ∈ o.operations, (g r).price = r.price ∧ (g r).operationType = r.operationType ∧
      ((g r).operationState = OperationState.Acked ↔ r.operationState = OperationState.Acked)) :
    GetLivePrice cmp { o with operations := o.operations.map g } = GetLivePrice cmp o := by
  show cmp ((o.operations.map g).foldl (livePriceStep cmp) (o.price, o.price)).1
      ((o.operations.map g).foldl (livePriceStep cmp) (o.price, o.price)).2 = _
  rw [foldl_livePrice_congr cmp g o.operations h]
  rfl

theorem foldl_askScan_congr (g : Operation → Operation) (l : List Operation)
    (h : ∀ r ∈ l, (g r).askPrice = r.askPrice ∧ (g r).askQty = r.askQty ∧
      ((g r).operationState = OperationState.Acked ↔ r.operationState = OperationState.Acked)) :
    ∀ acc : Int × Int, (l.map g).foldl quoteAskStep acc = l.foldl quoteAskStep acc := by
  induction l with
  | nil => intro acc; rfl
  | cons x t ih =>
    intro acc
    rw [List.map_cons, List.foldl_cons, List.foldl_cons]
    obtain ⟨hp, hq, ha⟩ := h x (List.mem_cons_self _ _)
    have hstep : quoteAskStep acc (g x) = quoteAskStep acc x := by
      rw [quoteAskStep, quoteAskStep, hp, hq]
      by_cases hqty : x.askQty = -1
      · rw [if_pos hqty, if_pos hqty]
      · rw [if_neg hqty, if_neg hqty]
        by_cases hack : x.operationState = OperationState.Acked
        · rw [if_pos (ha.mpr hack), if_pos hack]
        · rw [if_neg (fun hc => hack (ha.mp hc)), if_neg hack]
    rw [hstep]
    exact ih (fun r hr => h r (List.mem_cons_of_mem _ hr)) _

theorem foldl_bidScan_congr (g : Operation → Operation) (l : List Operation)
    (h : ∀ r ∈ l, (g r).bidPrice = r.bidPrice ∧ (g r).bidQty = r.bidQty ∧
      ((g r).operationState = OperationState.Acked ↔ r.operationState = OperationState.Acked)) :
    ∀ acc : Int × Int, (l.map g).foldl quoteBidStep acc = l.foldl quoteBidStep acc := by
  induction l with
  | nil => intro acc; rfl
  | cons x t ih =>
    intro acc
    rw [List.map_cons, List.foldl_cons, List.foldl_cons]
    obtain ⟨hp, hq, ha⟩ := h x (List.mem_cons_self _ _)
    have hstep : quoteBidStep acc (g x) = quoteBidStep acc x := by
      rw [quoteBidStep, quoteBidStep, hp, hq]
      by_cases hqty : x.bidQty = -1
      · rw [if_pos hqty, if_pos hqty]
      · rw [if_neg hqty, if_neg hqty]
        by_cases hack : x.operationState = OperationState.Acked
        · rw [if_pos (ha.mpr hack), if_pos hack]
        · rw [if_neg (fun hc => hack (ha.mp hc)), if_neg hack]
    rw [hstep]
    exact ih (fun r hr => h r (List.mem_cons_of_mem _ hr)) _

theorem map_dropLast_comm {A B : Type} (f : A → B) (l : List A) :
    (l.map f).dropLast = l.dropLast.map f := by
  rw [List.dropLast_eq_take, List.dropLast_eq_take, List.length_map, List.map_take]

theorem queuedLastL_map (g : Operation → Operation) (l : List Operation)
    (hg : ∀ r, (g r).operationState = OperationState.Queued →
      r.operationState = OperationState.Queued)
    (h : QueuedLastL l) : QueuedLastL (l.map g) := by
  intro r hr
  rw [map_dropLast_comm] at hr
  obtain ⟨r0, hr0, hreq⟩ := List.mem_map.mp hr
  intro hq
  rw [← hreq] at hq
  exact h r0 hr0 (hg r0 hq)

theorem deleteLastL_map (g : Operation → Operation) (l : List Operation)
    (hg : ∀ r, (g r).operationType = r.operationType)
    (h : DeleteLastL l) : DeleteLastL (l.map g) := by
  intro r hr
  rw [map_dropLast_comm] at hr
  obtain ⟨r0, hr0, hreq⟩ := List.mem_map.mp hr
  intro hq
  rw [← hreq, hg r0] at hq
  exact h r0 hr0 hq

theorem ackedPrefixL_map (g : Operation → Operation) (l : List Operation)
    (hg : ∀ r ∈ l, (g r).operationState = OperationState.Acked ↔
      r.operationState = OperationState.Acked)
    (h : AckedPrefixL l) : AckedPrefixL (l.map g) := by
  induction l with
  | nil => intro l1 p l2 hdec
           cases l1 <;> cases hdec
  | cons x t ih =>
    rw [List.map_cons, ackedPrefixL_cons]
    rw [ackedPrefixL_cons] at h
    obtain ⟨ht, hx⟩ := h
    refine ⟨ih (fun r hr => hg r (List.mem_cons_of_mem _ hr)) ht, ?_⟩
    rcases hx with h1 | h1
    · exact Or.inl ((hg x (List.mem_cons_self _ _)).mpr h1)
    · right
      intro r hr hra
      obtain ⟨r0, hr0, hreq⟩ := List.mem_map.mp hr
      rw [← hreq] at hra
      exact h1 r0 hr0 ((hg r0 (List.mem_cons_of_mem _ hr0)).mp hra)

theorem updateBook_rev (book : List Nat) (p : Operation) (book2 : List Nat)
    (hN : book.Nodup) (h : UpdateMarketBook book p = Except.ok book2) :
    ∀ j ∈ book, p.previousOperation ≠ some j → j ∈ book2 := by
  intro j hj hjne
  rw [UpdateMarketBook] at h
  rcases hprev : p.previousOperation with _ | prevId
  · simp only [hprev] at h
    rw [← (Except.ok.inj h), bookAppend]
    by_cases ht : p.operationType = OperationType.InsertOrder ∨
        p.operationType = OperationType.AmendOrder ∨ p.operationType = OperationType.InsertQuote
    · rw [if_pos ht]
      exact List.mem_append_left _ hj
    · rw [if_neg ht]
      exact hj
  · simp only [hprev] at h
    by_cases hc : book.contains prevId
    · rw [if_pos hc] at h
      rw [← (Except.ok.inj h), bookAppend]
      have hje : j ∈ book.erase prevId := by
        rw [List.Nodup.mem_erase_iff hN]
        refine ⟨fun he => hjne ?_, hj⟩
        rw [hprev, he]
      by_cases ht : p.operationType = OperationType.InsertOrder ∨
          p.operationType = OperationType.AmendOrder ∨ p.operationType = OperationType.InsertQuote
      · rw [if_pos ht]
        exact List.mem_append_left _ hje
      · rw [if_neg ht]
        exact hje
    · rw [if_neg hc] at h
      cases h

theorem updateBook_new (book : List Nat) (p : Operation) (book2 : List Nat)
    (htype : p.operationType = OperationType.InsertOrder ∨
      p.operationType = OperationType.AmendOrder ∨ p.operationType = OperationType.InsertQuote)
    (h : UpdateMarketBook book p = Except.ok book2) : p.opId ∈ book2 := by
  rw [UpdateMarketBook] at h
  rcases hprev : p.previousOperation with _ | prevId
  · simp only [hprev] at h
    rw [← (Except.ok.inj h), bookAppend, if_pos htype]
    exact List.mem_append_right _ (List.mem_singleton_self _)
  · simp only [hprev] at h
    by_cases hc : book.contains prevId
    · rw [if_pos hc] at h
      rw [← (Except.ok.inj h), bookAppend, if_pos htype]
      exact List.mem_append_right _ (List.mem_singleton_self _)
    · rw [if_neg hc] at h
      cases h

theorem updateBook_nodup (book : List Nat) (p : Operation) (book2 : List Nat)
    (hN : book.Nodup) (hnew : p.opId ∉ book)
    (h : UpdateMarketBook book p = Except.ok book2) : book2.Nodup := by
  rw [UpdateMarketBook] at h
  have happ : ∀ b : List Nat, b.Nodup → p.opId ∉ b → (bookAppend b p).Nodup := by
    intro b hb hnb
    rw [bookAppend]
    by_cases ht : p.operationType = OperationType.InsertOrder ∨
        p.operationType = OperationType.AmendOrder ∨ p.operationType = OperationType.InsertQuote
    · rw [if_pos ht]
      rw [List.nodup_append]
      exact ⟨hb, List.nodup_singleton _, by simpa using hnb⟩
    · rw [if_neg ht]
      exact hb
  rcases hprev : p.previousOperation with _ | prevId
  · simp only [hprev] at h
    rw [← (Except.ok.inj h)]
    exact happ book hN hnew
  · simp only [hprev] at h
    by_cases hc : book.contains prevId
    · rw [if_pos hc] at h
      rw [← (Except.ok.inj h)]
      exact happ _ (List.Nodup.erase _ hN) (fun hm => hnew (List.mem_of_mem_erase hm))
    · rw [if_neg hc] at h
      cases h

theorem lastDispatched_concat (o : Order) (l1 : List Operation) (x : Operation)
    (hops : o.operations = l1 ++ [x]) (hx : isDispatchedOp x = true) :
    lastDispatched o = some x := by
  rw [lastDispatched, hops, List.filter_append, List.filter_cons_of_pos hx]
  show (_ ++ [x]).getLast? = some x
  exact List.getLast?_concat _

theorem ops_sublist_allOps (st : EngineState) (O : Order) (hO : O ∈ st.orders) :
    O.operations.Sublist (allOps st) := by
  obtain ⟨a, b, hdec⟩ := List.append_of_mem hO
  rw [allOps, hdec, List.flatMap_append, List.flatMap_cons]
  exact ((List.sublist_append_left _ _).trans (List.sublist_append_right _ _))

theorem ops_ids_nodup (st : EngineState)
    (h : ((allOps st).map (fun p => p.opId)).Nodup)
    (O : Order) (hO : O ∈ st.orders) : (O.operations.map (fun p => p.opId)).Nodup :=
  List.Nodup.sublist (List.Sublist.map _ (ops_sublist_allOps st O hO)) h

theorem op_owner_mem (st : EngineState)
    (hord : (st.orders.map (fun o => o.orderId)).Nodup)
    (hown : ∀ o ∈ st.orders, ∀ r ∈ o.operations, r.orderId = o.orderId)
    (p : Operation) (hp : p ∈ allOps st) (O : Order)
    (hO : findOrder st p.orderId = some O) : p ∈ O.operations := by
  obtain ⟨o, ho, hpo⟩ := (mem_allOps st p).mp hp
  obtain ⟨hOmem, hOid⟩ := findOrder_some st p.orderId O hO
  have hoo : o = O := by
    refine List.inj_on_of_nodup_map hord ho hOmem ?_
    rw [hOid, ← hown o ho p hpo]
  rw [← hoo]
  exact hpo

theorem queued_nondelete_live (st : EngineState) (hI : InvCore st)
    (O : Order) (hOmem : O ∈ st.orders) (p : Operation) (hpmem : p ∈ O.operations)
    (hq : p.operationState = OperationState.Queued)
    (hnd : isDeleteType p.operationType = false) : liveOrd O := by
  rcases hstate : O.orderState with _ | _ | _ | _
  · exact Or.inr hstate
  · exact Or.inl hstate
  · rcases (hI.stateHist O hOmem).2.2.2 hstate with ⟨qq, hql, hqs, hqt⟩ | ⟨d, hd, hdel⟩
    · have hlast : O.operations.getLast? = some p :=
        queued_getLast _ (hI.queuedLast O hOmem) p hpmem hq
      rw [hlast] at hql
      have : qq = p := (Option.some.inj hql).symm
      rw [this] at hqt
      rw [isDeleteType, hqt] at hnd
      simp at hnd
    · obtain ⟨l1, l2, hops, _, hdd⟩ := lastDispatched_decomp O d hd
      have hdmem : d ∈ O.operations := by
        rw [hops]
        exact List.mem_append_right _ (List.mem_cons_self _ _)
      have hdtype : d.operationType = OperationType.DeleteOrder := by
        by_cases hq2 : O.isQuote
        · obtain ⟨hqf, _⟩ := quote_order_eq st hI O hOmem hq2
          have hdq : d ∈ quoteOps st := by
            rw [quoteOps, hqf]
            exact hdmem
          have := (hI.quoteOpWF d hdq).1
          rw [isDeleteType, this] at hdel
          simp at hdel
        · rcases hI.orderOpWF O hOmem (by simp [hq2]) d hdmem with h | h | h
          · rw [isDeleteType, h] at hdel
            simp at hdel
          · rw [isDeleteType, h] at hdel
            simp at hdel
          · exact h
      have hdl : O.operations.getLast? = some d :=
        delete_getLast _ (hI.deleteLast O hOmem) d hdmem hdtype
      have hpl : O.operations.getLast? = some p :=
        queued_getLast _ (hI.queuedLast O hOmem) p hpmem hq
      rw [hdl] at hpl
      have : d = p := Option.some.inj hpl
      rw [this] at hdd
      rw [isDispatchedOp, hq] at hdd
      simp at hdd
  · obtain ⟨_, hnoq⟩ := (hI.stateHist O hOmem).2.2.1 hstate
    exact absurd hq (hnoq p hpmem)

theorem getLast?_map {A B : Type} (f : A → B) (l : List A) :
    (l.map f).getLast? = l.getLast?.map f := by
  induction l with
  | nil => rfl
  | cons x t ih =>
    cases t with
    | nil => rfl
    | cons y u =>
      rw [List.map_cons, List.map_cons, List.getLast?_cons_cons, ← List.map_cons,
        List.getLast?_cons_cons, ih]

theorem map_key_congr {A B : Type} (l : List A) (f : A → A) (k : A → B)
    (h : ∀ a, k (f a) = k a) : (l.map f).map k = l.map k := by
  rw [List.map_map]
  exact List.map_congr_left (fun a _ => h a)

theorem dispatch_preserves (st : EngineState) (hI : InvCore st)
    (i : Nat) (p : Operation)
    (hfind : findOp st i = some p) (hnd2 : isDispatchedOp p = false)
    (O : Order) (hO : findOrder st p.orderId = some O)
    (hlastp : O.operations.getLast? = some p)
    (hchain : p.previousOperation = (lastDispatched O).map (fun r => r.opId))
    (hOlive : O.isQuote = false → isDeleteType p.operationType = false → liveOrd O)
    (hNoQD : isDeleteType p.operationType = false → NoQD st)
    (hNIx : ∀ r ∈ allOps st, r.operationState = OperationState.Initial → r.opId = i)
    (st' : EngineState) (hok : SendToMarket st i = Except.ok st') :
    InvCore st' ∧ NoInit st' ∧ st'.throttle = st.throttle ∧ st'.nextId = st.nextId ∧
    st'.quotesId = st.quotesId ∧
    (∀ j, findOp st' j = (findOp st j).map (sentTweak i)) ∧
    (NoQD st → NoQD st') := by
  obtain ⟨hOmem, hOid⟩ := findOrder_some st p.orderId O hO
  have hpall : p ∈ allOps st := (findOp_some_facts st i p hfind).1
  have hpid : p.opId = i := (findOp_some_facts st i p hfind).2
  have hpmem : p ∈ O.operations := op_owner_mem st hI.ordersNodup hI.owner p hpall O hO
  have hopsN : (O.operations.map (fun r => r.opId)).Nodup := ops_ids_nodup st hI.opsNodup O hOmem
  obtain ⟨l1, hl1⟩ : ∃ l1, O.operations = l1 ++ [p] := by
    have hne : O.operations ≠ [] := List.ne_nil_of_mem hpmem
    refine ⟨O.operations.dropLast, ?_⟩
    have h1 := List.dropLast_append_getLast hne
    rw [List.getLast?_eq_getLast_of_ne_nil hne] at hlastp
    rw [Option.some.inj hlastp] at h1
    exact h1.symm
  have hl1id : ∀ r ∈ l1, r.opId ≠ i := by
    intro r hr hri
    rw [hl1, List.map_append, List.nodup_append] at hopsN
    refine hopsN.2.2 (List.mem_map.mpr ⟨r, hr, rfl⟩) ?_
    rw [List.map_cons, List.map_nil, hri, ← hpid]
    exact List.mem_singleton_self _
  have huniq : ∀ o ∈ st.orders, ∀ r ∈ o.operations, r.opId = i → o = O ∧ r = p := by
    intro o ho r hr hri
    obtain ⟨hrp, hoO⟩ := owner_unique st hI.opsNodup hI.ordersNodup hI.owner o ho O hOmem
      r hr p hpmem (by rw [hri, hpid])
    exact ⟨hoO, hrp⟩
  have hackiff : ∀ o ∈ st.orders, ∀ r ∈ o.operations,
      ((sentTweak i r).operationState = OperationState.Acked ↔
        r.operationState = OperationState.Acked) := by
    intro o ho r hr
    rw [sentTweak_acked]
    constructor
    · exact fun h => h.1
    · intro h
      refine ⟨h, fun hri => ?_⟩
      have hrp := (huniq o ho r hr hri).2
      rw [hrp] at h
      rw [isDispatchedOp, h] at hnd2
      simp at hnd2
  have hInotbook : i ∉ st.marketOperations := by
    intro hib
    obtain ⟨p2, o2, hp2, _, hdisp2, _⟩ := hI.bookResolves i hib
    rw [hfind] at hp2
    have hpeq : p = p2 := Option.some.inj hp2
    rw [← hpeq] at hdisp2
    rw [hdisp2] at hnd2
    cases hnd2
  obtain ⟨book2, hbook, hnc, hst'⟩ := sendToMarket_ok_elim st i p hfind st' hok
  subst hst'
  have hordeq : ({ sendStateUpdate st i p with marketOperations := book2 } : EngineState).orders =
      st.orders.map (fun o => sentOrdTweak p (mapOpsTweak i o)) := orders_stUpdate st i p book2
  have hGops : ∀ o : Order, (sentOrdTweak p (mapOpsTweak i o)).operations =
      o.operations.map (sentTweak i) := by
    intro o
    rw [sentOrdTweak]
    by_cases hc : (mapOpsTweak i o).orderId = p.orderId
    · rw [if_pos hc]
      rfl
    · rw [if_neg hc]
      rfl
  have hGid : ∀ o : Order, (sentOrdTweak p (mapOpsTweak i o)).orderId = o.orderId := by
    intro o
    rw [sentOrdTweak]
    by_cases hc : (mapOpsTweak i o).orderId = p.orderId
    · rw [if_pos hc]
      rfl
    · rw [if_neg hc]
      rfl
  have hGquote : ∀ o : Order, (sentOrdTweak p (mapOpsTweak i o)).isQuote = o.isQuote := by
    intro o
    rw [sentOrdTweak]
    by_cases hc : (mapOpsTweak i o).orderId = p.orderId
    · rw [if_pos hc]
      rfl
    · rw [if_neg hc]
      rfl
  have hGside : ∀ o : Order, (sentOrdTweak p (mapOpsTweak i o)).side = o.side := by
    intro o
    rw [sentOrdTweak]
    by_cases hc : (mapOpsTweak i o).orderId = p.orderId
    · rw [if_pos hc]
      rfl
    · rw [if_neg hc]
      rfl
  have hGprice : ∀ o : Order, (sentOrdTweak p (mapOpsTweak i o)).price = o.price := by
    intro o
    rw [sentOrdTweak]
    by_cases hc : (mapOpsTweak i o).orderId = p.orderId
    · rw [if_pos hc]
      rfl
    · rw [if_neg hc]
      rfl
  have hFother : ∀ o ∈ st.orders, o.orderId ≠ p.orderId →
      sentOrdTweak p (mapOpsTweak i o) = o := by
    intro o ho hne
    have hid : ∀ r ∈ o.operations, r.opId ≠ i := by
      intro r hr hri
      exact hne (by rw [(huniq o ho r hr hri).1, hOid])
    have hmo : mapOpsTweak i o = o := by
      rw [mapOpsTweak, map_sentTweak_id i _ hid]
    rw [hmo, sentOrdTweak, if_neg hne]
  have hpS : sentTweak i p = { p with operationState := OperationState.SentToMarket } := by
    rw [sentTweak, if_pos hpid]
  have hmo : O.operations.map (sentTweak i) =
      l1 ++ [{ p with operationState := OperationState.SentToMarket }] := by
    rw [hl1, List.map_append, map_sentTweak_id i l1 hl1id, List.map_cons, List.map_nil, hpS]
  have hFO : sentOrdTweak p (mapOpsTweak i O) =
      { O with
          orderState := (if isDeleteType p.operationType then OrderState.DeleteSentToMarket
            else OrderState.OnMarket),
          operations := l1 ++ [{ p with operationState := OperationState.SentToMarket }] } := by
    rw [sentOrdTweak, if_pos (show (mapOpsTweak i O).orderId = p.orderId from
      by rw [← hOid]; rfl)]
    have he : ({ mapOpsTweak i O with orderState :=
        (if isDeleteType p.operationType then OrderState.DeleteSentToMarket
        else OrderState.OnMarket) } : Order) =
        { O with
            orderState := (if isDeleteType p.operationType then OrderState.DeleteSentToMarket
              else OrderState.OnMarket),
            operations := O.operations.map (sentTweak i) } := rfl
    rw [he, hmo]
  have hlastOS : lastDispatched (sentOrdTweak p (mapOpsTweak i O)) =
      some { p with operationState := OperationState.SentToMarket } := by
    refine lastDispatched_concat _ l1 _ (by rw [hFO]) ?_
    rw [isDispatchedOp]
    simp
  have hmemG : ∀ o', o' ∈ ({ sendStateUpdate st i p with marketOperations := book2 } : EngineState).orders ↔
      ∃ o ∈ st.orders, o' = sentOrdTweak p (mapOpsTweak i o) := by
    intro o'
    rw [hordeq, List.mem_map]
    constructor
    · rintro ⟨o, ho, rfl⟩
      exact ⟨o, ho, rfl⟩
    · rintro ⟨o, ho, rfl⟩
      exact ⟨o, ho, rfl⟩
  have hfop' : ∀ j, findOp ({ sendStateUpdate st i p with marketOperations := book2 }) j =
      (findOp st j).map (sentTweak i) := findOp_stUpdate st i p book2
  have hGL : ∀ o ∈ st.orders, ∀ cmp : Int → Int → Int,
      GetLivePrice cmp (sentOrdTweak p (mapOpsTweak i o)) = GetLivePrice cmp o := by
    intro o ho cmp
    have h1 : GetLivePrice cmp (sentOrdTweak p (mapOpsTweak i o)) =
        GetLivePrice cmp { o with operations := o.operations.map (sentTweak i) } := by
      show cmp ((sentOrdTweak p (mapOpsTweak i o)).operations.foldl (livePriceStep cmp)
          ((sentOrdTweak p (mapOpsTweak i o)).price, (sentOrdTweak p (mapOpsTweak i o)).price)).1
          ((sentOrdTweak p (mapOpsTweak i o)).operations.foldl (livePriceStep cmp)
          ((sentOrdTweak p (mapOpsTweak i o)).price, (sentOrdTweak p (mapOpsTweak i o)).price)).2 = _
      rw [hGops, hGprice]
      rfl
    rw [h1]
    refine getLivePrice_map_congr cmp o (sentTweak i) (fun r hr => ?_)
    exact ⟨(sentTweak_fields i r).2.2.2.1, (sentTweak_fields i r).2.2.1, hackiff o ho r hr⟩
  have hscans : quoteOps ({ sendStateUpdate st i p with marketOperations := book2 }) =
      (quoteOps st).map (sentTweak i) := by
    rw [quoteOps, quoteOps]
    have hford := findOrder_stUpdate st i p book2 st.quotesId
    have hqid : ({ sendStateUpdate st i p with marketOperations := book2 } : EngineState).quotesId =
        st.quotesId := rfl
    rw [hqid, hford]
    rcases hfq : findOrder st st.quotesId with _ | qo
    · rfl
    · show (sentOrdTweak p (mapOpsTweak i qo)).operations = qo.operations.map (sentTweak i)
      exact hGops qo
  have hquoteMem : ∀ r ∈ quoteOps st, ∃ o ∈ st.orders, r ∈ o.operations := by
    intro r hr
    rw [quoteOps] at hr
    rcases hfq : findOrder st st.quotesId with _ | qo
    · rw [hfq] at hr
      exact absurd hr (List.not_mem_nil r)
    · rw [hfq] at hr
      exact ⟨qo, (findOrder_some st st.quotesId qo hfq).1, hr⟩
  have haskeq : askScanMin ({ sendStateUpdate st i p with marketOperations := book2 }) =
      askScanMin st := by
    rw [askScanMin, askScanMin, QuoteAskScan, QuoteAskScan, hscans]
    rw [foldl_askScan_congr (sentTweak i) (quoteOps st) (fun r hr => by
      obtain ⟨o, ho, hro⟩ := hquoteMem r hr
      exact ⟨(sentTweak_fields i r).2.2.2.2.2.2.1, (sentTweak_fields i r).2.2.2.2.2.2.2.2,
        hackiff o ho r hro⟩)]
  have hbideq : bidScanMax ({ sendStateUpdate st i p with marketOperations := book2 }) =
      bidScanMax st := by
    rw [bidScanMax, bidScanMax, QuoteBidScan, QuoteBidScan, hscans]
    rw [foldl_bidScan_congr (sentTweak i) (quoteOps st) (fun r hr => by
      obtain ⟨o, ho, hro⟩ := hquoteMem r hr
      exact ⟨(sentTweak_fields i r).2.2.2.2.2.1, (sentTweak_fields i r).2.2.2.2.2.2.2.1,
        hackiff o ho r hro⟩)]
  have hGlive : ∀ o ∈ st.orders, o.isQuote = false →
      liveOrd (sentOrdTweak p (mapOpsTweak i o)) → liveOrd o := by
    intro o ho hqf hl
    by_cases hoid : o.orderId = p.orderId
    · have hoO : o = O := List.inj_on_of_nodup_map hI.ordersNodup ho hOmem (by rw [hoid, hOid])
      subst hoO
      by_cases hdel : isDeleteType p.operationType = true
      · rw [hFO] at hl
        rcases hl with h | h <;> rw [if_pos hdel] at h <;> cases h
      · have hnd : isDeleteType p.operationType = false := by
          cases h2 : isDeleteType p.operationType
          · rfl
          · exact absurd h2 hdel
        exact hOlive hqf hnd
    · rw [hFother o ho hoid] at hl
      exact hl
  have hdelSplit : isDeleteType p.operationType = true ∨ isDeleteType p.operationType = false := by
    cases isDeleteType p.operationType
    · exact Or.inr rfl
    · exact Or.inl rfl
  have htypeDel : isDeleteType p.operationType = true →
      p.operationType = OperationType.DeleteOrder := by
    intro hd
    by_cases hq2 : O.isQuote = true
    · have hqf := (quote_order_eq st hI O hOmem hq2).1
      have hpq : p ∈ quoteOps st := by
        rw [quoteOps, hqf]
        exact hpmem
      have hins := (hI.quoteOpWF p hpq).1
      rw [isDeleteType, hins] at hd
      simp at hd
    · rcases hI.orderOpWF O hOmem (by simp [hq2]) p hpmem with h | h | h
      · rw [isDeleteType, h] at hd
        simp at hd
      · rw [isDeleteType, h] at hd
        simp at hd
      · exact h
  have htype3 : isDeleteType p.operationType = false →
      (p.operationType = OperationType.InsertOrder ∨
       p.operationType = OperationType.AmendOrder ∨
       p.operationType = OperationType.InsertQuote) := by
    intro hnd
    by_cases hq2 : O.isQuote = true
    · have hqf := (quote_order_eq st hI O hOmem hq2).1
      have hpq : p ∈ quoteOps st := by
        rw [quoteOps, hqf]
        exact hpmem
      exact Or.inr (Or.inr (hI.quoteOpWF p hpq).1)
    · rcases hI.orderOpWF O hOmem (by simp [hq2]) p hpmem with h | h | h
      · exact Or.inl h
      · exact Or.inr (Or.inl h)
      · rw [isDeleteType, h] at hnd
        simp at hnd
  have hallOps' : allOps ({ sendStateUpdate st i p with marketOperations := book2 }) =
      (allOps st).map (sentTweak i) := allOps_stUpdate st i p book2
  have hford : ∀ oid, findOrder ({ sendStateUpdate st i p with marketOperations := book2 }) oid =
      (findOrder st oid).map (fun o => sentOrdTweak p (mapOpsTweak i o)) := by
    intro oid
    rw [findOrder_stUpdate, Option.map_map]
    rfl
  have hfO' : findOrder ({ sendStateUpdate st i p with marketOperations := book2 }) p.orderId =
      some (sentOrdTweak p (mapOpsTweak i O)) := by
    rw [hford p.orderId, hO]
    rfl
  have hcase2 : ∀ o ∈ st.orders,
      (sentOrdTweak p (mapOpsTweak i o) = o ∧ o ≠ O) ∨ o = O := by
    intro o ho
    by_cases hoO : o = O
    · exact Or.inr hoO
    · left
      refine ⟨hFother o ho (fun he => hoO ?_), hoO⟩
      exact List.inj_on_of_nodup_map hI.ordersNodup ho hOmem (by rw [he, hOid])
  refine ⟨⟨?_, ?_, ?_, ?_, ?_, ?_, ?_, ?_, ?_, ?_, ?_, ?_, ?_, ?_, ?_, ?_, ?_, ?_, ?_, ?_, ?_,
    ?_, ?_⟩, ?_, rfl, rfl, rfl, hfop', ?_⟩
  · -- ordersNodup
    rw [hordeq, map_key_congr st.orders _ _ hGid]
    exact hI.ordersNodup
  · -- opsNodup
    rw [hallOps', map_key_congr (allOps st) _ _ (fun r => (sentTweak_fields i r).1)]
    exact hI.opsNodup
  · -- owner
    intro o' ho' r hr
    obtain ⟨o, ho, rfl⟩ := (hmemG _).mp ho'
    rw [hGops] at hr
    obtain ⟨r0, hr0, rfl⟩ := List.mem_map.mp hr
    rw [(sentTweak_fields i r0).2.1, hGid]
    exact hI.owner o ho r0 hr0
  · -- opsFresh
    intro r hr
    rw [hallOps'] at hr
    obtain ⟨r0, hr0, rfl⟩ := List.mem_map.mp hr
    rw [(sentTweak_fields i r0).1]
    exact hI.opsFresh r0 hr0
  · -- ordersFresh
    intro o' ho'
    obtain ⟨o, ho, rfl⟩ := (hmemG _).mp ho'
    rw [hGid]
    exact hI.ordersFresh o ho
  · -- bookNodup
    exact updateBook_nodup st.marketOperations p book2 hI.bookNodup
      (by rw [hpid]; exact hInotbook) hbook
  · -- bookResolves
    intro j hj
    have hold : ∀ m ∈ st.marketOperations, ∃ r o,
        findOp ({ sendStateUpdate st i p with marketOperations := book2 }) m = some r ∧
        findOrder ({ sendStateUpdate st i p with marketOperations := book2 }) r.orderId = some o ∧
        isDispatchedOp r = true ∧ isDeleteType r.operationType = false := by
      intro m hm
      obtain ⟨p2, o2, hp2, ho2, hdisp2, hnd2⟩ := hI.bookResolves m hm
      have hmni : m ≠ i := fun hee => hInotbook (hee ▸ hm)
      have hp2id : p2.opId = m := (findOp_some_facts st m p2 hp2).2
      have htw : sentTweak i p2 = p2 := by
        rw [sentTweak, if_neg (by rw [hp2id]; exact hmni)]
      refine ⟨p2, sentOrdTweak p (mapOpsTweak i o2), ?_, ?_, hdisp2, hnd2⟩
      · rw [hfop' m, hp2]
        show some (sentTweak i p2) = some p2
        rw [htw]
      · rw [hford p2.orderId, ho2]
        rfl
    rcases hdelSplit with hdel | hnd
    · exact hold j (updateBook_mem_delete st.marketOperations p book2 hI.bookNodup
        (htypeDel hdel) hbook j hj).1
    · rcases updateBook_mem st.marketOperations p book2 hI.bookNodup hbook j hj with
        hji | ⟨hjm, _⟩
      · refine ⟨sentTweak i p, sentOrdTweak p (mapOpsTweak i O), ?_, ?_, ?_, ?_⟩
        · rw [hji, hpid, hfop' i, hfind]
          rfl
        · rw [(sentTweak_fields i p).2.1]
          exact hfO'
        · rw [hpS]
          simp [isDispatchedOp]
        · rw [(sentTweak_fields i p).2.2.1]
          exact hnd
      · exact hold j hjm
  · -- quoteWF
    obtain ⟨q0, hq0, hq0q⟩ := hI.quoteWF
    refine ⟨sentOrdTweak p (mapOpsTweak i q0), ?_, ?_⟩
    · show findOrder ({ sendStateUpdate st i p with marketOperations := book2 }) st.quotesId =
        some (sentOrdTweak p (mapOpsTweak i q0))
      rw [hford st.quotesId, hq0]
      rfl
    · rw [hGquote]
      exact hq0q
  · -- isQuoteId
    intro o' ho' hq'
    obtain ⟨o, ho, rfl⟩ := (hmemG _).mp ho'
    rw [hGquote] at hq'
    rw [hGid]
    exact hI.isQuoteId o ho hq'
  · -- quoteOpWF
    intro r hr
    rw [hscans] at hr
    obtain ⟨r0, hr0, rfl⟩ := List.mem_map.mp hr
    obtain ⟨ht, hlt, hbq, haq⟩ := hI.quoteOpWF r0 hr0
    refine ⟨?_, ?_, ?_, ?_⟩
    · rw [(sentTweak_fields i r0).2.2.1]
      exact ht
    · rw [(sentTweak_fields i r0).2.2.2.2.2.1, (sentTweak_fields i r0).2.2.2.2.2.2.1]
      exact hlt
    · rw [(sentTweak_fields i r0).2.2.2.2.2.2.2.1]
      exact hbq
    · rw [(sentTweak_fields i r0).2.2.2.2.2.2.2.2]
      exact haq
  · -- orderOpWF
    intro o' ho' hq' r hr
    obtain ⟨o, ho, rfl⟩ := (hmemG _).mp ho'
    rw [hGquote] at hq'
    rw [hGops] at hr
    obtain ⟨r0, hr0, rfl⟩ := List.mem_map.mp hr
    rw [(sentTweak_fields i r0).2.2.1]
    exact hI.orderOpWF o ho hq' r0 hr0
  · -- queuedLast
    intro o' ho'
    obtain ⟨o, ho, rfl⟩ := (hmemG _).mp ho'
    rw [hGops]
    exact queuedLastL_map (sentTweak i) o.operations
      (fun r h => (sentTweak_queued i r h).1) (hI.queuedLast o ho)
  · -- ackedPrefix
    intro o' ho'
    obtain ⟨o, ho, rfl⟩ := (hmemG _).mp ho'
    rw [hGops]
    exact ackedPrefixL_map (sentTweak i) o.operations
      (fun r hr => hackiff o ho r hr) (hI.ackedPrefix o ho)
  · -- deleteLast
    intro o' ho'
    obtain ⟨o, ho, rfl⟩ := (hmemG _).mp ho'
    rw [hGops]
    exact deleteLastL_map (sentTweak i) o.operations
      (fun r => (sentTweak_fields i r).2.2.1) (hI.deleteLast o ho)
  · -- chain
    intro o' ho' q hlast hqq
    obtain ⟨o, ho, rfl⟩ := (hmemG _).mp ho'
    rcases hcase2 o ho with ⟨he, _⟩ | hoO
    · rw [he] at hlast ⊢
      exact hI.chain o ho q hlast hqq
    · rw [hoO] at hlast
      rw [hGops, hmo, List.getLast?_concat] at hlast
      rw [← Option.some.inj hlast] at hqq
      have h2 : OperationState.SentToMarket = OperationState.Queued := hqq
      cases h2
  · -- entryIn
    intro o' ho' d hd hdnd
    obtain ⟨o, ho, rfl⟩ := (hmemG _).mp ho'
    rcases hcase2 o ho with ⟨he, hneO⟩ | hoO
    · rw [he] at hd
      have hmem := hI.entryIn o ho d hd hdnd
      have hdmem : d ∈ o.operations := by
        obtain ⟨u1, u2, hops, _, _⟩ := lastDispatched_decomp o d hd
        rw [hops]
        exact List.mem_append_right _ (List.mem_cons_self _ _)
      refine updateBook_rev st.marketOperations p book2 hI.bookNodup hbook d.opId hmem ?_
      rw [hchain]
      rcases hld : lastDispatched O with _ | dO
      · simp
      · intro hcon
        have hdO : dO.opId = d.opId := Option.some.inj hcon
        have hdOmem : dO ∈ O.operations := by
          obtain ⟨u1, u2, hops, _, _⟩ := lastDispatched_decomp O dO hld
          rw [hops]
          exact List.mem_append_right _ (List.mem_cons_self _ _)
        obtain ⟨_, hoOeq⟩ := owner_unique st hI.opsNodup hI.ordersNodup hI.owner
          o ho O hOmem d hdmem dO hdOmem hdO.symm
        exact hneO hoOeq
    · rw [hoO] at hd
      have hdps : d = { p with operationState := OperationState.SentToMarket } := by
        rw [hlastOS] at hd
        exact (Option.some.inj hd).symm
      rcases hdelSplit with hdel | hnd
      · exfalso
        rw [hdps] at hdnd
        have h2 : isDeleteType p.operationType = false := hdnd
        rw [hdel] at h2
        cases h2
      · rw [hdps]
        show p.opId ∈ book2
        exact updateBook_new st.marketOperations p book2 (htype3 hnd) hbook
  · -- entryOut
    intro o' ho' j hj r hfr hro
    obtain ⟨o, ho, rfl⟩ := (hmemG _).mp ho'
    rw [hfop' j] at hfr
    rcases hfj : findOp st j with _ | r0
    · rw [hfj] at hfr
      cases hfr
    · rw [hfj] at hfr
      have hrr : r = sentTweak i r0 := by
        have h2 : some (sentTweak i r0) = some r := hfr
        exact (Option.some.inj h2).symm
      rw [hrr, (sentTweak_fields i r0).2.1, hGid] at hro
      rcases hcase2 o ho with ⟨he, hneO⟩ | hoO
      · rw [he]
        rcases hdelSplit with hdel | hnd
        · exact hI.entryOut o ho j (updateBook_mem_delete st.marketOperations p book2
            hI.bookNodup (htypeDel hdel) hbook j hj).1 r0 hfj hro
        · rcases updateBook_mem st.marketOperations p book2 hI.bookNodup hbook j hj with
            hji | ⟨hjm, _⟩
          · exfalso
            have hr0p : r0 = p := by
              rw [hji, hpid, hfind] at hfj
              exact (Option.some.inj hfj).symm
            rw [hr0p] at hro
            exact hneO (List.inj_on_of_nodup_map hI.ordersNodup ho hOmem
              (by rw [hOid]; exact hro.symm))
          · exact hI.entryOut o ho j hjm r0 hfj hro
      · rw [hoO] at hro ⊢
        refine ⟨{ p with operationState := OperationState.SentToMarket }, hlastOS, ?_⟩
        rcases hdelSplit with hdel | hnd
        · exfalso
          obtain ⟨hjm, hjne⟩ := updateBook_mem_delete st.marketOperations p book2
            hI.bookNodup (htypeDel hdel) hbook j hj
          obtain ⟨d, hd, hjd⟩ := hI.entryOut O hOmem j hjm r0 hfj hro
          apply hjne
          rw [hchain, hd]
          show some d.opId = some j
          rw [hjd]
        · rcases updateBook_mem st.marketOperations p book2 hI.bookNodup hbook j hj with
            hji | ⟨hjm, hjne⟩
          · rw [hji]
          · exfalso
            obtain ⟨d, hd, hjd⟩ := hI.entryOut O hOmem j hjm r0 hfj hro
            apply hjne
            rw [hchain, hd]
            show some d.opId = some j
            rw [hjd]
  · -- stateHist
    intro o' ho'
    obtain ⟨o, ho, rfl⟩ := (hmemG _).mp ho'
    rcases hcase2 o ho with ⟨he, _⟩ | hoO
    · rw [he]
      exact hI.stateHist o ho
    · rw [hoO]
      rcases hdelSplit with hdel | hnd
      · have hstate : (sentOrdTweak p (mapOpsTweak i O)).orderState =
            OrderState.DeleteSentToMarket := by
          rw [hFO]
          show (if isDeleteType p.operationType = true then OrderState.DeleteSentToMarket
            else OrderState.OnMarket) = OrderState.DeleteSentToMarket
          rw [if_pos hdel]
        refine ⟨?_, ?_, ?_, ?_⟩
        · intro h
          rw [hstate] at h
          cases h
        · intro h
          rw [hstate] at h
          cases h
        · intro h
          rw [hstate] at h
          cases h
        · intro _
          right
          refine ⟨{ p with operationState := OperationState.SentToMarket }, hlastOS, ?_⟩
          show isDeleteType p.operationType = true
          exact hdel
      · have hstate : (sentOrdTweak p (mapOpsTweak i O)).orderState = OrderState.OnMarket := by
          rw [hFO]
          show (if isDeleteType p.operationType = true then OrderState.DeleteSentToMarket
            else OrderState.OnMarket) = OrderState.OnMarket
          rw [if_neg (by rw [hnd]; exact Bool.false_ne_true)]
        refine ⟨?_, ?_, ?_, ?_⟩
        · intro h
          rw [hstate] at h
          cases h
        · intro _
          exact ⟨{ p with operationState := OperationState.SentToMarket }, hlastOS, hnd⟩
        · intro h
          rw [hstate] at h
          cases h
        · intro h
          rw [hstate] at h
          cases h
  · -- queuedDelZombie
    intro o' ho' r hr hrq hrt
    obtain ⟨o, ho, rfl⟩ := (hmemG _).mp ho'
    rcases hcase2 o ho with ⟨he, _⟩ | hoO
    · rw [he] at hr ⊢
      exact hI.queuedDelZombie o ho r hr hrq hrt
    · rw [hoO] at hr
      exfalso
      rw [hGops, hmo] at hr
      rcases List.mem_append.mp hr with h1 | h1
      · have h2 : r ∈ O.operations.dropLast := by
          rw [hl1, List.dropLast_concat]
          exact h1
        exact hI.queuedLast O hOmem r h2 hrq
      · rw [List.mem_singleton.mp h1] at hrq
        have h3 : OperationState.SentToMarket = OperationState.Queued := hrq
        cases h3
  · -- sep
    intro b' hb' s' hs' hbq hsq hbside hsside hbl hsl
    obtain ⟨b, hb, rfl⟩ := (hmemG _).mp hb'
    obtain ⟨s, hs, rfl⟩ := (hmemG _).mp hs'
    rw [hGquote] at hbq hsq
    rw [hGside] at hbside hsside
    rw [hGL b hb, hGL s hs]
    exact hI.sep b hb s hs hbq hsq hbside hsside (hGlive b hb hbq hbl) (hGlive s hs hsq hsl)
  · -- sepQA
    intro b' hb' hbq hbside hbl
    obtain ⟨b, hb, rfl⟩ := (hmemG _).mp hb'
    rw [hGquote] at hbq
    rw [hGside] at hbside
    rw [hGL b hb, haskeq]
    exact hI.sepQA b hb hbq hbside (hGlive b hb hbq hbl)
  · -- sepQB
    intro s' hs' hsq hsside hsl
    obtain ⟨s, hs, rfl⟩ := (hmemG _).mp hs'
    rw [hGquote] at hsq
    rw [hGside] at hsside
    rw [hGL s hs, hbideq]
    exact hI.sepQB s hs hsq hsside (hGlive s hs hsq hsl)
  · -- bookSep
    rcases hdelSplit with hdel | hnd
    · exact deleteDispatch_sep st i p hI.bookSep hI.bookNodup (htypeDel hdel) book2 hbook
    · have hInd : ∀ r ∈ allOps st, r.operationState = OperationState.Initial →
          r.operationType ≠ OperationType.DeleteOrder := by
        intro r hr hri hcon
        have hrid : r.opId = i := hNIx r hr hri
        have hfr : findOp st r.opId = some r := findOp_of_mem st hI.opsNodup r hr
        rw [hrid, hfind] at hfr
        have hrp : p = r := Option.some.inj hfr
        rw [← hrp] at hcon
        rw [isDeleteType, hcon] at hnd
        simp at hnd
      obtain ⟨h1, h2, h3⟩ := newPairs_sep st hI (hNoQD hnd) hInd p O hO hOmem hpmem
        (fun hcon => by rw [isDispatchedOp, hcon] at hnd2; simp at hnd2) hnd
        (fun hqf => hOlive hqf hnd) hchain
      exact updateBook_sep st i p hfind O hO hI.bookSep hI.bookNodup book2 hbook h1 h2 h3
  · -- NoInit
    intro r hr
    rw [hallOps'] at hr
    obtain ⟨r0, hr0, rfl⟩ := List.mem_map.mp hr
    intro hcon
    rw [sentTweak] at hcon
    by_cases hc : r0.opId = i
    · rw [if_pos hc] at hcon
      cases hcon
    · rw [if_neg hc] at hcon
      exact hc (hNIx r0 hr0 hcon)
  · -- NoQD is preserved
    intro hnq r hr hrq
    rw [hallOps'] at hr
    obtain ⟨r0, hr0, rfl⟩ := List.mem_map.mp hr
    obtain ⟨hq0, _⟩ := sentTweak_queued i r0 hrq
    rw [(sentTweak_fields i r0).2.2.1]
    exact hnq r0 hr0 hq0

theorem invCore_throttle (st : EngineState) (V : List Nat) (h : InvCore st) :
    InvCore { st with throttle := V } :=
  ⟨h.ordersNodup, h.opsNodup, h.owner, h.opsFresh, h.ordersFresh, h.bookNodup, h.bookResolves,
   h.quoteWF, h.isQuoteId, h.quoteOpWF, h.orderOpWF, h.queuedLast, h.ackedPrefix, h.deleteLast,
   h.chain, h.entryIn, h.entryOut, h.stateHist, h.queuedDelZombie, h.sep, h.sepQA, h.sepQB,
   h.bookSep⟩

theorem dispatch_sound (st : EngineState) (hI : InvCore st) (hNI : NoInit st)
    (i : Nat) (p : Operation) (hfind : findOp st i = some p)
    (hq : p.operationState = OperationState.Queued)
    (hNoQD : isDeleteType p.operationType = false → NoQD st) :
    (SendToMarket st i ≠ Except.error Err.inCross) ∧
    (∀ st', SendToMarket st i = Except.ok st' →
      InvCore st' ∧ NoInit st' ∧ st'.throttle = st.throttle ∧ st'.nextId = st.nextId ∧
      st'.quotesId = st.quotesId ∧
      (∀ j, findOp st' j = (findOp st j).map (sentTweak i)) ∧
      (NoQD st → NoQD st')) := by
  have hpall : p ∈ allOps st := (findOp_some_facts st i p hfind).1
  obtain ⟨O, hOmem, hpmem⟩ := (mem_allOps st p).mp hpall
  have hOid : p.orderId = O.orderId := hI.owner O hOmem p hpmem
  have hO : findOrder st p.orderId = some O := by
    rw [hOid]
    exact findOrder_of_mem st hI.ordersNodup O hOmem
  have hchain : p.previousOperation = (lastDispatched O).map (fun r => r.opId) :=
    hI.chain O hOmem p (queued_getLast _ (hI.queuedLast O hOmem) p hpmem hq) hq
  constructor
  · exact sendToMarket_safe st hI i p
      (fun _ r hr hri => absurd hri (hNI r hr)) hfind O hO hOmem hpmem
      (fun hcon => by rw [hq] at hcon; cases hcon) hchain
      (fun _ hnd => queued_nondelete_live st hI O hOmem p hpmem hq hnd) hNoQD
  · intro st' hok
    exact dispatch_preserves st hI i p hfind
      (by rw [isDispatchedOp, hq]; simp) O hO
      (queued_getLast _ (hI.queuedLast O hOmem) p hpmem hq) hchain
      (fun hqf hnd => queued_nondelete_live st hI O hOmem p hpmem hq hnd) hNoQD
      (fun r hr hri => absurd hri (hNI r hr)) st' hok

theorem drainPass_sound (del : Bool) (l : List Nat) :
    ∀ st w K, InvCore st → NoInit st →
    (K ++ l).Nodup →
    (∀ t ∈ K ++ l, ∃ p, findOp st t = some p ∧ p.operationState = OperationState.Queued) →
    (∀ p ∈ allOps st, p.operationState = OperationState.Queued → p.opId ∈ K ++ l) →
    (del = false → 0 < w → NoQD st) →
    (drainPass del st w l ≠ Except.error Err.inCross) ∧
    (∀ st' w' l', drainPass del st w l = Except.ok (st', w', l') →
      InvCore st' ∧ NoInit st' ∧
      st'.throttle = st.throttle ∧ st'.nextId = st.nextId ∧ st'.quotesId = st.quotesId ∧
      (K ++ l').Nodup ∧
      (∀ t ∈ K ++ l', ∃ p, findOp st' t = some p ∧
        p.operationState = OperationState.Queued) ∧
      (∀ p ∈ allOps st', p.operationState = OperationState.Queued → p.opId ∈ K ++ l') ∧
      (NoQD st → NoQD st') ∧
      l'.Sublist l ∧
      (∀ j p0, findOp st j = some p0 → ∃ p1, findOp st' j = some p1 ∧
        p1.operationType = p0.operationType) ∧
      (0 < w' → ∀ t ∈ l', ∃ p, findOp st' t = some p ∧
        isDeleteType p.operationType ≠ del)) := by
  induction l with
  | nil =>
    intro st w K hI hNI hnd hQ hreg hNoQ
    constructor
    · intro hcon
      rw [drainPass] at hcon
      cases hcon
    · intro st' w' l' hok
      rw [drainPass] at hok
      obtain ⟨h1, h23⟩ := Prod.mk.inj (Except.ok.inj hok)
      obtain ⟨h2, h3⟩ := Prod.mk.inj h23
      subst h1
      rw [← h3]
      refine ⟨hI, hNI, rfl, rfl, rfl, by simpa using hnd, by simpa using hQ,
        by simpa using hreg, fun h => h, List.Sublist.refl _,
        fun j p0 h => ⟨p0, h, rfl⟩, fun _ t ht => absurd ht (List.not_mem_nil t)⟩
  | cons tid rest ih =>
    intro st w K hI hNI hnd hQ hreg hNoQ
    by_cases hw : w = 0
    · subst hw
      constructor
      · intro hcon
        rw [drainPass, if_pos rfl] at hcon
        cases hcon
      · intro st' w' l' hok
        rw [drainPass, if_pos rfl] at hok
        obtain ⟨h1, h23⟩ := Prod.mk.inj (Except.ok.inj hok)
        obtain ⟨h2, h3⟩ := Prod.mk.inj h23
        subst h1
        rw [← h3]
        refine ⟨hI, hNI, rfl, rfl, rfl, hnd, hQ, hreg, fun h => h, List.Sublist.refl _,
          fun j p0 h => ⟨p0, h, rfl⟩, ?_⟩
        intro hw'
        rw [← h2] at hw'
        exact absurd hw' (by simp)
    · obtain ⟨p, hfp, hpq⟩ := hQ tid (List.mem_append_right _ (List.mem_cons_self _ _))
      have hpid : p.opId = tid := (findOp_some_facts st tid p hfp).2
      have htidK : tid ∉ K := by
        intro hK
        rw [List.nodup_append] at hnd
        exact hnd.2.2 hK (List.mem_cons_self _ _)
      have htidR : tid ∉ rest := by
        rw [List.nodup_append] at hnd
        exact fun hR => (List.nodup_cons.mp hnd.2.1).1 hR
      by_cases hdel : isDeleteType p.operationType = del
      · -- dispatch branch
        have hNoQD : isDeleteType p.operationType = false → NoQD st := by
          intro hndel
          refine hNoQ ?_ (Nat.pos_of_ne_zero hw)
          rw [← hdel, hndel]
        obtain ⟨hsafe, hpres⟩ := dispatch_sound st hI hNI tid p hfp hpq hNoQD
        constructor
        · intro hcon
          rw [drainPass, if_neg hw] at hcon
          simp only [hfp] at hcon
          rw [if_pos hdel] at hcon
          rcases hsm : SendToMarket st tid with e | st1
          · simp only [hsm] at hcon
            exact hsafe (by rw [hsm, Except.error.inj hcon])
          · simp only [hsm] at hcon
            obtain ⟨hI1, hNI1, hth1, hnx1, hqi1, hcong1, hNoQD1⟩ := hpres st1 hsm
            have hQ1 : ∀ t ∈ K ++ rest, ∃ q, findOp st1 t = some q ∧
                q.operationState = OperationState.Queued := by
              intro t ht
              have htne : t ≠ tid := by
                intro he
                subst he
                rcases List.mem_append.mp ht with h2 | h2
                · exact htidK h2
                · exact htidR h2
              obtain ⟨q0, hq0, hq0s⟩ := hQ t (by
                rcases List.mem_append.mp ht with h2 | h2
                · exact List.mem_append_left _ h2
                · exact List.mem_append_right _ (List.mem_cons_of_mem _ h2))
              have hq0id : q0.opId = t := (findOp_some_facts st t q0 hq0).2
              refine ⟨sentTweak tid q0, ?_, ?_⟩
              · rw [hcong1 t, hq0]
                rfl
              · rw [sentTweak, if_neg (by rw [hq0id]; exact htne)]
                exact hq0s
            have hreg1 : ∀ q ∈ allOps st1, q.operationState = OperationState.Queued →
                q.opId ∈ K ++ rest := by
              intro q hqm hqs
              have hfq : findOp st1 q.opId = some q := findOp_of_mem st1 hI1.opsNodup q hqm
              rw [hcong1 q.opId] at hfq
              rcases hf0 : findOp st q.opId with _ | q0
              · rw [hf0] at hfq
                cases hfq
              · rw [hf0] at hfq
                have hq0q : q = sentTweak tid q0 := by
                  have h2 : some (sentTweak tid q0) = some q := hfq
                  exact (Option.some.inj h2).symm
                rw [hq0q] at hqs
                obtain ⟨hq0s, hq0ne⟩ := sentTweak_queued tid q0 hqs
                have hq0all : q0 ∈ allOps st := (findOp_some_facts st q.opId q0 hf0).1
                have hq0id : q0.opId = q.opId := (findOp_some_facts st q.opId q0 hf0).2
                have hmem := hreg q0 hq0all hq0s
                rw [hq0id] at hmem hq0ne
                rcases List.mem_append.mp hmem with h2 | h2
                · exact List.mem_append_left _ h2
                · rcases List.mem_cons.mp h2 with h3 | h3
                  · exact absurd h3 hq0ne
                  · exact List.mem_append_right _ h3
            have hnd1 : (K ++ rest).Nodup := by
              refine List.Nodup.sublist ?_ hnd
              exact List.Sublist.append_left (List.sublist_cons_self _ _) K
            have hNoQ1 : del = false → 0 < w - 1 → NoQD st1 := by
              intro hdf hw1
              refine hNoQD1 (hNoQ hdf (Nat.pos_of_ne_zero hw))
            obtain ⟨ihsafe, ihok⟩ := ih st1 (w - 1) K hI1 hNI1 hnd1 hQ1 hreg1 hNoQ1
            exact ihsafe hcon
        · intro st' w' l' hok
          rw [drainPass, if_neg hw] at hok
          simp only [hfp] at hok
          rw [if_pos hdel] at hok
          rcases hsm : SendToMarket st tid with e | st1
          · simp only [hsm] at hok
            cases hok
          · simp only [hsm] at hok
            obtain ⟨hI1, hNI1, hth1, hnx1, hqi1, hcong1, hNoQD1⟩ := hpres st1 hsm
            have hQ1 : ∀ t ∈ K ++ rest, ∃ q, findOp st1 t = some q ∧
                q.operationState = OperationState.Queued := by
              intro t ht
              have htne : t ≠ tid := by
                intro he
                subst he
                rcases List.mem_append.mp ht with h2 | h2
                · exact htidK h2
                · exact htidR h2
              obtain ⟨q0, hq0, hq0s⟩ := hQ t (by
                rcases List.mem_append.mp ht with h2 | h2
                · exact List.mem_append_left _ h2
                · exact List.mem_append_right _ (List.mem_cons_of_mem _ h2))
              have hq0id : q0.opId = t := (findOp_some_facts st t q0 hq0).2
              refine ⟨sentTweak tid q0, ?_, ?_⟩
              · rw [hcong1 t, hq0]
                rfl
              · rw [sentTweak, if_neg (by rw [hq0id]; exact htne)]
                exact hq0s
            have hreg1 : ∀ q ∈ allOps st1, q.operationState = OperationState.Queued →
                q.opId ∈ K ++ rest := by
              intro q hqm hqs
              have hfq : findOp st1 q.opId = some q := findOp_of_mem st1 hI1.opsNodup q hqm
              rw [hcong1 q.opId] at hfq
              rcases hf0 : findOp st q.opId with _ | q0
              · rw [hf0] at hfq
                cases hfq
              · rw [hf0] at hfq
                have hq0q : q = sentTweak tid q0 := by
                  have h2 : some (sentTweak tid q0) = some q := hfq
                  exact (Option.some.inj h2).symm
                rw [hq0q] at hqs
                obtain ⟨hq0s, hq0ne⟩ := sentTweak_queued tid q0 hqs
                have hq0all : q0 ∈ allOps st := (findOp_some_facts st q.opId q0 hf0).1
                have hq0id : q0.opId = q.opId := (findOp_some_facts st q.opId q0 hf0).2
                have hmem := hreg q0 hq0all hq0s
                rw [hq0id] at hmem hq0ne
                rcases List.mem_append.mp hmem with h2 | h2
                · exact List.mem_append_left _ h2
                · rcases List.mem_cons.mp h2 with h3 | h3
                  · exact absurd h3 hq0ne
                  · exact List.mem_append_right _ h3
            have hnd1 : (K ++ rest).Nodup := by
              refine List.Nodup.sublist ?_ hnd
              exact List.Sublist.append_left (List.sublist_cons_self _ _) K
            have hNoQ1 : del = false → 0 < w - 1 → NoQD st1 := by
              intro hdf hw1
              refine hNoQD1 (hNoQ hdf (Nat.pos_of_ne_zero hw))
            obtain ⟨ihsafe, ihok⟩ := ih st1 (w - 1) K hI1 hNI1 hnd1 hQ1 hreg1 hNoQ1
            obtain ⟨jI, jNI, jth, jnx, jqi, jnd, jQ, jreg, jNoQD, jsub, jcong, jW⟩ :=
              ihok st' w' l' hok
            refine ⟨jI, jNI, by rw [jth, hth1], by rw [jnx, hnx1], by rw [jqi, hqi1],
              jnd, jQ, jreg, fun h0 => jNoQD (hNoQD1 h0), jsub.trans (List.sublist_cons_self _ _),
              ?_, jW⟩
            intro j p0 hj0
            have hj1 : findOp st1 j = some (sentTweak tid p0) := by
              rw [hcong1 j, hj0]
              rfl
            obtain ⟨p1, hp1, hp1t⟩ := jcong j (sentTweak tid p0) hj1
            exact ⟨p1, hp1, by rw [hp1t, (sentTweak_fields tid p0).2.2.1]⟩
      · -- keep branch
        have hrec := ih st w (K ++ [tid]) hI hNI
          (by rw [List.append_assoc]; simpa using hnd)
          (by
            intro t ht
            refine hQ t ?_
            rw [List.append_assoc] at ht
            simpa using ht)
          (by
            intro q hqm hqs
            have := hreg q hqm hqs
            rw [List.append_assoc]
            simpa using this)
          hNoQ
        obtain ⟨ihsafe, ihok⟩ := hrec
        constructor
        · intro hcon
          rw [drainPass, if_neg hw] at hcon
          simp only [hfp] at hcon
          rw [if_neg hdel] at hcon
          rcases hd : drainPass del st w rest with e | r
          · simp only [hd] at hcon
            exact ihsafe (by rw [hd, Except.error.inj hcon])
          · simp only [hd] at hcon
            cases hcon
        · intro st' w' l' hok
          rw [drainPass, if_neg hw] at hok
          simp only [hfp] at hok
          rw [if_neg hdel] at hok
          rcases hd : drainPass del st w rest with e | r
          · simp only [hd] at hok
            cases hok
          · simp only [hd] at hok
            obtain ⟨h1, h23⟩ := Prod.mk.inj (Except.ok.inj hok)
            obtain ⟨h2a, h3⟩ := Prod.mk.inj h23
            obtain ⟨jI, jNI, jth, jnx, jqi, jnd, jQ, jreg, jNoQD, jsub, jcong, jW⟩ :=
              ihok r.1 r.2.1 r.2.2 (by rw [hd])
            subst h1
            rw [← h2a, ← h3]
            have hKl : ∀ m : List Nat, K ++ tid :: m = (K ++ [tid]) ++ m := by
              intro m
              rw [List.append_assoc]
              rfl
            refine ⟨jI, jNI, jth, jnx, jqi, ?_, ?_, ?_, jNoQD,
              List.Sublist.cons₂ _ jsub, jcong, ?_⟩
            · rw [hKl]
              exact jnd
            · intro t ht
              rw [hKl] at ht
              exact jQ t ht
            · intro q hqm hqs
              rw [hKl]
              exact jreg q hqm hqs
            · intro hw' t ht
              rcases List.mem_cons.mp ht with h4 | h4
              · subst h4
                obtain ⟨p1, hp1, hp1t⟩ := jcong t p hfp
                refine ⟨p1, hp1, ?_⟩
                rw [hp1t]
                exact hdel
              · exact jW hw' t h4

theorem processThrottle_sound (st : EngineState) (hInv : Inv st) (w : Nat) :
    (ProcessThrottleQueue st w ≠ Except.error Err.inCross) ∧
    (∀ st', ProcessThrottleQueue st w = Except.ok st' → Inv st') := by
  obtain ⟨hI, hT, hNI⟩ := hInv
  by_cases hemp : st.throttle.isEmpty
  · constructor
    · intro hcon
      rw [ProcessThrottleQueue, if_pos hemp] at hcon
      cases hcon
    · intro st' hok
      rw [ProcessThrottleQueue, if_pos hemp] at hok
      rw [← Except.ok.inj hok]
      exact ⟨hI, hT, hNI⟩
  · have hnd0 : (([] : List Nat) ++ st.throttle.reverse).Nodup :=
      List.nodup_reverse.mpr hT.thrNodup
    have hQ0 : ∀ t ∈ ([] : List Nat) ++ st.throttle.reverse, ∃ p, findOp st t = some p ∧
        p.operationState = OperationState.Queued :=
      fun t ht => hT.thrQueued t (List.mem_reverse.mp ht)
    have hreg0 : ∀ p ∈ allOps st, p.operationState = OperationState.Queued →
        p.opId ∈ ([] : List Nat) ++ st.throttle.reverse :=
      fun p hp hq => List.mem_reverse.mpr (hT.queuedThr p hp hq)
    obtain ⟨safe1, ok1⟩ := drainPass_sound true st.throttle.reverse st w [] hI hNI hnd0 hQ0
      hreg0 (by intro h; cases h)
    constructor
    · intro hcon
      rw [ProcessThrottleQueue, if_neg hemp] at hcon
      rcases h1 : drainPass true st w st.throttle.reverse with e | r1
      · simp only [h1] at hcon
        exact safe1 (by rw [h1, Except.error.inj hcon])
      · simp only [h1] at hcon
        obtain ⟨jI, jNI, jth, jnx, jqi, jnd, jQ, jreg, jNoQD, jsub, jcong, jW⟩ :=
          ok1 r1.1 r1.2.1 r1.2.2 (by rw [h1])
        have hNoQ2 : false = false → 0 < r1.2.1 → NoQD r1.1 := by
          intro _ hw1
          intro q hq hqs
          have hqid := jreg q hq hqs
          obtain ⟨p2, hfp2, hnd2⟩ := jW hw1 q.opId hqid
          have hfq : findOp r1.1 q.opId = some q := findOp_of_mem r1.1 jI.opsNodup q hq
          rw [hfq] at hfp2
          have hq2 : p2 = q := (Option.some.inj hfp2).symm
          rw [hq2] at hnd2
          intro hcon2
          apply hnd2
          simp [isDeleteType, hcon2]
        obtain ⟨safe2, ok2⟩ := drainPass_sound false r1.2.2 r1.1 r1.2.1 [] jI jNI jnd jQ
          jreg hNoQ2
        rcases h2 : drainPass false r1.1 r1.2.1 r1.2.2 with e2 | r2
        · simp only [h2] at hcon
          exact safe2 (by rw [h2, Except.error.inj hcon])
        · simp only [h2] at hcon
          cases hcon
    · intro st' hok
      rw [ProcessThrottleQueue, if_neg hemp] at hok
      rcases h1 : drainPass true st w st.throttle.reverse with e | r1
      · simp only [h1] at hok
        cases hok
      · simp only [h1] at hok
        obtain ⟨jI, jNI, jth, jnx, jqi, jnd, jQ, jreg, jNoQD, jsub, jcong, jW⟩ :=
          ok1 r1.1 r1.2.1 r1.2.2 (by rw [h1])
        have hNoQ2 : false = false → 0 < r1.2.1 → NoQD r1.1 := by
          intro _ hw1
          intro q hq hqs
          have hqid := jreg q hq hqs
          obtain ⟨p2, hfp2, hnd2⟩ := jW hw1 q.opId hqid
          have hfq : findOp r1.1 q.opId = some q := findOp_of_mem r1.1 jI.opsNodup q hq
          rw [hfq] at hfp2
          have hq2 : p2 = q := (Option.some.inj hfp2).symm
          rw [hq2] at hnd2
          intro hcon2
          apply hnd2
          simp [isDeleteType, hcon2]
        obtain ⟨safe2, ok2⟩ := drainPass_sound false r1.2.2 r1.1 r1.2.1 [] jI jNI jnd jQ
          jreg hNoQ2
        rcases h2 : drainPass false r1.1 r1.2.1 r1.2.2 with e2 | r2
        · simp only [h2] at hok
          cases hok
        · simp only [h2] at hok
          obtain ⟨kI, kNI, kth, knx, kqi, knd, kQ, kreg, kNoQD, ksub, kcong, kW⟩ :=
            ok2 r2.1 r2.2.1 r2.2.2 (by rw [h2])
          rw [← Except.ok.inj hok]
          refine ⟨invCore_throttle r2.1 r2.2.2.reverse kI, ⟨?_, ?_, ?_⟩, ?_⟩
          · show r2.2.2.reverse.Nodup
            exact List.nodup_reverse.mpr (by simpa using knd)
          · intro t ht
            exact kQ t (List.mem_reverse.mp ht)
          · intro q hq hqs
            exact List.mem_reverse.mpr (kreg q hq hqs)
          · exact kNI

theorem ackedPrefixL_nil : AckedPrefixL [] := by
  intro l1 p l2 hdec
  cases l1 with
  | nil => cases hdec
  | cons y t => cases hdec

theorem ackOne_fst (p : Operation) (ost : OrderState) :
    (ackOne p ost).1 = { p with operationState := OperationState.Acked } := by
  rw [ackOne]
  by_cases h1 : p.operationType = OperationType.DeleteOrder
  · simp [h1]
  · by_cases h2 : ost = OrderState.DeleteSentToMarket <;> simp [h1, h2]

theorem ackOne_snd (p : Operation) (ost : OrderState) :
    (ackOne p ost).2 = (if p.operationType = OperationType.DeleteOrder then OrderState.Finalised
      else if ost = OrderState.DeleteSentToMarket then ost else OrderState.OnMarket) := by
  rw [ackOne]
  by_cases h1 : p.operationType = OperationType.DeleteOrder
  · simp [h1]
  · by_cases h2 : ost = OrderState.DeleteSentToMarket <;> simp [h1, h2]

theorem ackRel_refl (p : Operation) : ackRel p p := Or.inl rfl

theorem ackRel_fields (p pp : Operation) (h : ackRel p pp) :
    pp.opId = p.opId ∧ pp.orderId = p.orderId ∧ pp.operationType = p.operationType ∧
    pp.price = p.price ∧ pp.previousOperation = p.previousOperation ∧
    pp.bidPrice = p.bidPrice ∧ pp.askPrice = p.askPrice ∧
    pp.bidQty = p.bidQty ∧ pp.askQty = p.askQty := by
  rcases h with h | ⟨hs, h⟩ <;> rw [h] <;>
    exact ⟨rfl, rfl, rfl, rfl, rfl, rfl, rfl, rfl, rfl⟩

theorem ackRel_disp (p pp : Operation) (h : ackRel p pp) :
    isDispatchedOp pp = isDispatchedOp p := by
  rcases h with h | ⟨hs, h⟩
  · rw [h]
  · rw [h, isDispatchedOp, isDispatchedOp, hs]
    simp

theorem ackRel_queued (p pp : Operation) (h : ackRel p pp) :
    (pp.operationState = OperationState.Queued ↔
      p.operationState = OperationState.Queued) := by
  rcases h with h | ⟨hs, h⟩
  · rw [h]
  · rw [h]
    constructor
    · intro hc
      have h2 : OperationState.Acked = OperationState.Queued := hc
      cases h2
    · intro hc
      rw [hc] at hs
      cases hs

theorem ackRel_acked_right (p pp : Operation) (h : ackRel p pp)
    (ha : p.operationState = OperationState.Acked) : pp = p := by
  rcases h with h | ⟨hs, h⟩
  · exact h
  · rw [ha] at hs
    cases hs

theorem ackRel_acked_of (p pp : Operation) (h : ackRel p pp)
    (ha : p.operationState = OperationState.Acked) :
    pp.operationState = OperationState.Acked := by
  rw [ackRel_acked_right p pp h ha]
  exact ha

theorem ackRel_undisp (p pp : Operation) (h : ackRel p pp)
    (hd : isDispatchedOp p = false) : pp = p := by
  rcases h with h | ⟨hs, h⟩
  · exact h
  · rw [isDispatchedOp, hs] at hd
    simp at hd

theorem ackRel_notInitial (p pp : Operation) (h : ackRel p pp)
    (hni : p.operationState ≠ OperationState.Initial) :
    pp.operationState ≠ OperationState.Initial := by
  rcases h with h | ⟨hs, h⟩
  · rw [h]
    exact hni
  · rw [h]
    intro hc
    have h2 : OperationState.Acked = OperationState.Initial := hc
    cases h2

theorem far_refl_ackRel (l : List Operation) : List.Forall₂ ackRel l l := by
  induction l with
  | nil => exact List.Forall₂.nil
  | cons x t ih => exact List.Forall₂.cons (ackRel_refl x) ih

theorem far_mem_right {A B : Type} {R : A → B → Prop} (l : List A) (l' : List B)
    (h : List.Forall₂ R l l') : ∀ b ∈ l', ∃ a ∈ l, R a b := by
  induction h with
  | nil =>
    intro b hb
    exact absurd hb (List.not_mem_nil b)
  | @cons a b as bs hr ht ih =>
    intro c hc
    rcases List.mem_cons.mp hc with h1 | h1
    · exact ⟨a, List.mem_cons_self _ _, by rw [h1]; exact hr⟩
    · obtain ⟨x, hx, hxr⟩ := ih c h1
      exact ⟨x, List.mem_cons_of_mem _ hx, hxr⟩

theorem far_mem_left {A B : Type} {R : A → B → Prop} (l : List A) (l' : List B)
    (h : List.Forall₂ R l l') : ∀ a ∈ l, ∃ b ∈ l', R a b := by
  induction h with
  | nil =>
    intro a ha
    exact absurd ha (List.not_mem_nil a)
  | @cons a b as bs hr ht ih =>
    intro c hc
    rcases List.mem_cons.mp hc with h1 | h1
    · exact ⟨b, List.mem_cons_self _ _, by rw [h1]; exact hr⟩
    · obtain ⟨x, hx, hxr⟩ := ih c h1
      exact ⟨x, List.mem_cons_of_mem _ hx, hxr⟩

theorem far_getLast?_rel {A B : Type} {R : A → B → Prop} (l : List A) (l' : List B)
    (h : List.Forall₂ R l l') :
    (l.getLast? = none ∧ l'.getLast? = none) ∨
      ∃ a b, l.getLast? = some a ∧ l'.getLast? = some b ∧ R a b := by
  induction h with
  | nil => exact Or.inl ⟨rfl, rfl⟩
  | @cons a b as bs hr ht ih =>
    rcases ih with ⟨h1, h2⟩ | ⟨x, y, hx, hy, hr2⟩
    · have ha : as = [] := List.getLast?_eq_none_iff.mp h1
      have hb : bs = [] := List.getLast?_eq_none_iff.mp h2
      subst ha
      subst hb
      exact Or.inr ⟨a, b, rfl, rfl, hr⟩
    · right
      refine ⟨x, y, ?_, ?_, hr2⟩
      · rcases as with _ | ⟨c, cs⟩
        · cases hx
        · rw [List.getLast?_cons_cons]
          exact hx
      · rcases bs with _ | ⟨c, cs⟩
        · cases hy
        · rw [List.getLast?_cons_cons]
          exact hy

theorem far_dropLast_rel {A B : Type} {R : A → B → Prop} :
    ∀ (l : List A) (l' : List B), List.Forall₂ R l l' →
      List.Forall₂ R l.dropLast l'.dropLast
  | [], [], _ => List.Forall₂.nil
  | [a], [b], _ => List.Forall₂.nil
  | a :: c :: cs, b :: d :: ds, h => by
    obtain ⟨hr, ht⟩ := List.forall₂_cons.mp h
    show List.Forall₂ R (a :: (c :: cs).dropLast) (b :: (d :: ds).dropLast)
    exact List.Forall₂.cons hr (far_dropLast_rel (c :: cs) (d :: ds) ht)
  | [], b :: bs, h => by cases h
  | a :: as, [], h => by cases h
  | [a], b :: d :: ds, h => by
    obtain ⟨_, ht⟩ := List.forall₂_cons.mp h
    cases ht
  | a :: c :: cs, [b], h => by
    obtain ⟨_, ht⟩ := List.forall₂_cons.mp h
    cases ht

theorem far_filter_rel {A : Type} {R : A → A → Prop} (f : A → Bool)
    (hf : ∀ a b, R a b → f b = f a) (l l' : List A)
    (h : List.Forall₂ R l l') : List.Forall₂ R (l.filter f) (l'.filter f) := by
  induction h with
  | nil => exact List.Forall₂.nil
  | @cons a b as bs hr ht ih =>
    rw [List.filter_cons, List.filter_cons, hf a b hr]
    by_cases hc : f a = true
    · simp only [if_pos hc]
      exact List.Forall₂.cons hr ih
    · simp only [if_neg hc]
      exact ih

theorem far_find?_rel {A : Type} {R : A → A → Prop} (f : A → Bool)
    (hf : ∀ a b, R a b → f b = f a) (l l' : List A) (h : List.Forall₂ R l l') :
    (l.find? f = none ∧ l'.find? f = none) ∨
      ∃ a b, l.find? f = some a ∧ l'.find? f = some b ∧ R a b := by
  induction h with
  | nil => exact Or.inl ⟨rfl, rfl⟩
  | @cons a b as bs hr ht ih =>
    by_cases hc : f a = true
    · rw [List.find?_cons_of_pos _ hc, List.find?_cons_of_pos _ (by rw [hf a b hr]; exact hc)]
      exact Or.inr ⟨a, b, rfl, rfl, hr⟩
    · rw [List.find?_cons_of_neg _ hc, List.find?_cons_of_neg _ (by rw [hf a b hr]; exact hc)]
      exact ih

theorem ackOpsList_far : ∀ (l : List Operation) (ost : OrderState) (b : Nat),
    List.Forall₂ ackRel l (ackOpsList l ost b).1
  | [], _, _ => List.Forall₂.nil
  | p :: rest, ost, b => by
    rw [ackOpsList]
    by_cases hb : b = 0
    · rw [if_pos hb]
      exact far_refl_ackRel _
    · rw [if_neg hb]
      by_cases hs : p.operationState = OperationState.SentToMarket
      · rw [if_pos hs]
        refine List.Forall₂.cons ?_ (ackOpsList_far rest _ _)
        right
        exact ⟨hs, ackOne_fst p ost⟩
      · rw [if_neg hs]
        exact List.Forall₂.cons (ackRel_refl p) (ackOpsList_far rest _ _)

theorem deleteLastL_tail (p : Operation) (rest : List Operation)
    (h : DeleteLastL (p :: rest)) : DeleteLastL rest := by
  intro r hr
  refine h r ?_
  rcases rest with _ | ⟨c, cs⟩
  · exact absurd hr (List.not_mem_nil r)
  · exact List.mem_cons_of_mem _ hr

theorem queuedLastL_tail (p : Operation) (rest : List Operation)
    (h : QueuedLastL (p :: rest)) : QueuedLastL rest := by
  intro r hr
  refine h r ?_
  rcases rest with _ | ⟨c, cs⟩
  · exact absurd hr (List.not_mem_nil r)
  · exact List.mem_cons_of_mem _ hr

theorem ackOpsList_nil (ost : OrderState) (b : Nat) : ackOpsList [] ost b = ([], ost, b) := rfl

theorem ackOpsList_zeroB (l : List Operation) (ost : OrderState) :
    ackOpsList l ost 0 = (l, ost, 0) := by
  cases l with
  | nil => rfl
  | cons p rest => rw [ackOpsList, if_pos rfl]

theorem ackOpsList_cons_sent (p : Operation) (rest : List Operation) (ost : OrderState)
    (b : Nat) (hb : b ≠ 0) (hs : p.operationState = OperationState.SentToMarket) :
    ackOpsList (p :: rest) ost b =
      ((ackOne p ost).1 :: (ackOpsList rest (ackOne p ost).2 (b - 1)).1,
       (ackOpsList rest (ackOne p ost).2 (b - 1)).2.1,
       (ackOpsList rest (ackOne p ost).2 (b - 1)).2.2) := by
  rw [ackOpsList, if_neg hb, if_pos hs]

theorem ackOpsList_cons_skip (p : Operation) (rest : List Operation) (ost : OrderState)
    (b : Nat) (hb : b ≠ 0) (hs : ¬ p.operationState = OperationState.SentToMarket) :
    ackOpsList (p :: rest) ost b =
      (p :: (ackOpsList rest ost b).1, (ackOpsList rest ost b).2.1,
       (ackOpsList rest ost b).2.2) := by
  rw [ackOpsList, if_neg hb, if_neg hs]

theorem ackOpsList_state : ∀ (l : List Operation) (ost : OrderState) (b : Nat),
    DeleteLastL l →
    (ackOpsList l ost b).2.1 = ost ∨
    ((ackOpsList l ost b).2.1 = OrderState.OnMarket ∧ ost ≠ OrderState.DeleteSentToMarket ∧
      ∃ pp ∈ (ackOpsList l ost b).1, pp.operationState = OperationState.Acked) ∨
    ((ackOpsList l ost b).2.1 = OrderState.Finalised ∧
      ∃ pp ∈ (ackOpsList l ost b).1, pp.operationType = OperationType.DeleteOrder ∧
        pp.operationState = OperationState.Acked)
  | l, ost, 0, _ => by
    rw [ackOpsList_zeroB]
    exact Or.inl rfl
  | [], ost, b, _ => by
    rw [ackOpsList_nil]
    exact Or.inl rfl
  | p :: rest, ost, Nat.succ b0, hDL => by
    have hb : Nat.succ b0 ≠ 0 := Nat.succ_ne_zero b0
    by_cases hs : p.operationState = OperationState.SentToMarket
    · rw [ackOpsList_cons_sent p rest ost _ hb hs]
      dsimp only
      by_cases h1 : p.operationType = OperationType.DeleteOrder
      · have hrest : rest = [] := by
          rcases rest with _ | ⟨c, cs⟩
          · rfl
          · exact absurd h1 (hDL p (List.mem_cons_self _ _))
        subst hrest
        have ha2 : (ackOne p ost).2 = OrderState.Finalised := by
          rw [ackOne_snd, if_pos h1]
        rw [ha2, ackOpsList_nil]
        dsimp only
        right
        right
        refine ⟨rfl, (ackOne p ost).1, List.mem_cons_self _ _, ?_, ?_⟩
        · rw [ackOne_fst]
          exact h1
        · rw [ackOne_fst]
      · by_cases h2 : ost = OrderState.DeleteSentToMarket
        · have ha2 : (ackOne p ost).2 = ost := by
            rw [ackOne_snd, if_neg h1, if_pos h2]
          rw [ha2]
          rcases ackOpsList_state rest ost (Nat.succ b0 - 1) (deleteLastL_tail p rest hDL) with
            h3 | ⟨h3, h4, pp, hpp, hppA⟩ | ⟨h3, pp, hpp, hppT, hppA⟩
          · exact Or.inl h3
          · exact absurd h2 h4
          · exact Or.inr (Or.inr ⟨h3, pp, List.mem_cons_of_mem _ hpp, hppT, hppA⟩)
        · have ha2 : (ackOne p ost).2 = OrderState.OnMarket := by
            rw [ackOne_snd, if_neg h1, if_neg h2]
          rw [ha2]
          rcases ackOpsList_state rest OrderState.OnMarket (Nat.succ b0 - 1)
            (deleteLastL_tail p rest hDL) with
            h3 | ⟨h3, h4, pp, hpp, hppA⟩ | ⟨h3, pp, hpp, hppT, hppA⟩
          · refine Or.inr (Or.inl ⟨h3, h2, (ackOne p ost).1, List.mem_cons_self _ _, ?_⟩)
            rw [ackOne_fst]
          · refine Or.inr (Or.inl ⟨h3, h2, (ackOne p ost).1, List.mem_cons_self _ _, ?_⟩)
            rw [ackOne_fst]
          · exact Or.inr (Or.inr ⟨h3, pp, List.mem_cons_of_mem _ hpp, hppT, hppA⟩)
    · rw [ackOpsList_cons_skip p rest ost _ hb hs]
      dsimp only
      rcases ackOpsList_state rest ost (Nat.succ b0) (deleteLastL_tail p rest hDL) with
        h3 | ⟨h3, h4, pp, hpp, hppA⟩ | ⟨h3, pp, hpp, hppT, hppA⟩
      · exact Or.inl h3
      · exact Or.inr (Or.inl ⟨h3, h4, pp, List.mem_cons_of_mem _ hpp, hppA⟩)
      · exact Or.inr (Or.inr ⟨h3, pp, List.mem_cons_of_mem _ hpp, hppT, hppA⟩)

theorem ackOpsList_front : ∀ (l : List Operation) (ost : OrderState) (b : Nat),
    (∀ p ∈ l, p.operationState ≠ OperationState.Initial) → QueuedLastL l →
    AckedPrefixL l → AckedPrefixL (ackOpsList l ost b).1
  | l, ost, 0, _, _, hAP => by
    rw [ackOpsList_zeroB]
    exact hAP
  | [], ost, b, _, _, _ => by
    rw [ackOpsList_nil]
    exact ackedPrefixL_nil
  | p :: rest, ost, Nat.succ b0, hNI, hQL, hAP => by
    have hb : Nat.succ b0 ≠ 0 := Nat.succ_ne_zero b0
    obtain ⟨hAPt, hAPx⟩ := (ackedPrefixL_cons p rest).mp hAP
    by_cases hs : p.operationState = OperationState.SentToMarket
    · rw [ackOpsList_cons_sent p rest ost _ hb hs]
      dsimp only
      rw [ackedPrefixL_cons]
      refine ⟨ackOpsList_front rest (ackOne p ost).2 (Nat.succ b0 - 1)
        (fun r hr => hNI r (List.mem_cons_of_mem _ hr)) (queuedLastL_tail p rest hQL)
        hAPt, Or.inl ?_⟩
      rw [ackOne_fst]
    · rw [ackOpsList_cons_skip p rest ost _ hb hs]
      dsimp only
      rw [ackedPrefixL_cons]
      refine ⟨ackOpsList_front rest ost (Nat.succ b0)
        (fun r hr => hNI r (List.mem_cons_of_mem _ hr)) (queuedLastL_tail p rest hQL)
        hAPt, ?_⟩
      rcases hstate : p.operationState with _ | _ | _ | _
      · exact absurd hstate (hNI p (List.mem_cons_self _ _))
      · have hrest : rest = [] := by
          rcases rest with _ | ⟨c, cs⟩
          · rfl
          · exact absurd hstate (hQL p (List.mem_cons_self _ _))
        subst hrest
        right
        intro r hr
        rw [ackOpsList_nil] at hr
        exact absurd hr (List.not_mem_nil r)
      · exact absurd hstate hs
      · exact Or.inl rfl

theorem ackOrdersList_far : ∀ (l : List Order) (b : Nat),
    List.Forall₂ ackOrdRel l (ackOrdersList l b).1
  | [], _ => List.Forall₂.nil
  | o :: rest, b => by
    rw [ackOrdersList]
    by_cases hf : o.orderState = OrderState.Finalised
    · rw [if_pos hf]
      refine List.Forall₂.cons ⟨rfl, rfl, rfl, rfl, rfl, far_refl_ackRel _,
        fun _ => Or.inl rfl, fun _ => rfl, fun _ _ h => h⟩ (ackOrdersList_far rest _)
    · rw [if_neg hf]
      refine List.Forall₂.cons ?_ (ackOrdersList_far rest _)
      refine ⟨rfl, rfl, rfl, rfl, rfl, ackOpsList_far _ _ _, ?_,
        fun hc => absurd hc hf, ?_⟩
      · intro hDL
        rcases ackOpsList_state o.operations o.orderState b hDL with
          h3 | ⟨h3, h4, pp, hpp, hppA⟩ | ⟨h3, pp, hpp, hppT, hppA⟩
        · exact Or.inl h3
        · exact Or.inr (Or.inl ⟨h3, h4, pp, hpp, hppA⟩)
        · exact Or.inr (Or.inr ⟨h3, pp, hpp, hppT, hppA⟩)
      · intro h1 h2 h3
        exact ackOpsList_front o.operations o.orderState b h1 h2 h3

theorem livePrice_ack_max (l l' : List Operation) (h : List.Forall₂ ackRel l l') :
    ∀ I L I' L' : Int, I' ≤ I → max I' L' ≤ max I L →
    (l'.foldl (livePriceStep (fun a b => max a b)) (I', L')).1 ≤
      (l.foldl (livePriceStep (fun a b => max a b)) (I, L)).1 ∧
    max (l'.foldl (livePriceStep (fun a b => max a b)) (I', L')).1
        (l'.foldl (livePriceStep (fun a b => max a b)) (I', L')).2 ≤
      max (l.foldl (livePriceStep (fun a b => max a b)) (I, L)).1
          (l.foldl (livePriceStep (fun a b => max a b)) (I, L)).2 := by
  induction h with
  | nil =>
    intro I L I' L' h1 h2
    exact ⟨h1, h2⟩
  | @cons p pp l l' hr ht ih =>
    intro I L I' L' h1 h2
    rw [List.foldl_cons, List.foldl_cons]
    have hty : pp.operationType = p.operationType := (ackRel_fields p pp hr).2.2.1
    by_cases hrel : p.operationType = OperationType.AmendOrder ∨
        p.operationType = OperationType.InsertOrder
    · rcases hr with hpp | ⟨hsent, hpp⟩
      · by_cases hack : p.operationState = OperationState.Acked
        · have h3 : livePriceStep (fun a b => max a b) (I, L) p = (I, p.price) := by
            rw [livePriceStep, if_pos hrel, if_pos hack]
          have h4 : livePriceStep (fun a b => max a b) (I', L') pp = (I', p.price) := by
            rw [hpp, livePriceStep, if_pos hrel, if_pos hack]
          rw [h3, h4]
          exact ih I p.price I' p.price h1 (max_le_max h1 (le_refl _))
        · have h3 : livePriceStep (fun a b => max a b) (I, L) p = (max p.price I, L) := by
            rw [livePriceStep, if_pos hrel, if_neg hack]
          have h4 : livePriceStep (fun a b => max a b) (I', L') pp = (max p.price I', L') := by
            rw [hpp, livePriceStep, if_pos hrel, if_neg hack]
          rw [h3, h4]
          refine ih _ _ _ _ (max_le_max (le_refl _) h1) ?_
          rw [max_assoc, max_assoc]
          exact max_le_max (le_refl _) h2
      · have hnack : ¬ p.operationState = OperationState.Acked := by
          rw [hsent]
          intro hc
          cases hc
        have h3 : livePriceStep (fun a b => max a b) (I, L) p = (max p.price I, L) := by
          rw [livePriceStep, if_pos hrel, if_neg hnack]
        have h4 : livePriceStep (fun a b => max a b) (I', L') pp = (I', p.price) := by
          rw [hpp, livePriceStep, if_pos hrel, if_pos rfl]
        rw [h3, h4]
        refine ih _ _ _ _ (le_trans h1 (le_max_right _ _)) ?_
        refine max_le ?_ ?_
        · exact le_trans (le_trans h1 (le_max_right _ _)) (le_max_left _ _)
        · exact le_trans (le_max_left p.price I) (le_max_left _ _)
    · have h3 : livePriceStep (fun a b => max a b) (I, L) p = (I, L) := by
        rw [livePriceStep, if_neg hrel]
      have h4 : livePriceStep (fun a b => max a b) (I', L') pp = (I', L') := by
        rw [livePriceStep, if_neg (by rw [hty]; exact hrel)]
      rw [h3, h4]
      exact ih I L I' L' h1 h2

theorem livePrice_ack_min (l l' : List Operation) (h : List.Forall₂ ackRel l l') :
    ∀ I L I' L' : Int, I ≤ I' → min I L ≤ min I' L' →
    (l.foldl (livePriceStep (fun a b => min a b)) (I, L)).1 ≤
      (l'.foldl (livePriceStep (fun a b => min a b)) (I', L')).1 ∧
    min (l.foldl (livePriceStep (fun a b => min a b)) (I, L)).1
        (l.foldl (livePriceStep (fun a b => min a b)) (I, L)).2 ≤
      min (l'.foldl (livePriceStep (fun a b => min a b)) (I', L')).1
          (l'.foldl (livePriceStep (fun a b => min a b)) (I', L')).2 := by
  induction h with
  | nil =>
    intro I L I' L' h1 h2
    exact ⟨h1, h2⟩
  | @cons p pp l l' hr ht ih =>
    intro I L I' L' h1 h2
    rw [List.foldl_cons, List.foldl_cons]
    have hty : pp.operationType = p.operationType := (ackRel_fields p pp hr).2.2.1
    by_cases hrel : p.operationType = OperationType.AmendOrder ∨
        p.operationType = OperationType.InsertOrder
    · rcases hr with hpp | ⟨hsent, hpp⟩
      · by_cases hack : p.operationState = OperationState.Acked
        · have h3 : livePriceStep (fun a b => min a b) (I, L) p = (I, p.price) := by
            rw [livePriceStep, if_pos hrel, if_pos hack]
          have h4 : livePriceStep (fun a b => min a b) (I', L') pp = (I', p.price) := by
            rw [hpp, livePriceStep, if_pos hrel, if_pos hack]
          rw [h3, h4]
          exact ih I p.price I' p.price h1 (min_le_min h1 (le_refl _))
        · have h3 : livePriceStep (fun a b => min a b) (I, L) p = (min p.price I, L) := by
            rw [livePriceStep, if_pos hrel, if_neg hack]
          have h4 : livePriceStep (fun a b => min a b) (I', L') pp = (min p.price I', L') := by
            rw [hpp, livePriceStep, if_pos hrel, if_neg hack]
          rw [h3, h4]
          refine ih _ _ _ _ (min_le_min (le_refl _) h1) ?_
          rw [min_assoc, min_assoc]
          exact min_le_min (le_refl _) h2
      · have hnack : ¬ p.operationState = OperationState.Acked := by
          rw [hsent]
          intro hc
          cases hc
        have h3 : livePriceStep (fun a b => min a b) (I, L) p = (min p.price I, L) := by
          rw [livePriceStep, if_pos hrel, if_neg hnack]
        have h4 : livePriceStep (fun a b => min a b) (I', L') pp = (I', p.price) := by
          rw [hpp, livePriceStep, if_pos hrel, if_pos rfl]
        rw [h3, h4]
        refine ih _ _ _ _ (le_trans (min_le_right _ _) h1) ?_
        refine le_min ?_ ?_
        · exact le_trans (min_le_left _ _) (le_trans (min_le_right p.price I) h1)
        · exact le_trans (min_le_left _ _) (min_le_left p.price I)
    · have h3 : livePriceStep (fun a b => min a b) (I, L) p = (I, L) := by
        rw [livePriceStep, if_neg hrel]
      have h4 : livePriceStep (fun a b => min a b) (I', L') pp = (I', L') := by
        rw [livePriceStep, if_neg (by rw [hty]; exact hrel)]
      rw [h3, h4]
      exact ih I L I' L' h1 h2

theorem askScan_ack_mono (l l' : List Operation) (h : List.Forall₂ ackRel l l') :
    ∀ a u a' u' : Int, u ≤ u' → min a u ≤ min a' u' →
    (l.foldl quoteAskStep (a, u)).2 ≤ (l'.foldl quoteAskStep (a', u')).2 ∧
    min (l.foldl quoteAskStep (a, u)).1 (l.foldl quoteAskStep (a, u)).2 ≤
      min (l'.foldl quoteAskStep (a', u')).1 (l'.foldl quoteAskStep (a', u')).2 := by
  induction h with
  | nil =>
    intro a u a' u' h1 h2
    exact ⟨h1, h2⟩
  | @cons p pp l l' hr ht ih =>
    intro a u a' u' h1 h2
    rw [List.foldl_cons, List.foldl_cons]
    have hqy : pp.askQty = p.askQty := (ackRel_fields p pp hr).2.2.2.2.2.2.2.2
    by_cases hsk : p.askQty = -1
    · have h3 : quoteAskStep (a, u) p = (a, u) := by
        rw [quoteAskStep, if_pos hsk]
      have h4 : quoteAskStep (a', u') pp = (a', u') := by
        rw [quoteAskStep, if_pos (by rw [hqy]; exact hsk)]
      rw [h3, h4]
      exact ih a u a' u' h1 h2
    · rcases hr with hpp | ⟨hsent, hpp⟩
      · by_cases hack : p.operationState = OperationState.Acked
        · have h3 : quoteAskStep (a, u) p = (p.askPrice, u) := by
            rw [quoteAskStep, if_neg hsk, if_pos hack]
          have h4 : quoteAskStep (a', u') pp = (p.askPrice, u') := by
            rw [hpp, quoteAskStep, if_neg hsk, if_pos hack]
          rw [h3, h4]
          exact ih _ _ _ _ h1 (min_le_min (le_refl _) h1)
        · have h3 : quoteAskStep (a, u) p = (a, min u p.askPrice) := by
            rw [quoteAskStep, if_neg hsk, if_neg hack]
          have h4 : quoteAskStep (a', u') pp = (a', min u' p.askPrice) := by
            rw [hpp, quoteAskStep, if_neg hsk, if_neg hack]
          rw [h3, h4]
          refine ih _ _ _ _ (min_le_min h1 (le_refl _)) ?_
          rw [← min_assoc, ← min_assoc]
          exact min_le_min h2 (le_refl _)
      · have hnack : ¬ p.operationState = OperationState.Acked := by
          rw [hsent]
          intro hc
          cases hc
        have h3 : quoteAskStep (a, u) p = (a, min u p.askPrice) := by
          rw [quoteAskStep, if_neg hsk, if_neg hnack]
        have h4 : quoteAskStep (a', u') pp = (p.askPrice, u') := by
          rw [hpp, quoteAskStep, if_neg hsk, if_pos rfl]
        rw [h3, h4]
        refine ih _ _ _ _ (le_trans (min_le_left _ _) h1) ?_
        refine le_min ?_ ?_
        · exact le_trans (min_le_right _ _) (min_le_right u p.askPrice)
        · exact le_trans (min_le_right _ _) (le_trans (min_le_left u p.askPrice) h1)

theorem bidScan_ack_mono (l l' : List Operation) (h : List.Forall₂ ackRel l l') :
    ∀ a u a' u' : Int, u' ≤ u → max a' u' ≤ max a u →
    (l'.foldl quoteBidStep (a', u')).2 ≤ (l.foldl quoteBidStep (a, u)).2 ∧
    max (l'.foldl quoteBidStep (a', u')).1 (l'.foldl quoteBidStep (a', u')).2 ≤
      max (l.foldl quoteBidStep (a, u)).1 (l.foldl quoteBidStep (a, u)).2 := by
  induction h with
  | nil =>
    intro a u a' u' h1 h2
    exact ⟨h1, h2⟩
  | @cons p pp l l' hr ht ih =>
    intro a u a' u' h1 h2
    rw [List.foldl_cons, List.foldl_cons]
    have hqy : pp.bidQty = p.bidQty := (ackRel_fields p pp hr).2.2.2.2.2.2.2.1
    by_cases hsk : p.bidQty = -1
    · have h3 : quoteBidStep (a, u) p = (a, u) := by
        rw [quoteBidStep, if_pos hsk]
      have h4 : quoteBidStep (a', u') pp = (a', u') := by
        rw [quoteBidStep, if_pos (by rw [hqy]; exact hsk)]
      rw [h3, h4]
      exact ih a u a' u' h1 h2
    · rcases hr with hpp | ⟨hsent, hpp⟩
      · by_cases hack : p.operationState = OperationState.Acked
        · have h3 : quoteBidStep (a, u) p = (p.bidPrice, u) := by
            rw [quoteBidStep, if_neg hsk, if_pos hack]
          have h4 : quoteBidStep (a', u') pp = (p.bidPrice, u') := by
            rw [hpp, quoteBidStep, if_neg hsk, if_pos hack]
          rw [h3, h4]
          exact ih _ _ _ _ h1 (max_le_max (le_refl _) h1)
        · have h3 : quoteBidStep (a, u) p = (a, max u p.bidPrice) := by
            rw [quoteBidStep, if_neg hsk, if_neg hack]
          have h4 : quoteBidStep (a', u') pp = (a', max u' p.bidPrice) := by
            rw [hpp, quoteBidStep, if_neg hsk, if_neg hack]
          rw [h3, h4]
          refine ih _ _ _ _ (max_le_max h1 (le_refl _)) ?_
          rw [← max_assoc, ← max_assoc]
          exact max_le_max h2 (le_refl _)
      · have hnack : ¬ p.operationState = OperationState.Acked := by
          rw [hsent]
          intro hc
          cases hc
        have h3 : quoteBidStep (a, u) p = (a, max u p.bidPrice) := by
          rw [quoteBidStep, if_neg hsk, if_neg hnack]
        have h4 : quoteBidStep (a', u') pp = (p.bidPrice, u') := by
          rw [hpp, quoteBidStep, if_neg hsk, if_pos rfl]
        rw [h3, h4]
        refine ih _ _ _ _ (le_trans h1 (le_max_left _ _)) ?_
        refine max_le ?_ ?_
        · exact le_trans (le_max_right u p.bidPrice) (le_max_right _ _)
        · exact le_trans (le_trans h1 (le_max_left u p.bidPrice)) (le_max_right _ _)

theorem ackRel_of_queued (p pp : Operation) (h : ackRel p pp)
    (hq : p.operationState = OperationState.Queued) : pp = p := by
  rcases h with h | ⟨hs, h⟩
  · exact h
  · rw [hq] at hs
    cases hs

theorem far_append_rel {A B : Type} {R : A → B → Prop} (l1 l2 : List A) (u1 u2 : List B)
    (h1 : List.Forall₂ R l1 u1) (h2 : List.Forall₂ R l2 u2) :
    List.Forall₂ R (l1 ++ l2) (u1 ++ u2) := by
  induction h1 with
  | nil => exact h2
  | @cons a b as bs hr ht ih => exact List.Forall₂.cons hr ih

theorem far_map_eq {A B : Type} {R : A → A → Prop} (k : A → B) (l l' : List A)
    (h : List.Forall₂ R l l') (hk : ∀ a b, R a b → k b = k a) : l'.map k = l.map k := by
  induction h with
  | nil => rfl
  | @cons a b as bs hr ht ih =>
    rw [List.map_cons, List.map_cons, hk a b hr, ih]

theorem far_flatMap_ops (l l' : List Order) (h : List.Forall₂ ackOrdRel l l') :
    List.Forall₂ ackRel (l.flatMap (fun o => o.operations))
      (l'.flatMap (fun o => o.operations)) := by
  induction h with
  | nil => exact List.Forall₂.nil
  | @cons o oo t t' hr ht ih =>
    rw [List.flatMap_cons, List.flatMap_cons]
    exact far_append_rel _ _ _ _ hr.2.2.2.2.2.1 ih

theorem allOps_ackFar (st : EngineState) (n : Nat) :
    List.Forall₂ ackRel (allOps st) (allOps (AckOrderOperations st n)) :=
  far_flatMap_ops st.orders (ackOrdersList st.orders n).1 (ackOrdersList_far st.orders n)

theorem findOp_ackCorr (st : EngineState) (n : Nat) (j : Nat) :
    (findOp st j = none ∧ findOp (AckOrderOperations st n) j = none) ∨
    ∃ p pp, findOp st j = some p ∧ findOp (AckOrderOperations st n) j = some pp ∧
      ackRel p pp :=
  far_find?_rel (fun p : Operation => decide (p.opId = j))
    (fun a b hab => by
      show decide (b.opId = j) = decide (a.opId = j)
      rw [(ackRel_fields a b hab).1]) _ _ (allOps_ackFar st n)

theorem findOrder_ackCorr (st : EngineState) (n : Nat) (oid : Nat) :
    (findOrder st oid = none ∧ findOrder (AckOrderOperations st n) oid = none) ∨
    ∃ o oo, findOrder st oid = some o ∧ findOrder (AckOrderOperations st n) oid = some oo ∧
      ackOrdRel o oo :=
  far_find?_rel (fun o : Order => decide (o.orderId = oid))
    (fun a b hab => by
      show decide (b.orderId = oid) = decide (a.orderId = oid)
      rw [hab.1]) _ _ (ackOrdersList_far st.orders n)

theorem quoteOps_ackFar (st : EngineState) (hI : InvCore st) (n : Nat) :
    List.Forall₂ ackRel (quoteOps st) (quoteOps (AckOrderOperations st n)) := by
  obtain ⟨q, hq, _⟩ := hI.quoteWF
  rcases findOrder_ackCorr st n st.quotesId with ⟨h1, _⟩ | ⟨o, oo, h1, h2, hrel⟩
  · rw [hq] at h1
    cases h1
  · have e1 : quoteOps st = o.operations := by
      rw [quoteOps, h1]
    have e2 : quoteOps (AckOrderOperations st n) = oo.operations := by
      rw [quoteOps]
      show (match findOrder (AckOrderOperations st n) st.quotesId with
        | some q => q.operations
        | none => []) = oo.operations
      rw [h2]
    rw [e1, e2]
    exact hrel.2.2.2.2.2.1

theorem dispatched_getLast (l : List Operation) (x : Operation)
    (hl : l.getLast? = some x) (hx : isDispatchedOp x = true) :
    (l.filter (fun p => isDispatchedOp p)).getLast? = some x := by
  have hne : l ≠ [] := by
    intro he
    rw [he] at hl
    cases hl
  have hdec : l.dropLast ++ [l.getLast hne] = l := List.dropLast_append_getLast hne
  rw [List.getLast?_eq_getLast_of_ne_nil hne] at hl
  have hxl : l.getLast hne = x := Option.some.inj hl
  rw [← hdec, hxl, List.filter_append, List.filter_cons_of_pos hx]
  show (_ ++ [x]).getLast? = some x
  exact List.getLast?_concat _

theorem lastDispatched_ackCorr (o oo : Order)
    (hops : List.Forall₂ ackRel o.operations oo.operations) :
    (lastDispatched o = none ∧ lastDispatched oo = none) ∨
    ∃ d dd, lastDispatched o = some d ∧ lastDispatched oo = some dd ∧ ackRel d dd := by
  have hfil := far_filter_rel (fun p => isDispatchedOp p)
    (fun a b hab => ackRel_disp a b hab) _ _ hops
  rcases far_getLast?_rel _ _ hfil with ⟨h1, h2⟩ | ⟨d, dd, hd, hdd, hr⟩
  · exact Or.inl ⟨h1, h2⟩
  · exact Or.inr ⟨d, dd, hd, hdd, hr⟩

theorem live_no_dispatched_delete (st : EngineState) (hI : InvCore st)
    (o : Order) (ho : o ∈ st.orders)
    (h1 : o.orderState ≠ OrderState.DeleteSentToMarket)
    (h2 : o.orderState ≠ OrderState.Finalised)
    (d : Operation) (hd : d ∈ o.operations) (hdisp : isDispatchedOp d = true) :
    isDeleteType d.operationType = false := by
  by_cases hq : o.isQuote = true
  · have hdq : d ∈ quoteOps st := by
      rw [quoteOps, (quote_order_eq st hI o ho hq).1]
      exact hd
    rw [isDeleteType, (hI.quoteOpWF d hdq).1]
    simp
  · rcases hI.orderOpWF o ho (by simp [hq]) d hd with h | h | h
    · rw [isDeleteType, h]
      simp
    · rw [isDeleteType, h]
      simp
    · exfalso
      have hlast : o.operations.getLast? = some d :=
        delete_getLast _ (hI.deleteLast o ho) d hd h
      have hld : lastDispatched o = some d := dispatched_getLast _ d hlast hdisp
      rcases hstate : o.orderState with _ | _ | _ | _
      · rw [(hI.stateHist o ho).1 hstate] at hld
        cases hld
      · obtain ⟨d2, hd2, hnd2⟩ := (hI.stateHist o ho).2.1 hstate
        rw [hld] at hd2
        rw [← Option.some.inj hd2, isDeleteType, h] at hnd2
        simp at hnd2
      · exact h1 hstate
      · exact h2 hstate

theorem entryBid_ack (p pp : Operation) (o oo : Order) (hp : ackRel p pp)
    (ho : ackOrdRel o oo) : entryBid pp oo = entryBid p o := by
  obtain ⟨hid, hpr, hqt, hsd, hqu, _⟩ := ho
  rw [entryBid, entryBid, hqu, hsd, (ackRel_fields p pp hp).2.2.2.2.2.1,
    (ackRel_fields p pp hp).2.2.2.2.2.2.2.1, (ackRel_fields p pp hp).2.2.2.1]

theorem entryAsk_ack (p pp : Operation) (o oo : Order) (hp : ackRel p pp)
    (ho : ackOrdRel o oo) : entryAsk pp oo = entryAsk p o := by
  obtain ⟨hid, hpr, hqt, hsd, hqu, _⟩ := ho
  rw [entryAsk, entryAsk, hqu, hsd, (ackRel_fields p pp hp).2.2.2.2.2.2.1,
    (ackRel_fields p pp hp).2.2.2.2.2.2.2.2, (ackRel_fields p pp hp).2.2.2.1]

theorem getLivePrice_ack_max (o oo : Order) (hpr : oo.price = o.price)
    (hops : List.Forall₂ ackRel o.operations oo.operations) :
    GetLivePrice (fun a b => max a b) oo ≤ GetLivePrice (fun a b => max a b) o := by
  show max (oo.operations.foldl (livePriceStep (fun a b => max a b)) (oo.price, oo.price)).1
      (oo.operations.foldl (livePriceStep (fun a b => max a b)) (oo.price, oo.price)).2 ≤
    max (o.operations.foldl (livePriceStep (fun a b => max a b)) (o.price, o.price)).1
      (o.operations.foldl (livePriceStep (fun a b => max a b)) (o.price, o.price)).2
  rw [hpr]
  exact (livePrice_ack_max o.operations oo.operations hops o.price o.price o.price o.price
    (le_refl _) (le_refl _)).2

theorem getLivePrice_ack_min (o oo : Order) (hpr : oo.price = o.price)
    (hops : List.Forall₂ ackRel o.operations oo.operations) :
    GetLivePrice (fun a b => min a b) o ≤ GetLivePrice (fun a b => min a b) oo := by
  show min (o.operations.foldl (livePriceStep (fun a b => min a b)) (o.price, o.price)).1
      (o.operations.foldl (livePriceStep (fun a b => min a b)) (o.price, o.price)).2 ≤
    min (oo.operations.foldl (livePriceStep (fun a b => min a b)) (oo.price, oo.price)).1
      (oo.operations.foldl (livePriceStep (fun a b => min a b)) (oo.price, oo.price)).2
  rw [hpr]
  exact (livePrice_ack_min o.operations oo.operations hops o.price o.price o.price o.price
    (le_refl _) (le_refl _)).2

theorem askScanMin_ack (st : EngineState) (hI : InvCore st) (n : Nat) :
    askScanMin st ≤ askScanMin (AckOrderOperations st n) := by
  rw [askScanMin, askScanMin, QuoteAskScan, QuoteAskScan]
  exact (askScan_ack_mono (quoteOps st) (quoteOps (AckOrderOperations st n))
    (quoteOps_ackFar st hI n) intMax intMax intMax intMax (le_refl _) (le_refl _)).2

theorem bidScanMax_ack (st : EngineState) (hI : InvCore st) (n : Nat) :
    bidScanMax (AckOrderOperations st n) ≤ bidScanMax st := by
  rw [bidScanMax, bidScanMax, QuoteBidScan, QuoteBidScan]
  exact (bidScan_ack_mono (quoteOps st) (quoteOps (AckOrderOperations st n))
    (quoteOps_ackFar st hI n) intMin intMin intMin intMin (le_refl _) (le_refl _)).2

theorem ack_preserves (st : EngineState) (hInv : Inv st) (n : Nat) :
    Inv (AckOrderOperations st n) := by
  obtain ⟨hI, hT, hNI⟩ := hInv
  have hF : List.Forall₂ ackOrdRel st.orders (AckOrderOperations st n).orders :=
    ackOrdersList_far st.orders n
  have hAll := allOps_ackFar st n
  have hmemR : ∀ oo ∈ (AckOrderOperations st n).orders, ∃ o ∈ st.orders, ackOrdRel o oo :=
    far_mem_right _ _ hF
  have hOrdNI : ∀ o ∈ st.orders, ∀ p ∈ o.operations,
      p.operationState ≠ OperationState.Initial :=
    fun o ho p hp => hNI p ((mem_allOps st p).mpr ⟨o, ho, hp⟩)
  have hnotFin : ∀ o ∈ st.orders, ∀ oo, ackOrdRel o oo →
      oo.orderState ≠ OrderState.Finalised → o.orderState ≠ OrderState.Finalised := by
    intro o ho oo hrel hne hc
    have h2 := hrel.2.2.2.2.2.2.2.1 hc
    rw [h2] at hne
    exact hne hc
  have hlive : ∀ o ∈ st.orders, ∀ oo, ackOrdRel o oo → liveOrd oo → liveOrd o := by
    intro o ho oo hrel hl
    rcases hrel.2.2.2.2.2.2.1 (hI.deleteLast o ho) with h1 | ⟨h1, h2, _⟩ | ⟨h1, _⟩
    · rcases hl with hl | hl
      · rw [h1] at hl
        exact Or.inl hl
      · rw [h1] at hl
        exact Or.inr hl
    · by_cases hfo : o.orderState = OrderState.Finalised
      · have he := hrel.2.2.2.2.2.2.2.1 hfo
        rw [he, hfo] at h1
        cases h1
      · rcases hstate : o.orderState with _ | _ | _ | _
        · exact Or.inr hstate
        · exact Or.inl hstate
        · exact absurd hstate h2
        · exact absurd hstate hfo
    · rcases hl with hl | hl <;> rw [h1] at hl <;> cases hl
  have hQLoo : ∀ o ∈ st.orders, ∀ oo, ackOrdRel o oo → QueuedLastL oo.operations := by
    intro o ho oo hrel r' hr' hq'
    obtain ⟨r, hrm, hpr⟩ := far_mem_right _ _
      (far_dropLast_rel _ _ hrel.2.2.2.2.2.1) r' hr'
    exact hI.queuedLast o ho r hrm ((ackRel_queued r r' hpr).mp hq')
  have hDLoo : ∀ o ∈ st.orders, ∀ oo, ackOrdRel o oo → DeleteLastL oo.operations := by
    intro o ho oo hrel r' hr' ht'
    obtain ⟨r, hrm, hpr⟩ := far_mem_right _ _
      (far_dropLast_rel _ _ hrel.2.2.2.2.2.1) r' hr'
    refine hI.deleteLast o ho r hrm ?_
    rw [← (ackRel_fields r r' hpr).2.2.1]
    exact ht'
  refine ⟨⟨?_, ?_, ?_, ?_, ?_, ?_, ?_, ?_, ?_, ?_, ?_, ?_, ?_, ?_, ?_, ?_, ?_, ?_, ?_, ?_, ?_,
    ?_, ?_⟩, ⟨?_, ?_, ?_⟩, ?_⟩
  · -- ordersNodup
    rw [far_map_eq (fun o => o.orderId) _ _ hF (fun a b hab => hab.1)]
    exact hI.ordersNodup
  · -- opsNodup
    rw [far_map_eq (fun p => p.opId) _ _ hAll (fun a b hab => (ackRel_fields a b hab).1)]
    exact hI.opsNodup
  · -- owner
    intro oo hoo p' hp'
    obtain ⟨o, ho, hrel⟩ := hmemR oo hoo
    obtain ⟨p, hp, hpr⟩ := far_mem_right _ _ hrel.2.2.2.2.2.1 p' hp'
    rw [(ackRel_fields p p' hpr).2.1, hrel.1]
    exact hI.owner o ho p hp
  · -- opsFresh
    intro p' hp'
    obtain ⟨p, hp, hpr⟩ := far_mem_right _ _ hAll p' hp'
    rw [(ackRel_fields p p' hpr).1]
    exact hI.opsFresh p hp
  · -- ordersFresh
    intro oo hoo
    obtain ⟨o, ho, hrel⟩ := hmemR oo hoo
    rw [hrel.1]
    exact hI.ordersFresh o ho
  · -- bookNodup
    exact hI.bookNodup
  · -- bookResolves
    intro j hj
    have hj2 : j ∈ st.marketOperations := hj
    obtain ⟨p, o, hfp, hfo, hdisp, hnd⟩ := hI.bookResolves j hj2
    rcases findOp_ackCorr st n j with ⟨h1, _⟩ | ⟨p0, pp, h1, h2, hpr⟩
    · rw [hfp] at h1
      cases h1
    · rw [hfp] at h1
      have hp0 : p = p0 := Option.some.inj h1
      rcases findOrder_ackCorr st n p.orderId with ⟨h3, _⟩ | ⟨o0, oo, h3, h4, hor⟩
      · rw [hfo] at h3
        cases h3
      · refine ⟨pp, oo, h2, ?_, ?_, ?_⟩
        · rw [(ackRel_fields p0 pp hpr).2.1, ← hp0]
          exact h4
        · rw [ackRel_disp p0 pp hpr, ← hp0]
          exact hdisp
        · rw [(ackRel_fields p0 pp hpr).2.2.1, ← hp0]
          exact hnd
  · -- quoteWF
    obtain ⟨q, hq, hqq⟩ := hI.quoteWF
    rcases findOrder_ackCorr st n st.quotesId with ⟨h1, _⟩ | ⟨o0, oo, h1, h2, hor⟩
    · rw [hq] at h1
      cases h1
    · rw [hq] at h1
      have hq0 : q = o0 := Option.some.inj h1
      refine ⟨oo, h2, ?_⟩
      rw [hor.2.2.2.2.1, ← hq0]
      exact hqq
  · -- isQuoteId
    intro oo hoo hq'
    obtain ⟨o, ho, hrel⟩ := hmemR oo hoo
    rw [hrel.2.2.2.2.1] at hq'
    rw [hrel.1]
    exact hI.isQuoteId o ho hq'
  · -- quoteOpWF
    intro p' hp'
    obtain ⟨p, hp, hpr⟩ := far_mem_right _ _ (quoteOps_ackFar st hI n) p' hp'
    obtain ⟨ht4, hlt, hbq, haq⟩ := hI.quoteOpWF p hp
    refine ⟨?_, ?_, ?_, ?_⟩
    · rw [(ackRel_fields p p' hpr).2.2.1]
      exact ht4
    · rw [(ackRel_fields p p' hpr).2.2.2.2.2.1, (ackRel_fields p p' hpr).2.2.2.2.2.2.1]
      exact hlt
    · rw [(ackRel_fields p p' hpr).2.2.2.2.2.2.2.1]
      exact hbq
    · rw [(ackRel_fields p p' hpr).2.2.2.2.2.2.2.2]
      exact haq
  · -- orderOpWF
    intro oo hoo hqf p' hp'
    obtain ⟨o, ho, hrel⟩ := hmemR oo hoo
    rw [hrel.2.2.2.2.1] at hqf
    obtain ⟨p, hp, hpr⟩ := far_mem_right _ _ hrel.2.2.2.2.2.1 p' hp'
    rw [(ackRel_fields p p' hpr).2.2.1]
    exact hI.orderOpWF o ho hqf p hp
  · -- queuedLast
    intro oo hoo
    obtain ⟨o, ho, hrel⟩ := hmemR oo hoo
    exact hQLoo o ho oo hrel
  · -- ackedPrefix
    intro oo hoo
    obtain ⟨o, ho, hrel⟩ := hmemR oo hoo
    exact hrel.2.2.2.2.2.2.2.2 (hOrdNI o ho) (hI.queuedLast o ho) (hI.ackedPrefix o ho)
  · -- deleteLast
    intro oo hoo
    obtain ⟨o, ho, hrel⟩ := hmemR oo hoo
    exact hDLoo o ho oo hrel
  · -- chain
    intro oo hoo q' hlast hq'
    obtain ⟨o, ho, hrel⟩ := hmemR oo hoo
    have hops := hrel.2.2.2.2.2.1
    rcases far_getLast?_rel _ _ hops with ⟨h1, h2⟩ | ⟨q0, q0', hq0, hq0', hqr⟩
    · rw [h2] at hlast
      cases hlast
    · rw [hq0'] at hlast
      have hqe : q0' = q' := Option.some.inj hlast
      have hq0q : q0.operationState = OperationState.Queued :=
        (ackRel_queued q0 q0' hqr).mp (by rw [hqe]; exact hq')
      have hch := hI.chain o ho q0 hq0 hq0q
      rw [← hqe, (ackRel_fields q0 q0' hqr).2.2.2.2.1, hch]
      rcases lastDispatched_ackCorr o oo hops with ⟨hl1, hl2⟩ | ⟨d, dd, hd, hdd, hdr⟩
      · rw [hl1, hl2]
      · rw [hd, hdd]
        show some d.opId = some dd.opId
        rw [(ackRel_fields d dd hdr).1]
  · -- entryIn
    intro oo hoo d' hd' hnd'
    obtain ⟨o, ho, hrel⟩ := hmemR oo hoo
    have hops := hrel.2.2.2.2.2.1
    rcases lastDispatched_ackCorr o oo hops with ⟨hl1, hl2⟩ | ⟨d, dd, hd, hdd, hdr⟩
    · rw [hl2] at hd'
      cases hd'
    · rw [hdd] at hd'
      have hde : dd = d' := Option.some.inj hd'
      have hnd0 : isDeleteType d.operationType = false := by
        rw [← (ackRel_fields d dd hdr).2.2.1, hde]
        exact hnd'
      have := hI.entryIn o ho d hd hnd0
      show d'.opId ∈ st.marketOperations
      rw [← hde, (ackRel_fields d dd hdr).1]
      exact this
  · -- entryOut
    intro oo hoo j hj p' hfp' hpo
    obtain ⟨o, ho, hrel⟩ := hmemR oo hoo
    have hops := hrel.2.2.2.2.2.1
    rcases findOp_ackCorr st n j with ⟨h1, h2⟩ | ⟨p0, pp, h1, h2, hpr⟩
    · rw [h2] at hfp'
      cases hfp'
    · rw [h2] at hfp'
      have hppe : pp = p' := Option.some.inj hfp'
      have hpo0 : p0.orderId = o.orderId := by
        rw [← (ackRel_fields p0 pp hpr).2.1, hppe, hpo, hrel.1]
      obtain ⟨d, hd, hjd⟩ := hI.entryOut o ho j hj p0 h1 hpo0
      rcases lastDispatched_ackCorr o oo hops with ⟨hl1, hl2⟩ | ⟨d0, dd, hd0, hdd, hdr⟩
      · rw [hd] at hl1
        cases hl1
      · rw [hd] at hd0
        have hde : d = d0 := Option.some.inj hd0
        refine ⟨dd, hdd, ?_⟩
        rw [(ackRel_fields d0 dd hdr).1, ← hde]
        exact hjd
  · -- stateHist
    intro oo hoo
    obtain ⟨o, ho, hrel⟩ := hmemR oo hoo
    have hops := hrel.2.2.2.2.2.1
    have hQL' := hQLoo o ho oo hrel
    have hDL' := hDLoo o ho oo hrel
    rcases hrel.2.2.2.2.2.2.1 (hI.deleteLast o ho) with
      hsame | ⟨hOM, hnD, pp, hppm, hppA⟩ | ⟨hFin, pp, hppm, hppT, hppA⟩
    · refine ⟨?_, ?_, ?_, ?_⟩
      · intro h
        rw [hsame] at h
        have h0 := (hI.stateHist o ho).1 h
        rcases lastDispatched_ackCorr o oo hops with ⟨hl1, hl2⟩ | ⟨d, dd, hd, hdd, hdr⟩
        · exact hl2
        · rw [h0] at hd
          cases hd
      · intro h
        rw [hsame] at h
        obtain ⟨d, hd, hnd⟩ := (hI.stateHist o ho).2.1 h
        rcases lastDispatched_ackCorr o oo hops with ⟨hl1, hl2⟩ | ⟨d0, dd, hd0, hdd, hdr⟩
        · rw [hd] at hl1
          cases hl1
        · rw [hd] at hd0
          have hde : d = d0 := Option.some.inj hd0
          refine ⟨dd, hdd, ?_⟩
          rw [(ackRel_fields d0 dd hdr).2.2.1, ← hde]
          exact hnd
      · intro h
        rw [hsame] at h
        obtain ⟨⟨d, hd, hdt⟩, hnq⟩ := (hI.stateHist o ho).2.2.1 h
        constructor
        · rcases lastDispatched_ackCorr o oo hops with ⟨hl1, hl2⟩ | ⟨d0, dd, hd0, hdd, hdr⟩
          · rw [hd] at hl1
            cases hl1
          · rw [hd] at hd0
            have hde : d = d0 := Option.some.inj hd0
            refine ⟨dd, hdd, ?_⟩
            rw [(ackRel_fields d0 dd hdr).2.2.1, ← hde]
            exact hdt
        · intro p' hp' hq'
          obtain ⟨p, hp, hpr⟩ := far_mem_right _ _ hops p' hp'
          exact hnq p hp ((ackRel_queued p p' hpr).mp hq')
      · intro h
        rw [hsame] at h
        rcases (hI.stateHist o ho).2.2.2 h with ⟨q0, hq0, hq0s, hq0t⟩ | ⟨d, hd, hdt⟩
        · rcases far_getLast?_rel _ _ hops with ⟨h1, h2⟩ | ⟨x, y, hx, hy, hxr⟩
          · rw [hq0] at h1
            cases h1
          · rw [hq0] at hx
            have hxe : q0 = x := Option.some.inj hx
            have hq0s2 : isDispatchedOp x = false := by
              rw [← hxe]
              exact hq0s
            have hyx : y = x := ackRel_undisp x y hxr hq0s2
            left
            refine ⟨y, hy, ?_, ?_⟩
            · rw [hyx]
              exact hq0s2
            · rw [(ackRel_fields x y hxr).2.2.1, ← hxe]
              exact hq0t
        · rcases lastDispatched_ackCorr o oo hops with ⟨hl1, hl2⟩ | ⟨d0, dd, hd0, hdd, hdr⟩
          · rw [hd] at hl1
            cases hl1
          · rw [hd] at hd0
            have hde : d = d0 := Option.some.inj hd0
            right
            refine ⟨dd, hdd, ?_⟩
            rw [(ackRel_fields d0 dd hdr).2.2.1, ← hde]
            exact hdt
    · refine ⟨?_, ?_, ?_, ?_⟩
      · intro h
        rw [hOM] at h
        cases h
      · intro _
        have hdisp' : isDispatchedOp pp = true := by
          rw [isDispatchedOp, hppA]
          simp
        have hne : oo.operations.filter (fun p => isDispatchedOp p) ≠ [] :=
          List.ne_nil_of_mem (List.mem_filter.mpr ⟨hppm, by simpa using hdisp'⟩)
        have hld : lastDispatched oo =
            some ((oo.operations.filter (fun p => isDispatchedOp p)).getLast hne) := by
          rw [lastDispatched]
          exact List.getLast?_eq_getLast_of_ne_nil hne
        set dd := (oo.operations.filter (fun p => isDispatchedOp p)).getLast hne
        have hddm : dd ∈ oo.operations :=
          List.mem_of_mem_filter (List.getLast_mem hne)
        have hdddisp : isDispatchedOp dd = true := by
          have h9 : dd ∈ oo.operations.filter (fun p => isDispatchedOp p) :=
            List.getLast_mem hne
          exact (List.mem_filter.mp h9).2
        obtain ⟨d, hdm, hdr⟩ := far_mem_right _ _ hops dd hddm
        have hddisp : isDispatchedOp d = true := by
          rw [← ackRel_disp d dd hdr]
          exact hdddisp
        have hofin : o.orderState ≠ OrderState.Finalised := by
          refine hnotFin o ho oo hrel ?_
          rw [hOM]
          intro hc
          cases hc
        have hnd := live_no_dispatched_delete st hI o ho hnD hofin d hdm hddisp
        refine ⟨dd, hld, ?_⟩
        rw [(ackRel_fields d dd hdr).2.2.1]
        exact hnd
      · intro h
        rw [hOM] at h
        cases h
      · intro h
        rw [hOM] at h
        cases h
    · refine ⟨?_, ?_, ?_, ?_⟩
      · intro h
        rw [hFin] at h
        cases h
      · intro h
        rw [hFin] at h
        cases h
      · intro _
        have hlastoo : oo.operations.getLast? = some pp :=
          delete_getLast _ hDL' pp hppm hppT
        have hdisp' : isDispatchedOp pp = true := by
          rw [isDispatchedOp, hppA]
          simp
        constructor
        · refine ⟨pp, dispatched_getLast _ pp hlastoo hdisp', ?_⟩
          rw [isDeleteType, hppT]
          simp
        · intro r' hr' hq'
          have hrlast : oo.operations.getLast? = some r' :=
            queued_getLast _ hQL' r' hr' hq'
          rw [hlastoo] at hrlast
          have : pp = r' := Option.some.inj hrlast
          rw [← this, hppA] at hq'
          cases hq'
      · intro h
        rw [hFin] at h
        cases h
  · -- queuedDelZombie
    intro oo hoo r' hr' hq' ht'
    obtain ⟨o, ho, hrel⟩ := hmemR oo hoo
    have hops := hrel.2.2.2.2.2.1
    obtain ⟨r, hrm, hpr⟩ := far_mem_right _ _ hops r' hr'
    have hrq : r.operationState = OperationState.Queued := (ackRel_queued r r' hpr).mp hq'
    have hrt : r.operationType = OperationType.DeleteOrder := by
      rw [← (ackRel_fields r r' hpr).2.2.1]
      exact ht'
    have hzom := hI.queuedDelZombie o ho r hrm hrq hrt
    rcases hrel.2.2.2.2.2.2.1 (hI.deleteLast o ho) with
      hsame | ⟨hOM, hnD, pp, hppm, hppA⟩ | ⟨hFin, pp, hppm, hppT, hppA⟩
    · rw [hsame]
      exact hzom
    · exact absurd hzom hnD
    · exfalso
      have hlastoo : oo.operations.getLast? = some pp :=
        delete_getLast _ (hDLoo o ho oo hrel) pp hppm hppT
      have hrlast : oo.operations.getLast? = some r' :=
        queued_getLast _ (hQLoo o ho oo hrel) r' hr' hq'
      rw [hlastoo] at hrlast
      have : pp = r' := Option.some.inj hrlast
      rw [← this, hppA] at hq'
      cases hq'
  · -- sep
    intro b' hb' s' hs' hbq hsq hbside hsside hbl hsl
    obtain ⟨b, hb, hrelb⟩ := hmemR b' hb'
    obtain ⟨s, hs, hrels⟩ := hmemR s' hs'
    rw [hrelb.2.2.2.2.1] at hbq
    rw [hrels.2.2.2.2.1] at hsq
    rw [hrelb.2.2.2.1] at hbside
    rw [hrels.2.2.2.1] at hsside
    have h1 := getLivePrice_ack_max b b' hrelb.2.1 hrelb.2.2.2.2.2.1
    have h2 := getLivePrice_ack_min s s' hrels.2.1 hrels.2.2.2.2.2.1
    exact lt_of_le_of_lt h1 (lt_of_lt_of_le
      (hI.sep b hb s hs hbq hsq hbside hsside (hlive b hb b' hrelb hbl)
        (hlive s hs s' hrels hsl)) h2)
  · -- sepQA
    intro b' hb' hbq hbside hbl
    obtain ⟨b, hb, hrelb⟩ := hmemR b' hb'
    rw [hrelb.2.2.2.2.1] at hbq
    rw [hrelb.2.2.2.1] at hbside
    have h1 := getLivePrice_ack_max b b' hrelb.2.1 hrelb.2.2.2.2.2.1
    exact lt_of_le_of_lt h1 (lt_of_lt_of_le
      (hI.sepQA b hb hbq hbside (hlive b hb b' hrelb hbl)) (askScanMin_ack st hI n))
  · -- sepQB
    intro s' hs' hsq hsside hsl
    obtain ⟨s, hs, hrels⟩ := hmemR s' hs'
    rw [hrels.2.2.2.2.1] at hsq
    rw [hrels.2.2.2.1] at hsside
    have h2 := getLivePrice_ack_min s s' hrels.2.1 hrels.2.2.2.2.2.1
    exact lt_of_lt_of_le (lt_of_le_of_lt (bidScanMax_ack st hI n)
      (hI.sepQB s hs hsq hsside (hlive s hs s' hrels hsl))) h2
  · -- bookSep
    intro j hj k hk p2' o2' p3' o3' b a hres2 hres3 hb ha
    obtain ⟨hfp2, hfo2⟩ := resolveBookEntry_elim _ j p2' o2' hres2
    obtain ⟨hfp3, hfo3⟩ := resolveBookEntry_elim _ k p3' o3' hres3
    rcases findOp_ackCorr st n j with ⟨h1, h2⟩ | ⟨p2, pp2, h1, h2, hpr2⟩
    · rw [h2] at hfp2
      cases hfp2
    rcases findOp_ackCorr st n k with ⟨h3, h4⟩ | ⟨p3, pp3, h3, h4, hpr3⟩
    · rw [h4] at hfp3
      cases hfp3
    rw [h2] at hfp2
    rw [h4] at hfp3
    have he2 : pp2 = p2' := Option.some.inj hfp2
    have he3 : pp3 = p3' := Option.some.inj hfp3
    rcases findOrder_ackCorr st n p2'.orderId with ⟨h5, h6⟩ | ⟨o2, oo2, h5, h6, hor2⟩
    · rw [h6] at hfo2
      cases hfo2
    rcases findOrder_ackCorr st n p3'.orderId with ⟨h7, h8⟩ | ⟨o3, oo3, h7, h8, hor3⟩
    · rw [h8] at hfo3
      cases hfo3
    rw [h6] at hfo2
    rw [h8] at hfo3
    have hoe2 : oo2 = o2' := Option.some.inj hfo2
    have hoe3 : oo3 = o3' := Option.some.inj hfo3
    have hfo2' : findOrder st p2.orderId = some o2 := by
      rw [← h5, ← he2, (ackRel_fields p2 pp2 hpr2).2.1]
    have hfo3' : findOrder st p3.orderId = some o3 := by
      rw [← h7, ← he3, (ackRel_fields p3 pp3 hpr3).2.1]
    have hres2' : resolveBookEntry st j = some (p2, o2) :=
      resolveBookEntry_some st j p2 o2 h1 hfo2'
    have hres3' : resolveBookEntry st k = some (p3, o3) :=
      resolveBookEntry_some st k p3 o3 h3 hfo3'
    have hb2 : entryBid p2 o2 = some b := by
      rw [← entryBid_ack p2 pp2 o2 oo2 hpr2 hor2, he2, hoe2]
      exact hb
    have ha3 : entryAsk p3 o3 = some a := by
      rw [← entryAsk_ack p3 pp3 o3 oo3 hpr3 hor3, he3, hoe3]
      exact ha
    exact hI.bookSep j hj k hk p2 o2 p3 o3 b a hres2' hres3' hb2 ha3
  · -- ThrOK nodup
    exact hT.thrNodup
  · -- ThrOK thrQueued
    intro tid htid
    obtain ⟨p, hfp, hpq⟩ := hT.thrQueued tid htid
    rcases findOp_ackCorr st n tid with ⟨h1, h2⟩ | ⟨p0, pp, h1, h2, hpr⟩
    · rw [hfp] at h1
      cases h1
    · rw [hfp] at h1
      have hp0 : p = p0 := Option.some.inj h1
      refine ⟨pp, h2, ?_⟩
      rw [ackRel_of_queued p0 pp hpr (by rw [← hp0]; exact hpq), ← hp0]
      exact hpq
  · -- ThrOK queuedThr
    intro p' hp' hq'
    obtain ⟨p, hp, hpr⟩ := far_mem_right _ _ hAll p' hp'
    have hq0 : p.operationState = OperationState.Queued := (ackRel_queued p p' hpr).mp hq'
    have := hT.queuedThr p hp hq0
    rw [(ackRel_fields p p' hpr).1]
    exact this
  · -- NoInit
    intro p' hp'
    obtain ⟨p, hp, hpr⟩ := far_mem_right _ _ hAll p' hp'
    exact ackRel_notInitial p p' hpr (hNI p hp)

theorem sublist_flatMap_ops (l l' : List Order) (h : l.Sublist l') :
    (l.flatMap (fun o => o.operations)).Sublist (l'.flatMap (fun o => o.operations)) := by
  induction h with
  | slnil => exact List.Sublist.refl _
  | @cons l1 l2 a ht ih =>
    rw [List.flatMap_cons]
    exact List.Sublist.trans ih (List.sublist_append_right _ _)
  | @cons₂ l1 l2 a ht ih =>
    rw [List.flatMap_cons, List.flatMap_cons]
    exact List.Sublist.append_left ih _

theorem quote_not_finalised (st : EngineState) (hI : InvCore st)
    (q : Order) (hq : q ∈ st.orders) (hqi : q.isQuote = true) :
    q.orderState ≠ OrderState.Finalised := by
  intro hcon
  obtain ⟨⟨d, hd, hdt⟩, _⟩ := (hI.stateHist q hq).2.2.1 hcon
  obtain ⟨l1, l2, hops, _, _⟩ := lastDispatched_decomp q d hd
  have hdm : d ∈ q.operations := by
    rw [hops]
    exact List.mem_append_right _ (List.mem_cons_self _ _)
  have hdq : d ∈ quoteOps st := by
    rw [quoteOps, (quote_order_eq st hI q hq hqi).1]
    exact hdm
  rw [isDeleteType, (hI.quoteOpWF d hdq).1] at hdt
  simp at hdt

theorem gcOrders_preserves (st : EngineState) (h : Inv st) : Inv (GCOrders st) := by
  obtain ⟨hI, hT, hNI⟩ := h
  rw [GCOrders]
  by_cases hlen : 1000 < st.orders.length
  · rw [if_pos hlen]
    set f : Order → Bool := fun o => decide (o.orderState ≠ OrderState.Finalised) with hf
    have hmemf : ∀ o, o ∈ st.orders.filter f ↔
        o ∈ st.orders ∧ o.orderState ≠ OrderState.Finalised := by
      intro o
      rw [List.mem_filter]
      constructor
      · rintro ⟨h1, h2⟩
        exact ⟨h1, by simpa [hf] using h2⟩
      · rintro ⟨h1, h2⟩
        exact ⟨h1, by simpa [hf] using h2⟩
    have hsub : (st.orders.filter f).Sublist st.orders := List.filter_sublist _
    have hordeq : ({ st with orders := st.orders.filter f } : EngineState).orders =
        st.orders.filter f := rfl
    have hallSub : (allOps { st with orders := st.orders.filter f }).Sublist (allOps st) :=
      sublist_flatMap_ops _ _ hsub
    have hallMem : ∀ p, p ∈ allOps { st with orders := st.orders.filter f } → p ∈ allOps st :=
      fun p hp => List.Sublist.mem hp hallSub
    have hopsN' : ((allOps { st with orders := st.orders.filter f }).map
        (fun p => p.opId)).Nodup :=
      List.Nodup.sublist (List.Sublist.map _ hallSub) hI.opsNodup
    have hordN' : ((st.orders.filter f).map (fun o => o.orderId)).Nodup :=
      List.Nodup.sublist (List.Sublist.map _ hsub) hI.ordersNodup
    have hfopBack : ∀ j p, findOp { st with orders := st.orders.filter f } j = some p →
        findOp st j = some p := by
      intro j p hfp
      have hpm := (findOp_some_facts _ j p hfp).1
      have hpid := (findOp_some_facts _ j p hfp).2
      rw [← hpid]
      exact findOp_of_mem st hI.opsNodup p (hallMem p hpm)
    have hfopFwd : ∀ p, p ∈ allOps { st with orders := st.orders.filter f } →
        findOp { st with orders := st.orders.filter f } p.opId = some p :=
      fun p hp => findOp_of_mem _ hopsN' p hp
    have hownFwd : ∀ o ∈ st.orders, o.orderState ≠ OrderState.Finalised →
        ∀ p ∈ o.operations, p ∈ allOps { st with orders := st.orders.filter f } := by
      intro o ho hof p hp
      exact (mem_allOps _ p).mpr ⟨o, (hmemf o).mpr ⟨ho, hof⟩, hp⟩
    have hfordBack : ∀ oid o, findOrder { st with orders := st.orders.filter f } oid = some o →
        findOrder st oid = some o ∧ o ∈ st.orders := by
      intro oid o hfo
      obtain ⟨hom, hoid⟩ := findOrder_some _ oid o hfo
      have hom2 : o ∈ st.orders := ((hmemf o).mp hom).1
      refine ⟨?_, hom2⟩
      rw [← hoid]
      exact findOrder_of_mem st hI.ordersNodup o hom2
    have hfordFwd : ∀ o ∈ st.orders, o.orderState ≠ OrderState.Finalised →
        findOrder { st with orders := st.orders.filter f } o.orderId = some o := by
      intro o ho hof
      exact findOrder_of_mem _ hordN' o ((hmemf o).mpr ⟨ho, hof⟩)
    obtain ⟨q, hq, hqq⟩ := hI.quoteWF
    obtain ⟨hqm, hqid⟩ := findOrder_some st st.quotesId q hq
    have hqnf : q.orderState ≠ OrderState.Finalised := quote_not_finalised st hI q hqm hqq
    have hq' : findOrder { st with orders := st.orders.filter f } st.quotesId = some q := by
      rw [← hqid]
      exact hfordFwd q hqm hqnf
    have hqops : quoteOps { st with orders := st.orders.filter f } = quoteOps st := by
      rw [quoteOps, quoteOps, hq, hq']
    have hbookOwnerLive : ∀ j ∈ st.marketOperations, ∀ p o, findOp st j = some p →
        findOrder st p.orderId = some o → o.orderState ≠ OrderState.Finalised := by
      intro j hj p o hfp hfo hcon
      obtain ⟨hom, hoid⟩ := findOrder_some st p.orderId o hfo
      obtain ⟨d, hd, hjd⟩ := hI.entryOut o hom j hj p hfp hoid.symm
      obtain ⟨⟨d2, hd2, hdt2⟩, _⟩ := (hI.stateHist o hom).2.2.1 hcon
      rw [hd] at hd2
      rw [← Option.some.inj hd2] at hdt2
      obtain ⟨p2, o2, hp2, _, _, hnd2⟩ := hI.bookResolves j hj
      rw [hfp] at hp2
      have hpd : p = d := by
        obtain ⟨l1, l2, hops, _, _⟩ := lastDispatched_decomp o d hd
        have hdm : d ∈ o.operations := by
          rw [hops]
          exact List.mem_append_right _ (List.mem_cons_self _ _)
        have hfd : findOp st d.opId = some d :=
          findOp_of_mem st hI.opsNodup d ((mem_allOps st d).mpr ⟨o, hom, hdm⟩)
        rw [← hjd, hfp] at hfd
        exact Option.some.inj hfd
      rw [← Option.some.inj hp2, hpd, hdt2] at hnd2
      cases hnd2
    refine ⟨⟨hordN', hopsN', ?_, ?_, ?_, hI.bookNodup, ?_, ⟨q, hq', hqq⟩, ?_, ?_, ?_, ?_, ?_,
      ?_, ?_, ?_, ?_, ?_, ?_, ?_, ?_, ?_, ?_⟩, ⟨hT.thrNodup, ?_, ?_⟩, ?_⟩
    · intro o ho p hp
      exact hI.owner o ((hmemf o).mp ho).1 p hp
    · intro p hp
      exact hI.opsFresh p (hallMem p hp)
    · intro o ho
      exact hI.ordersFresh o ((hmemf o).mp ho).1
    · -- bookResolves
      intro j hj
      obtain ⟨p, o, hfp, hfo, hdisp, hnd⟩ := hI.bookResolves j hj
      have honf := hbookOwnerLive j hj p o hfp hfo
      obtain ⟨hom, hoid⟩ := findOrder_some st p.orderId o hfo
      have hpm : p ∈ o.operations := op_owner_mem st hI.ordersNodup hI.owner p
        (findOp_some_facts st j p hfp).1 o hfo
      refine ⟨p, o, ?_, ?_, hdisp, hnd⟩
      · rw [← (findOp_some_facts st j p hfp).2]
        exact hfopFwd p (hownFwd o hom honf p hpm)
      · rw [← hoid]
        exact hfordFwd o hom honf
    · intro o ho hqi
      exact hI.isQuoteId o ((hmemf o).mp ho).1 hqi
    · intro p hp
      rw [hqops] at hp
      exact hI.quoteOpWF p hp
    · intro o ho hqf p hp
      exact hI.orderOpWF o ((hmemf o).mp ho).1 hqf p hp
    · intro o ho
      exact hI.queuedLast o ((hmemf o).mp ho).1
    · intro o ho
      exact hI.ackedPrefix o ((hmemf o).mp ho).1
    · intro o ho
      exact hI.deleteLast o ((hmemf o).mp ho).1
    · intro o ho q2 hlast hq2
      exact hI.chain o ((hmemf o).mp ho).1 q2 hlast hq2
    · intro o ho d hd hnd
      exact hI.entryIn o ((hmemf o).mp ho).1 d hd hnd
    · intro o ho j hj p hfp hpo
      exact hI.entryOut o ((hmemf o).mp ho).1 j hj p (hfopBack j p hfp) hpo
    · intro o ho
      exact hI.stateHist o ((hmemf o).mp ho).1
    · intro o ho p hp hpq hpt
      exact hI.queuedDelZombie o ((hmemf o).mp ho).1 p hp hpq hpt
    · intro b hb s hs hbq hsq hbs hss hbl hsl
      exact hI.sep b ((hmemf b).mp hb).1 s ((hmemf s).mp hs).1 hbq hsq hbs hss hbl hsl
    · intro b hb hbq hbs hbl
      have := hI.sepQA b ((hmemf b).mp hb).1 hbq hbs hbl
      show GetLivePrice _ b < askScanMin _
      rw [askScanMin, hqops]
      exact this
    · intro s hs hsq hss hsl
      have := hI.sepQB s ((hmemf s).mp hs).1 hsq hss hsl
      show bidScanMax _ < GetLivePrice _ s
      rw [bidScanMax, hqops]
      exact this
    · -- bookSep
      intro j hj k hk p2 o2 p3 o3 b a hres2 hres3 hb ha
      obtain ⟨hfp2, hfo2⟩ := resolveBookEntry_elim _ j p2 o2 hres2
      obtain ⟨hfp3, hfo3⟩ := resolveBookEntry_elim _ k p3 o3 hres3
      have hres2' : resolveBookEntry st j = some (p2, o2) :=
        resolveBookEntry_some st j p2 o2 (hfopBack j p2 hfp2)
          (hfordBack p2.orderId o2 hfo2).1
      have hres3' : resolveBookEntry st k = some (p3, o3) :=
        resolveBookEntry_some st k p3 o3 (hfopBack k p3 hfp3)
          (hfordBack p3.orderId o3 hfo3).1
      exact hI.bookSep j hj k hk p2 o2 p3 o3 b a hres2' hres3' hb ha
    · -- thrQueued
      intro tid htid
      obtain ⟨p, hfp, hpq⟩ := hT.thrQueued tid htid
      obtain ⟨o, hom, hpo⟩ := (mem_allOps st p).mp (findOp_some_facts st tid p hfp).1
      have honf : o.orderState ≠ OrderState.Finalised := by
        intro hcon
        exact (hI.stateHist o hom).2.2.1 hcon |>.2 p hpo hpq
      refine ⟨p, ?_, hpq⟩
      rw [← (findOp_some_facts st tid p hfp).2]
      exact hfopFwd p (hownFwd o hom honf p hpo)
    · intro p hp hpq
      exact hT.queuedThr p (hallMem p hp) hpq
    · intro p hp
      exact hNI p (hallMem p hp)
  · rw [if_neg hlen]
    exact ⟨hI, hT, hNI⟩

theorem foldAsk_acked_snd (l1 : List Operation)
    (h : ∀ r ∈ l1, r.operationState = OperationState.Acked) :
    ∀ a u : Int, (l1.foldl quoteAskStep (a, u)).2 = u := by
  induction l1 with
  | nil =>
    intro a u
    rfl
  | cons x t ih =>
    intro a u
    rw [List.foldl_cons]
    by_cases hq : x.askQty = -1
    · rw [show quoteAskStep (a, u) x = (a, u) from by rw [quoteAskStep, if_pos hq]]
      exact ih (fun r hr => h r (List.mem_cons_of_mem _ hr)) a u
    · rw [show quoteAskStep (a, u) x = (x.askPrice, u) from by
        rw [quoteAskStep, if_neg hq, if_pos (h x (List.mem_cons_self _ _))]]
      exact ih (fun r hr => h r (List.mem_cons_of_mem _ hr)) _ u

theorem foldBid_acked_snd (l1 : List Operation)
    (h : ∀ r ∈ l1, r.operationState = OperationState.Acked) :
    ∀ a u : Int, (l1.foldl quoteBidStep (a, u)).2 = u := by
  induction l1 with
  | nil =>
    intro a u
    rfl
  | cons x t ih =>
    intro a u
    rw [List.foldl_cons]
    by_cases hq : x.bidQty = -1
    · rw [show quoteBidStep (a, u) x = (a, u) from by rw [quoteBidStep, if_pos hq]]
      exact ih (fun r hr => h r (List.mem_cons_of_mem _ hr)) a u
    · rw [show quoteBidStep (a, u) x = (x.bidPrice, u) from by
        rw [quoteBidStep, if_neg hq, if_pos (h x (List.mem_cons_self _ _))]]
      exact ih (fun r hr => h r (List.mem_cons_of_mem _ hr)) _ u

theorem flatMap_pointwise_sublist (l : List Order) (g : Order → Order)
    (h : ∀ o ∈ l, ((g o).operations).Sublist o.operations) :
    ((l.map g).flatMap (fun o => o.operations)).Sublist
      (l.flatMap (fun o => o.operations)) := by
  induction l with
  | nil => exact List.Sublist.refl _
  | cons o t ih =>
    rw [List.map_cons, List.flatMap_cons, List.flatMap_cons]
    exact List.Sublist.append (h o (List.mem_cons_self _ _))
      (ih (fun o2 ho2 => h o2 (List.mem_cons_of_mem _ ho2)))

theorem gcQuotes_main (st : EngineState) (hI : InvCore st) (hT : ThrOK st st.throttle)
    (hNI : NoInit st) (q : Order) (hfq : findOrder st st.quotesId = some q)
    (p150 : Operation) (hget : q.operations.get? 150 = some p150)
    (hack : p150.operationState = OperationState.Acked) :
    Inv (updateOrder st st.quotesId (fun o => { o with operations := o.operations.drop 150 })) := by
  obtain ⟨hqm, hqid⟩ := findOrder_some st st.quotesId q hfq
  have hqq : q.isQuote = true := by
    obtain ⟨q0, hq0, hqq0⟩ := hI.quoteWF
    rw [hfq] at hq0
    rw [← Option.some.inj hq0] at hqq0
    exact hqq0
  set F : Order → Order := fun o => { o with operations := o.operations.drop 150 } with hFdef
  set g : Order → Order := fun o => if o.orderId = st.quotesId then F o else o with hgdef
  have hordeq : (updateOrder st st.quotesId F).orders = st.orders.map g := rfl
  have hshape : q.operations.drop 150 = p150 :: q.operations.drop 151 := by
    obtain ⟨hh, hv⟩ := List.get?_eq_some.mp hget
    have h3 := List.drop_eq_getElem_cons hh
    rw [h3]
    have h4 : q.operations[150] = p150 := hv
    rw [h4]
  have hdecomp : q.operations = q.operations.take 150 ++ p150 :: q.operations.drop 151 := by
    have h1 := List.take_append_drop 150 q.operations
    rw [hshape] at h1
    exact h1.symm
  have htake_acked : ∀ r ∈ q.operations.take 150,
      r.operationState = OperationState.Acked :=
    hI.ackedPrefix q hqm (q.operations.take 150) p150 (q.operations.drop 151) hdecomp hack
  have hp150mem : p150 ∈ q.operations.drop 150 := by
    rw [hshape]
    exact List.mem_cons_self _ _
  have hp150disp : isDispatchedOp p150 = true := by
    rw [isDispatchedOp, hack]
    simp
  have hdropne : q.operations.drop 150 ≠ [] := List.ne_nil_of_mem hp150mem
  have hlast_eq : q.operations.getLast? = (q.operations.drop 150).getLast? := by
    rcases hx : (q.operations.drop 150).getLast? with _ | x
    · exact absurd (List.getLast?_eq_none_iff.mp hx) hdropne
    · conv_lhs => rw [← List.take_append_drop 150 q.operations]
      rw [List.getLast?_append, hx]
      rfl
  have hfilne : (q.operations.drop 150).filter (fun p => isDispatchedOp p) ≠ [] :=
    List.ne_nil_of_mem (List.mem_filter.mpr ⟨hp150mem, by simpa using hp150disp⟩)
  have hld_eq : lastDispatched q = lastDispatched (F q) := by
    rw [lastDispatched, lastDispatched]
    show (q.operations.filter _).getLast? = ((q.operations.drop 150).filter _).getLast?
    rcases hx : ((q.operations.drop 150).filter (fun p => isDispatchedOp p)).getLast?
      with _ | x
    · exact absurd (List.getLast?_eq_none_iff.mp hx) hfilne
    · conv_lhs => rw [← List.take_append_drop 150 q.operations]
      rw [List.filter_append, List.getLast?_append, hx]
      rfl
  have hldq_ne : lastDispatched q ≠ none := by
    rw [hld_eq]
    intro hcon
    rw [lastDispatched] at hcon
    exact hfilne (List.getLast?_eq_none_iff.mp hcon)
  have hdl_sub : ∀ r ∈ (q.operations.drop 150).dropLast, r ∈ q.operations.dropLast := by
    intro r hr
    have h1 : q.operations.dropLast =
        q.operations.take 150 ++ (q.operations.drop 150).dropLast := by
      conv_lhs => rw [← List.take_append_drop 150 q.operations]
      exact List.dropLast_append_of_ne_nil _ hdropne
    rw [h1]
    exact List.mem_append_right _ hr
  have hgcase : ∀ o ∈ st.orders, (g o = o ∧ o ≠ q) ∨ o = q := by
    intro o ho
    by_cases hoq : o = q
    · exact Or.inr hoq
    · left
      refine ⟨?_, hoq⟩
      rw [hgdef]
      show (if o.orderId = st.quotesId then F o else o) = o
      rw [if_neg (fun hc => hoq (List.inj_on_of_nodup_map hI.ordersNodup ho hqm
        (by rw [hc, hqid])))]
  have hgq : g q = F q := by
    rw [hgdef]
    show (if q.orderId = st.quotesId then F q else q) = F q
    rw [if_pos hqid]
  have hGid : ∀ o, (g o).orderId = o.orderId := by
    intro o
    rw [hgdef]
    show (if o.orderId = st.quotesId then F o else o).orderId = o.orderId
    by_cases hc : o.orderId = st.quotesId
    · rw [if_pos hc]
    · rw [if_neg hc]
  have hGquote : ∀ o, (g o).isQuote = o.isQuote := by
    intro o
    rw [hgdef]
    show (if o.orderId = st.quotesId then F o else o).isQuote = o.isQuote
    by_cases hc : o.orderId = st.quotesId
    · rw [if_pos hc]
    · rw [if_neg hc]
  have hGopsSub : ∀ o, ((g o).operations).Sublist o.operations := by
    intro o
    rw [hgdef]
    show (if o.orderId = st.quotesId then F o else o).operations.Sublist o.operations
    by_cases hc : o.orderId = st.quotesId
    · rw [if_pos hc]
      exact List.drop_sublist _ _
    · rw [if_neg hc]
  have hallSub : (allOps (updateOrder st st.quotesId F)).Sublist (allOps st) := by
    show ((st.orders.map g).flatMap (fun o => o.operations)).Sublist _
    exact flatMap_pointwise_sublist st.orders g (fun o _ => hGopsSub o)
  have hallMem : ∀ p, p ∈ allOps (updateOrder st st.quotesId F) → p ∈ allOps st :=
    fun p hp => List.Sublist.mem hp hallSub
  have hopsN' : ((allOps (updateOrder st st.quotesId F)).map (fun p => p.opId)).Nodup :=
    List.Nodup.sublist (List.Sublist.map _ hallSub) hI.opsNodup
  have hordN' : (((updateOrder st st.quotesId F).orders).map (fun o => o.orderId)).Nodup := by
    rw [hordeq, map_key_congr st.orders _ _ hGid]
    exact hI.ordersNodup
  have hmemG : ∀ o2, o2 ∈ (updateOrder st st.quotesId F).orders ↔
      ∃ o ∈ st.orders, o2 = g o := by
    intro o2
    rw [hordeq, List.mem_map]
    constructor
    · rintro ⟨o, ho, rfl⟩
      exact ⟨o, ho, rfl⟩
    · rintro ⟨o, ho, rfl⟩
      exact ⟨o, ho, rfl⟩
  have hfopBack : ∀ j p, findOp (updateOrder st st.quotesId F) j = some p →
      findOp st j = some p := by
    intro j p hfp
    have hpm := (findOp_some_facts _ j p hfp).1
    rw [← (findOp_some_facts _ j p hfp).2]
    exact findOp_of_mem st hI.opsNodup p (hallMem p hpm)
  have hfopFwd : ∀ p, p ∈ allOps (updateOrder st st.quotesId F) →
      findOp (updateOrder st st.quotesId F) p.opId = some p :=
    fun p hp => findOp_of_mem _ hopsN' p hp
  have hmemOps : ∀ o ∈ st.orders, ∀ p ∈ (g o).operations,
      p ∈ allOps (updateOrder st st.quotesId F) := by
    intro o ho p hp
    refine (mem_allOps _ p).mpr ⟨g o, ?_, hp⟩
    rw [hordeq]
    exact List.mem_map.mpr ⟨o, ho, rfl⟩
  have hford : ∀ oid2, findOrder (updateOrder st st.quotesId F) oid2 =
      (findOrder st oid2).map g :=
    fun oid2 => findOrder_updateOrder st st.quotesId F (fun o => rfl) oid2
  have hfq' : findOrder (updateOrder st st.quotesId F) st.quotesId = some (g q) := by
    rw [hford, hfq]
    rfl
  have hqops_st : quoteOps st = q.operations := by
    rw [quoteOps, hfq]
  have hqops' : quoteOps (updateOrder st st.quotesId F) = q.operations.drop 150 := by
    rw [quoteOps]
    show (match findOrder (updateOrder st st.quotesId F) st.quotesId with
      | some q2 => q2.operations
      | none => []) = q.operations.drop 150
    rw [hfq', hgq]
  have hask : askScanMin st ≤ askScanMin (updateOrder st st.quotesId F) := by
    rw [askScanMin, askScanMin, hqops_st, hqops', QuoteAskScan, QuoteAskScan]
    conv_lhs => rw [← List.take_append_drop 150 q.operations, List.foldl_append]
    have hsnd : ((q.operations.take 150).foldl quoteAskStep (intMax, intMax)).2 = intMax :=
      foldAsk_acked_snd _ htake_acked intMax intMax
    have := askScan_ack_mono (q.operations.drop 150) (q.operations.drop 150)
      (far_refl_ackRel _)
      ((q.operations.take 150).foldl quoteAskStep (intMax, intMax)).1
      ((q.operations.take 150).foldl quoteAskStep (intMax, intMax)).2 intMax intMax
      (by rw [hsnd]) (by rw [hsnd]; exact min_le_right _ _)
    exact this.2
  have hbid : bidScanMax (updateOrder st st.quotesId F) ≤ bidScanMax st := by
    rw [bidScanMax, bidScanMax, hqops_st, hqops', QuoteBidScan, QuoteBidScan]
    conv_rhs => rw [← List.take_append_drop 150 q.operations, List.foldl_append]
    have hsnd : ((q.operations.take 150).foldl quoteBidStep (intMin, intMin)).2 = intMin :=
      foldBid_acked_snd _ htake_acked intMin intMin
    have := bidScan_ack_mono (q.operations.drop 150) (q.operations.drop 150)
      (far_refl_ackRel _)
      ((q.operations.take 150).foldl quoteBidStep (intMin, intMin)).1
      ((q.operations.take 150).foldl quoteBidStep (intMin, intMin)).2 intMin intMin
      (by rw [hsnd]) (by rw [hsnd]; exact le_max_right _ _)
    exact this.2
  have hGL : ∀ o ∈ st.orders, o.isQuote = false → ∀ cmp : Int → Int → Int,
      GetLivePrice cmp (g o) = GetLivePrice cmp o := by
    intro o ho hnq cmp
    rcases hgcase o ho with ⟨he, _⟩ | hoq
    · rw [he]
    · rw [hoq, hqq] at hnq
      cases hnq
  have hnonq : ∀ o ∈ st.orders, (g o).isQuote = false → g o = o ∧ o ≠ q := by
    intro o ho hnq
    rcases hgcase o ho with h | hoq
    · exact h
    · rw [hGquote, hoq, hqq] at hnq
      cases hnq
  refine ⟨⟨hordN', hopsN', ?_, ?_, ?_, hI.bookNodup, ?_, ⟨g q, hfq', by rw [hGquote]; exact hqq⟩,
    ?_, ?_, ?_, ?_, ?_, ?_, ?_, ?_, ?_, ?_, ?_, ?_, ?_, ?_, ?_⟩, ⟨hT.thrNodup, ?_, ?_⟩, ?_⟩
  · -- owner
    intro o2 ho2 p hp
    obtain ⟨o, ho, rfl⟩ := (hmemG _).mp ho2
    rw [hGid]
    exact hI.owner o ho p (List.Sublist.mem hp (hGopsSub o))
  · intro p hp
    exact hI.opsFresh p (hallMem p hp)
  · intro o2 ho2
    obtain ⟨o, ho, rfl⟩ := (hmemG _).mp ho2
    rw [hGid]
    exact hI.ordersFresh o ho
  · -- bookResolves
    intro j hj
    obtain ⟨p, o, hfp, hfo, hdisp, hnd⟩ := hI.bookResolves j hj
    obtain ⟨hom, hoid⟩ := findOrder_some st p.orderId o hfo
    have hpall := (findOp_some_facts st j p hfp).1
    have hpid := (findOp_some_facts st j p hfp).2
    have hpops : p ∈ o.operations := op_owner_mem st hI.ordersNodup hI.owner p hpall o hfo
    have hpg : p ∈ (g o).operations := by
      rcases hgcase o hom with ⟨he, _⟩ | hoq
      · rw [he]
        exact hpops
      · subst hoq
        rw [hgq]
        show p ∈ o.operations.drop 150
        obtain ⟨d, hd, hjd⟩ := hI.entryOut o hom j hj p hfp hoid.symm
        have hpd : p = d := by
          obtain ⟨l1, l2, hops2, _, _⟩ := lastDispatched_decomp o d hd
          have hdm : d ∈ o.operations := by
            rw [hops2]
            exact List.mem_append_right _ (List.mem_cons_self _ _)
          have hfd : findOp st d.opId = some d :=
            findOp_of_mem st hI.opsNodup d ((mem_allOps st d).mpr ⟨o, hom, hdm⟩)
          rw [← hjd, hfp] at hfd
          exact Option.some.inj hfd
        rw [hld_eq] at hd
        have hdin : d ∈ (o.operations.drop 150).filter (fun r => isDispatchedOp r) := by
          rw [lastDispatched] at hd
          exact getLast?_mem _ d hd
        rw [hpd]
        exact List.mem_of_mem_filter hdin
    refine ⟨p, g o, ?_, ?_, hdisp, hnd⟩
    · rw [← hpid]
      exact hfopFwd p (hmemOps o hom p hpg)
    · rw [hford, hfo]
      rfl
  · -- isQuoteId
    intro o2 ho2 hq2
    obtain ⟨o, ho, rfl⟩ := (hmemG _).mp ho2
    rw [hGquote] at hq2
    rw [hGid]
    exact hI.isQuoteId o ho hq2
  · -- quoteOpWF
    intro p hp
    rw [hqops'] at hp
    refine hI.quoteOpWF p ?_
    rw [hqops_st]
    exact List.Sublist.mem hp (List.drop_sublist _ _)
  · -- orderOpWF
    intro o2 ho2 hnq p hp
    obtain ⟨o, ho, rfl⟩ := (hmemG _).mp ho2
    rw [hGquote] at hnq
    exact hI.orderOpWF o ho hnq p (List.Sublist.mem hp (hGopsSub o))
  · -- queuedLast
    intro o2 ho2
    obtain ⟨o, ho, rfl⟩ := (hmemG _).mp ho2
    rcases hgcase o ho with ⟨he, _⟩ | hoq
    · rw [he]
      exact hI.queuedLast o ho
    · subst hoq
      rw [hgq]
      intro r hr
      exact hI.queuedLast o ho r (hdl_sub r hr)
  · -- ackedPrefix
    intro o2 ho2
    obtain ⟨o, ho, rfl⟩ := (hmemG _).mp ho2
    rcases hgcase o ho with ⟨he, _⟩ | hoq
    · rw [he]
      exact hI.ackedPrefix o ho
    · subst hoq
      rw [hgq]
      intro l1 p l2 hdec hp r hr
      have hfull : o.operations = (o.operations.take 150 ++ l1) ++ p :: l2 := by
        conv_lhs => rw [← List.take_append_drop 150 o.operations]
        rw [List.append_assoc]
        have hdec2 : o.operations.drop 150 = l1 ++ p :: l2 := hdec
        rw [hdec2]
      exact hI.ackedPrefix o ho (o.operations.take 150 ++ l1) p l2 hfull hp r
        (List.mem_append_right _ hr)
  · -- deleteLast
    intro o2 ho2
    obtain ⟨o, ho, rfl⟩ := (hmemG _).mp ho2
    rcases hgcase o ho with ⟨he, _⟩ | hoq
    · rw [he]
      exact hI.deleteLast o ho
    · subst hoq
      rw [hgq]
      intro r hr
      exact hI.deleteLast o ho r (hdl_sub r hr)
  · -- chain
    intro o2 ho2 q2 hlast hq2
    obtain ⟨o, ho, rfl⟩ := (hmemG _).mp ho2
    rcases hgcase o ho with ⟨he, _⟩ | hoq
    · rw [he] at hlast ⊢
      exact hI.chain o ho q2 hlast hq2
    · subst hoq
      rw [hgq] at hlast ⊢
      have hlast2 : o.operations.getLast? = some q2 := by
        rw [hlast_eq]
        exact hlast
      rw [← hld_eq]
      exact hI.chain o ho q2 hlast2 hq2
  · -- entryIn
    intro o2 ho2 d hd hnd
    obtain ⟨o, ho, rfl⟩ := (hmemG _).mp ho2
    rcases hgcase o ho with ⟨he, _⟩ | hoq
    · rw [he] at hd
      exact hI.entryIn o ho d hd hnd
    · subst hoq
      rw [hgq, ← hld_eq] at hd
      exact hI.entryIn o ho d hd hnd
  · -- entryOut
    intro o2 ho2 j hj p hfp hpo
    obtain ⟨o, ho, rfl⟩ := (hmemG _).mp ho2
    rw [hGid] at hpo
    have hfp2 := hfopBack j p hfp
    obtain ⟨d, hd, hjd⟩ := hI.entryOut o ho j hj p hfp2 hpo
    rcases hgcase o ho with ⟨he, _⟩ | hoq
    · rw [he]
      exact ⟨d, hd, hjd⟩
    · subst hoq
      rw [hgq, ← hld_eq]
      exact ⟨d, hd, hjd⟩
  · -- stateHist
    intro o2 ho2
    obtain ⟨o, ho, rfl⟩ := (hmemG _).mp ho2
    rcases hgcase o ho with ⟨he, _⟩ | hoq
    · rw [he]
      exact hI.stateHist o ho
    · subst hoq
      rw [hgq]
      have hstate : (F o).orderState = o.orderState := rfl
      refine ⟨?_, ?_, ?_, ?_⟩
      · intro h
        rw [hstate] at h
        exact absurd ((hI.stateHist o ho).1 h) hldq_ne
      · intro h
        rw [hstate] at h
        obtain ⟨d, hd, hnd⟩ := (hI.stateHist o ho).2.1 h
        rw [hld_eq] at hd
        exact ⟨d, hd, hnd⟩
      · intro h
        rw [hstate] at h
        obtain ⟨⟨d, hd, hdt⟩, hnq⟩ := (hI.stateHist o ho).2.2.1 h
        rw [hld_eq] at hd
        refine ⟨⟨d, hd, hdt⟩, ?_⟩
        intro p hp
        exact hnq p (List.Sublist.mem hp (List.drop_sublist _ _))
      · intro h
        rw [hstate] at h
        rcases (hI.stateHist o ho).2.2.2 h with ⟨q2, hq2, hq2s, hq2t⟩ | ⟨d, hd, hdt⟩
        · left
          refine ⟨q2, ?_, hq2s, hq2t⟩
          rw [← hlast_eq]
          exact hq2
        · right
          rw [hld_eq] at hd
          exact ⟨d, hd, hdt⟩
  · -- queuedDelZombie
    intro o2 ho2 p hp hpq hpt
    obtain ⟨o, ho, rfl⟩ := (hmemG _).mp ho2
    have hstate : (g o).orderState = o.orderState := by
      rcases hgcase o ho with ⟨he, _⟩ | hoq
      · rw [he]
      · subst hoq
        rw [hgq]
    rw [hstate]
    exact hI.queuedDelZombie o ho p (List.Sublist.mem hp (hGopsSub o)) hpq hpt
  · -- sep
    intro b2 hb2 s2 hs2 hbq hsq hbside hsside hbl hsl
    obtain ⟨b, hb, rfl⟩ := (hmemG _).mp hb2
    obtain ⟨s, hs, rfl⟩ := (hmemG _).mp hs2
    rw [hGquote] at hbq hsq
    obtain ⟨hbe, _⟩ := hnonq b hb (by rw [hGquote]; exact hbq)
    obtain ⟨hse, _⟩ := hnonq s hs (by rw [hGquote]; exact hsq)
    rw [hbe] at hbside hbl ⊢
    rw [hse] at hsside hsl ⊢
    exact hI.sep b hb s hs hbq hsq hbside hsside hbl hsl
  · -- sepQA
    intro b2 hb2 hbq hbside hbl
    obtain ⟨b, hb, rfl⟩ := (hmemG _).mp hb2
    rw [hGquote] at hbq
    obtain ⟨hbe, _⟩ := hnonq b hb (by rw [hGquote]; exact hbq)
    rw [hbe] at hbside hbl ⊢
    exact lt_of_lt_of_le (hI.sepQA b hb hbq hbside hbl) hask
  · -- sepQB
    intro s2 hs2 hsq hsside hsl
    obtain ⟨s, hs, rfl⟩ := (hmemG _).mp hs2
    rw [hGquote] at hsq
    obtain ⟨hse, _⟩ := hnonq s hs (by rw [hGquote]; exact hsq)
    rw [hse] at hsside hsl ⊢
    exact lt_of_le_of_lt hbid (hI.sepQB s hs hsq hsside hsl)
  · -- bookSep
    intro j hj k hk p2 o2 p3 o3 b a hres2 hres3 hb ha
    obtain ⟨hfp2, hfo2⟩ := resolveBookEntry_elim _ j p2 o2 hres2
    obtain ⟨hfp3, hfo3⟩ := resolveBookEntry_elim _ k p3 o3 hres3
    rw [hford] at hfo2 hfo3
    rcases hx2 : findOrder st p2.orderId with _ | ob2
    · rw [hx2] at hfo2
      cases hfo2
    rcases hx3 : findOrder st p3.orderId with _ | ob3
    · rw [hx3] at hfo3
      cases hfo3
    rw [hx2] at hfo2
    rw [hx3] at hfo3
    have he2 : g ob2 = o2 := Option.some.inj hfo2
    have he3 : g ob3 = o3 := Option.some.inj hfo3
    have hres2' : resolveBookEntry st j = some (p2, ob2) :=
      resolveBookEntry_some st j p2 ob2 (hfopBack j p2 hfp2) hx2
    have hres3' : resolveBookEntry st k = some (p3, ob3) :=
      resolveBookEntry_some st k p3 ob3 (hfopBack k p3 hfp3) hx3
    have hGside : ∀ o : Order, (g o).side = o.side := by
      intro o
      rw [hgdef]
      show (if o.orderId = st.quotesId then F o else o).side = o.side
      by_cases hc : o.orderId = st.quotesId
      · rw [if_pos hc]
      · rw [if_neg hc]
    have hb2 : entryBid p2 ob2 = some b := by
      have hEB : entryBid p2 (g ob2) = entryBid p2 ob2 := by
        rw [entryBid, entryBid, hGquote, hGside]
      rw [← hEB, he2]
      exact hb
    have ha3 : entryAsk p3 ob3 = some a := by
      have hEA : entryAsk p3 (g ob3) = entryAsk p3 ob3 := by
        rw [entryAsk, entryAsk, hGquote, hGside]
      rw [← hEA, he3]
      exact ha
    exact hI.bookSep j hj k hk p2 ob2 p3 ob3 b a hres2' hres3' hb2 ha3
  · -- thrQueued
    intro tid htid
    obtain ⟨p, hfp, hpq⟩ := hT.thrQueued tid htid
    obtain ⟨o, hom, hpo⟩ := (mem_allOps st p).mp (findOp_some_facts st tid p hfp).1
    have hpg : p ∈ (g o).operations := by
      rcases hgcase o hom with ⟨he, _⟩ | hoq
      · rw [he]
        exact hpo
      · subst hoq
        rw [hgq]
        show p ∈ o.operations.drop 150
        have hlast : o.operations.getLast? = some p :=
          queued_getLast _ (hI.queuedLast o hom) p hpo hpq
        rw [hlast_eq] at hlast
        exact getLast?_mem _ p hlast
    refine ⟨p, ?_, hpq⟩
    rw [← (findOp_some_facts st tid p hfp).2]
    exact hfopFwd p (hmemOps o hom p hpg)
  · intro p hp hpq
    exact hT.queuedThr p (hallMem p hp) hpq
  · intro p hp
    exact hNI p (hallMem p hp)

theorem gcQuotes_preserves (st : EngineState) (h : Inv st) : Inv (GCQuotes st) := by
  obtain ⟨hI, hT, hNI⟩ := h
  rw [GCQuotes]
  rcases hfq : findOrder st st.quotesId with _ | q
  · exact ⟨hI, hT, hNI⟩
  · show Inv (if 200 < q.operations.length then
      (match q.operations.get? 150 with
       | some p =>
         if p.operationState = OperationState.Acked then
           updateOrder st st.quotesId (fun o => { o with operations := o.operations.drop 150 })
         else st
       | none => st)
      else st)
    by_cases hlen : 200 < q.operations.length
    · rw [if_pos hlen]
      rcases hget : q.operations.get? 150 with _ | p150
      · exact ⟨hI, hT, hNI⟩
      · show Inv (if p150.operationState = OperationState.Acked then
          updateOrder st st.quotesId (fun o => { o with operations := o.operations.drop 150 })
          else st)
        by_cases hack : p150.operationState = OperationState.Acked
        · rw [if_pos hack]
          exact gcQuotes_main st hI hT hNI q hfq p150 hget hack
        · rw [if_neg hack]
          exact ⟨hI, hT, hNI⟩
    · rw [if_neg hlen]
      exact ⟨hI, hT, hNI⟩

/-! ### Helper lemmas for the conflation (`PushToThrottle`) preservation
proof: acked-prefix algebra, entry congruence, and the monotonicity of the
live-price folds and quote scans under erasing one unacked operation. -/

theorem ackedPrefixL_front (u v : List Operation) (h : AckedPrefixL (u ++ v)) :
    AckedPrefixL u := by
  intro l1 p l2 hdec hp r hr
  exact h l1 p (l2 ++ v) (by rw [hdec]; simp) hp r hr

theorem ackedPrefixL_concat (K : List Operation) (x : Operation)
    (hK : AckedPrefixL K) (hx : x.operationState ≠ OperationState.Acked) :
    AckedPrefixL (K ++ [x]) := by
  induction K with
  | nil =>
    rw [List.nil_append, ackedPrefixL_cons]
    exact ⟨ackedPrefixL_nil, Or.inr (fun r hr => absurd hr (List.not_mem_nil r))⟩
  | cons k t ih =>
    rw [List.cons_append, ackedPrefixL_cons]
    obtain ⟨ht, hd⟩ := (ackedPrefixL_cons k t).mp hK
    refine ⟨ih ht, ?_⟩
    rcases hd with h1 | h1
    · exact Or.inl h1
    · right
      intro r hr
      rcases List.mem_append.mp hr with h2 | h2
      · exact h1 r h2
      · rw [List.mem_singleton.mp h2]
        exact hx

theorem entryBid_congr (p : Operation) (o o' : Order)
    (hq : o'.isQuote = o.isQuote) (hs : o'.side = o.side) :
    entryBid p o' = entryBid p o := by
  rw [entryBid, entryBid, hq, hs]

theorem entryAsk_congr (p : Operation) (o o' : Order)
    (hq : o'.isQuote = o.isQuote) (hs : o'.side = o.side) :
    entryAsk p o' = entryAsk p o := by
  rw [entryAsk, entryAsk, hq, hs]

theorem livePriceStep_congr (cmp : Int → Int → Int) (acc : Int × Int) (a b : Operation)
    (hpr : b.price = a.price) (hty : b.operationType = a.operationType)
    (hst : b.operationState = OperationState.Acked ↔ a.operationState = OperationState.Acked) :
    livePriceStep cmp acc b = livePriceStep cmp acc a := by
  rw [livePriceStep, livePriceStep, hpr, hty]
  by_cases hrel : a.operationType = OperationType.AmendOrder ∨
      a.operationType = OperationType.InsertOrder
  · rw [if_pos hrel, if_pos hrel]
    by_cases hack : a.operationState = OperationState.Acked
    · rw [if_pos (hst.mpr hack), if_pos hack]
    · rw [if_neg (fun hc => hack (hst.mp hc)), if_neg hack]
  · rw [if_neg hrel, if_neg hrel]

theorem quoteAskStep_congr (acc : Int × Int) (a b : Operation)
    (hpr : b.askPrice = a.askPrice) (hqt : b.askQty = a.askQty)
    (hst : b.operationState = OperationState.Acked ↔ a.operationState = OperationState.Acked) :
    quoteAskStep acc b = quoteAskStep acc a := by
  rw [quoteAskStep, quoteAskStep, hpr, hqt]
  by_cases hqty : a.askQty = -1
  · rw [if_pos hqty, if_pos hqty]
  · rw [if_neg hqty, if_neg hqty]
    by_cases hack : a.operationState = OperationState.Acked
    · rw [if_pos (hst.mpr hack), if_pos hack]
    · rw [if_neg (fun hc => hack (hst.mp hc)), if_neg hack]

theorem quoteBidStep_congr (acc : Int × Int) (a b : Operation)
    (hpr : b.bidPrice = a.bidPrice) (hqt : b.bidQty = a.bidQty)
    (hst : b.operationState = OperationState.Acked ↔ a.operationState = OperationState.Acked) :
    quoteBidStep acc b = quoteBidStep acc a := by
  rw [quoteBidStep, quoteBidStep, hpr, hqt]
  by_cases hqty : a.bidQty = -1
  · rw [if_pos hqty, if_pos hqty]
  · rw [if_neg hqty, if_neg hqty]
    by_cases hack : a.operationState = OperationState.Acked
    · rw [if_pos (hst.mpr hack), if_pos hack]
    · rw [if_neg (fun hc => hack (hst.mp hc)), if_neg hack]

theorem livePriceStep_absorb_max (acc : Int × Int) (q r : Operation)
    (hq : q.operationState ≠ OperationState.Acked)
    (hr : r.operationState ≠ OperationState.Acked) :
    (livePriceStep (fun a b => max a b) acc r).1 ≤
      (livePriceStep (fun a b => max a b)
        (livePriceStep (fun a b => max a b) acc q) r).1 ∧
    (livePriceStep (fun a b => max a b) acc r).2 =
      (livePriceStep (fun a b => max a b)
        (livePriceStep (fun a b => max a b) acc q) r).2 := by
  by_cases hrelq : q.operationType = OperationType.AmendOrder ∨
      q.operationType = OperationType.InsertOrder
  · by_cases hrelr : r.operationType = OperationType.AmendOrder ∨
        r.operationType = OperationType.InsertOrder
    · simp only [livePriceStep, if_pos hrelq, if_pos hrelr, if_neg hq, if_neg hr]
      exact ⟨max_le_max le_rfl (le_max_right _ _), trivial⟩
    · simp only [livePriceStep, if_pos hrelq, if_neg hrelr, if_neg hq]
      exact ⟨le_max_right _ _, trivial⟩
  · simp only [livePriceStep, if_neg hrelq]
    exact ⟨le_refl _, trivial⟩

theorem livePriceStep_absorb_min (acc : Int × Int) (q r : Operation)
    (hq : q.operationState ≠ OperationState.Acked)
    (hr : r.operationState ≠ OperationState.Acked) :
    (livePriceStep (fun a b => min a b)
        (livePriceStep (fun a b => min a b) acc q) r).1 ≤
      (livePriceStep (fun a b => min a b) acc r).1 ∧
    (livePriceStep (fun a b => min a b) acc r).2 =
      (livePriceStep (fun a b => min a b)
        (livePriceStep (fun a b => min a b) acc q) r).2 := by
  by_cases hrelq : q.operationType = OperationType.AmendOrder ∨
      q.operationType = OperationType.InsertOrder
  · by_cases hrelr : r.operationType = OperationType.AmendOrder ∨
        r.operationType = OperationType.InsertOrder
    · simp only [livePriceStep, if_pos hrelq, if_pos hrelr, if_neg hq, if_neg hr]
      exact ⟨min_le_min le_rfl (min_le_right _ _), trivial⟩
    · simp only [livePriceStep, if_pos hrelq, if_neg hrelr, if_neg hq]
      exact ⟨min_le_right _ _, trivial⟩
  · simp only [livePriceStep, if_neg hrelq]
    exact ⟨le_refl _, trivial⟩

theorem quoteAskStep_absorb (acc : Int × Int) (q r : Operation)
    (hq : q.operationState ≠ OperationState.Acked)
    (hr : r.operationState ≠ OperationState.Acked) :
    (quoteAskStep (quoteAskStep acc q) r).1 = (quoteAskStep acc r).1 ∧
    (quoteAskStep (quoteAskStep acc q) r).2 ≤ (quoteAskStep acc r).2 := by
  by_cases hqq : q.askQty = -1
  · simp only [quoteAskStep, if_pos hqq]
    exact ⟨trivial, le_refl _⟩
  · by_cases hrq : r.askQty = -1
    · simp only [quoteAskStep, if_pos hrq, if_neg hqq, if_neg hq]
      exact ⟨trivial, min_le_left _ _⟩
    · simp only [quoteAskStep, if_neg hrq, if_neg hqq, if_neg hq, if_neg hr]
      exact ⟨trivial, min_le_min (min_le_left _ _) le_rfl⟩

theorem quoteBidStep_absorb (acc : Int × Int) (q r : Operation)
    (hq : q.operationState ≠ OperationState.Acked)
    (hr : r.operationState ≠ OperationState.Acked) :
    (quoteBidStep (quoteBidStep acc q) r).1 = (quoteBidStep acc r).1 ∧
    (quoteBidStep acc r).2 ≤ (quoteBidStep (quoteBidStep acc q) r).2 := by
  by_cases hqq : q.bidQty = -1
  · simp only [quoteBidStep, if_pos hqq]
    exact ⟨trivial, le_refl _⟩
  · by_cases hrq : r.bidQty = -1
    · simp only [quoteBidStep, if_pos hrq, if_neg hqq, if_neg hq]
      exact ⟨trivial, le_max_left _ _⟩
    · simp only [quoteBidStep, if_neg hrq, if_neg hqq, if_neg hq, if_neg hr]
      exact ⟨trivial, max_le_max (le_max_left _ _) le_rfl⟩

theorem getLivePrice_drop_max (O OF : Order) (l0' : List Operation) (qOld pp pq : Operation)
    (hO : O.operations = l0' ++ [qOld] ++ [pp])
    (hOF : OF.operations = l0' ++ [pq])
    (hpr : OF.price = O.price)
    (hq : qOld.operationState ≠ OperationState.Acked)
    (hp1 : pp.operationState ≠ OperationState.Acked)
    (hp2 : pq.operationState ≠ OperationState.Acked)
    (hppr : pq.price = pp.price) (hpty : pq.operationType = pp.operationType) :
    GetLivePrice (fun a b => max a b) OF ≤ GetLivePrice (fun a b => max a b) O := by
  show max ((OF.operations).foldl (livePriceStep (fun a b => max a b)) (OF.price, OF.price)).1
      ((OF.operations).foldl (livePriceStep (fun a b => max a b)) (OF.price, OF.price)).2 ≤
    max ((O.operations).foldl (livePriceStep (fun a b => max a b)) (O.price, O.price)).1
      ((O.operations).foldl (livePriceStep (fun a b => max a b)) (O.price, O.price)).2
  rw [hO, hOF, hpr, List.foldl_append, List.foldl_append, List.foldl_append]
  simp only [List.foldl_cons, List.foldl_nil]
  rw [livePriceStep_congr _ _ pp pq hppr hpty (iff_of_false hp2 hp1)]
  obtain ⟨h1, h2⟩ := livePriceStep_absorb_max
    (l0'.foldl (livePriceStep (fun a b => max a b)) (O.price, O.price)) qOld pp hq hp1
  exact max_le_max h1 (le_of_eq h2)

theorem getLivePrice_drop_min (O OF : Order) (l0' : List Operation) (qOld pp pq : Operation)
    (hO : O.operations = l0' ++ [qOld] ++ [pp])
    (hOF : OF.operations = l0' ++ [pq])
    (hpr : OF.price = O.price)
    (hq : qOld.operationState ≠ OperationState.Acked)
    (hp1 : pp.operationState ≠ OperationState.Acked)
    (hp2 : pq.operationState ≠ OperationState.Acked)
    (hppr : pq.price = pp.price) (hpty : pq.operationType = pp.operationType) :
    GetLivePrice (fun a b => min a b) O ≤ GetLivePrice (fun a b => min a b) OF := by
  show min ((O.operations).foldl (livePriceStep (fun a b => min a b)) (O.price, O.price)).1
      ((O.operations).foldl (livePriceStep (fun a b => min a b)) (O.price, O.price)).2 ≤
    min ((OF.operations).foldl (livePriceStep (fun a b => min a b)) (OF.price, OF.price)).1
      ((OF.operations).foldl (livePriceStep (fun a b => min a b)) (OF.price, OF.price)).2
  rw [hO, hOF, hpr, List.foldl_append, List.foldl_append, List.foldl_append]
  simp only [List.foldl_cons, List.foldl_nil]
  rw [livePriceStep_congr _ _ pp pq hppr hpty (iff_of_false hp2 hp1)]
  obtain ⟨h1, h2⟩ := livePriceStep_absorb_min
    (l0'.foldl (livePriceStep (fun a b => min a b)) (O.price, O.price)) qOld pp hq hp1
  exact min_le_min h1 (le_of_eq h2.symm)

theorem getLivePrice_last_congr (cmp : Int → Int → Int) (O OF : Order)
    (l0 : List Operation) (pp pq : Operation)
    (hO : O.operations = l0 ++ [pp]) (hOF : OF.operations = l0 ++ [pq])
    (hpr : OF.price = O.price)
    (hppr : pq.price = pp.price) (hpty : pq.operationType = pp.operationType)
    (hst : pq.operationState = OperationState.Acked ↔
      pp.operationState = OperationState.Acked) :
    GetLivePrice cmp OF = GetLivePrice cmp O := by
  show cmp ((OF.operations).foldl (livePriceStep cmp) (OF.price, OF.price)).1
      ((OF.operations).foldl (livePriceStep cmp) (OF.price, OF.price)).2 =
    cmp ((O.operations).foldl (livePriceStep cmp) (O.price, O.price)).1
      ((O.operations).foldl (livePriceStep cmp) (O.price, O.price)).2
  rw [hO, hOF, hpr, List.foldl_append, List.foldl_append]
  simp only [List.foldl_cons, List.foldl_nil]
  rw [livePriceStep_congr cmp _ pp pq hppr hpty hst]

theorem quoteAskScan_drop (l0' : List Operation) (qOld pp pq : Operation)
    (hq : qOld.operationState ≠ OperationState.Acked)
    (hp1 : pp.operationState ≠ OperationState.Acked)
    (hp2 : pq.operationState ≠ OperationState.Acked)
    (hpa : pq.askPrice = pp.askPrice) (haq : pq.askQty = pp.askQty) :
    min (QuoteAskScan (l0' ++ [qOld] ++ [pp])).1 (QuoteAskScan (l0' ++ [qOld] ++ [pp])).2 ≤
    min (QuoteAskScan (l0' ++ [pq])).1 (QuoteAskScan (l0' ++ [pq])).2 := by
  rw [QuoteAskScan, QuoteAskScan, List.foldl_append, List.foldl_append, List.foldl_append]
  simp only [List.foldl_cons, List.foldl_nil]
  rw [quoteAskStep_congr _ pp pq hpa haq (iff_of_false hp2 hp1)]
  obtain ⟨h1, h2⟩ := quoteAskStep_absorb
    (l0'.foldl quoteAskStep (intMax, intMax)) qOld pp hq hp1
  exact min_le_min (le_of_eq h1) h2

theorem quoteBidScan_drop (l0' : List Operation) (qOld pp pq : Operation)
    (hq : qOld.operationState ≠ OperationState.Acked)
    (hp1 : pp.operationState ≠ OperationState.Acked)
    (hp2 : pq.operationState ≠ OperationState.Acked)
    (hpa : pq.bidPrice = pp.bidPrice) (haq : pq.bidQty = pp.bidQty) :
    max (QuoteBidScan (l0' ++ [pq])).1 (QuoteBidScan (l0' ++ [pq])).2 ≤
    max (QuoteBidScan (l0' ++ [qOld] ++ [pp])).1 (QuoteBidScan (l0' ++ [qOld] ++ [pp])).2 := by
  rw [QuoteBidScan, QuoteBidScan, List.foldl_append, List.foldl_append, List.foldl_append]
  simp only [List.foldl_cons, List.foldl_nil]
  rw [quoteBidStep_congr _ pp pq hpa haq (iff_of_false hp2 hp1)]
  obtain ⟨h1, h2⟩ := quoteBidStep_absorb
    (l0'.foldl quoteBidStep (intMin, intMin)) qOld pp hq hp1
  exact max_le_max (le_of_eq h1.symm) h2

theorem quoteAskScan_last_congr (l0 : List Operation) (pp pq : Operation)
    (hpa : pq.askPrice = pp.askPrice) (haq : pq.askQty = pp.askQty)
    (hst : pq.operationState = OperationState.Acked ↔
      pp.operationState = OperationState.Acked) :
    QuoteAskScan (l0 ++ [pq]) = QuoteAskScan (l0 ++ [pp]) := by
  rw [QuoteAskScan, QuoteAskScan, List.foldl_append, List.foldl_append]
  simp only [List.foldl_cons, List.foldl_nil]
  rw [quoteAskStep_congr _ pp pq hpa haq hst]

theorem quoteBidScan_last_congr (l0 : List Operation) (pp pq : Operation)
    (hpa : pq.bidPrice = pp.bidPrice) (haq : pq.bidQty = pp.bidQty)
    (hst : pq.operationState = OperationState.Acked ↔
      pp.operationState = OperationState.Acked) :
    QuoteBidScan (l0 ++ [pq]) = QuoteBidScan (l0 ++ [pp]) := by
  rw [QuoteBidScan, QuoteBidScan, List.foldl_append, List.foldl_append]
  simp only [List.foldl_cons, List.foldl_nil]
  rw [quoteBidStep_congr _ pp pq hpa haq hst]

/-- The normal form of `PushToThrottle st1 i` when the operation `i` is the
freshly appended last operation of its owning order: the owner's queued
residue (at most one operation, by the queued-last invariant) is conflated
away, the new operation is marked Queued and inherits the erased
operation's `previousOperation`, and the queue is rewritten to the
filtered entries plus `i`. -/
theorem pushToThrottle_shape (st1 : EngineState) (i : Nat) (p : Operation) (O : Order)
    (K qs : List Operation)
    (hfind : findOp st1 i = some p)
    (hOn : (st1.orders.map (fun o => o.orderId)).Nodup)
    (hopsN : ((allOps st1).map (fun r => r.opId)).Nodup)
    (hown : ∀ o ∈ st1.orders, ∀ r ∈ o.operations, r.orderId = o.orderId)
    (hford : findOrder st1 p.orderId = some O)
    (hops : O.operations = (K ++ qs) ++ [p])
    (hKnq : ∀ r ∈ K, r.operationState ≠ OperationState.Queued)
    (hqs : qs = [] ∨ ∃ qa, qs = [qa] ∧ qa.operationState = OperationState.Queued)
    (hpid : p.opId = i) :
    PushToThrottle st1 i =
      { st1 with
          orders := st1.orders.map (fun o =>
            if o.orderId = p.orderId then
              { o with operations := K ++
                [match qs.head? with
                 | none => { p with operationState := OperationState.Queued }
                 | some qa => { p with
                     previousOperation := qa.previousOperation
                     operationState := OperationState.Queued }] }
            else o),
          throttle := (st1.throttle.filter (fun tid =>
            match findOp st1 tid with
            | some r => r.orderId ≠ p.orderId
            | none => true)) ++ [i] } := by
  obtain ⟨hOmem, hOid⟩ := findOrder_some st1 p.orderId O hford
  have hpall : p ∈ allOps st1 := (findOp_some_facts st1 i p hfind).1
  have hKQfr : ∀ r ∈ K ++ qs, r.opId ≠ i := by
    intro r hr hcon
    have hnd := ops_ids_nodup st1 hopsN O hOmem
    rw [hops, List.map_append] at hnd
    have hdisj := (List.nodup_append.mp hnd).2.2
    exact hdisj (List.mem_map.mpr ⟨r, hr, rfl⟩)
      (by rw [List.map_cons, List.map_nil, hpid, hcon]; exact List.mem_singleton_self _)
  rw [pushToThrottle_eq st1 i p hfind]
  set T1 : List Nat := st1.throttle.filter (fun tid =>
    match findOp st1 tid with
    | some r => r.orderId ≠ p.orderId
    | none => true) with hT1
  set ST2 : EngineState := { st1 with throttle := T1 ++ [i] } with hST2
  have hArg : { RemoveFromThrottle st1 p.orderId with
      throttle := (RemoveFromThrottle st1 p.orderId).throttle ++ [i] } = ST2 := rfl
  rw [hArg]
  set pQ : Operation := { p with operationState := OperationState.Queued } with hpQ
  have hfind2 : findOp (setOpState ST2 i OperationState.Queued) i = some pQ := by
    rw [findOp_setOpState]
    have hsame : findOp ST2 i = some p := hfind
    rw [hsame]
    show some (if p.opId = i then { p with operationState := OperationState.Queued } else p) =
      some pQ
    rw [if_pos hpid]
  rw [removeDiscarded_eq _ i pQ hfind2]
  rw [show pQ.orderId = p.orderId from rfl]
  refine engineState_eq _ _ ?_ rfl rfl rfl rfl
  have hLHS : (updateOrder (setOpState ST2 i OperationState.Queued) p.orderId
      (fun o => { o with operations := RemoveDiscardedFromList o.operations i })).orders =
      ((st1.orders.map (fun o => { o with operations := o.operations.map (fun r =>
          if r.opId = i then { r with operationState := OperationState.Queued } else r) })).map
        (fun o => if o.orderId = p.orderId then
          { o with operations := RemoveDiscardedFromList o.operations i } else o)) := rfl
  rw [hLHS, List.map_map]
  apply List.map_congr_left
  intro o ho
  simp only [Function.comp_apply]
  by_cases hoid2 : o.orderId = p.orderId
  · have hoeq : o = O := List.inj_on_of_nodup_map hOn ho hOmem (by rw [hoid2, hOid])
    subst hoeq
    have hmapO : o.operations.map (fun r => if r.opId = i then
        { r with operationState := OperationState.Queued } else r) = (K ++ qs) ++ [pQ] := by
      rw [hops, List.map_append]
      have h1 : (K ++ qs).map (fun r => if r.opId = i then
          { r with operationState := OperationState.Queued } else r) = K ++ qs :=
        (List.map_congr_left (fun r hr => if_neg (hKQfr r hr))).trans (List.map_id _)
      have h2 : [p].map (fun r => if r.opId = i then
          { r with operationState := OperationState.Queued } else r) = [pQ] := by
        rw [List.map_cons, List.map_nil, if_pos hpid]
      rw [h1, h2]
    have hRDL := removeDiscardedFromList_spec K qs pQ i hKnq
      (fun r hr => hKQfr r (List.mem_append_left _ hr)) hqs
      (fun r hr => hKQfr r (List.mem_append_right _ hr)) hpid
    simp only [hoid2, eq_self_iff_true, if_true]
    rw [hmapO, hRDL]
  · simp only [hoid2, if_false, Bool.false_eq_true]
    have hmapid : o.operations.map (fun r => if r.opId = i then
        { r with operationState := OperationState.Queued } else r) = o.operations := by
      refine (List.map_congr_left (fun r hr => if_neg ?_)).trans (List.map_id _)
      intro hcon
      have hrall : r ∈ allOps st1 := (mem_allOps st1 r).mpr ⟨o, ho, hr⟩
      have hrp : r = p := List.inj_on_of_nodup_map hopsN hrall hpall (by rw [hcon, hpid])
      have := hown o ho r hr
      rw [hrp] at this
      exact hoid2 (this ▸ rfl)
    rw [hmapid]

theorem flatMap_key_sublist (l : List Order) (g : Order → Order)
    (h : ∀ o ∈ l, (((g o).operations).map (fun r => r.opId)).Sublist
      ((o.operations).map (fun r => r.opId))) :
    (((l.map g).flatMap (fun o => o.operations)).map (fun r => r.opId)).Sublist
      ((l.flatMap (fun o => o.operations)).map (fun r => r.opId)) := by
  induction l with
  | nil => exact List.Sublist.refl _
  | cons o t ih =>
    rw [List.map_cons, List.flatMap_cons, List.flatMap_cons, List.map_append, List.map_append]
    exact List.Sublist.append (h o (List.mem_cons_self _ _))
      (ih (fun o2 ho2 => h o2 (List.mem_cons_of_mem _ ho2)))

/-- Queueing a freshly appended Initial operation through `PushToThrottle`
(with the owner's orderState subsequently set to `t`, which is its current
state except in the delete path, where it is DeleteSentToMarket)
re-establishes the full invariant: the conflation erases the owner's queued
residue (restoring the queued-last clause), the inherited
`previousOperation` keeps the dispatch chain intact, and erasing an unacked
operation can only shrink the live-price envelope and widen the quote
scans, so every separation clause survives. -/
theorem pushQueue_preserves (st1 : EngineState) (i : Nat) (p : Operation) (O : Order)
    (K qs : List Operation) (t : OrderState)
    (hIQ : InvQL st1 p.orderId)
    (hT : ThrOK st1 st1.throttle)
    (hNIx : ∀ r ∈ allOps st1, r.operationState = OperationState.Initial → r.opId = i)
    (hfind : findOp st1 i = some p)
    (hford : findOrder st1 p.orderId = some O)
    (hops : O.operations = (K ++ qs) ++ [p])
    (hKnq : ∀ r ∈ K, r.operationState ≠ OperationState.Queued)
    (hqs : qs = [] ∨ ∃ qa, qs = [qa] ∧ qa.operationState = OperationState.Queued)
    (hpid : p.opId = i)
    (hpInit : p.operationState = OperationState.Initial)
    (hprevN : qs = [] → p.previousOperation = (lastDispatched O).map (fun r => r.opId))
    (hprevQ : ∀ qa ∈ qs, qa.previousOperation = (lastDispatched O).map (fun r => r.opId))
    (htnotFin : t ≠ OrderState.Finalised)
    (htdel : p.operationType = OperationType.DeleteOrder →
      t = OrderState.DeleteSentToMarket)
    (htPTM : t = OrderState.PriorToMarket → lastDispatched O = none)
    (htOM : t = OrderState.OnMarket → ∃ d, lastDispatched O = some d ∧
      isDeleteType d.operationType = false)
    (htD : t = OrderState.DeleteSentToMarket →
      p.operationType = OperationType.DeleteOrder ∨
      ∃ d, lastDispatched O = some d ∧ isDeleteType d.operationType = true)
    (htlive : t = OrderState.OnMarket ∨ t = OrderState.PriorToMarket → liveOrd O) :
    Inv (updateOrder (PushToThrottle st1 i) p.orderId
      (fun o => { o with orderState := t })) ∧
    (t = O.orderState → Inv (PushToThrottle st1 i)) := by
  obtain ⟨hOmem, hOid⟩ := findOrder_some st1 p.orderId O hford
  have hpall : p ∈ allOps st1 := (findOp_some_facts st1 i p hfind).1
  have hKQfr : ∀ r ∈ K ++ qs, r.opId ≠ i := by
    intro r hr hcon
    have hnd := ops_ids_nodup st1 hIQ.opsNodup O hOmem
    rw [hops, List.map_append] at hnd
    have hdisj := (List.nodup_append.mp hnd).2.2
    exact hdisj (List.mem_map.mpr ⟨r, hr, rfl⟩)
      (by rw [List.map_cons, List.map_nil, hpid, hcon]; exact List.mem_singleton_self _)
  have hKnotInit : ∀ r ∈ K ++ qs, r.operationState ≠ OperationState.Initial := by
    intro r hr hcon
    have hrall : r ∈ allOps st1 := (mem_allOps st1 r).mpr ⟨O, hOmem, by
      rw [hops]; exact List.mem_append_left _ hr⟩
    exact hKQfr r hr (hNIx r hrall hcon)
  have hKdisp : ∀ r ∈ K, isDispatchedOp r = true := by
    intro r hr
    rcases hst : r.operationState with _ | _ | _ | _
    · exact absurd hst (hKnotInit r (List.mem_append_left _ hr))
    · exact absurd hst (hKnq r hr)
    · rw [isDispatchedOp, hst]; simp
    · rw [isDispatchedOp, hst]; simp
  -- The unified description of the operation the conflation leaves behind.
  obtain ⟨pN, hpNdef, hpNid, hpNoid, hpNst, hpNty, hpNpr, hpNqt, hpNbp, hpNbq, hpNap, hpNaq,
      hpNprev⟩ :
      ∃ pN, (match qs.head? with
        | none => { p with operationState := OperationState.Queued }
        | some qa => { p with
            previousOperation := qa.previousOperation
            operationState := OperationState.Queued }) = pN ∧
      pN.opId = i ∧ pN.orderId = p.orderId ∧
      pN.operationState = OperationState.Queued ∧
      pN.operationType = p.operationType ∧
      pN.price = p.price ∧ pN.qty = p.qty ∧
      pN.bidPrice = p.bidPrice ∧ pN.bidQty = p.bidQty ∧
      pN.askPrice = p.askPrice ∧ pN.askQty = p.askQty ∧
      pN.previousOperation = (lastDispatched O).map (fun r => r.opId) := by
    rcases hqs with rfl | ⟨qa, rfl, hqa⟩
    · exact ⟨{ p with operationState := OperationState.Queued }, rfl, hpid, rfl, rfl, rfl,
        rfl, rfl, rfl, rfl, rfl, rfl, hprevN rfl⟩
    · exact ⟨{ p with
          previousOperation := qa.previousOperation
          operationState := OperationState.Queued }, rfl, hpid, rfl, rfl, rfl,
        rfl, rfl, rfl, rfl, rfl, rfl, hprevQ qa (List.mem_singleton_self _)⟩
  have hshape := pushToThrottle_shape st1 i p O K qs hfind hIQ.ordersNodup hIQ.opsNodup
    hIQ.owner hford hops hKnq hqs hpid
  rw [hpNdef] at hshape
  set T1 : List Nat := st1.throttle.filter (fun tid =>
    match findOp st1 tid with
    | some r => r.orderId ≠ p.orderId
    | none => true) with hT1
  set G : Order → Order := fun o =>
    if o.orderId = p.orderId then
      { o with orderState := t, operations := K ++ [pN] } else o with hGdef
  set stF : EngineState := { st1 with orders := st1.orders.map G, throttle := T1 ++ [i] }
    with hstF
  -- basic facts about G
  have hGO : G O = { O with orderState := t, operations := K ++ [pN] } := by
    rw [hGdef]
    show (if O.orderId = p.orderId then
        { O with orderState := t, operations := K ++ [pN] } else O) =
      { O with orderState := t, operations := K ++ [pN] }
    rw [if_pos hOid]
  have hGother : ∀ o : Order, o.orderId ≠ p.orderId → G o = o := by
    intro o hne
    rw [hGdef]
    show (if o.orderId = p.orderId then
        { o with orderState := t, operations := K ++ [pN] } else o) = o
    rw [if_neg hne]
  have hGowner : ∀ o ∈ st1.orders, o.orderId = p.orderId → o = O := fun o ho hid =>
    List.inj_on_of_nodup_map hIQ.ordersNodup ho hOmem (by rw [hid, hOid])
  have hGid : ∀ o : Order, (G o).orderId = o.orderId := by
    intro o
    by_cases h : o.orderId = p.orderId
    · simp [hGdef, h]
    · simp [hGdef, h]
  have hGfields : ∀ o : Order, (G o).isQuote = o.isQuote ∧ (G o).side = o.side := by
    intro o
    by_cases h : o.orderId = p.orderId
    · simp [hGdef, h]
    · simp [hGdef, h]
  have hGlive : ∀ o ∈ st1.orders, liveOrd (G o) → liveOrd o := by
    intro o ho hl
    by_cases hne : o.orderId = p.orderId
    · rw [hGowner o ho hne] at hl ⊢
      rw [hGO, liveOrd] at hl
      exact htlive hl
    · rw [hGother o hne] at hl
      exact hl
  -- the state equation for the final states of the queue path
  have hPTF : updateOrder (PushToThrottle st1 i) p.orderId
      (fun o => { o with orderState := t }) = stF := by
    rw [hshape]
    refine engineState_eq _ _ ?_ rfl rfl rfl rfl
    show ((st1.orders.map (fun o =>
        if o.orderId = p.orderId then { o with operations := K ++ [pN] } else o)).map
      (fun o => if o.orderId = p.orderId then { o with orderState := t } else o)) =
      st1.orders.map G
    rw [List.map_map]
    apply List.map_congr_left
    intro o ho
    simp only [Function.comp_apply]
    rw [hGdef]
    by_cases hne : o.orderId = p.orderId
    · simp [hne]
    · simp [hne]
  have hPT2 : t = O.orderState → PushToThrottle st1 i = stF := by
    intro htO
    rw [hshape]
    refine engineState_eq _ _ ?_ rfl rfl rfl rfl
    show (st1.orders.map (fun o =>
        if o.orderId = p.orderId then { o with operations := K ++ [pN] } else o)) =
      st1.orders.map G
    apply List.map_congr_left
    intro o ho
    rw [hGdef]
    by_cases hne : o.orderId = p.orderId
    · rw [hGowner o ho hne, htO]
    · simp [hne]
  -- dispatched-suffix computations
  have hfK : K.filter (fun r => isDispatchedOp r) = K := by
    rw [List.filter_eq_self]
    intro r hr
    exact hKdisp r hr
  have hfqs : qs.filter (fun r => isDispatchedOp r) = [] := by
    rcases hqs with rfl | ⟨qa, rfl, hqa⟩
    · rfl
    · rw [List.filter_eq_nil_iff]
      intro r hr
      rw [List.mem_singleton.mp hr]
      simp [isDispatchedOp, hqa]
  have hfp : [p].filter (fun r => isDispatchedOp r) = [] := by
    simp [isDispatchedOp, hpInit]
  have hfpN : [pN].filter (fun r => isDispatchedOp r) = [] := by
    simp [isDispatchedOp, hpNst]
  have hLDO : lastDispatched O = K.getLast? := by
    rw [lastDispatched, hops, List.filter_append, List.filter_append, hfK, hfqs, hfp]
    simp
  have hLDOF : lastDispatched { O with orderState := t, operations := K ++ [pN] } =
      K.getLast? := by
    rw [lastDispatched]
    show ((K ++ [pN]).filter (fun r => isDispatchedOp r)).getLast? = K.getLast?
    rw [List.filter_append, hfK, hfpN]
    simp
  have hLDG : ∀ o ∈ st1.orders, lastDispatched (G o) = lastDispatched o := by
    intro o ho
    by_cases hne : o.orderId = p.orderId
    · rw [hGowner o ho hne, hGO, hLDOF, hLDO]
    · rw [hGother o hne]
  -- membership description of the new operation store
  have hmemOpF : ∀ r, r ∈ allOps stF ↔
      ((∃ o ∈ st1.orders, o.orderId ≠ p.orderId ∧ r ∈ o.operations) ∨ r ∈ K ∨ r = pN) := by
    intro r
    constructor
    · intro hr
      obtain ⟨o', ho', hro⟩ := (mem_allOps stF r).mp hr
      obtain ⟨o, ho, rfl⟩ := List.mem_map.mp (show o' ∈ st1.orders.map G from ho')
      by_cases hne : o.orderId = p.orderId
      · rw [hGowner o ho hne, hGO] at hro
        rcases List.mem_append.mp hro with h1 | h1
        · exact Or.inr (Or.inl h1)
        · exact Or.inr (Or.inr (List.mem_singleton.mp h1))
      · rw [hGother o hne] at hro
        exact Or.inl ⟨o, ho, hne, hro⟩
    · intro h
      rcases h with ⟨o, ho, hne, hro⟩ | hK | hrN
      · exact (mem_allOps stF r).mpr ⟨o, by
          show o ∈ st1.orders.map G
          exact List.mem_map.mpr ⟨o, ho, hGother o hne⟩, hro⟩
      · exact (mem_allOps stF r).mpr ⟨{ O with orderState := t, operations := K ++ [pN] },
          List.mem_map.mpr ⟨O, hOmem, hGO⟩, List.mem_append_left _ hK⟩
      · rw [hrN]
        exact (mem_allOps stF pN).mpr ⟨{ O with orderState := t, operations := K ++ [pN] },
          List.mem_map.mpr ⟨O, hOmem, hGO⟩,
          List.mem_append_right _ (List.mem_singleton_self _)⟩
  have hidsub : ((allOps stF).map (fun r => r.opId)).Sublist
      ((allOps st1).map (fun r => r.opId)) := by
    show (((st1.orders.map G).flatMap (fun o => o.operations)).map (fun r => r.opId)).Sublist
      ((st1.orders.flatMap (fun o => o.operations)).map (fun r => r.opId))
    apply flatMap_key_sublist
    intro o ho
    by_cases hne : o.orderId = p.orderId
    · rw [hGowner o ho hne, hGO, hops]
      show ((K ++ [pN]).map (fun r => r.opId)).Sublist
        (((K ++ qs) ++ [p]).map (fun r => r.opId))
      rw [List.map_append, List.map_append, List.map_append]
      have hsingle : ([pN].map (fun r => r.opId)) = [p].map (fun r => r.opId) := by
        simp [hpNid, hpid]
      rw [hsingle]
      exact List.Sublist.append (List.sublist_append_left _ _) (List.Sublist.refl _)
    · rw [hGother o hne]
  have hopsNF : ((allOps stF).map (fun r => r.opId)).Nodup :=
    List.Nodup.sublist hidsub hIQ.opsNodup
  have hfindF_of_mem : ∀ r ∈ allOps stF, findOp stF r.opId = some r :=
    fun r hr => findOp_of_mem stF hopsNF r hr
  -- book operations survive with the same value
  have hbookmem : ∀ j ∈ st1.marketOperations, ∀ pj, findOp st1 j = some pj →
      pj ∈ allOps stF := by
    intro j hj pj hpj
    have hpjall : pj ∈ allOps st1 := (findOp_some_facts st1 j pj hpj).1
    obtain ⟨pj2, oj, hpj2, hoj, hdisp, hndel⟩ := hIQ.bookResolves j hj
    rw [hpj] at hpj2
    have hpje : pj = pj2 := Option.some.inj hpj2
    rw [← hpje] at hdisp
    obtain ⟨o, ho, hmem⟩ := (mem_allOps st1 pj).mp hpjall
    by_cases hne : o.orderId = p.orderId
    · have hoO : o = O := hGowner o ho hne
      rw [hoO, hops] at hmem
      rcases List.mem_append.mp hmem with h1 | h1
      · rcases List.mem_append.mp h1 with h2 | h2
        · exact (hmemOpF pj).mpr (Or.inr (Or.inl h2))
        · exfalso
          rcases hqs with rfl | ⟨qa, rfl, hqa⟩
          · exact absurd h2 (List.not_mem_nil pj)
          · rw [List.mem_singleton.mp h2, isDispatchedOp, hqa] at hdisp
            simp at hdisp
      · exfalso
        rw [List.mem_singleton.mp h1, isDispatchedOp, hpInit] at hdisp
        simp at hdisp
    · exact (hmemOpF pj).mpr (Or.inl ⟨o, ho, hne, hmem⟩)
  have hfindOpF_book : ∀ j ∈ st1.marketOperations, findOp stF j = findOp st1 j := by
    intro j hj
    obtain ⟨pj, oj, hpj, _, _, _⟩ := hIQ.bookResolves j hj
    rw [hpj]
    have hm := hbookmem j hj pj hpj
    have h2 := hfindF_of_mem pj hm
    rw [(findOp_some_facts st1 j pj hpj).2] at h2
    exact h2
  have hfindOrdF : ∀ k, findOrder stF k = (findOrder st1 k).map G := by
    intro k
    show (st1.orders.map G).find? (fun o => o.orderId = k) =
      (st1.orders.find? (fun o => o.orderId = k)).map G
    rw [List.find?_map]
    have hpred : ((fun o : Order => decide (o.orderId = k)) ∘ G) =
        (fun o : Order => decide (o.orderId = k)) := by
      funext o
      simp [Function.comp, hGid o]
    rw [hpred]
  -- live-price monotonicity for the owner
  have hpNnotAcked : pN.operationState ≠ OperationState.Acked := by
    rw [hpNst]
    intro hc
    cases hc
  have hpnotAcked : p.operationState ≠ OperationState.Acked := by
    rw [hpInit]
    intro hc
    cases hc
  have hglpmax : GetLivePrice (fun a b => max a b)
      { O with orderState := t, operations := K ++ [pN] } ≤
      GetLivePrice (fun a b => max a b) O := by
    rcases hqs with hq0 | ⟨qa, hq0, hqa⟩
    · exact le_of_eq (getLivePrice_last_congr (fun a b => max a b) O
        { O with orderState := t, operations := K ++ [pN] } K p pN
        (by rw [hops, hq0]; simp) rfl rfl hpNpr hpNty (iff_of_false hpNnotAcked hpnotAcked))
    · exact getLivePrice_drop_max O { O with orderState := t, operations := K ++ [pN] } K qa p pN
        (by rw [hops, hq0]) rfl rfl
        (by rw [hqa]; intro hc; cases hc) hpnotAcked hpNnotAcked hpNpr hpNty
  have hglpmin : GetLivePrice (fun a b => min a b) O ≤
      GetLivePrice (fun a b => min a b)
        { O with orderState := t, operations := K ++ [pN] } := by
    rcases hqs with hq0 | ⟨qa, hq0, hqa⟩
    · exact le_of_eq (getLivePrice_last_congr (fun a b => min a b) O
        { O with orderState := t, operations := K ++ [pN] } K p pN
        (by rw [hops, hq0]; simp) rfl rfl hpNpr hpNty
          (iff_of_false hpNnotAcked hpnotAcked)).symm
    · exact getLivePrice_drop_min O { O with orderState := t, operations := K ++ [pN] } K qa p pN
        (by rw [hops, hq0]) rfl rfl
        (by rw [hqa]; intro hc; cases hc) hpnotAcked hpNnotAcked hpNpr hpNty
  have hGfacts : ∀ o ∈ st1.orders,
      GetLivePrice (fun a b => max a b) (G o) ≤ GetLivePrice (fun a b => max a b) o ∧
      GetLivePrice (fun a b => min a b) o ≤ GetLivePrice (fun a b => min a b) (G o) := by
    intro o ho
    by_cases hne : o.orderId = p.orderId
    · rw [hGowner o ho hne, hGO]
      exact ⟨hglpmax, hglpmin⟩
    · rw [hGother o hne]
      exact ⟨le_refl _, le_refl _⟩
  -- quote scans
  obtain ⟨q1, hq1f, hq1q⟩ := hIQ.quoteWF
  have hq1mem : q1 ∈ st1.orders := (findOrder_some st1 _ q1 hq1f).1
  have hqopsF : quoteOps stF = (G q1).operations := by
    have h1 : findOrder stF stF.quotesId = some (G q1) := by
      show findOrder stF st1.quotesId = some (G q1)
      rw [hfindOrdF, hq1f]
      rfl
    rw [quoteOps, h1]
  have hscans : askScanMin st1 ≤ askScanMin stF ∧ bidScanMax stF ≤ bidScanMax st1 := by
    by_cases hq1o : q1.orderId = p.orderId
    · have hq1O : q1 = O := hGowner q1 hq1mem hq1o
      have hqops1 : quoteOps st1 = O.operations := by
        rw [quoteOps, hq1f, hq1O]
      have hqopsF2 : quoteOps stF = K ++ [pN] := by
        rw [hqopsF, hq1O, hGO]
      rw [askScanMin, askScanMin, bidScanMax, bidScanMax, hqops1, hqopsF2, hops]
      constructor
      · rcases hqs with hq0 | ⟨qa, hq0, hqa⟩
        · rw [hq0, show (K ++ ([] : List Operation)) ++ [p] = K ++ [p] by simp,
            quoteAskScan_last_congr K p pN hpNap hpNaq (iff_of_false hpNnotAcked hpnotAcked)]
        · rw [hq0]
          exact quoteAskScan_drop K qa p pN
            (by rw [hqa]; intro hc; cases hc) hpnotAcked hpNnotAcked hpNap hpNaq
      · rcases hqs with hq0 | ⟨qa, hq0, hqa⟩
        · rw [hq0, show (K ++ ([] : List Operation)) ++ [p] = K ++ [p] by simp,
            quoteBidScan_last_congr K p pN hpNbp hpNbq (iff_of_false hpNnotAcked hpnotAcked)]
        · rw [hq0]
          exact quoteBidScan_drop K qa p pN
            (by rw [hqa]; intro hc; cases hc) hpnotAcked hpNnotAcked hpNbp hpNbq
    · have hqeq : quoteOps stF = quoteOps st1 := by
        rw [hqopsF, hGother q1 hq1o, quoteOps, hq1f]
      rw [askScanMin, askScanMin, bidScanMax, bidScanMax, hqeq]
      exact ⟨le_refl _, le_refl _⟩
  -- the invariant fields of the final state
  have hordersNodupF : (stF.orders.map (fun o => o.orderId)).Nodup := by
    have he : stF.orders.map (fun o => o.orderId) = st1.orders.map (fun o => o.orderId) := by
      show (st1.orders.map G).map (fun o => o.orderId) = st1.orders.map (fun o => o.orderId)
      exact map_key_congr st1.orders G (fun o => o.orderId) hGid
    rw [he]
    exact hIQ.ordersNodup
  have hownF : ∀ o' ∈ stF.orders, ∀ r ∈ o'.operations, r.orderId = o'.orderId := by
    intro o' ho' r hr
    obtain ⟨o, ho, rfl⟩ := List.mem_map.mp (show o' ∈ st1.orders.map G from ho')
    rw [hGid o]
    by_cases hne : o.orderId = p.orderId
    · rw [hGowner o ho hne, hGO] at hr
      rw [hGowner o ho hne]
      rcases List.mem_append.mp hr with h1 | h1
      · exact hIQ.owner O hOmem r (by
          rw [hops]
          exact List.mem_append_left _ (List.mem_append_left _ h1))
      · rw [List.mem_singleton.mp h1, hpNoid, ← hOid]
    · rw [hGother o hne] at hr
      exact hIQ.owner o ho r hr
  have hopsFreshF : ∀ r ∈ allOps stF, r.opId < stF.nextId := by
    intro r hr
    rcases (hmemOpF r).mp hr with ⟨o, ho, hne, hro⟩ | hK | hrN
    · exact hIQ.opsFresh r ((mem_allOps st1 r).mpr ⟨o, ho, hro⟩)
    · exact hIQ.opsFresh r ((mem_allOps st1 r).mpr ⟨O, hOmem, by
        rw [hops]
        exact List.mem_append_left _ (List.mem_append_left _ hK)⟩)
    · show r.opId < st1.nextId
      rw [hrN, hpNid, ← hpid]
      exact hIQ.opsFresh p hpall
  have hordersFreshF : ∀ o' ∈ stF.orders, o'.orderId < stF.nextId := by
    intro o' ho'
    obtain ⟨o, ho, rfl⟩ := List.mem_map.mp (show o' ∈ st1.orders.map G from ho')
    rw [hGid o]
    exact hIQ.ordersFresh o ho
  have hbookResolvesF : ∀ j ∈ stF.marketOperations, ∃ r o2, findOp stF j = some r ∧
      findOrder stF r.orderId = some o2 ∧ isDispatchedOp r = true ∧
      isDeleteType r.operationType = false := by
    intro j hj
    obtain ⟨r, o2, hr, ho2, hdisp, hndel⟩ := hIQ.bookResolves j hj
    refine ⟨r, G o2, ?_, ?_, hdisp, hndel⟩
    · rw [hfindOpF_book j hj]
      exact hr
    · rw [hfindOrdF, ho2]
      rfl
  have hquoteWFF : ∃ q, findOrder stF stF.quotesId = some q ∧ q.isQuote = true := by
    refine ⟨G q1, ?_, ?_⟩
    · show findOrder stF st1.quotesId = some (G q1)
      rw [hfindOrdF, hq1f]
      rfl
    · rw [(hGfields q1).1]
      exact hq1q
  have hisQuoteIdF : ∀ o' ∈ stF.orders, o'.isQuote = true → o'.orderId = stF.quotesId := by
    intro o' ho' hq
    obtain ⟨o, ho, rfl⟩ := List.mem_map.mp (show o' ∈ st1.orders.map G from ho')
    rw [(hGfields o).1] at hq
    rw [hGid o]
    exact hIQ.isQuoteId o ho hq
  have hquoteOpWFF : ∀ r ∈ quoteOps stF, r.operationType = OperationType.InsertQuote ∧
      r.bidPrice < r.askPrice ∧ 1 ≤ r.bidQty ∧ 1 ≤ r.askQty := by
    intro r hr
    rw [hqopsF] at hr
    by_cases hq1o : q1.orderId = p.orderId
    · have hq1O : q1 = O := hGowner q1 hq1mem hq1o
      rw [hq1O, hGO] at hr
      have hqops1 : quoteOps st1 = O.operations := by
        rw [quoteOps, hq1f, hq1O]
      rcases List.mem_append.mp hr with h1 | h1
      · exact hIQ.quoteOpWF r (by
          rw [hqops1, hops]
          exact List.mem_append_left _ (List.mem_append_left _ h1))
      · have hp2 := hIQ.quoteOpWF p (by
          rw [hqops1, hops]
          exact List.mem_append_right _ (List.mem_singleton_self _))
        rw [List.mem_singleton.mp h1]
        refine ⟨by rw [hpNty]; exact hp2.1, ?_, ?_, ?_⟩
        · rw [hpNbp, hpNap]
          exact hp2.2.1
        · rw [hpNbq]
          exact hp2.2.2.1
        · rw [hpNaq]
          exact hp2.2.2.2
    · rw [hGother q1 hq1o] at hr
      exact hIQ.quoteOpWF r (by rw [quoteOps, hq1f]; exact hr)
  have horderOpWFF : ∀ o' ∈ stF.orders, o'.isQuote = false → ∀ r ∈ o'.operations,
      r.operationType = OperationType.InsertOrder ∨
      r.operationType = OperationType.AmendOrder ∨
      r.operationType = OperationType.DeleteOrder := by
    intro o' ho' hq r hr
    obtain ⟨o, ho, rfl⟩ := List.mem_map.mp (show o' ∈ st1.orders.map G from ho')
    rw [(hGfields o).1] at hq
    by_cases hne : o.orderId = p.orderId
    · have hoO : o = O := hGowner o ho hne
      rw [hoO, hGO] at hr
      rw [hoO] at hq
      rcases List.mem_append.mp hr with h1 | h1
      · exact hIQ.orderOpWF O hOmem hq r (by
          rw [hops]
          exact List.mem_append_left _ (List.mem_append_left _ h1))
      · have hp2 := hIQ.orderOpWF O hOmem hq p (by
          rw [hops]
          exact List.mem_append_right _ (List.mem_singleton_self _))
        rw [List.mem_singleton.mp h1]
        rcases hp2 with h | h | h
        · exact Or.inl (by rw [hpNty]; exact h)
        · exact Or.inr (Or.inl (by rw [hpNty]; exact h))
        · exact Or.inr (Or.inr (by rw [hpNty]; exact h))
    · rw [hGother o hne] at hr
      exact hIQ.orderOpWF o ho hq r hr
  have hqueuedLastF : ∀ o' ∈ stF.orders, QueuedLastL o'.operations := by
    intro o' ho'
    obtain ⟨o, ho, rfl⟩ := List.mem_map.mp (show o' ∈ st1.orders.map G from ho')
    by_cases hne : o.orderId = p.orderId
    · rw [hGowner o ho hne, hGO]
      show QueuedLastL (K ++ [pN])
      intro r hr
      rw [List.dropLast_concat] at hr
      exact hKnq r hr
    · rw [hGother o hne]
      exact hIQ.queuedLast o ho hne
  have hackedPrefixF : ∀ o' ∈ stF.orders, AckedPrefixL o'.operations := by
    intro o' ho'
    obtain ⟨o, ho, rfl⟩ := List.mem_map.mp (show o' ∈ st1.orders.map G from ho')
    by_cases hne : o.orderId = p.orderId
    · rw [hGowner o ho hne, hGO]
      show AckedPrefixL (K ++ [pN])
      have h1 : AckedPrefixL ((K ++ qs) ++ [p]) := by
        rw [← hops]
        exact hIQ.ackedPrefix O hOmem
      exact ackedPrefixL_concat K pN
        (ackedPrefixL_front _ _ (ackedPrefixL_front _ _ h1)) hpNnotAcked
    · rw [hGother o hne]
      exact hIQ.ackedPrefix o ho
  have hdeleteLastF : ∀ o' ∈ stF.orders, DeleteLastL o'.operations := by
    intro o' ho'
    obtain ⟨o, ho, rfl⟩ := List.mem_map.mp (show o' ∈ st1.orders.map G from ho')
    by_cases hne : o.orderId = p.orderId
    · rw [hGowner o ho hne, hGO]
      show DeleteLastL (K ++ [pN])
      intro r hr
      rw [List.dropLast_concat] at hr
      exact hIQ.deleteLast O hOmem r (by
        rw [hops, List.dropLast_concat]
        exact List.mem_append_left _ hr)
    · rw [hGother o hne]
      exact hIQ.deleteLast o ho
  have hchainF : ∀ o' ∈ stF.orders, ∀ q, o'.operations.getLast? = some q →
      q.operationState = OperationState.Queued →
      q.previousOperation = (lastDispatched o').map (fun r => r.opId) := by
    intro o' ho' q hql hqst
    obtain ⟨o, ho, rfl⟩ := List.mem_map.mp (show o' ∈ st1.orders.map G from ho')
    by_cases hne : o.orderId = p.orderId
    · rw [hGowner o ho hne, hGO] at hql ⊢
      have hq2 : (K ++ [pN]).getLast? = some q := hql
      rw [List.getLast?_concat] at hq2
      rw [← Option.some.inj hq2, hpNprev, hLDO, hLDOF]
    · rw [hGother o hne] at hql ⊢
      exact hIQ.chain o ho q hql hqst
  have hentryInF : ∀ o' ∈ stF.orders, ∀ d, lastDispatched o' = some d →
      isDeleteType d.operationType = false → d.opId ∈ stF.marketOperations := by
    intro o' ho' d hd hndel
    obtain ⟨o, ho, rfl⟩ := List.mem_map.mp (show o' ∈ st1.orders.map G from ho')
    rw [hLDG o ho] at hd
    exact hIQ.entryIn o ho d hd hndel
  have hentryOutF : ∀ o' ∈ stF.orders, ∀ j ∈ stF.marketOperations, ∀ r,
      findOp stF j = some r → r.orderId = o'.orderId →
      ∃ d, lastDispatched o' = some d ∧ j = d.opId := by
    intro o' ho' j hj r hr hroid
    obtain ⟨o, ho, rfl⟩ := List.mem_map.mp (show o' ∈ st1.orders.map G from ho')
    rw [hfindOpF_book j hj] at hr
    rw [hLDG o ho]
    exact hIQ.entryOut o ho j hj r hr (by rw [← hGid o]; exact hroid)
  have hstateHistF : ∀ o' ∈ stF.orders,
      (o'.orderState = OrderState.PriorToMarket → lastDispatched o' = none) ∧
      (o'.orderState = OrderState.OnMarket → ∃ d, lastDispatched o' = some d ∧
        isDeleteType d.operationType = false) ∧
      (o'.orderState = OrderState.Finalised →
        (∃ d, lastDispatched o' = some d ∧ isDeleteType d.operationType = true) ∧
        (∀ r ∈ o'.operations, r.operationState ≠ OperationState.Queued)) ∧
      (o'.orderState = OrderState.DeleteSentToMarket →
        (∃ q, o'.operations.getLast? = some q ∧ isDispatchedOp q = false ∧
          q.operationType = OperationType.DeleteOrder) ∨
        (∃ d, lastDispatched o' = some d ∧ isDeleteType d.operationType = true)) := by
    intro o' ho'
    obtain ⟨o, ho, rfl⟩ := List.mem_map.mp (show o' ∈ st1.orders.map G from ho')
    by_cases hne : o.orderId = p.orderId
    · rw [hGowner o ho hne, hGO]
      refine ⟨?_, ?_, ?_, ?_⟩
      · intro h
        rw [hLDOF, ← hLDO]
        exact htPTM h
      · intro h
        obtain ⟨d, hd, hdnd⟩ := htOM h
        refine ⟨d, ?_, hdnd⟩
        rw [hLDOF, ← hLDO]
        exact hd
      · intro h
        exact absurd h htnotFin
      · intro h
        rcases htD h with hdel | ⟨d, hd, hdel⟩
        · left
          refine ⟨pN, ?_, ?_, ?_⟩
          · show (K ++ [pN]).getLast? = some pN
            exact List.getLast?_concat _
          · rw [isDispatchedOp, hpNst]
            simp
          · rw [hpNty]
            exact hdel
        · right
          refine ⟨d, ?_, hdel⟩
          rw [hLDOF, ← hLDO]
          exact hd
    · rw [hGother o hne]
      exact hIQ.stateHist o ho
  have hqdzF : ∀ o' ∈ stF.orders, ∀ r ∈ o'.operations,
      r.operationState = OperationState.Queued →
      r.operationType = OperationType.DeleteOrder →
      o'.orderState = OrderState.DeleteSentToMarket := by
    intro o' ho' r hr hrq hrd
    obtain ⟨o, ho, rfl⟩ := List.mem_map.mp (show o' ∈ st1.orders.map G from ho')
    by_cases hne : o.orderId = p.orderId
    · rw [hGowner o ho hne, hGO] at hr ⊢
      rcases List.mem_append.mp hr with h1 | h1
      · exact absurd hrq (hKnq r h1)
      · rw [List.mem_singleton.mp h1, hpNty] at hrd
        show t = OrderState.DeleteSentToMarket
        exact htdel hrd
    · rw [hGother o hne] at hr ⊢
      exact hIQ.queuedDelZombie o ho r hr hrq hrd
  have hsepF : ∀ b ∈ stF.orders, ∀ s ∈ stF.orders, b.isQuote = false → s.isQuote = false →
      b.side = Side.Buy → s.side = Side.Sell → liveOrd b → liveOrd s →
      GetLivePrice (fun a b => max a b) b < GetLivePrice (fun a b => min a b) s := by
    intro b' hb' s' hs' hbq hsq hbs hss hbl hsl
    obtain ⟨b, hb, rfl⟩ := List.mem_map.mp (show b' ∈ st1.orders.map G from hb')
    obtain ⟨s, hs, rfl⟩ := List.mem_map.mp (show s' ∈ st1.orders.map G from hs')
    rw [(hGfields b).1] at hbq
    rw [(hGfields s).1] at hsq
    rw [(hGfields b).2] at hbs
    rw [(hGfields s).2] at hss
    exact lt_of_le_of_lt (hGfacts b hb).1
      (lt_of_lt_of_le (hIQ.sep b hb s hs hbq hsq hbs hss (hGlive b hb hbl) (hGlive s hs hsl))
        (hGfacts s hs).2)
  have hsepQAF : ∀ b ∈ stF.orders, b.isQuote = false → b.side = Side.Buy → liveOrd b →
      GetLivePrice (fun a b => max a b) b < askScanMin stF := by
    intro b' hb' hbq hbs hbl
    obtain ⟨b, hb, rfl⟩ := List.mem_map.mp (show b' ∈ st1.orders.map G from hb')
    rw [(hGfields b).1] at hbq
    rw [(hGfields b).2] at hbs
    exact lt_of_le_of_lt (hGfacts b hb).1
      (lt_of_lt_of_le (hIQ.sepQA b hb hbq hbs (hGlive b hb hbl)) hscans.1)
  have hsepQBF : ∀ s ∈ stF.orders, s.isQuote = false → s.side = Side.Sell → liveOrd s →
      bidScanMax stF < GetLivePrice (fun a b => min a b) s := by
    intro s' hs' hsq hss hsl
    obtain ⟨s, hs, rfl⟩ := List.mem_map.mp (show s' ∈ st1.orders.map G from hs')
    rw [(hGfields s).1] at hsq
    rw [(hGfields s).2] at hss
    exact lt_of_le_of_lt hscans.2
      (lt_of_lt_of_le (hIQ.sepQB s hs hsq hss (hGlive s hs hsl)) (hGfacts s hs).2)
  have hbookSepF : BookSep stF := by
    intro i1 hi1 j1 hj1 p1 o1 p2 o2 b a hres1 hres2 hbid hask
    obtain ⟨hf1, ho1⟩ := resolveBookEntry_elim stF i1 p1 o1 hres1
    obtain ⟨hf2, ho2⟩ := resolveBookEntry_elim stF j1 p2 o2 hres2
    have hi1' : i1 ∈ st1.marketOperations := hi1
    have hj1' : j1 ∈ st1.marketOperations := hj1
    rw [hfindOpF_book i1 hi1'] at hf1
    rw [hfindOpF_book j1 hj1'] at hf2
    rw [hfindOrdF] at ho1 ho2
    rcases hor1 : findOrder st1 p1.orderId with _ | o1'
    · rw [hor1] at ho1
      cases ho1
    · rw [hor1] at ho1
      rcases hor2 : findOrder st1 p2.orderId with _ | o2'
      · rw [hor2] at ho2
        cases ho2
      · rw [hor2] at ho2
        have ho1e : o1 = G o1' := (Option.some.inj ho1).symm
        have ho2e : o2 = G o2' := (Option.some.inj ho2).symm
        rw [ho1e, entryBid_congr p1 o1' (G o1') (hGfields o1').1
          (hGfields o1').2] at hbid
        rw [ho2e, entryAsk_congr p2 o2' (G o2') (hGfields o2').1
          (hGfields o2').2] at hask
        exact hIQ.bookSep i1 hi1' j1 hj1' p1 o1' p2 o2' b a
          (resolveBookEntry_some st1 i1 p1 o1' hf1 hor1)
          (resolveBookEntry_some st1 j1 p2 o2' hf2 hor2) hbid hask
  -- throttle facts
  have hiT1 : i ∉ T1 := by
    intro hmem
    have hthr : i ∈ st1.throttle := List.mem_of_mem_filter hmem
    obtain ⟨r, hr, hrq⟩ := hT.thrQueued i hthr
    rw [hfind] at hr
    rw [← Option.some.inj hr, hpInit] at hrq
    cases hrq
  have hthrNodupF : (T1 ++ [i]).Nodup := by
    rw [List.nodup_append]
    refine ⟨List.Nodup.filter _ hT.thrNodup, List.nodup_singleton _, ?_⟩
    intro a ha hcon
    rw [List.mem_singleton.mp hcon] at ha
    exact hiT1 ha
  have hthrQueuedF : ∀ t2 ∈ T1 ++ [i], ∃ r, findOp stF t2 = some r ∧
      r.operationState = OperationState.Queued := by
    intro t2 ht2
    rcases List.mem_append.mp ht2 with h1 | h1
    · have hin : t2 ∈ st1.throttle := List.mem_of_mem_filter h1
      obtain ⟨r, hr, hrq⟩ := hT.thrQueued t2 hin
      have hpt := (List.mem_filter.mp h1).2
      simp only [hr] at hpt
      have hpred2 : r.orderId ≠ p.orderId := by simpa using hpt
      obtain ⟨or2, hor2, hmem2⟩ := (mem_allOps st1 r).mp (findOp_some_facts st1 t2 r hr).1
      have hone : or2.orderId ≠ p.orderId := by
        rw [← hIQ.owner or2 hor2 r hmem2]
        exact hpred2
      have hrF : r ∈ allOps stF := (hmemOpF r).mpr (Or.inl ⟨or2, hor2, hone, hmem2⟩)
      refine ⟨r, ?_, hrq⟩
      rw [← (findOp_some_facts st1 t2 r hr).2]
      exact hfindF_of_mem r hrF
    · rw [List.mem_singleton.mp h1]
      refine ⟨pN, ?_, hpNst⟩
      have hpNF : pN ∈ allOps stF := (hmemOpF pN).mpr (Or.inr (Or.inr rfl))
      have h2 := hfindF_of_mem pN hpNF
      rw [hpNid] at h2
      exact h2
  have hqueuedThrF : ∀ r ∈ allOps stF, r.operationState = OperationState.Queued →
      r.opId ∈ T1 ++ [i] := by
    intro r hr hrq
    rcases (hmemOpF r).mp hr with ⟨o, ho, hne, hro⟩ | hK | hrN
    · have hrall : r ∈ allOps st1 := (mem_allOps st1 r).mpr ⟨o, ho, hro⟩
      have hin : r.opId ∈ st1.throttle := hT.queuedThr r hrall hrq
      apply List.mem_append_left
      rw [hT1]
      apply List.mem_filter.mpr
      refine ⟨hin, ?_⟩
      have hfr : findOp st1 r.opId = some r := findOp_of_mem st1 hIQ.opsNodup r hrall
      simp only [hfr]
      simpa using (show r.orderId ≠ p.orderId from by
        rw [hIQ.owner o ho r hro]
        exact hne)
    · exact absurd hrq (hKnq r hK)
    · apply List.mem_append_right
      rw [hrN, hpNid]
      exact List.mem_singleton_self _
  have hNoInitF : ∀ r ∈ allOps stF, r.operationState ≠ OperationState.Initial := by
    intro r hr hcon
    rcases (hmemOpF r).mp hr with ⟨o, ho, hne, hro⟩ | hK | hrN
    · have hrall : r ∈ allOps st1 := (mem_allOps st1 r).mpr ⟨o, ho, hro⟩
      have hri : r.opId = i := hNIx r hrall hcon
      have hrp : r = p := List.inj_on_of_nodup_map hIQ.opsNodup hrall hpall
        (by rw [hri, hpid])
      have h2 := hIQ.owner o ho r hro
      rw [hrp] at h2
      exact hne h2.symm
    · exact hKnotInit r (List.mem_append_left _ hK) hcon
    · rw [hrN, hpNst] at hcon
      cases hcon
  have hInvF : Inv stF :=
    ⟨⟨hordersNodupF, hopsNF, hownF, hopsFreshF, hordersFreshF, hIQ.bookNodup,
      hbookResolvesF, hquoteWFF, hisQuoteIdF, hquoteOpWFF, horderOpWFF, hqueuedLastF,
      hackedPrefixF, hdeleteLastF, hchainF, hentryInF, hentryOutF, hstateHistF, hqdzF,
      hsepF, hsepQAF, hsepQBF, hbookSepF⟩,
      ⟨hthrNodupF, hthrQueuedF, hqueuedThrF⟩, hNoInitF⟩
  constructor
  · rw [hPTF]
    exact hInvF
  · intro ht
    rw [hPT2 ht]
    exact hInvF

/-- The invariant with one queued-last exemption collapses back to the full
invariant when no operation in the store is Queued (which holds whenever
the throttle queue is empty). -/
theorem invQL_invCore (st : EngineState) (oid : Nat) (hIQ : InvQL st oid)
    (hnoq : ∀ r ∈ allOps st, r.operationState ≠ OperationState.Queued) :
    InvCore st :=
  ⟨hIQ.ordersNodup, hIQ.opsNodup, hIQ.owner, hIQ.opsFresh, hIQ.ordersFresh, hIQ.bookNodup,
   hIQ.bookResolves, hIQ.quoteWF, hIQ.isQuoteId, hIQ.quoteOpWF, hIQ.orderOpWF,
   fun o ho r hrm hq => hnoq r ((mem_allOps st r).mpr
     ⟨o, ho, (List.dropLast_sublist o.operations).subset hrm⟩) hq,
   hIQ.ackedPrefix, hIQ.deleteLast, hIQ.chain, hIQ.entryIn, hIQ.entryOut, hIQ.stateHist,
   hIQ.queuedDelZombie, hIQ.sep, hIQ.sepQA, hIQ.sepQB, hIQ.bookSep⟩

/-- The full invariant trivially implies its queued-last-exempt variant. -/
theorem invCore_invQL (st : EngineState) (oid : Nat) (hI : InvCore st) : InvQL st oid :=
  ⟨hI.ordersNodup, hI.opsNodup, hI.owner, hI.opsFresh, hI.ordersFresh, hI.bookNodup,
   hI.bookResolves, hI.quoteWF, hI.isQuoteId, hI.quoteOpWF, hI.orderOpWF,
   fun o ho _ => hI.queuedLast o ho,
   fun o ho _ r hrm => hI.queuedLast o ho r ((List.dropLast_sublist _).subset hrm),
   hI.ackedPrefix, hI.deleteLast, hI.chain, hI.entryIn, hI.entryOut, hI.stateHist,
   hI.queuedDelZombie, hI.sep, hI.sepQA, hI.sepQB, hI.bookSep⟩

/-- Dispatching the freshly appended Initial operation when the throttle
window is open (hence the queue is empty and no operation anywhere is
Queued) cannot fire the cross assertion and re-establishes the invariant. -/
theorem dispatchInit_sound (st1 : EngineState) (i : Nat) (p : Operation) (O : Order)
    (K : List Operation)
    (hIQ : InvQL st1 p.orderId)
    (hT : ThrOK st1 st1.throttle)
    (hNIx : ∀ r ∈ allOps st1, r.operationState = OperationState.Initial → r.opId = i)
    (hthr : st1.throttle = [])
    (hfind : findOp st1 i = some p)
    (hford : findOrder st1 p.orderId = some O)
    (hops : O.operations = K ++ [p])
    (hpid : p.opId = i)
    (hpInit : p.operationState = OperationState.Initial)
    (hprev : p.previousOperation = (lastDispatched O).map (fun r => r.opId))
    (hOlive : O.isQuote = false → isDeleteType p.operationType = false → liveOrd O)
    (hInd : isDeleteType p.operationType = false → ∀ r ∈ allOps st1,
      r.operationState = OperationState.Initial →
      r.operationType ≠ OperationType.DeleteOrder) :
    (SendToMarket st1 i ≠ Except.error Err.inCross) ∧
    (∀ st', SendToMarket st1 i = Except.ok st' → Inv st') := by
  obtain ⟨hOmem, hOid⟩ := findOrder_some st1 p.orderId O hford
  have hnoq : ∀ r ∈ allOps st1, r.operationState ≠ OperationState.Queued := by
    intro r hr hq
    have h2 := hT.queuedThr r hr hq
    rw [hthr] at h2
    exact absurd h2 (List.not_mem_nil _)
  have hI : InvCore st1 := invQL_invCore st1 p.orderId hIQ hnoq
  have hlastp : O.operations.getLast? = some p := by
    rw [hops]
    exact List.getLast?_concat _
  have hNoQD : isDeleteType p.operationType = false → NoQD st1 :=
    fun _ r hr hq => absurd hq (hnoq r hr)
  have hnd2 : isDispatchedOp p = false := by
    rw [isDispatchedOp, hpInit]
    simp
  have hpNA : p.operationState ≠ OperationState.Acked := by
    rw [hpInit]
    intro hc
    cases hc
  have hpmem : p ∈ O.operations := by
    rw [hops]
    exact List.mem_append_right _ (List.mem_singleton_self _)
  constructor
  · exact sendToMarket_safe st1 hI i p hInd hfind O hford hOmem hpmem hpNA hprev hOlive hNoQD
  · intro st' hok
    obtain ⟨hI', hNI', hthr', _, _, _, _⟩ := dispatch_preserves st1 hI i p hfind hnd2 O hford
      hlastp hprev hOlive hNoQD hNIx st' hok
    refine ⟨hI', ?_, hNI'⟩
    rw [hthr', hthr]
    refine ⟨List.nodup_nil, ?_, ?_⟩
    · intro t ht
      exact absurd ht (List.not_mem_nil _)
    · intro r hr hrq
      obtain ⟨book', hub, hic, hst'⟩ := sendToMarket_ok_elim st1 i p hfind st' hok
      rw [hst', allOps_stUpdate] at hr
      obtain ⟨r0, hr0, rfl⟩ := List.mem_map.mp hr
      obtain ⟨hq0, _⟩ := sentTweak_queued i r0 hrq
      exact absurd hq0 (hnoq r0 hr0)

/-! ### Extraction lemmas for the cross guards: a passed check yields the
pairwise strict price-separation facts the invariant records. -/

theorem checkAgainstOrders_spec (P : Order) (l : List Order)
    (h : CheckAgainstOrders P l = true) :
    ∀ o ∈ l, o.side ≠ P.side → o.orderState ≠ OrderState.Finalised →
      o.orderState ≠ OrderState.DeleteSentToMarket →
      (P.side = Side.Buy → GetLivePrice (fun a b => max a b) P <
        GetLivePrice (fun a b => min a b) o) ∧
      (P.side = Side.Sell → GetLivePrice (fun a b => max a b) o <
        GetLivePrice (fun a b => min a b) P) := by
  induction l with
  | nil =>
    intro o ho
    exact absurd ho (List.not_mem_nil o)
  | cons x rest ih =>
    rw [CheckAgainstOrders] at h
    intro o ho hside hfin hdstm
    by_cases hx1 : x.side = P.side
    · rw [if_pos hx1] at h
      rcases List.mem_cons.mp ho with rfl | ho2
      · exact absurd hx1 hside
      · exact ih h o ho2 hside hfin hdstm
    · rw [if_neg hx1] at h
      by_cases hx2 : x.orderState = OrderState.Finalised
      · rw [if_pos hx2] at h
        rcases List.mem_cons.mp ho with rfl | ho2
        · exact absurd hx2 hfin
        · exact ih h o ho2 hside hfin hdstm
      · rw [if_neg hx2] at h
        by_cases hx3 : x.orderState = OrderState.DeleteSentToMarket
        · rw [if_pos hx3] at h
          rcases List.mem_cons.mp ho with rfl | ho2
          · exact absurd hx3 hdstm
          · exact ih h o ho2 hside hfin hdstm
        · rw [if_neg hx3] at h
          by_cases hPB : P.side = Side.Buy
          · rw [if_pos hPB] at h
            by_cases hlt : GetLivePrice (fun a b => max a b) P <
                GetLivePrice (fun a b => min a b) x
            · rw [if_pos hlt] at h
              rcases List.mem_cons.mp ho with rfl | ho2
              · refine ⟨fun _ => hlt, fun hPS => ?_⟩
                rw [hPB] at hPS
                cases hPS
              · exact ih h o ho2 hside hfin hdstm
            · rw [if_neg hlt] at h
              cases h
          · rw [if_neg hPB] at h
            have hPS : P.side = Side.Sell := by
              rcases hps : P.side
              · exact absurd hps hPB
              · rfl
            by_cases hlt : GetLivePrice (fun a b => min a b) P >
                GetLivePrice (fun a b => max a b) x
            · rw [if_pos hlt] at h
              rcases List.mem_cons.mp ho with rfl | ho2
              · refine ⟨fun hPB2 => absurd hPB2 hPB, fun _ => hlt⟩
              · exact ih h o ho2 hside hfin hdstm
            · rw [if_neg hlt] at h
              cases h

theorem checkPendingIoA_spec (st : EngineState) (P : Order)
    (h : CheckPendingInsertOrAmend st P = true) :
    (P.side = Side.Buy → P.price < askScanMin st) ∧
    (P.side = Side.Sell → bidScanMax st < P.price) ∧
    CheckAgainstOrders P st.orders = true := by
  rw [CheckPendingInsertOrAmend] at h
  by_cases hPB : P.side = Side.Buy
  · rw [if_pos hPB] at h
    by_cases hge : P.price ≥ min (QuoteAskScan (quoteOps st)).1 (QuoteAskScan (quoteOps st)).2
    · rw [if_pos hge] at h
      cases h
    · rw [if_neg hge] at h
      refine ⟨fun _ => ?_, fun hPS => ?_, h⟩
      · rw [askScanMin]
        omega
      · rw [hPB] at hPS
        cases hPS
  · rw [if_neg hPB] at h
    have hPS : P.side = Side.Sell := by
      rcases hps : P.side
      · exact absurd hps hPB
      · rfl
    by_cases hle : P.price ≤ max (QuoteBidScan (quoteOps st)).1 (QuoteBidScan (quoteOps st)).2
    · rw [if_pos hle] at h
      cases h
    · rw [if_neg hle] at h
      refine ⟨fun hPB2 => absurd hPB2 hPB, fun _ => ?_, h⟩
      rw [bidScanMax]
      omega

theorem checkQuoteAgainstOrders_spec (qop : Operation) (l : List Order)
    (h : CheckQuoteAgainstOrders qop l = true) :
    ∀ o ∈ l, o.isQuote = false → o.orderState ≠ OrderState.Finalised →
      o.orderState ≠ OrderState.DeleteSentToMarket →
      (o.side = Side.Buy → GetLivePrice (fun a b => max a b) o < qop.askPrice) ∧
      (o.side = Side.Sell → qop.bidPrice < GetLivePrice (fun a b => min a b) o) := by
  induction l with
  | nil =>
    intro o ho
    exact absurd ho (List.not_mem_nil o)
  | cons x rest ih =>
    rw [CheckQuoteAgainstOrders] at h
    intro o ho hq hfin hdstm
    by_cases hx1 : x.isQuote
    · rw [if_pos hx1] at h
      rcases List.mem_cons.mp ho with rfl | ho2
      · rw [hq] at hx1
        cases hx1
      · exact ih h o ho2 hq hfin hdstm
    · rw [if_neg hx1] at h
      by_cases hx2 : x.orderState = OrderState.Finalised
      · rw [if_pos hx2] at h
        rcases List.mem_cons.mp ho with rfl | ho2
        · exact absurd hx2 hfin
        · exact ih h o ho2 hq hfin hdstm
      · rw [if_neg hx2] at h
        by_cases hx3 : x.orderState = OrderState.DeleteSentToMarket
        · rw [if_pos hx3] at h
          rcases List.mem_cons.mp ho with rfl | ho2
          · exact absurd hx3 hdstm
          · exact ih h o ho2 hq hfin hdstm
        · rw [if_neg hx3] at h
          by_cases hxB : x.side = Side.Buy
          · rw [if_pos hxB] at h
            by_cases haq : qop.askQty > -1
            · rw [if_pos haq] at h
              by_cases hlt : qop.askPrice > GetLivePrice (fun a b => max a b) x
              · rw [if_pos hlt] at h
                rcases List.mem_cons.mp ho with rfl | ho2
                · refine ⟨fun _ => hlt, fun hxS => ?_⟩
                  rw [hxB] at hxS
                  cases hxS
                · exact ih h o ho2 hq hfin hdstm
              · rw [if_neg hlt] at h
                cases h
            · rw [if_neg haq] at h
              cases h
          · rw [if_neg hxB] at h
            have hxS : x.side = Side.Sell := by
              rcases hxs : x.side
              · exact absurd hxs hxB
              · rfl
            by_cases hbq : qop.bidQty > -1
            · rw [if_pos hbq] at h
              by_cases hlt : qop.bidPrice < GetLivePrice (fun a b => min a b) x
              · rw [if_pos hlt] at h
                rcases List.mem_cons.mp ho with rfl | ho2
                · exact ⟨fun hxB2 => absurd hxB2 hxB, fun _ => hlt⟩
                · exact ih h o ho2 hq hfin hdstm
              · rw [if_neg hlt] at h
                cases h
            · rw [if_neg hbq] at h
              cases h

/-- Appending an unacked insert/amend at price `np` to a history whose
order price is simultaneously rewritten to `np` cannot push the live
maximum above `max` of the old live maximum and `np`: the new start value
and the new in-flight contribution are both `np`, and the acked
accumulator is unchanged or started at `np`. -/
theorem getLivePrice_append_max (O1 : Order) (l0 : List Operation) (a : Operation)
    (np : Int)
    (hO1 : O1.operations = l0 ++ [a]) (hpr : O1.price = np)
    (ha : a.operationState ≠ OperationState.Acked) (hap : a.price = np)
    (O0 : Order) (hO0 : O0.operations = l0) :
    GetLivePrice (fun a b => max a b) O1 ≤
      max (GetLivePrice (fun a b => max a b) O0) np := by
  show max ((O1.operations).foldl (livePriceStep (fun a b => max a b)) (O1.price, O1.price)).1
      ((O1.operations).foldl (livePriceStep (fun a b => max a b)) (O1.price, O1.price)).2 ≤
    max (max ((O0.operations).foldl (livePriceStep (fun a b => max a b)) (O0.price, O0.price)).1
      ((O0.operations).foldl (livePriceStep (fun a b => max a b)) (O0.price, O0.price)).2) np
  rw [hO1, hO0, hpr, List.foldl_append]
  simp only [List.foldl_cons, List.foldl_nil]
  have hmono : ∀ l : List Operation, ∀ x y : Int × Int, x.1 ≤ max y.1 np →
      (x.2 ≤ max y.2 np) →
      (l.foldl (livePriceStep (fun a b => max a b)) x).1 ≤
        max (l.foldl (livePriceStep (fun a b => max a b)) y).1 np ∧
      (l.foldl (livePriceStep (fun a b => max a b)) x).2 ≤
        max (l.foldl (livePriceStep (fun a b => max a b)) y).2 np := by
    intro l
    induction l with
    | nil => exact fun x y h1 h2 => ⟨h1, h2⟩
    | cons r t iht =>
      intro x y h1 h2
      rw [List.foldl_cons, List.foldl_cons]
      apply iht
      · by_cases hrel : r.operationType = OperationType.AmendOrder ∨
            r.operationType = OperationType.InsertOrder
        · by_cases hack : r.operationState = OperationState.Acked
          · simp only [livePriceStep, if_pos hrel, if_pos hack]
            exact h1
          · simp only [livePriceStep, if_pos hrel, if_neg hack]
            refine max_le (le_max_of_le_left (le_max_left _ _)) ?_
            exact le_trans h1 (max_le_max (le_max_right _ _) le_rfl)
        · simp only [livePriceStep, if_neg hrel]
          exact h1
      · by_cases hrel : r.operationType = OperationType.AmendOrder ∨
            r.operationType = OperationType.InsertOrder
        · by_cases hack : r.operationState = OperationState.Acked
          · simp only [livePriceStep, if_pos hrel, if_pos hack]
            exact le_max_of_le_left le_rfl
          · simp only [livePriceStep, if_pos hrel, if_neg hack]
            exact h2
        · simp only [livePriceStep, if_neg hrel]
          exact h2
  have hstart := hmono l0 (np, np) (O0.price, O0.price)
    (le_max_right _ _) (le_max_right _ _)
  set X : Int × Int := l0.foldl (livePriceStep (fun a b => max a b)) (np, np) with hX
  set Y : Int × Int := l0.foldl (livePriceStep (fun a b => max a b))
    (O0.price, O0.price) with hY
  obtain ⟨hs1, hs2⟩ := hstart
  by_cases hrel : a.operationType = OperationType.AmendOrder ∨
      a.operationType = OperationType.InsertOrder
  · simp only [livePriceStep, if_pos hrel, if_neg ha]
    refine max_le (max_le ?_ ?_) ?_
    · rw [hap]
      exact le_max_right _ _
    · exact le_trans hs1 (max_le_max (le_max_left _ _) le_rfl)
    · exact le_trans hs2 (max_le_max (le_max_right _ _) le_rfl)
  · simp only [livePriceStep, if_neg hrel]
    refine max_le ?_ ?_
    · exact le_trans hs1 (max_le_max (le_max_left _ _) le_rfl)
    · exact le_trans hs2 (max_le_max (le_max_right _ _) le_rfl)

theorem getLivePrice_append_min (O1 : Order) (l0 : List Operation) (a : Operation)
    (np : Int)
    (hO1 : O1.operations = l0 ++ [a]) (hpr : O1.price = np)
    (ha : a.operationState ≠ OperationState.Acked) (hap : a.price = np)
    (O0 : Order) (hO0 : O0.operations = l0) :
    min (GetLivePrice (fun a b => min a b) O0) np ≤
      GetLivePrice (fun a b => min a b) O1 := by
  show min (min ((O0.operations).foldl (livePriceStep (fun a b => min a b)) (O0.price, O0.price)).1
      ((O0.operations).foldl (livePriceStep (fun a b => min a b)) (O0.price, O0.price)).2) np ≤
    min ((O1.operations).foldl (livePriceStep (fun a b => min a b)) (O1.price, O1.price)).1
      ((O1.operations).foldl (livePriceStep (fun a b => min a b)) (O1.price, O1.price)).2
  rw [hO1, hO0, hpr, List.foldl_append]
  simp only [List.foldl_cons, List.foldl_nil]
  have hmono : ∀ l : List Operation, ∀ x y : Int × Int, min y.1 np ≤ x.1 →
      (min y.2 np ≤ x.2) →
      min (l.foldl (livePriceStep (fun a b => min a b)) y).1 np ≤
        (l.foldl (livePriceStep (fun a b => min a b)) x).1 ∧
      min (l.foldl (livePriceStep (fun a b => min a b)) y).2 np ≤
        (l.foldl (livePriceStep (fun a b => min a b)) x).2 := by
    intro l
    induction l with
    | nil => exact fun x y h1 h2 => ⟨h1, h2⟩
    | cons r t iht =>
      intro x y h1 h2
      rw [List.foldl_cons, List.foldl_cons]
      apply iht
      · by_cases hrel : r.operationType = OperationType.AmendOrder ∨
            r.operationType = OperationType.InsertOrder
        · by_cases hack : r.operationState = OperationState.Acked
          · simp only [livePriceStep, if_pos hrel, if_pos hack]
            exact h1
          · simp only [livePriceStep, if_pos hrel, if_neg hack]
            refine le_min (min_le_of_left_le (min_le_left _ _)) ?_
            exact le_trans (min_le_min (min_le_right _ _) le_rfl) h1
        · simp only [livePriceStep, if_neg hrel]
          exact h1
      · by_cases hrel : r.operationType = OperationType.AmendOrder ∨
            r.operationType = OperationType.InsertOrder
        · by_cases hack : r.operationState = OperationState.Acked
          · simp only [livePriceStep, if_pos hrel, if_pos hack]
            exact min_le_of_left_le le_rfl
          · simp only [livePriceStep, if_pos hrel, if_neg hack]
            exact h2
        · simp only [livePriceStep, if_neg hrel]
          exact h2
  have hstart := hmono l0 (np, np) (O0.price, O0.price)
    (min_le_right _ _) (min_le_right _ _)
  set X : Int × Int := l0.foldl (livePriceStep (fun a b => min a b)) (np, np) with hX
  set Y : Int × Int := l0.foldl (livePriceStep (fun a b => min a b))
    (O0.price, O0.price) with hY
  obtain ⟨hs1, hs2⟩ := hstart
  by_cases hrel : a.operationType = OperationType.AmendOrder ∨
      a.operationType = OperationType.InsertOrder
  · simp only [livePriceStep, if_pos hrel, if_neg ha]
    refine le_min (le_min ?_ ?_) ?_
    · rw [hap]
      exact min_le_right _ _
    · exact le_trans (min_le_min (min_le_left _ _) le_rfl) hs1
    · exact le_trans (min_le_min (min_le_right _ _) le_rfl) hs2
  · simp only [livePriceStep, if_neg hrel]
    refine le_min ?_ ?_
    · exact le_trans (min_le_min (min_le_left _ _) le_rfl) hs1
    · exact le_trans (min_le_min (min_le_right _ _) le_rfl) hs2

/-- Appending a fresh Initial operation `w` to the order `oid` (through the
order rewrite `F`, which may also update the order's price and qty but
preserves its identity, side, quote flag and state) keeps every clause of
the invariant except the queued-last clause of `oid` itself, which survives
in its exempt form; the owner's history decomposes into a queued-free
prefix, an optional queued last operation, and `w`, with the dispatch-chain
facts needed to queue or dispatch `w`. -/
theorem appendOp_invQL (st0 : EngineState) (oid : Nat) (O0 : Order) (w : Operation)
    (F : Order → Order) (n1 : Nat) (st1 : EngineState) (O1 : Order)
    (hI : InvBase st0) (hT : ThrOK st0 st0.throttle) (hNI : NoInit st0)
    (hford0 : findOrder st0 oid = some O0)
    (hst1 : st1 = { updateOrder st0 oid F with nextId := n1 })
    (hO1 : O1 = F O0)
    (hF1 : (F O0).operations = O0.operations ++ [w])
    (hFid : ∀ o, (F o).orderId = o.orderId)
    (hFq : ∀ o, (F o).isQuote = o.isQuote)
    (hFs : ∀ o, (F o).side = o.side)
    (hFst : ∀ o, (F o).orderState = o.orderState)
    (hwid : w.opId = st0.nextId) (hwoid : w.orderId = oid)
    (hwInit : w.operationState = OperationState.Initial)
    (hwprev : w.previousOperation = (O0.operations.getLast?).map (fun r => r.opId))
    (hn1 : st0.nextId < n1)
    (hwq : O0.isQuote = true → w.operationType = OperationType.InsertQuote ∧
      w.bidPrice < w.askPrice ∧ 1 ≤ w.bidQty ∧ 1 ≤ w.askQty)
    (hwo : O0.isQuote = false → w.operationType = OperationType.InsertOrder ∨
      w.operationType = OperationType.AmendOrder ∨
      w.operationType = OperationType.DeleteOrder)
    (hO0nd : ∀ r ∈ O0.operations, r.operationType ≠ OperationType.DeleteOrder)
    (hOnotD : O0.orderState ≠ OrderState.DeleteSentToMarket) :
    findOrder st1 oid = some O1 ∧
    findOp st1 w.opId = some w ∧
    ThrOK st1 st1.throttle ∧
    (∀ r ∈ allOps st1, r.operationState = OperationState.Initial → r.opId = w.opId) ∧
    lastDispatched O1 = lastDispatched O0 ∧
    (∃ K qsL, O1.operations = (K ++ qsL) ++ [w] ∧
      (∀ r ∈ K, r.operationState ≠ OperationState.Queued) ∧
      (qsL = [] ∨ ∃ qa, qsL = [qa] ∧ qa.operationState = OperationState.Queued) ∧
      (qsL = [] → w.previousOperation = (lastDispatched O1).map (fun r => r.opId)) ∧
      (∀ qa ∈ qsL, qa.previousOperation = (lastDispatched O1).map (fun r => r.opId))) ∧
    ((∀ b ∈ st1.orders, ∀ s ∈ st1.orders, b.orderId ≠ oid → s.orderId ≠ oid →
        b.isQuote = false → s.isQuote = false →
        b.side = Side.Buy → s.side = Side.Sell → liveOrd b → liveOrd s →
        GetLivePrice (fun a b => max a b) b < GetLivePrice (fun a b => min a b) s) →
      (∀ b ∈ st1.orders, b.orderId ≠ oid → b.isQuote = false → b.side = Side.Buy →
        liveOrd b → GetLivePrice (fun a b => max a b) b < askScanMin st1) →
      (∀ s ∈ st1.orders, s.orderId ≠ oid → s.isQuote = false → s.side = Side.Sell →
        liveOrd s → bidScanMax st1 < GetLivePrice (fun a b => min a b) s) →
      InvQLx st1 oid) := by
  obtain ⟨hO0mem, hO0id⟩ := findOrder_some st0 oid O0 hford0
  set G0 : Order → Order := fun o => if o.orderId = oid then F o else o with hG0def
  have hOwnerEq : ∀ o ∈ st0.orders, o.orderId = oid → o = O0 := fun o ho hid =>
    List.inj_on_of_nodup_map hI.ordersNodup ho hO0mem (by rw [hid, hO0id])
  have hc1 : ∀ o ∈ st0.orders, o.orderId = oid → (G0 o).operations = o.operations ++ [w] := by
    intro o ho hid
    have hoO : o = O0 := hOwnerEq o ho hid
    rw [hG0def]
    show (if o.orderId = oid then F o else o).operations = o.operations ++ [w]
    rw [if_pos hid, hoO, hF1]
  have hc2 : ∀ o ∈ st0.orders, ¬ o.orderId = oid → (G0 o).operations = o.operations := by
    intro o _ hid
    rw [hG0def]
    show (if o.orderId = oid then F o else o).operations = o.operations
    rw [if_neg hid]
  have hfrn : ∀ o ∈ st0.orders, ∀ r ∈ o.operations, r.opId ≠ w.opId := by
    intro o ho r hr
    have h2 := hI.opsFresh r ((mem_allOps st0 r).mpr ⟨o, ho, hr⟩)
    rw [hwid]
    omega
  have hG0id : ∀ o : Order, (G0 o).orderId = o.orderId := by
    intro o
    by_cases h : o.orderId = oid
    · simp [hG0def, h, hFid]
    · simp [hG0def, h]
  have hG0q : ∀ o : Order, (G0 o).isQuote = o.isQuote := by
    intro o
    by_cases h : o.orderId = oid
    · simp [hG0def, h, hFq]
    · simp [hG0def, h]
  have hG0s : ∀ o : Order, (G0 o).side = o.side := by
    intro o
    by_cases h : o.orderId = oid
    · simp [hG0def, h, hFs]
    · simp [hG0def, h]
  have hG0st : ∀ o : Order, (G0 o).orderState = o.orderState := by
    intro o
    by_cases h : o.orderId = oid
    · simp [hG0def, h, hFst]
    · simp [hG0def, h]
  have hG0other : ∀ o : Order, o.orderId ≠ oid → G0 o = o := by
    intro o hne
    rw [hG0def]
    show (if o.orderId = oid then F o else o) = o
    rw [if_neg hne]
  have hG0O0 : G0 O0 = F O0 := by
    rw [hG0def]
    show (if O0.orderId = oid then F O0 else O0) = F O0
    rw [if_pos hO0id]
  have horders1 : st1.orders = st0.orders.map G0 := by
    rw [hst1]
    rfl
  have hfind1 : findOp st1 w.opId = some w := by
    rw [findOp, allOps, horders1]
    exact find?_append_ops hc1 hc2 ⟨O0, hO0mem, hO0id⟩ hfrn
  have hfoeq : ∀ j, j ≠ w.opId → findOp st1 j = findOp st0 j := by
    intro j hj
    rw [findOp, allOps, horders1, findOp, allOps]
    exact find?_append_ops_other hc1 hc2 hj
  have hfordeq : ∀ k, findOrder st1 k = (findOrder st0 k).map G0 := by
    intro k
    rw [findOrder, horders1, findOrder, List.find?_map]
    have hpred : ((fun o : Order => decide (o.orderId = k)) ∘ G0) =
        (fun o : Order => decide (o.orderId = k)) := by
      funext o
      simp [Function.comp, hG0id o]
    rw [hpred]
  have hford1 : findOrder st1 oid = some O1 := by
    rw [hfordeq, hford0, hO1]
    show some (G0 O0) = some (F O0)
    rw [hG0O0]
  have hO1ops : O1.operations = O0.operations ++ [w] := by
    rw [hO1, hF1]
  -- membership description
  have hmem1 : ∀ r, r ∈ allOps st1 ↔ (r ∈ allOps st0 ∨ r = w) := by
    intro r
    constructor
    · intro hr
      obtain ⟨o', ho', hro⟩ := (mem_allOps st1 r).mp hr
      rw [horders1] at ho'
      obtain ⟨o, ho, rfl⟩ := List.mem_map.mp ho'
      by_cases hne : o.orderId = oid
      · rw [hc1 o ho hne] at hro
        rcases List.mem_append.mp hro with h1 | h1
        · exact Or.inl ((mem_allOps st0 r).mpr ⟨o, ho, h1⟩)
        · exact Or.inr (List.mem_singleton.mp h1)
      · rw [hc2 o ho hne] at hro
        exact Or.inl ((mem_allOps st0 r).mpr ⟨o, ho, hro⟩)
    · intro h
      rcases h with h1 | hrw
      · obtain ⟨o, ho, hro⟩ := (mem_allOps st0 r).mp h1
        refine (mem_allOps st1 r).mpr ⟨G0 o, ?_, ?_⟩
        · rw [horders1]
          exact List.mem_map.mpr ⟨o, ho, rfl⟩
        · by_cases hne : o.orderId = oid
          · rw [hc1 o ho hne]
            exact List.mem_append_left _ hro
          · rw [hc2 o ho hne]
            exact hro
      · refine (mem_allOps st1 r).mpr ⟨G0 O0, ?_, ?_⟩
        · rw [horders1]
          exact List.mem_map.mpr ⟨O0, hO0mem, rfl⟩
        · rw [hc1 O0 hO0mem hO0id, hrw]
          exact List.mem_append_right _ (List.mem_singleton_self _)
  -- nodup of the new id list via the split of the order store
  obtain ⟨u, v, hul⟩ := List.append_of_mem hO0mem
  have hids0 : (st0.orders.map (fun o => o.orderId)).Nodup := hI.ordersNodup
  have huvoid : (∀ o ∈ u, o.orderId ≠ oid) ∧ (∀ o ∈ v, o.orderId ≠ oid) := by
    rw [hul, List.map_append, List.map_cons] at hids0
    constructor
    · intro o ho hid
      have hdisj := (List.nodup_append.mp hids0).2.2
      exact hdisj (List.mem_map.mpr ⟨o, ho, rfl⟩)
        (by rw [hid, ← hO0id]; exact List.mem_cons_self _ _)
    · intro o ho hid
      have h2 := (List.nodup_append.mp hids0).2.1
      rw [List.nodup_cons] at h2
      exact h2.1 (by
        rw [← hO0id] at hid
        exact List.mem_map.mpr ⟨o, ho, hid⟩)
  have horders1' : st1.orders = u ++ F O0 :: v := by
    rw [horders1, hul, List.map_append, List.map_cons]
    have hu : u.map G0 = u :=
      (List.map_congr_left (fun o ho => hG0other o (huvoid.1 o ho))).trans (List.map_id _)
    have hv : v.map G0 = v :=
      (List.map_congr_left (fun o ho => hG0other o (huvoid.2 o ho))).trans (List.map_id _)
    rw [hu, hv, hG0O0]
  have hallOps1 : allOps st1 = u.flatMap (fun o => o.operations) ++
      ((O0.operations ++ [w]) ++ v.flatMap (fun o => o.operations)) := by
    rw [allOps, horders1', List.flatMap_append, List.flatMap_cons, hF1]
  have hallOps0 : allOps st0 = u.flatMap (fun o => o.operations) ++
      (O0.operations ++ v.flatMap (fun o => o.operations)) := by
    rw [allOps, hul, List.flatMap_append, List.flatMap_cons]
  have hopsN1 : ((allOps st1).map (fun r => r.opId)).Nodup := by
    have hp0 : ∀ (A B C W : List Nat), (A ++ ((B ++ W) ++ C)).Perm ((A ++ (B ++ C)) ++ W) := by
      intro A B C W
      have h1 : A ++ ((B ++ W) ++ C) = A ++ (B ++ (W ++ C)) := by
        simp [List.append_assoc]
      have h3 : (A ++ (B ++ C)) ++ W = A ++ (B ++ (C ++ W)) := by
        simp [List.append_assoc]
      rw [h1, h3]
      exact List.Perm.append_left _ (List.Perm.append_left _ List.perm_append_comm)
    have hperm : ((allOps st1).map (fun r => r.opId)).Perm
        (((allOps st0).map (fun r => r.opId)) ++ [w.opId]) := by
      rw [hallOps1, hallOps0]
      simp only [List.map_append, List.map_cons, List.map_nil]
      exact hp0 _ _ _ _
    refine hperm.nodup_iff.mpr ?_
    rw [List.nodup_append]
    refine ⟨hI.opsNodup, List.nodup_singleton _, ?_⟩
    intro a ha hcon
    obtain ⟨r, hr, hra⟩ := List.mem_map.mp ha
    obtain ⟨o, ho, hro⟩ := (mem_allOps st0 r).mp hr
    rw [List.mem_singleton.mp hcon] at hra
    exact hfrn o ho r hro hra
  -- freshness facts about book ids and throttle ids
  have hbookfr : ∀ j ∈ st0.marketOperations, j ≠ w.opId := by
    intro j hj hcon
    obtain ⟨pj, _, hpj, _, _, _⟩ := hI.bookResolves j hj
    have := hI.opsFresh pj (findOp_some_facts st0 j pj hpj).1
    rw [(findOp_some_facts st0 j pj hpj).2] at this
    rw [hcon, hwid] at this
    omega
  have hthrfr : ∀ t2 ∈ st0.throttle, t2 ≠ w.opId := by
    intro t2 ht2 hcon
    obtain ⟨r, hr, _⟩ := hT.thrQueued t2 ht2
    have := hI.opsFresh r (findOp_some_facts st0 t2 r hr).1
    rw [(findOp_some_facts st0 t2 r hr).2] at this
    rw [hcon, hwid] at this
    omega
  have hwnotA : w.operationState ≠ OperationState.Acked := by
    rw [hwInit]
    intro hc
    cases hc
  have hwnotQ : w.operationState ≠ OperationState.Queued := by
    rw [hwInit]
    intro hc
    cases hc
  have hwnotD : isDispatchedOp w = false := by
    rw [isDispatchedOp, hwInit]
    simp
  have hLD1 : lastDispatched O1 = lastDispatched O0 := by
    rw [lastDispatched, lastDispatched, hO1ops, List.filter_append]
    have hw : [w].filter (fun r => isDispatchedOp r) = [] := by
      simp [hwnotD]
    rw [hw]
    simp
  -- throttle invariant
  have hthr1 : st1.throttle = st0.throttle := by
    rw [hst1]
    rfl
  have hThr1 : ThrOK st1 st1.throttle := by
    rw [hthr1]
    refine ⟨hT.thrNodup, ?_, ?_⟩
    · intro t2 ht2
      obtain ⟨r, hr, hrq⟩ := hT.thrQueued t2 ht2
      refine ⟨r, ?_, hrq⟩
      rw [hfoeq t2 (hthrfr t2 ht2)]
      exact hr
    · intro r hr hrq
      rcases (hmem1 r).mp hr with h1 | h1
      · exact hT.queuedThr r h1 hrq
      · rw [h1] at hrq
        exact absurd hrq hwnotQ
  have hNIx1 : ∀ r ∈ allOps st1, r.operationState = OperationState.Initial →
      r.opId = w.opId := by
    intro r hr hri
    rcases (hmem1 r).mp hr with h1 | h1
    · exact absurd hri (hNI r h1)
    · rw [h1]
  -- the K/qs decomposition of the owner's history
  have hdecomp : ∃ K qsL, O1.operations = (K ++ qsL) ++ [w] ∧
      (∀ r ∈ K, r.operationState ≠ OperationState.Queued) ∧
      (qsL = [] ∨ ∃ qa, qsL = [qa] ∧ qa.operationState = OperationState.Queued) ∧
      (qsL = [] → w.previousOperation = (lastDispatched O1).map (fun r => r.opId)) ∧
      (∀ qa ∈ qsL, qa.previousOperation = (lastDispatched O1).map (fun r => r.opId)) := by
    have hQL : QueuedLastL O0.operations := hI.queuedLast O0 hO0mem
    rcases hlast : O0.operations.getLast? with _ | lastOp
    · have hnil : O0.operations = [] := List.getLast?_eq_none_iff.mp hlast
      refine ⟨[], [], ?_, ?_, Or.inl rfl, ?_, ?_⟩
      · rw [hO1ops, hnil]
        rfl
      · intro r hr
        exact absurd hr (List.not_mem_nil r)
      · intro _
        rw [hwprev, hlast, hLD1, lastDispatched, hnil]
        rfl
      · intro qa hqa
        exact absurd hqa (List.not_mem_nil qa)
    · have hne : O0.operations ≠ [] := by
        intro hc
        rw [hc] at hlast
        cases hlast
      have hdec : O0.operations = O0.operations.dropLast ++ [lastOp] := by
        have h1 := List.dropLast_append_getLast hne
        have h2 := hlast
        rw [List.getLast?_eq_getLast_of_ne_nil hne] at h2
        rw [← Option.some.inj h2]
        exact h1.symm
      by_cases hlq : lastOp.operationState = OperationState.Queued
      · refine ⟨O0.operations.dropLast, [lastOp], ?_, ?_, Or.inr ⟨lastOp, rfl, hlq⟩, ?_, ?_⟩
        · rw [hO1ops]
          rw [← hdec]
        · intro r hr
          exact hQL r hr
        · intro hc
          cases hc
        · intro qa hqa
          rw [List.mem_singleton.mp hqa, hLD1]
          exact hI.chain O0 hO0mem lastOp hlast hlq
      · refine ⟨O0.operations, [], ?_, ?_, Or.inl rfl, ?_, ?_⟩
        · rw [hO1ops, List.append_nil]
        · intro r hr
          by_cases hrl : r = lastOp
          · rw [hrl]
            exact hlq
          · intro hrq
            have hrmem : r ∈ O0.operations.dropLast := by
              rw [hdec] at hr
              rcases List.mem_append.mp hr with h1 | h1
              · exact h1
              · exact absurd (List.mem_singleton.mp h1) hrl
            exact hQL r hrmem hrq
        · intro _
          have hldisp : isDispatchedOp lastOp = true := by
            rcases hst : lastOp.operationState with _ | _ | _ | _
            · exact absurd hst (hNI lastOp ((mem_allOps st0 lastOp).mpr
                ⟨O0, hO0mem, getLast?_mem _ lastOp hlast⟩))
            · exact absurd hst hlq
            · rw [isDispatchedOp, hst]; simp
            · rw [isDispatchedOp, hst]; simp
          rw [hwprev, hlast, hLD1, lastDispatched_concat O0 O0.operations.dropLast lastOp
            hdec hldisp]
        · intro qa hqa
          exact absurd hqa (List.not_mem_nil qa)
  refine ⟨hford1, hfind1, hThr1, hNIx1, hLD1, hdecomp, ?_⟩
  intro hsep hsepQA hsepQB
  -- remaining InvQL fields
  have hmemOrd1 : ∀ o' ∈ st1.orders, ∃ o ∈ st0.orders, o' = G0 o := by
    intro o' ho'
    rw [horders1] at ho'
    obtain ⟨o, ho, he⟩ := List.mem_map.mp ho'
    exact ⟨o, ho, he.symm⟩
  have hbookeq : st1.marketOperations = st0.marketOperations := by
    rw [hst1]
    rfl
  refine ⟨?_, hopsN1, ?_, ?_, ?_, ?_, ?_, ?_, ?_, ?_, ?_, ?_, ?_, ?_, ?_, ?_, ?_,
    ?_, ?_, ?_, hsep, hsepQA, hsepQB, ?_⟩
  · -- ordersNodup
    have he : st1.orders.map (fun o => o.orderId) = st0.orders.map (fun o => o.orderId) := by
      rw [horders1]
      exact map_key_congr st0.orders G0 (fun o => o.orderId) hG0id
    rw [he]
    exact hI.ordersNodup
  · -- owner
    intro o' ho' r hr
    obtain ⟨o, ho, rfl⟩ := hmemOrd1 o' ho'
    rw [hG0id o]
    by_cases hne : o.orderId = oid
    · rw [hc1 o ho hne] at hr
      rcases List.mem_append.mp hr with h1 | h1
      · exact hI.owner o ho r h1
      · rw [List.mem_singleton.mp h1, hwoid, hne]
    · rw [hc2 o ho hne] at hr
      exact hI.owner o ho r hr
  · -- opsFresh
    intro r hr
    have hn1' : st1.nextId = n1 := by
      rw [hst1]
    rw [hn1']
    rcases (hmem1 r).mp hr with h1 | h1
    · have := hI.opsFresh r h1
      omega
    · rw [h1, hwid]
      exact hn1
  · -- ordersFresh
    intro o' ho'
    obtain ⟨o, ho, rfl⟩ := hmemOrd1 o' ho'
    have hn1' : st1.nextId = n1 := by
      rw [hst1]
    rw [hn1', hG0id o]
    have := hI.ordersFresh o ho
    omega
  · -- bookNodup
    rw [hbookeq]
    exact hI.bookNodup
  · -- bookResolves
    intro j hj
    rw [hbookeq] at hj
    obtain ⟨r, o2, hr, ho2, hdisp, hndel⟩ := hI.bookResolves j hj
    refine ⟨r, G0 o2, ?_, ?_, hdisp, hndel⟩
    · rw [hfoeq j (hbookfr j hj)]
      exact hr
    · rw [hfordeq, ho2]
      rfl
  · -- quoteWF
    obtain ⟨q1, hq1f, hq1q⟩ := hI.quoteWF
    refine ⟨G0 q1, ?_, ?_⟩
    · have hq : st1.quotesId = st0.quotesId := by
        rw [hst1]
        rfl
      rw [hq, hfordeq, hq1f]
      rfl
    · rw [hG0q]
      exact hq1q
  · -- isQuoteId
    intro o' ho' hq
    obtain ⟨o, ho, rfl⟩ := hmemOrd1 o' ho'
    rw [hG0q] at hq
    have hqid : st1.quotesId = st0.quotesId := by
      rw [hst1]
      rfl
    rw [hqid, hG0id o]
    exact hI.isQuoteId o ho hq
  · -- quoteOpWF
    intro r hr
    obtain ⟨q1, hq1f, hq1q⟩ := hI.quoteWF
    have hqid : st1.quotesId = st0.quotesId := by
      rw [hst1]
      rfl
    have hqops1 : quoteOps st1 = (G0 q1).operations := by
      rw [quoteOps, hqid, hfordeq, hq1f]
      rfl
    rw [hqops1] at hr
    by_cases hq1o : q1.orderId = oid
    · have hq1O : q1 = O0 := hOwnerEq q1 (findOrder_some st0 _ q1 hq1f).1 hq1o
      rw [hq1O, hc1 O0 hO0mem hO0id] at hr
      rcases List.mem_append.mp hr with h1 | h1
      · exact hI.quoteOpWF r (by rw [quoteOps, hq1f, hq1O]; exact h1)
      · rw [List.mem_singleton.mp h1]
        exact hwq (by rw [← hq1O]; exact hq1q)
    · rw [hG0other q1 hq1o] at hr
      exact hI.quoteOpWF r (by rw [quoteOps, hq1f]; exact hr)
  · -- orderOpWF
    intro o' ho' hq r hr
    obtain ⟨o, ho, rfl⟩ := hmemOrd1 o' ho'
    rw [hG0q] at hq
    by_cases hne : o.orderId = oid
    · have hoO : o = O0 := hOwnerEq o ho hne
      rw [hc1 o ho hne] at hr
      rcases List.mem_append.mp hr with h1 | h1
      · exact hI.orderOpWF o ho hq r h1
      · rw [List.mem_singleton.mp h1]
        exact hwo (by rw [← hoO]; exact hq)
    · rw [hc2 o ho hne] at hr
      exact hI.orderOpWF o ho hq r hr
  · -- queuedLast (non-owner)
    intro o' ho' hne'
    obtain ⟨o, ho, rfl⟩ := hmemOrd1 o' ho'
    rw [hG0id o] at hne'
    rw [hG0other o hne']
    exact hI.queuedLast o ho
  · -- queuedLastOwn
    intro o' ho' heq'
    obtain ⟨o, ho, rfl⟩ := hmemOrd1 o' ho'
    rw [hG0id o] at heq'
    intro r hr
    rw [hc1 o ho heq', List.dropLast_concat] at hr
    exact hI.queuedLast o ho r hr
  · -- ackedPrefix
    intro o' ho'
    obtain ⟨o, ho, rfl⟩ := hmemOrd1 o' ho'
    by_cases hne : o.orderId = oid
    · have hops' : (G0 o).operations = o.operations ++ [w] := hc1 o ho hne
      rw [show AckedPrefixL (G0 o).operations = AckedPrefixL (o.operations ++ [w]) from
        by rw [hops']]
      exact ackedPrefixL_concat _ w (hI.ackedPrefix o ho) hwnotA
    · rw [hG0other o hne]
      exact hI.ackedPrefix o ho
  · -- deleteLast
    intro o' ho'
    obtain ⟨o, ho, rfl⟩ := hmemOrd1 o' ho'
    by_cases hne : o.orderId = oid
    · have hoO : o = O0 := hOwnerEq o ho hne
      intro r hr
      rw [hc1 o ho hne, List.dropLast_concat] at hr
      rw [hoO] at hr
      exact hO0nd r hr
    · rw [hG0other o hne]
      exact hI.deleteLast o ho
  · -- chain
    intro o' ho' q hql hqst
    obtain ⟨o, ho, rfl⟩ := hmemOrd1 o' ho'
    by_cases hne : o.orderId = oid
    · rw [hc1 o ho hne] at hql
      rw [List.getLast?_concat] at hql
      rw [← Option.some.inj hql] at hqst
      exact absurd hqst hwnotQ
    · rw [hG0other o hne] at hql ⊢
      exact hI.chain o ho q hql hqst
  · -- entryIn
    intro o' ho' d hd hndel
    obtain ⟨o, ho, rfl⟩ := hmemOrd1 o' ho'
    rw [hbookeq]
    by_cases hne : o.orderId = oid
    · have hoO : o = O0 := hOwnerEq o ho hne
      have hGF : G0 o = O1 := by
        rw [hoO, hG0O0, hO1]
      rw [hGF, hLD1] at hd
      exact hI.entryIn O0 hO0mem d hd hndel
    · rw [hG0other o hne] at hd
      exact hI.entryIn o ho d hd hndel
  · -- entryOut
    intro o' ho' j hj r hr hroid
    obtain ⟨o, ho, rfl⟩ := hmemOrd1 o' ho'
    rw [hbookeq] at hj
    rw [hfoeq j (hbookfr j hj)] at hr
    rw [hG0id o] at hroid
    by_cases hne : o.orderId = oid
    · have hoO : o = O0 := hOwnerEq o ho hne
      have hGF : G0 o = O1 := by
        rw [hoO, hG0O0, hO1]
      rw [hGF, hLD1]
      rw [hoO] at hroid
      exact hI.entryOut O0 hO0mem j hj r hr hroid
    · rw [hG0other o hne]
      exact hI.entryOut o ho j hj r hr hroid
  · -- stateHist
    intro o' ho'
    obtain ⟨o, ho, rfl⟩ := hmemOrd1 o' ho'
    by_cases hne : o.orderId = oid
    · have hoO : o = O0 := hOwnerEq o ho hne
      have hGF : G0 o = O1 := by
        rw [hoO, hG0O0, hO1]
      rw [hGF]
      have hstO : O1.orderState = O0.orderState := by
        rw [hO1, hFst]
      obtain ⟨hPTM, hOM, hFin, _⟩ := hI.stateHist O0 hO0mem
      refine ⟨?_, ?_, ?_, ?_⟩
      · intro h
        rw [hLD1]
        exact hPTM (by rw [← hstO]; exact h)
      · intro h
        obtain ⟨d, hd, hdnd⟩ := hOM (by rw [← hstO]; exact h)
        exact ⟨d, by rw [hLD1]; exact hd, hdnd⟩
      · intro h
        obtain ⟨⟨d, hd, hdel⟩, hnq⟩ := hFin (by rw [← hstO]; exact h)
        refine ⟨⟨d, by rw [hLD1]; exact hd, hdel⟩, ?_⟩
        intro r hrm
        rw [hO1ops] at hrm
        rcases List.mem_append.mp hrm with h1 | h1
        · exact hnq r h1
        · rw [List.mem_singleton.mp h1]
          exact hwnotQ
      · intro h
        exact absurd (by rw [← hstO]; exact h) hOnotD
    · rw [hG0other o hne]
      exact hI.stateHist o ho
  · -- queuedDelZombie
    intro o' ho' r hr hrq hrd
    obtain ⟨o, ho, rfl⟩ := hmemOrd1 o' ho'
    rw [hG0st o]
    by_cases hne : o.orderId = oid
    · rw [hc1 o ho hne] at hr
      rcases List.mem_append.mp hr with h1 | h1
      · exact hI.queuedDelZombie o ho r h1 hrq hrd
      · rw [List.mem_singleton.mp h1] at hrq
        exact absurd hrq hwnotQ
    · rw [hc2 o ho hne] at hr
      exact hI.queuedDelZombie o ho r hr hrq hrd
  · -- bookSep
    intro i1 hi1 j1 hj1 p1 o1 p2 o2 b a hres1 hres2 hbid hask
    rw [hbookeq] at hi1 hj1
    obtain ⟨hf1, ho1⟩ := resolveBookEntry_elim st1 i1 p1 o1 hres1
    obtain ⟨hf2, ho2⟩ := resolveBookEntry_elim st1 j1 p2 o2 hres2
    rw [hfoeq i1 (hbookfr i1 hi1)] at hf1
    rw [hfoeq j1 (hbookfr j1 hj1)] at hf2
    rw [hfordeq] at ho1 ho2
    rcases hor1 : findOrder st0 p1.orderId with _ | o1'
    · rw [hor1] at ho1
      cases ho1
    · rw [hor1] at ho1
      rcases hor2 : findOrder st0 p2.orderId with _ | o2'
      · rw [hor2] at ho2
        cases ho2
      · rw [hor2] at ho2
        have ho1e : o1 = G0 o1' := (Option.some.inj ho1).symm
        have ho2e : o2 = G0 o2' := (Option.some.inj ho2).symm
        rw [ho1e, entryBid_congr p1 o1' (G0 o1') (hG0q o1') (hG0s o1')] at hbid
        rw [ho2e, entryAsk_congr p2 o2' (G0 o2') (hG0q o2') (hG0s o2')] at hask
        exact hI.bookSep i1 hi1 j1 hj1 p1 o1' p2 o2' b a
          (resolveBookEntry_some st0 i1 p1 o1' hf1 hor1)
          (resolveBookEntry_some st0 j1 p2 o2' hf2 hor2) hbid hask

/-- Packing an unrestricted `InvQL` into its restricted form `InvQLx`. -/
theorem invQLx_of_invQL (st : EngineState) (oid : Nat) (h : InvQL st oid) : InvQLx st oid :=
  ⟨h.ordersNodup, h.opsNodup, h.owner, h.opsFresh, h.ordersFresh, h.bookNodup,
   h.bookResolves, h.quoteWF, h.isQuoteId, h.quoteOpWF, h.orderOpWF, h.queuedLast,
   h.queuedLastOwn, h.ackedPrefix, h.deleteLast, h.chain, h.entryIn, h.entryOut,
   h.stateHist, h.queuedDelZombie,
   fun b hb s hs _ _ hbq hsq hbside hsside hbl hsl =>
     h.sep b hb s hs hbq hsq hbside hsside hbl hsl,
   fun b hb _ hbq hbside hbl => h.sepQA b hb hbq hbside hbl,
   fun s hs _ hsq hsside hsl => h.sepQB s hs hsq hsside hsl,
   h.bookSep⟩

/-- A restricted `InvQLx` upgrades to the full `InvQL` once the separation
clauses for the pairs involving `oid` are supplied. -/
theorem invQL_of_invQLx (st : EngineState) (oid : Nat) (h : InvQLx st oid)
    (hsep1 : ∀ b ∈ st.orders, ∀ s ∈ st.orders, b.orderId = oid ∨ s.orderId = oid →
      b.isQuote = false → s.isQuote = false → b.side = Side.Buy → s.side = Side.Sell →
      liveOrd b → liveOrd s →
      GetLivePrice (fun a b => max a b) b < GetLivePrice (fun a b => min a b) s)
    (hsepQA1 : ∀ b ∈ st.orders, b.orderId = oid → b.isQuote = false → b.side = Side.Buy →
      liveOrd b → GetLivePrice (fun a b => max a b) b < askScanMin st)
    (hsepQB1 : ∀ s ∈ st.orders, s.orderId = oid → s.isQuote = false → s.side = Side.Sell →
      liveOrd s → bidScanMax st < GetLivePrice (fun a b => min a b) s) :
    InvQL st oid := by
  refine ⟨h.ordersNodup, h.opsNodup, h.owner, h.opsFresh, h.ordersFresh, h.bookNodup,
    h.bookResolves, h.quoteWF, h.isQuoteId, h.quoteOpWF, h.orderOpWF, h.queuedLast,
    h.queuedLastOwn, h.ackedPrefix, h.deleteLast, h.chain, h.entryIn, h.entryOut,
    h.stateHist, h.queuedDelZombie, ?_, ?_, ?_, h.bookSep⟩
  · intro b hb s hs hbq hsq hbs hss hbl hsl
    by_cases h1 : b.orderId = oid
    · exact hsep1 b hb s hs (Or.inl h1) hbq hsq hbs hss hbl hsl
    · by_cases h2 : s.orderId = oid
      · exact hsep1 b hb s hs (Or.inr h2) hbq hsq hbs hss hbl hsl
      · exact h.sep b hb s hs h1 h2 hbq hsq hbs hss hbl hsl
  · intro b hb hbq hbs hbl
    by_cases h1 : b.orderId = oid
    · exact hsepQA1 b hb h1 hbq hbs hbl
    · exact h.sepQA b hb h1 hbq hbs hbl
  · intro s hs hsq hss hsl
    by_cases h1 : s.orderId = oid
    · exact hsepQB1 s hs h1 hsq hss hsl
    · exact h.sepQB s hs h1 hsq hss hsl

/-- `InvCore` contains `InvBase`. -/
theorem invBase_of_invCore (st : EngineState) (h : InvCore st) : InvBase st :=
  ⟨h.ordersNodup, h.opsNodup, h.owner, h.opsFresh, h.ordersFresh, h.bookNodup,
   h.bookResolves, h.quoteWF, h.isQuoteId, h.quoteOpWF, h.orderOpWF, h.queuedLast,
   h.ackedPrefix, h.deleteLast, h.chain, h.entryIn, h.entryOut, h.stateHist,
   h.queuedDelZombie, h.bookSep⟩

/-- Growing `nextId` preserves the full invariant: every other clause is
independent of the id counter. -/
theorem inv_nextId_mono (st : EngineState) (n : Nat) (h : Inv st) (hn : st.nextId ≤ n) :
    Inv { st with nextId := n } := by
  obtain ⟨hI, hT, hN⟩ := h
  refine ⟨⟨hI.ordersNodup, hI.opsNodup, hI.owner, ?_, ?_, hI.bookNodup, hI.bookResolves,
    hI.quoteWF, hI.isQuoteId, hI.quoteOpWF, hI.orderOpWF, hI.queuedLast, hI.ackedPrefix,
    hI.deleteLast, hI.chain, hI.entryIn, hI.entryOut, hI.stateHist, hI.queuedDelZombie,
    hI.sep, hI.sepQA, hI.sepQB, hI.bookSep⟩, ⟨hT.thrNodup, hT.thrQueued, hT.queuedThr⟩, hN⟩
  · intro p hp
    exact lt_of_lt_of_le (hI.opsFresh p hp) hn
  · intro o ho
    exact lt_of_lt_of_le (hI.ordersFresh o ho) hn

/-- `GetRandomLiveOrder` only ever returns a stored live non-quote order. -/
theorem getRandomLiveOrder_spec (st : EngineState) :
    ∀ (picks : List Nat) (o : Order), GetRandomLiveOrder st picks = some o →
      o ∈ st.orders ∧ liveOrd o ∧ o.isQuote = false
  | [], o, h => by simp [GetRandomLiveOrder] at h
  | d :: rest, o, h => by
    rw [GetRandomLiveOrder] at h
    split at h
    · exact getRandomLiveOrder_spec st rest o h
    · next o1 hg =>
        split at h
        · next hc =>
            cases h
            exact ⟨List.get?_mem hg, hc.1, by simpa using hc.2⟩
        · exact getRandomLiveOrder_spec st rest o h

/-- In a store with unique order ids and a well-formed quote entity, a
non-quote order never carries the quote id. -/
theorem nonquote_ne_quotesId (st : EngineState)
    (hnd : (st.orders.map (fun o => o.orderId)).Nodup)
    (hq : ∃ q, findOrder st st.quotesId = some q ∧ q.isQuote = true)
    (o : Order) (ho : o ∈ st.orders) (hoq : o.isQuote = false) :
    o.orderId ≠ st.quotesId := by
  obtain ⟨q, hqf, hqq⟩ := hq
  intro he
  have h1 : findOrder st o.orderId = some o := findOrder_of_mem st hnd o ho
  rw [he, hqf] at h1
  have h2 := Option.some.inj h1
  rw [h2, hoq] at hqq
  cases hqq

/-- The quote entity is never DeleteSentToMarket: its history holds only
InsertQuote operations, but that state requires a delete in the history. -/
theorem quote_not_dstm (st : EngineState) (hI : InvBase st)
    (q : Order) (hqf : findOrder st st.quotesId = some q) :
    q.orderState ≠ OrderState.DeleteSentToMarket := by
  intro hD
  have hqm : q ∈ st.orders := (findOrder_some st st.quotesId q hqf).1
  have hqops : quoteOps st = q.operations := by rw [quoteOps, hqf]
  rcases (hI.stateHist q hqm).2.2.2 hD with ⟨r, hrl, _, hrt⟩ | ⟨d, hd, hdel⟩
  · have hr : r ∈ q.operations := getLast?_mem _ _ hrl
    have hins := (hI.quoteOpWF r (by rw [hqops]; exact hr)).1
    rw [hins] at hrt
    cases hrt
  · have hdm : d ∈ q.operations := List.mem_of_mem_filter (getLast?_mem _ _ hd)
    have hins := (hI.quoteOpWF d (by rw [hqops]; exact hdm)).1
    rw [hins] at hdel
    simp [isDeleteType] at hdel

/-- Two in-place updates of the same order fuse into one. -/
theorem updateOrder_comp (st : EngineState) (oid : Nat) (f g : Order → Order)
    (hf : ∀ o, (f o).orderId = o.orderId) :
    updateOrder (updateOrder st oid f) oid g = updateOrder st oid (fun o => g (f o)) := by
  apply engineState_eq
  · show (st.orders.map _).map _ = st.orders.map _
    rw [List.map_map]
    apply List.map_congr_left
    intro o _
    by_cases h : o.orderId = oid
    · simp [Function.comp, h, hf]
    · simp [Function.comp, h]
  · rfl
  · rfl
  · rfl
  · rfl

/-- An in-place update that fixes the targeted order is the identity. -/
theorem updateOrder_id (st : EngineState) (oid : Nat) (f : Order → Order)
    (hf : ∀ o ∈ st.orders, o.orderId = oid → f o = o) :
    updateOrder st oid f = st := by
  apply engineState_eq
  · show st.orders.map _ = st.orders
    have h1 : ∀ o ∈ st.orders, (if o.orderId = oid then f o else o) = o := by
      intro o ho
      by_cases h : o.orderId = oid
      · rw [if_pos h]
        exact hf o ho h
      · rw [if_neg h]
    calc st.orders.map (fun o => if o.orderId = oid then f o else o)
        = st.orders.map id := List.map_congr_left h1
      _ = st.orders := List.map_id _
  · rfl
  · rfl
  · rfl
  · rfl

/-- The quote history is untouched by an in-place order update that keeps
ids and histories. -/
theorem quoteOps_updateOrder (st : EngineState) (oid : Nat) (f : Order → Order)
    (hid : ∀ o, (f o).orderId = o.orderId)
    (hf : ∀ o, (f o).operations = o.operations) :
    quoteOps (updateOrder st oid f) = quoteOps st := by
  show (match findOrder (updateOrder st oid f) st.quotesId with
        | some q => q.operations
        | none => []) = quoteOps st
  rw [findOrder_updateOrder st oid f hid, quoteOps]
  cases hq : findOrder st st.quotesId with
  | none => rfl
  | some q =>
    show (if q.orderId = oid then f q else q).operations = q.operations
    by_cases h : q.orderId = oid
    · rw [if_pos h]
      exact hf q
    · rw [if_neg h]

/-- `InvQLx` never inspects the throttle queue. -/
theorem invQLx_throttle (st : EngineState) (T : List Nat) (oid : Nat) (h : InvQLx st oid) :
    InvQLx { st with throttle := T } oid :=
  ⟨h.ordersNodup, h.opsNodup, h.owner, h.opsFresh, h.ordersFresh, h.bookNodup,
   h.bookResolves, h.quoteWF, h.isQuoteId, h.quoteOpWF, h.orderOpWF, h.queuedLast,
   h.queuedLastOwn, h.ackedPrefix, h.deleteLast, h.chain, h.entryIn, h.entryOut,
   h.stateHist, h.queuedDelZombie, h.sep, h.sepQA, h.sepQB, h.bookSep⟩

/-- `InvQL` never inspects the throttle queue. -/
theorem invQL_throttle (st : EngineState) (T : List Nat) (oid : Nat) (h : InvQL st oid) :
    InvQL { st with throttle := T } oid :=
  ⟨h.ordersNodup, h.opsNodup, h.owner, h.opsFresh, h.ordersFresh, h.bookNodup,
   h.bookResolves, h.quoteWF, h.isQuoteId, h.quoteOpWF, h.orderOpWF, h.queuedLast,
   h.queuedLastOwn, h.ackedPrefix, h.deleteLast, h.chain, h.entryIn, h.entryOut,
   h.stateHist, h.queuedDelZombie, h.sep, h.sepQA, h.sepQB, h.bookSep⟩

/-- Appending one active unacked operation to the quote history lowers the
effective ask to the minimum with the new ask price. -/
theorem askScanMin_append (st1 st0 : EngineState) (qOp : Operation)
    (h : quoteOps st1 = quoteOps st0 ++ [qOp])
    (hq : qOp.askQty ≠ -1) (hst : qOp.operationState ≠ OperationState.Acked) :
    askScanMin st1 = min (askScanMin st0) qOp.askPrice := by
  rw [askScanMin, askScanMin, QuoteAskScan, QuoteAskScan, h, List.foldl_append]
  simp only [List.foldl_cons, List.foldl_nil, quoteAskStep, if_neg hq, if_neg hst]
  exact (min_assoc _ _ _).symm

/-- Appending one active unacked operation to the quote history raises the
effective bid to the maximum with the new bid price. -/
theorem bidScanMax_append (st1 st0 : EngineState) (qOp : Operation)
    (h : quoteOps st1 = quoteOps st0 ++ [qOp])
    (hq : qOp.bidQty ≠ -1) (hst : qOp.operationState ≠ OperationState.Acked) :
    bidScanMax st1 = max (bidScanMax st0) qOp.bidPrice := by
  rw [bidScanMax, bidScanMax, QuoteBidScan, QuoteBidScan, h, List.foldl_append]
  simp only [List.foldl_cons, List.foldl_nil, quoteBidStep, if_neg hq, if_neg hst]
  exact (max_assoc _ _ _).symm

/-- A live order's history holds no DeleteOrder operation (in a store with
no transient Initial operations). -/
theorem live_no_delete_hist (st : EngineState) (hI : InvCore st) (hNI : NoInit st)
    (o : Order) (ho : o ∈ st.orders) (hlive : liveOrd o) :
    ∀ r ∈ o.operations, r.operationType ≠ OperationType.DeleteOrder := by
  intro r hr hrd
  have hrall : r ∈ allOps st := (mem_allOps st r).mpr ⟨o, ho, hr⟩
  have hnD : o.orderState ≠ OrderState.DeleteSentToMarket := by
    rcases hlive with h | h <;> simp [h]
  have hnF : o.orderState ≠ OrderState.Finalised := by
    rcases hlive with h | h <;> simp [h]
  cases hstate : r.operationState with
  | Initial => exact hNI r hrall hstate
  | Queued =>
    exact hnD (hI.queuedDelZombie o ho r hr hstate hrd)
  | SentToMarket =>
    have hdisp : isDispatchedOp r = true := by simp [isDispatchedOp, hstate]
    have := live_no_dispatched_delete st hI o ho hnD hnF r hr hdisp
    rw [isDeleteType, hrd] at this
    simp at this
  | Acked =>
    have hdisp : isDispatchedOp r = true := by simp [isDispatchedOp, hstate]
    have := live_no_dispatched_delete st hI o ho hnD hnF r hr hdisp
    rw [isDeleteType, hrd] at this
    simp at this

/-- An in-place order update that can only change prices and quantities
(ids, histories, quote flags, sides and states are kept) preserves every
clause of `InvBase`. -/
theorem updatePQ_invBase (st : EngineState) (hI : InvBase st) (oid : Nat)
    (f : Order → Order)
    (hid : ∀ o, (f o).orderId = o.orderId)
    (hops : ∀ o, (f o).operations = o.operations)
    (hqf : ∀ o, (f o).isQuote = o.isQuote)
    (hsf : ∀ o, (f o).side = o.side)
    (hstf : ∀ o, (f o).orderState = o.orderState) :
    InvBase (updateOrder st oid f) := by
  set G : Order → Order := fun o => if o.orderId = oid then f o else o with hGdef
  have hGid : ∀ o, (G o).orderId = o.orderId := by
    intro o
    rw [hGdef]
    by_cases h : o.orderId = oid
    · simp [h, hid]
    · simp [h]
  have hGops : ∀ o, (G o).operations = o.operations := by
    intro o
    rw [hGdef]
    by_cases h : o.orderId = oid
    · simp [h, hops]
    · simp [h]
  have hGq : ∀ o, (G o).isQuote = o.isQuote := by
    intro o
    rw [hGdef]
    by_cases h : o.orderId = oid
    · simp [h, hqf]
    · simp [h]
  have hGs : ∀ o, (G o).side = o.side := by
    intro o
    rw [hGdef]
    by_cases h : o.orderId = oid
    · simp [h, hsf]
    · simp [h]
  have hGst : ∀ o, (G o).orderState = o.orderState := by
    intro o
    rw [hGdef]
    by_cases h : o.orderId = oid
    · simp [h, hstf]
    · simp [h]
  have hordU : (updateOrder st oid f).orders = st.orders.map G := rfl
  have hmemU : ∀ o' ∈ (updateOrder st oid f).orders, ∃ o ∈ st.orders, o' = G o := by
    intro o' ho'
    rw [hordU] at ho'
    obtain ⟨o, ho, he⟩ := List.mem_map.mp ho'
    exact ⟨o, ho, he.symm⟩
  have hallU : allOps (updateOrder st oid f) = allOps st := allOps_updateOrder st oid f hops
  have hfopU : ∀ j, findOp (updateOrder st oid f) j = findOp st j :=
    findOp_updateOrder st oid f hops
  have hfordU : ∀ k, findOrder (updateOrder st oid f) k = (findOrder st k).map G :=
    findOrder_updateOrder st oid f hid
  have hld : ∀ o, lastDispatched (G o) = lastDispatched o := by
    intro o
    rw [lastDispatched, lastDispatched, hGops o]
  refine ⟨?_, ?_, ?_, ?_, ?_, hI.bookNodup, ?_, ?_, ?_, ?_, ?_, ?_, ?_, ?_, ?_, ?_, ?_,
    ?_, ?_, ?_⟩
  · rw [hordU, map_key_congr st.orders G (fun o => o.orderId) hGid]
    exact hI.ordersNodup
  · rw [hallU]
    exact hI.opsNodup
  · intro o' ho' r hr
    obtain ⟨o, ho, rfl⟩ := hmemU o' ho'
    rw [hGops o] at hr
    rw [hGid o]
    exact hI.owner o ho r hr
  · intro p hp
    rw [hallU] at hp
    exact hI.opsFresh p hp
  · intro o' ho'
    obtain ⟨o, ho, rfl⟩ := hmemU o' ho'
    rw [hGid o]
    exact hI.ordersFresh o ho
  · intro i hi
    obtain ⟨p, o, hp, ho, hd, hnd⟩ := hI.bookResolves i hi
    refine ⟨p, G o, ?_, ?_, hd, hnd⟩
    · rw [hfopU]
      exact hp
    · rw [hfordU, ho]
      rfl
  · obtain ⟨q, hqf2, hqq⟩ := hI.quoteWF
    refine ⟨G q, ?_, ?_⟩
    · show findOrder (updateOrder st oid f) st.quotesId = some (G q)
      rw [hfordU, hqf2]
      rfl
    · rw [hGq]
      exact hqq
  · intro o' ho' hq
    obtain ⟨o, ho, rfl⟩ := hmemU o' ho'
    rw [hGq o] at hq
    rw [hGid o]
    exact hI.isQuoteId o ho hq
  · intro p hp
    rw [quoteOps_updateOrder st oid f hid hops] at hp
    exact hI.quoteOpWF p hp
  · intro o' ho' hq r hr
    obtain ⟨o, ho, rfl⟩ := hmemU o' ho'
    rw [hGq o] at hq
    rw [hGops o] at hr
    exact hI.orderOpWF o ho hq r hr
  · intro o' ho'
    obtain ⟨o, ho, rfl⟩ := hmemU o' ho'
    rw [hGops o]
    exact hI.queuedLast o ho
  · intro o' ho'
    obtain ⟨o, ho, rfl⟩ := hmemU o' ho'
    rw [hGops o]
    exact hI.ackedPrefix o ho
  · intro o' ho'
    obtain ⟨o, ho, rfl⟩ := hmemU o' ho'
    rw [hGops o]
    exact hI.deleteLast o ho
  · intro o' ho' q hql hqst
    obtain ⟨o, ho, rfl⟩ := hmemU o' ho'
    rw [hGops o] at hql
    rw [hld o]
    exact hI.chain o ho q hql hqst
  · intro o' ho' d hd hnd
    obtain ⟨o, ho, rfl⟩ := hmemU o' ho'
    rw [hld o] at hd
    exact hI.entryIn o ho d hd hnd
  · intro o' ho' i hi p hp hpo
    obtain ⟨o, ho, rfl⟩ := hmemU o' ho'
    rw [hfopU] at hp
    rw [hGid o] at hpo
    rw [hld o]
    exact hI.entryOut o ho i hi p hp hpo
  · intro o' ho'
    obtain ⟨o, ho, rfl⟩ := hmemU o' ho'
    rw [hGst o, hld o, hGops o]
    exact hI.stateHist o ho
  · intro o' ho' p hp hq hd
    obtain ⟨o, ho, rfl⟩ := hmemU o' ho'
    rw [hGops o] at hp
    rw [hGst o]
    exact hI.queuedDelZombie o ho p hp hq hd
  · intro i hi j hj p1 o1 p2 o2 b a hres1 hres2 hbid hask
    obtain ⟨hf1, hfo1⟩ := resolveBookEntry_elim _ i p1 o1 hres1
    obtain ⟨hf2, hfo2⟩ := resolveBookEntry_elim _ j p2 o2 hres2
    rw [hfopU] at hf1 hf2
    rw [hfordU] at hfo1 hfo2
    obtain ⟨b1, hb1, hb1e⟩ := Option.map_eq_some'.mp hfo1
    obtain ⟨b2, hb2, hb2e⟩ := Option.map_eq_some'.mp hfo2
    rw [← hb1e, entryBid_congr p1 b1 (G b1) (hGq b1) (hGs b1)] at hbid
    rw [← hb2e, entryAsk_congr p2 b2 (G b2) (hGq b2) (hGs b2)] at hask
    exact hI.bookSep i hi j hj p1 b1 p2 b2 b a
      (resolveBookEntry_some st i p1 b1 hf1 hb1) (resolveBookEntry_some st j p2 b2 hf2 hb2)
      hbid hask

/-- `ThrOK` survives an in-place order update that keeps histories. -/
theorem thrOK_updateOrder (st : EngineState) (V : List Nat) (oid : Nat) (f : Order → Order)
    (hops : ∀ o, (f o).operations = o.operations)
    (h : ThrOK st V) : ThrOK (updateOrder st oid f) V := by
  refine ⟨h.thrNodup, ?_, ?_⟩
  · intro t ht
    obtain ⟨p, hp, hq⟩ := h.thrQueued t ht
    refine ⟨p, ?_, hq⟩
    rw [findOp_updateOrder st oid f hops]
    exact hp
  · intro p hp hq
    rw [allOps_updateOrder st oid f hops] at hp
    exact h.queuedThr p hp hq

/-- `NoInit` survives an in-place order update that keeps histories. -/
theorem noInit_updateOrder (st : EngineState) (oid : Nat) (f : Order → Order)
    (hops : ∀ o, (f o).operations = o.operations)
    (h : NoInit st) : NoInit (updateOrder st oid f) := by
  intro p hp
  rw [allOps_updateOrder st oid f hops] at hp
  exact h p hp

/-- Marking an order whose history ends in an undispatched DeleteOrder as
DeleteSentToMarket restores the full mid-action invariant: the order drops
out of every liveness-guarded separation clause. -/
theorem markDSTM_invQL (st : EngineState) (oid : Nat) (hx : InvQLx st oid)
    (O : Order) (hford : findOrder st oid = some O)
    (q : Operation) (hlast : O.operations.getLast? = some q)
    (hqInit : q.operationState = OperationState.Initial)
    (hqdel : q.operationType = OperationType.DeleteOrder) :
    InvQL (updateOrder st oid
      (fun o => { o with orderState := OrderState.DeleteSentToMarket })) oid ∧
    findOrder (updateOrder st oid
      (fun o => { o with orderState := OrderState.DeleteSentToMarket })) oid =
      some { O with orderState := OrderState.DeleteSentToMarket } ∧
    (∀ j, findOp (updateOrder st oid
      (fun o => { o with orderState := OrderState.DeleteSentToMarket })) j = findOp st j) ∧
    allOps (updateOrder st oid
      (fun o => { o with orderState := OrderState.DeleteSentToMarket })) = allOps st := by
  set f : Order → Order := fun o => { o with orderState := OrderState.DeleteSentToMarket }
    with hfdef
  have hid : ∀ o, (f o).orderId = o.orderId := fun o => rfl
  have hops : ∀ o, (f o).operations = o.operations := fun o => rfl
  have hqf : ∀ o, (f o).isQuote = o.isQuote := fun o => rfl
  have hsf : ∀ o, (f o).side = o.side := fun o => rfl
  set G : Order → Order := fun o => if o.orderId = oid then f o else o with hGdef
  have hGid : ∀ o, (G o).orderId = o.orderId := by
    intro o
    rw [hGdef]
    by_cases h : o.orderId = oid
    · simp [h, hid]
    · simp [h]
  have hGops : ∀ o, (G o).operations = o.operations := by
    intro o
    rw [hGdef]
    by_cases h : o.orderId = oid
    · simp [h, hops]
    · simp [h]
  have hGq : ∀ o, (G o).isQuote = o.isQuote := by
    intro o
    rw [hGdef]
    by_cases h : o.orderId = oid
    · simp [h, hqf]
    · simp [h]
  have hGs : ∀ o, (G o).side = o.side := by
    intro o
    rw [hGdef]
    by_cases h : o.orderId = oid
    · simp [h, hsf]
    · simp [h]
  have hGown : ∀ o, o.orderId = oid → G o = f o := by
    intro o h
    rw [hGdef]
    simp [h]
  have hGother : ∀ o, o.orderId ≠ oid → G o = o := by
    intro o h
    rw [hGdef]
    simp [h]
  have hOmem : O ∈ st.orders := (findOrder_some st oid O hford).1
  have hOid : O.orderId = oid := (findOrder_some st oid O hford).2
  have hOwnEq : ∀ o ∈ st.orders, o.orderId = oid → o = O := by
    intro o ho hoid
    have h1 : findOrder st o.orderId = some o := findOrder_of_mem st hx.ordersNodup o ho
    rw [hoid, hford] at h1
    exact (Option.some.inj h1).symm
  have hordU : (updateOrder st oid f).orders = st.orders.map G := rfl
  have hmemU : ∀ o' ∈ (updateOrder st oid f).orders, ∃ o ∈ st.orders, o' = G o := by
    intro o' ho'
    rw [hordU] at ho'
    obtain ⟨o, ho, he⟩ := List.mem_map.mp ho'
    exact ⟨o, ho, he.symm⟩
  have hallU : allOps (updateOrder st oid f) = allOps st := allOps_updateOrder st oid f hops
  have hfopU : ∀ j, findOp (updateOrder st oid f) j = findOp st j :=
    findOp_updateOrder st oid f hops
  have hfordU : ∀ k, findOrder (updateOrder st oid f) k = (findOrder st k).map G :=
    findOrder_updateOrder st oid f hid
  have hld : ∀ o, lastDispatched (G o) = lastDispatched o := by
    intro o
    rw [lastDispatched, lastDispatched, hGops o]
  have hscanA : askScanMin (updateOrder st oid f) = askScanMin st := by
    rw [askScanMin, askScanMin, quoteOps_updateOrder st oid f hid hops]
  have hscanB : bidScanMax (updateOrder st oid f) = bidScanMax st := by
    rw [bidScanMax, bidScanMax, quoteOps_updateOrder st oid f hid hops]
  have hnotlive : ∀ o ∈ st.orders, o.orderId = oid → ¬ liveOrd (G o) := by
    intro o ho hoid hl
    have hst : (G o).orderState = OrderState.DeleteSentToMarket := by
      rw [hGown o hoid, hfdef]
    rcases hl with h | h <;> rw [hst] at h <;> cases h
  have hford1 : findOrder (updateOrder st oid f) oid =
      some { O with orderState := OrderState.DeleteSentToMarket } := by
    rw [hfordU, hford]
    show some (G O) = _
    rw [hGown O hOid, hfdef]
  refine ⟨⟨?_, ?_, ?_, ?_, ?_, hx.bookNodup, ?_, ?_, ?_, ?_, ?_, ?_, ?_, ?_, ?_, ?_, ?_,
    ?_, ?_, ?_, ?_, ?_, ?_, ?_⟩, hford1, hfopU, hallU⟩
  · rw [hordU, map_key_congr st.orders G (fun o => o.orderId) hGid]
    exact hx.ordersNodup
  · rw [hallU]
    exact hx.opsNodup
  · intro o' ho' r hr
    obtain ⟨o, ho, rfl⟩ := hmemU o' ho'
    rw [hGops o] at hr
    rw [hGid o]
    exact hx.owner o ho r hr
  · intro p hp
    rw [hallU] at hp
    exact hx.opsFresh p hp
  · intro o' ho'
    obtain ⟨o, ho, rfl⟩ := hmemU o' ho'
    rw [hGid o]
    exact hx.ordersFresh o ho
  · intro i hi
    obtain ⟨p, o, hp, ho, hd, hnd⟩ := hx.bookResolves i hi
    refine ⟨p, G o, ?_, ?_, hd, hnd⟩
    · rw [hfopU]
      exact hp
    · rw [hfordU, ho]
      rfl
  · obtain ⟨q1, hqf2, hqq⟩ := hx.quoteWF
    refine ⟨G q1, ?_, ?_⟩
    · show findOrder (updateOrder st oid f) st.quotesId = some (G q1)
      rw [hfordU, hqf2]
      rfl
    · rw [hGq]
      exact hqq
  · intro o' ho' hq1
    obtain ⟨o, ho, rfl⟩ := hmemU o' ho'
    rw [hGq o] at hq1
    rw [hGid o]
    exact hx.isQuoteId o ho hq1
  · intro p hp
    rw [quoteOps_updateOrder st oid f hid hops] at hp
    exact hx.quoteOpWF p hp
  · intro o' ho' hq1 r hr
    obtain ⟨o, ho, rfl⟩ := hmemU o' ho'
    rw [hGq o] at hq1
    rw [hGops o] at hr
    exact hx.orderOpWF o ho hq1 r hr
  · intro o' ho' hne
    obtain ⟨o, ho, rfl⟩ := hmemU o' ho'
    rw [hGid o] at hne
    rw [hGops o]
    exact hx.queuedLast o ho hne
  · intro o' ho' heq
    obtain ⟨o, ho, rfl⟩ := hmemU o' ho'
    rw [hGid o] at heq
    rw [hGops o]
    exact hx.queuedLastOwn o ho heq
  · intro o' ho'
    obtain ⟨o, ho, rfl⟩ := hmemU o' ho'
    rw [hGops o]
    exact hx.ackedPrefix o ho
  · intro o' ho'
    obtain ⟨o, ho, rfl⟩ := hmemU o' ho'
    rw [hGops o]
    exact hx.deleteLast o ho
  · intro o' ho' q1 hql hqst
    obtain ⟨o, ho, rfl⟩ := hmemU o' ho'
    rw [hGops o] at hql
    rw [hld o]
    exact hx.chain o ho q1 hql hqst
  · intro o' ho' d hd hnd
    obtain ⟨o, ho, rfl⟩ := hmemU o' ho'
    rw [hld o] at hd
    exact hx.entryIn o ho d hd hnd
  · intro o' ho' i hi p hp hpo
    obtain ⟨o, ho, rfl⟩ := hmemU o' ho'
    rw [hfopU] at hp
    rw [hGid o] at hpo
    rw [hld o]
    exact hx.entryOut o ho i hi p hp hpo
  · intro o' ho'
    obtain ⟨o, ho, rfl⟩ := hmemU o' ho'
    by_cases hoid : o.orderId = oid
    · have hoO : o = O := hOwnEq o ho hoid
      have hst : (G o).orderState = OrderState.DeleteSentToMarket := by
        rw [hGown o hoid, hfdef]
      refine ⟨?_, ?_, ?_, ?_⟩
      · intro h
        rw [hst] at h
        cases h
      · intro h
        rw [hst] at h
        cases h
      · intro h
        rw [hst] at h
        cases h
      · intro h
        refine Or.inl ⟨q, ?_, ?_, hqdel⟩
        · rw [hGops o, hoO]
          exact hlast
        · simp [isDispatchedOp, hqInit]
    · rw [hGother o hoid]
      exact hx.stateHist o ho
  · intro o' ho' p hp hq1 hd
    obtain ⟨o, ho, rfl⟩ := hmemU o' ho'
    by_cases hoid : o.orderId = oid
    · rw [hGown o hoid, hfdef]
    · rw [hGother o hoid] at hp ⊢
      exact hx.queuedDelZombie o ho p hp hq1 hd
  · intro b' hb' s' hs' hbq hsq hbs hss hbl hsl
    obtain ⟨b, hb, rfl⟩ := hmemU b' hb'
    obtain ⟨s, hs, rfl⟩ := hmemU s' hs'
    by_cases hbid : b.orderId = oid
    · exact absurd hbl (hnotlive b hb hbid)
    · by_cases hsid : s.orderId = oid
      · exact absurd hsl (hnotlive s hs hsid)
      · rw [hGother b hbid] at hbq hbs hbl ⊢
        rw [hGother s hsid] at hsq hss hsl ⊢
        exact hx.sep b hb s hs hbid hsid hbq hsq hbs hss hbl hsl
  · intro b' hb' hbq hbs hbl
    obtain ⟨b, hb, rfl⟩ := hmemU b' hb'
    by_cases hbid : b.orderId = oid
    · exact absurd hbl (hnotlive b hb hbid)
    · rw [hGother b hbid] at hbq hbs hbl ⊢
      rw [hscanA]
      exact hx.sepQA b hb hbid hbq hbs hbl
  · intro s' hs' hsq hss hsl
    obtain ⟨s, hs, rfl⟩ := hmemU s' hs'
    by_cases hsid : s.orderId = oid
    · exact absurd hsl (hnotlive s hs hsid)
    · rw [hGother s hsid] at hsq hss hsl ⊢
      rw [hscanB]
      exact hx.sepQB s hs hsid hsq hss hsl
  · intro i hi j hj p1 o1 p2 o2 b a hres1 hres2 hbid2 hask2
    obtain ⟨hf1, hfo1⟩ := resolveBookEntry_elim _ i p1 o1 hres1
    obtain ⟨hf2, hfo2⟩ := resolveBookEntry_elim _ j p2 o2 hres2
    rw [hfopU] at hf1 hf2
    rw [hfordU] at hfo1 hfo2
    obtain ⟨b1, hb1, hb1e⟩ := Option.map_eq_some'.mp hfo1
    obtain ⟨b2, hb2, hb2e⟩ := Option.map_eq_some'.mp hfo2
    rw [← hb1e, entryBid_congr p1 b1 (G b1) (hGq b1) (hGs b1)] at hbid2
    rw [← hb2e, entryAsk_congr p2 b2 (G b2) (hGq b2) (hGs b2)] at hask2
    exact hx.bookSep i hi j hj p1 b1 p2 b2 b a
      (resolveBookEntry_some st i p1 b1 hf1 hb1) (resolveBookEntry_some st j p2 b2 hf2 hb2)
      hbid2 hask2

/-- The history conflation `RemoveDiscardedOperations` performs before a
delete is queued: the order's queued residue is erased and the freshly
appended operation inherits its `previousOperation`.  Every clause of the
mid-action invariant survives, and the conflated history has the clean
shape `K ++ [w']` with `w'` chained to the last dispatched operation. -/
theorem conflate_invQLx (st : EngineState) (oid : Nat) (hx : InvQLx st oid)
    (hneq : st.quotesId ≠ oid)
    (O : Order) (hford : findOrder st oid = some O)
    (K qs : List Operation) (w w' : Operation)
    (hNIx : ∀ r ∈ allOps st, r.operationState = OperationState.Initial → r.opId = w.opId)
    (hops : O.operations = (K ++ qs) ++ [w])
    (hKnq : ∀ r ∈ K, r.operationState ≠ OperationState.Queued)
    (hqs : qs = [] ∨ ∃ qa, qs = [qa] ∧ qa.operationState = OperationState.Queued)
    (hwInit : w.operationState = OperationState.Initial)
    (hw' : w' = match qs.head? with
                | none => w
                | some qa => { w with previousOperation := qa.previousOperation })
    (hprevQ : ∀ qa ∈ qs, qa.previousOperation = (lastDispatched O).map (fun r => r.opId))
    (hprevN : qs = [] → w.previousOperation = (lastDispatched O).map (fun r => r.opId)) :
    InvQLx (updateOrder st oid (fun o =>
      { o with operations := RemoveDiscardedFromList o.operations w.opId })) oid ∧
    findOrder (updateOrder st oid (fun o =>
      { o with operations := RemoveDiscardedFromList o.operations w.opId })) oid =
      some { O with operations := K ++ [w'] } ∧
    findOp (updateOrder st oid (fun o =>
      { o with operations := RemoveDiscardedFromList o.operations w.opId })) w.opId =
      some w' ∧
    (∀ p ∈ allOps st, p.orderId ≠ oid → p ∈ allOps (updateOrder st oid (fun o =>
      { o with operations := RemoveDiscardedFromList o.operations w.opId }))) ∧
    (∀ p ∈ allOps (updateOrder st oid (fun o =>
      { o with operations := RemoveDiscardedFromList o.operations w.opId })),
      p.operationState = OperationState.Queued → p.orderId ≠ oid ∧ p ∈ allOps st) ∧
    (∀ r ∈ allOps (updateOrder st oid (fun o =>
      { o with operations := RemoveDiscardedFromList o.operations w.opId })),
      r.operationState = OperationState.Initial → r.opId = w.opId) ∧
    lastDispatched { O with operations := K ++ [w'] } = lastDispatched O ∧
    w'.previousOperation =
      (lastDispatched { O with operations := K ++ [w'] }).map (fun r => r.opId) := by
  set f : Order → Order := fun o =>
    { o with operations := RemoveDiscardedFromList o.operations w.opId } with hfdef
  set OC : Order := { O with operations := K ++ [w'] } with hOCdef
  have hfid : ∀ o, (f o).orderId = o.orderId := fun o => rfl
  have hfq : ∀ o, (f o).isQuote = o.isQuote := fun o => rfl
  have hfs : ∀ o, (f o).side = o.side := fun o => rfl
  have hfst : ∀ o, (f o).orderState = o.orderState := fun o => rfl
  set G : Order → Order := fun o => if o.orderId = oid then f o else o with hGdef
  have hGid : ∀ o, (G o).orderId = o.orderId := by
    intro o
    rw [hGdef]
    by_cases h : o.orderId = oid
    · simp [h]
    · simp [h]
  have hGother : ∀ o, o.orderId ≠ oid → G o = o := by
    intro o h
    rw [hGdef]
    simp [h]
  have hOmem : O ∈ st.orders := (findOrder_some st oid O hford).1
  have hOid : O.orderId = oid := (findOrder_some st oid O hford).2
  have hOwnEq : ∀ o ∈ st.orders, o.orderId = oid → o = O := by
    intro o ho hoid
    have h1 : findOrder st o.orderId = some o := findOrder_of_mem st hx.ordersNodup o ho
    rw [hoid, hford] at h1
    exact (Option.some.inj h1).symm
  have hKsub : ∀ r ∈ K, r ∈ O.operations := by
    intro r hr
    rw [hops]
    exact List.mem_append_left [w] (List.mem_append_left qs hr)
  have hqsub : ∀ r ∈ qs, r ∈ O.operations := by
    intro r hr
    rw [hops]
    exact List.mem_append_left [w] (List.mem_append_right K hr)
  have hwmem : w ∈ O.operations := by
    rw [hops]
    exact List.mem_append_right (K ++ qs) (List.mem_singleton.mpr rfl)
  have hwall : w ∈ allOps st := (mem_allOps st w).mpr ⟨O, hOmem, hwmem⟩
  have hidsO : (O.operations.map (fun r => r.opId)).Nodup :=
    ops_ids_nodup st hx.opsNodup O hOmem
  have hKqfr : ∀ r ∈ K ++ qs, r.opId ≠ w.opId := by
    have h0 : ((K ++ qs).map (fun r => r.opId) ++ [w].map (fun r => r.opId)).Nodup := by
      rw [← List.map_append, ← hops]
      exact hidsO
    intro r hr he
    have hdisj := (List.nodup_append.mp h0).2.2
    exact hdisj (List.mem_map.mpr ⟨r, hr, he⟩) (by simp)
  have hKfr : ∀ r ∈ K, r.opId ≠ w.opId := fun r hr => hKqfr r (List.mem_append_left qs hr)
  have hqfr : ∀ r ∈ qs, r.opId ≠ w.opId := fun r hr => hKqfr r (List.mem_append_right K hr)
  have hw'fields : w'.opId = w.opId ∧ w'.orderId = w.orderId ∧
      w'.operationState = w.operationState ∧ w'.operationType = w.operationType := by
    rcases hqs with h | ⟨qa, h, _⟩
    · rw [hw', h]
      exact ⟨rfl, rfl, rfl, rfl⟩
    · rw [hw', h]
      exact ⟨rfl, rfl, rfl, rfl⟩
  have hw'Init : w'.operationState = OperationState.Initial := by
    rw [hw'fields.2.2.1]
    exact hwInit
  have hfO : RemoveDiscardedFromList O.operations w.opId = K ++ [w'] := by
    rw [hops, removeDiscardedFromList_spec K qs w w.opId hKnq hKfr hqs hqfr rfl, hw']
  have hfOC : f O = OC := by
    rw [hfdef, hOCdef]
    show { O with operations := RemoveDiscardedFromList O.operations w.opId } = _
    rw [hfO]
  have hGO : G O = OC := by
    rw [hGdef]
    simp only [hOid, if_pos]
    exact hfOC
  have hordC : (updateOrder st oid f).orders = st.orders.map G := rfl
  have hmemU : ∀ o' ∈ (updateOrder st oid f).orders, ∃ o ∈ st.orders, o' = G o := by
    intro o' ho'
    rw [hordC] at ho'
    obtain ⟨o, ho, he⟩ := List.mem_map.mp ho'
    exact ⟨o, ho, he.symm⟩
  have hOCmem : OC ∈ (updateOrder st oid f).orders := by
    rw [hordC, ← hGO]
    exact List.mem_map.mpr ⟨O, hOmem, rfl⟩
  have hsubl : ∀ o ∈ st.orders,
      (((G o).operations).map (fun r => r.opId)).Sublist
        ((o.operations).map (fun r => r.opId)) := by
    intro o ho
    by_cases h : o.orderId = oid
    · have hoO : o = O := hOwnEq o ho h
      rw [hoO, hGO, hops]
      show ((K ++ [w']).map (fun r => r.opId)).Sublist
        (((K ++ qs) ++ [w]).map (fun r => r.opId))
      simp only [List.map_append]
      rw [List.append_assoc]
      apply List.Sublist.append_left
      have he : ([w'].map (fun r => r.opId)) = [w].map (fun r => r.opId) := by
        simp [hw'fields.1]
      rw [he]
      exact List.sublist_append_right _ _
    · rw [hGother o h]
  have hallsub : (((allOps (updateOrder st oid f)).map (fun r => r.opId))).Sublist
      ((allOps st).map (fun r => r.opId)) := by
    show ((((st.orders.map G).flatMap (fun o => o.operations)).map (fun r => r.opId))).Sublist _
    exact flatMap_key_sublist st.orders G hsubl
  have hopsNC : ((allOps (updateOrder st oid f)).map (fun r => r.opId)).Nodup :=
    List.Nodup.sublist hallsub hx.opsNodup
  have hmemCdec : ∀ p ∈ allOps (updateOrder st oid f),
      p = w' ∨ (p ∈ allOps st ∧ (p.orderId = oid → p ∈ K)) := by
    intro p hp
    obtain ⟨o', ho', hpo⟩ := (mem_allOps _ p).mp hp
    obtain ⟨o, ho, rfl⟩ := hmemU o' ho'
    by_cases h : o.orderId = oid
    · have hoO : o = O := hOwnEq o ho h
      rw [hoO, hGO] at hpo
      have hpo2 : p ∈ K ++ [w'] := hpo
      rcases List.mem_append.mp hpo2 with h1 | h1
      · exact Or.inr ⟨(mem_allOps st p).mpr ⟨O, hOmem, hKsub p h1⟩, fun _ => h1⟩
      · exact Or.inl (List.mem_singleton.mp h1)
    · rw [hGother o h] at hpo
      refine Or.inr ⟨(mem_allOps st p).mpr ⟨o, ho, hpo⟩, fun hpoid => ?_⟩
      exact absurd ((hx.owner o ho p hpo).symm.trans hpoid) h
  have hmemC2 : ∀ p ∈ allOps st, p.orderId ≠ oid → p ∈ allOps (updateOrder st oid f) := by
    intro p hp hpne
    obtain ⟨o, ho, hpo⟩ := (mem_allOps st p).mp hp
    have hone : o.orderId ≠ oid := by
      rw [← hx.owner o ho p hpo]
      exact hpne
    refine (mem_allOps _ p).mpr ⟨G o, ?_, ?_⟩
    · rw [hordC]
      exact List.mem_map.mpr ⟨o, ho, rfl⟩
    · rw [hGother o hone]
      exact hpo
  have hmemCK : ∀ p ∈ K, p ∈ allOps (updateOrder st oid f) := by
    intro p hp
    refine (mem_allOps _ p).mpr ⟨OC, hOCmem, ?_⟩
    show p ∈ K ++ [w']
    exact List.mem_append_left [w'] hp
  have hw'memC : w' ∈ allOps (updateOrder st oid f) := by
    refine (mem_allOps _ w').mpr ⟨OC, hOCmem, ?_⟩
    show w' ∈ K ++ [w']
    exact List.mem_append_right K (List.mem_singleton.mpr rfl)
  have hfindC : findOp (updateOrder st oid f) w.opId = some w' := by
    have h1 := findOp_of_mem (updateOrder st oid f) hopsNC w' hw'memC
    rw [hw'fields.1] at h1
    exact h1
  have hfordC : findOrder (updateOrder st oid f) oid = some OC := by
    rw [findOrder_updateOrder st oid f hfid, hford]
    show some (if O.orderId = oid then f O else O) = _
    rw [if_pos hOid, hfOC]
  have hldOC : lastDispatched OC = lastDispatched O := by
    rw [lastDispatched, lastDispatched]
    show ((K ++ [w']).filter _).getLast? = ((O.operations).filter _).getLast?
    rw [hops]
    simp only [List.filter_append]
    have hw'f : [w'].filter (fun p => isDispatchedOp p) = [] := by
      simp [isDispatchedOp, hw'Init]
    have hwf : [w].filter (fun p => isDispatchedOp p) = [] := by
      simp [isDispatchedOp, hwInit]
    have hqsf : qs.filter (fun p => isDispatchedOp p) = [] := by
      rcases hqs with h | ⟨qa, h, hqa⟩
      · rw [h]
        rfl
      · rw [h]
        simp [isDispatchedOp, hqa]
    rw [hw'f, hwf, hqsf]
    simp
  have hw'prev : w'.previousOperation = (lastDispatched O).map (fun r => r.opId) := by
    rcases hqs with h | ⟨qa, h, _⟩
    · rw [hw', h]
      exact hprevN h
    · rw [hw', h]
      exact hprevQ qa (by rw [h]; exact List.mem_singleton.mpr rfl)
  have hbookop : ∀ i1 ∈ st.marketOperations, ∀ p,
      findOp (updateOrder st oid f) i1 = some p → findOp st i1 = some p := by
    intro i1 hi1 p hp
    have hpf := findOp_some_facts (updateOrder st oid f) i1 p hp
    rcases hmemCdec p hpf.1 with hpw | ⟨hpa, _⟩
    · exfalso
      obtain ⟨pb, ob, hpb, hob, hdisp, hndel⟩ := hx.bookResolves i1 hi1
      have hpbf := findOp_some_facts st i1 pb hpb
      have hpbw : pb = w := by
        apply List.inj_on_of_nodup_map hx.opsNodup hpbf.1 hwall
        rw [hpbf.2, ← hpf.2, hpw, hw'fields.1]
      rw [hpbw] at hdisp
      simp [isDispatchedOp, hwInit] at hdisp
    · have h1 := findOp_of_mem st hx.opsNodup p hpa
      rw [hpf.2] at h1
      exact h1
  have hqopsC : quoteOps (updateOrder st oid f) = quoteOps st := by
    rw [quoteOps, quoteOps]
    show (match findOrder (updateOrder st oid f) st.quotesId with
          | some q => q.operations
          | none => []) = _
    rw [findOrder_updateOrder st oid f hfid]
    cases hq1 : findOrder st st.quotesId with
    | none => rfl
    | some q1 =>
      have hne : q1.orderId ≠ oid := by
        rw [(findOrder_some st st.quotesId q1 hq1).2]
        exact hneq
      show (G q1).operations = q1.operations
      rw [hGother q1 hne]
  have hscanA : askScanMin (updateOrder st oid f) = askScanMin st := by
    rw [askScanMin, askScanMin, hqopsC]
  have hscanB : bidScanMax (updateOrder st oid f) = bidScanMax st := by
    rw [bidScanMax, bidScanMax, hqopsC]
  have hacked : AckedPrefixL (K ++ [w']) := by
    have h1 : AckedPrefixL ((K ++ qs) ++ [w]) := by
      rw [← hops]
      exact hx.ackedPrefix O hOmem
    have h2 : AckedPrefixL (K ++ qs) := ackedPrefixL_front (K ++ qs) [w] h1
    have h3 : AckedPrefixL K := ackedPrefixL_front K qs h2
    refine ackedPrefixL_concat K w' h3 ?_
    rw [hw'Init]
    intro hc
    cases hc
  refine ⟨⟨?_, ?_, ?_, ?_, ?_, hx.bookNodup, ?_, ?_, ?_, ?_, ?_, ?_, ?_, ?_, ?_, ?_, ?_,
    ?_, ?_, ?_, ?_, ?_, ?_, ?_⟩, hfordC, hfindC, hmemC2, ?_, ?_, hldOC, ?_⟩
  · rw [hordC, map_key_congr st.orders G (fun o => o.orderId) hGid]
    exact hx.ordersNodup
  · exact hopsNC
  · intro o' ho' r hr
    obtain ⟨o, ho, rfl⟩ := hmemU o' ho'
    rw [hGid o]
    by_cases h : o.orderId = oid
    · have hoO : o = O := hOwnEq o ho h
      rw [hoO, hGO] at hr
      have hr2 : r ∈ K ++ [w'] := hr
      rcases List.mem_append.mp hr2 with h1 | h1
      · rw [hoO]
        exact hx.owner O hOmem r (hKsub r h1)
      · rw [List.mem_singleton.mp h1, hw'fields.2.1, hoO]
        exact hx.owner O hOmem w hwmem
    · rw [hGother o h] at hr
      exact hx.owner o ho r hr
  · intro p hp
    rcases hmemCdec p hp with h | ⟨hpa, _⟩
    · rw [h, hw'fields.1]
      exact hx.opsFresh w hwall
    · exact hx.opsFresh p hpa
  · intro o' ho'
    obtain ⟨o, ho, rfl⟩ := hmemU o' ho'
    rw [hGid o]
    exact hx.ordersFresh o ho
  · intro i1 hi1
    obtain ⟨p, o2, hp, ho2, hdisp, hndel⟩ := hx.bookResolves i1 hi1
    have hpf := findOp_some_facts st i1 p hp
    have hpC : p ∈ allOps (updateOrder st oid f) := by
      by_cases h : p.orderId = oid
      · have hpO : p ∈ O.operations :=
          op_owner_mem st hx.ordersNodup hx.owner p hpf.1 O (by rw [h]; exact hford)
        rw [hops] at hpO
        rcases List.mem_append.mp hpO with h1 | h1
        · rcases List.mem_append.mp h1 with h2 | h2
          · exact hmemCK p h2
          · exfalso
            rcases hqs with hq0 | ⟨qa, hq0, hqa⟩
            · rw [hq0] at h2
              exact absurd h2 (List.not_mem_nil p)
            · rw [hq0] at h2
              rw [List.mem_singleton.mp h2] at hdisp
              simp [isDispatchedOp, hqa] at hdisp
        · exfalso
          rw [List.mem_singleton.mp h1] at hdisp
          simp [isDispatchedOp, hwInit] at hdisp
      · exact hmemC2 p hpf.1 h
    refine ⟨p, G o2, ?_, ?_, hdisp, hndel⟩
    · have h1 := findOp_of_mem (updateOrder st oid f) hopsNC p hpC
      rw [hpf.2] at h1
      exact h1
    · rw [findOrder_updateOrder st oid f hfid, ho2]
      rfl
  · obtain ⟨q1, hqf2, hqq⟩ := hx.quoteWF
    have hne : q1.orderId ≠ oid := by
      rw [(findOrder_some st st.quotesId q1 hqf2).2]
      exact hneq
    refine ⟨q1, ?_, hqq⟩
    show findOrder (updateOrder st oid f) st.quotesId = some q1
    rw [findOrder_updateOrder st oid f hfid, hqf2]
    show some (G q1) = some q1
    rw [hGother q1 hne]
  · intro o' ho' hq1
    obtain ⟨o, ho, rfl⟩ := hmemU o' ho'
    have hq2 : o.isQuote = true := by
      by_cases h : o.orderId = oid
      · have hoO : o = O := hOwnEq o ho h
        rw [hoO, hGO] at hq1
        rw [hoO]
        exact hq1
      · rw [hGother o h] at hq1
        exact hq1
    rw [hGid o]
    exact hx.isQuoteId o ho hq2
  · intro p hp
    rw [hqopsC] at hp
    exact hx.quoteOpWF p hp
  · intro o' ho' hq1 r hr
    obtain ⟨o, ho, rfl⟩ := hmemU o' ho'
    by_cases h : o.orderId = oid
    · have hoO : o = O := hOwnEq o ho h
      rw [hoO, hGO] at hq1 hr
      have hq2 : O.isQuote = false := hq1
      have hr2 : r ∈ K ++ [w'] := hr
      rcases List.mem_append.mp hr2 with h1 | h1
      · exact hx.orderOpWF O hOmem hq2 r (hKsub r h1)
      · rw [List.mem_singleton.mp h1, hw'fields.2.2.2]
        exact hx.orderOpWF O hOmem hq2 w hwmem
    · rw [hGother o h] at hq1 hr
      exact hx.orderOpWF o ho hq1 r hr
  · intro o' ho' hne
    obtain ⟨o, ho, rfl⟩ := hmemU o' ho'
    rw [hGid o] at hne
    rw [hGother o hne]
    exact hx.queuedLast o ho hne
  · intro o' ho' heq
    obtain ⟨o, ho, rfl⟩ := hmemU o' ho'
    rw [hGid o] at heq
    have hoO : o = O := hOwnEq o ho heq
    rw [hoO, hGO]
    intro r hr
    have hr2 : r ∈ ((K ++ [w']).dropLast).dropLast := hr
    rw [List.dropLast_concat] at hr2
    exact hKnq r ((List.dropLast_sublist K).subset hr2)
  · intro o' ho'
    obtain ⟨o, ho, rfl⟩ := hmemU o' ho'
    by_cases h : o.orderId = oid
    · have hoO : o = O := hOwnEq o ho h
      rw [hoO, hGO]
      exact hacked
    · rw [hGother o h]
      exact hx.ackedPrefix o ho
  · intro o' ho'
    obtain ⟨o, ho, rfl⟩ := hmemU o' ho'
    by_cases h : o.orderId = oid
    · have hoO : o = O := hOwnEq o ho h
      rw [hoO, hGO]
      intro r hr
      have hr2 : r ∈ (K ++ [w']).dropLast := hr
      rw [List.dropLast_concat] at hr2
      have hrL : r ∈ O.operations.dropLast := by
        rw [hops, List.dropLast_concat]
        exact List.mem_append_left qs hr2
      exact hx.deleteLast O hOmem r hrL
    · rw [hGother o h]
      exact hx.deleteLast o ho
  · intro o' ho' q1 hql hqst
    obtain ⟨o, ho, rfl⟩ := hmemU o' ho'
    by_cases h : o.orderId = oid
    · have hoO : o = O := hOwnEq o ho h
      rw [hoO, hGO] at hql
      have hql2 : (K ++ [w']).getLast? = some q1 := hql
      rw [List.getLast?_concat] at hql2
      rw [← Option.some.inj hql2, hw'Init] at hqst
      cases hqst
    · rw [hGother o h] at hql ⊢
      exact hx.chain o ho q1 hql hqst
  · intro o' ho' d hd hnd
    obtain ⟨o, ho, rfl⟩ := hmemU o' ho'
    by_cases h : o.orderId = oid
    · have hoO : o = O := hOwnEq o ho h
      rw [hoO, hGO, hldOC] at hd
      exact hx.entryIn O hOmem d hd hnd
    · rw [hGother o h] at hd
      exact hx.entryIn o ho d hd hnd
  · intro o' ho' i1 hi1 p hp hpo
    obtain ⟨o, ho, rfl⟩ := hmemU o' ho'
    have hp2 : findOp st i1 = some p := hbookop i1 hi1 p hp
    rw [hGid o] at hpo
    by_cases h : o.orderId = oid
    · have hoO : o = O := hOwnEq o ho h
      rw [hoO, hGO, hldOC]
      rw [hoO] at hpo
      exact hx.entryOut O hOmem i1 hi1 p hp2 hpo
    · rw [hGother o h]
      exact hx.entryOut o ho i1 hi1 p hp2 hpo
  · intro o' ho'
    obtain ⟨o, ho, rfl⟩ := hmemU o' ho'
    by_cases h : o.orderId = oid
    · have hoO : o = O := hOwnEq o ho h
      rw [hoO, hGO]
      obtain ⟨hPTM, hOM, hFin, hDSTM⟩ := hx.stateHist O hOmem
      have hstOC : OC.orderState = O.orderState := rfl
      refine ⟨?_, ?_, ?_, ?_⟩
      · intro hh
        rw [hldOC]
        exact hPTM (by rw [← hstOC]; exact hh)
      · intro hh
        obtain ⟨d, hd, hdnd⟩ := hOM (by rw [← hstOC]; exact hh)
        exact ⟨d, by rw [hldOC]; exact hd, hdnd⟩
      · intro hh
        obtain ⟨⟨d, hd, hdel⟩, hnq⟩ := hFin (by rw [← hstOC]; exact hh)
        refine ⟨⟨d, by rw [hldOC]; exact hd, hdel⟩, ?_⟩
        intro r hr
        have hr2 : r ∈ K ++ [w'] := hr
        rcases List.mem_append.mp hr2 with h1 | h1
        · exact hnq r (hKsub r h1)
        · rw [List.mem_singleton.mp h1, hw'Init]
          intro hc
          cases hc
      · intro hh
        rcases hDSTM (by rw [← hstOC]; exact hh) with ⟨qX, hqXl, hqXd, hqXt⟩ | ⟨d, hd, hdel⟩
        · left
          have hqXw : qX = w := by
            rw [hops, List.getLast?_concat] at hqXl
            exact (Option.some.inj hqXl).symm
          refine ⟨w', ?_, ?_, ?_⟩
          · show (K ++ [w']).getLast? = some w'
            exact List.getLast?_concat _
          · simp [isDispatchedOp, hw'Init]
          · rw [hw'fields.2.2.2, ← hqXw]
            exact hqXt
        · right
          exact ⟨d, by rw [hldOC]; exact hd, hdel⟩
    · rw [hGother o h]
      exact hx.stateHist o ho
  · intro o' ho' p hp hq1 hd
    obtain ⟨o, ho, rfl⟩ := hmemU o' ho'
    by_cases h : o.orderId = oid
    · exfalso
      have hoO : o = O := hOwnEq o ho h
      rw [hoO, hGO] at hp
      have hp2 : p ∈ K ++ [w'] := hp
      rcases List.mem_append.mp hp2 with h1 | h1
      · exact hKnq p h1 hq1
      · rw [List.mem_singleton.mp h1, hw'Init] at hq1
        cases hq1
    · rw [hGother o h] at hp ⊢
      exact hx.queuedDelZombie o ho p hp hq1 hd
  · intro b' hb' s' hs' hbne hsne hbq hsq hbs hss hbl hsl
    obtain ⟨b, hb, rfl⟩ := hmemU b' hb'
    obtain ⟨s, hs, rfl⟩ := hmemU s' hs'
    rw [hGid b] at hbne
    rw [hGid s] at hsne
    rw [hGother b hbne] at hbq hbs hbl ⊢
    rw [hGother s hsne] at hsq hss hsl ⊢
    exact hx.sep b hb s hs hbne hsne hbq hsq hbs hss hbl hsl
  · intro b' hb' hbne hbq hbs hbl
    obtain ⟨b, hb, rfl⟩ := hmemU b' hb'
    rw [hGid b] at hbne
    rw [hGother b hbne] at hbq hbs hbl ⊢
    rw [hscanA]
    exact hx.sepQA b hb hbne hbq hbs hbl
  · intro s' hs' hsne hsq hss hsl
    obtain ⟨s, hs, rfl⟩ := hmemU s' hs'
    rw [hGid s] at hsne
    rw [hGother s hsne] at hsq hss hsl ⊢
    rw [hscanB]
    exact hx.sepQB s hs hsne hsq hss hsl
  · intro i1 hi1 j1 hj1 p1 o1 p2 o2 b a hres1 hres2 hbid hask
    obtain ⟨hf1, hfo1⟩ := resolveBookEntry_elim _ i1 p1 o1 hres1
    obtain ⟨hf2, hfo2⟩ := resolveBookEntry_elim _ j1 p2 o2 hres2
    have hf1' := hbookop i1 hi1 p1 hf1
    have hf2' := hbookop j1 hj1 p2 hf2
    rw [findOrder_updateOrder st oid f hfid] at hfo1 hfo2
    obtain ⟨b1, hb1, hb1e⟩ := Option.map_eq_some'.mp hfo1
    obtain ⟨b2, hb2, hb2e⟩ := Option.map_eq_some'.mp hfo2
    have hGq1 : (G b1).isQuote = b1.isQuote := by
      rw [hGdef]
      by_cases h : b1.orderId = oid
      · simp [h]
      · simp [h]
    have hGs1 : (G b1).side = b1.side := by
      rw [hGdef]
      by_cases h : b1.orderId = oid
      · simp [h]
      · simp [h]
    have hGq2 : (G b2).isQuote = b2.isQuote := by
      rw [hGdef]
      by_cases h : b2.orderId = oid
      · simp [h]
      · simp [h]
    have hGs2 : (G b2).side = b2.side := by
      rw [hGdef]
      by_cases h : b2.orderId = oid
      · simp [h]
      · simp [h]
    rw [← hb1e, entryBid_congr p1 b1 (G b1) hGq1 hGs1] at hbid
    rw [← hb2e, entryAsk_congr p2 b2 (G b2) hGq2 hGs2] at hask
    exact hx.bookSep i1 hi1 j1 hj1 p1 b1 p2 b2 b a
      (resolveBookEntry_some st i1 p1 b1 hf1' hb1) (resolveBookEntry_some st j1 p2 b2 hf2' hb2)
      hbid hask
  · intro p hp hq1
    rcases hmemCdec p hp with h | ⟨hpa, himp⟩
    · rw [h, hw'Init] at hq1
      cases hq1
    · refine ⟨?_, hpa⟩
      intro hpoid
      exact hKnq p (himp hpoid) hq1
  · intro r hr hrI
    rcases hmemCdec r hr with h | ⟨hra, _⟩
    · rw [h]
      exact hw'fields.1
    · exact hNIx r hra hrI
  · rw [hldOC]
    exact hw'prev

/-- The quote history ignores an in-place update of a different order. -/
theorem quoteOps_updateOrder_other (st : EngineState) (oid : Nat)
    (hneq : st.quotesId ≠ oid) (f : Order → Order)
    (hid : ∀ o, (f o).orderId = o.orderId) :
    quoteOps (updateOrder st oid f) = quoteOps st := by
  rw [quoteOps, quoteOps]
  show (match findOrder (updateOrder st oid f) st.quotesId with
        | some q => q.operations
        | none => []) = _
  rw [findOrder_updateOrder st oid f hid]
  cases hq1 : findOrder st st.quotesId with
  | none => rfl
  | some q1 =>
    show (if q1.orderId = oid then f q1 else q1).operations = q1.operations
    rw [if_neg (by rw [(findOrder_some st st.quotesId q1 hq1).2]; exact hneq)]

/-- Filtering out one order id commutes with a rewrite that fixes every
other order. -/
theorem map_filter_other (l : List Order) (oid : Nat) (G : Order → Order)
    (hGid : ∀ o, (G o).orderId = o.orderId)
    (hGo : ∀ o, o.orderId ≠ oid → G o = o) :
    (l.map G).filter (fun o => o.orderId ≠ oid) =
      l.filter (fun o => o.orderId ≠ oid) := by
  induction l with
  | nil => rfl
  | cons o t ih =>
    rw [List.map_cons, List.filter_cons, List.filter_cons]
    by_cases h : o.orderId = oid
    · have h1 : (decide ((G o).orderId ≠ oid)) = false := by simp [hGid, h]
      have h2 : (decide (o.orderId ≠ oid)) = false := by simp [h]
      rw [h1, h2, if_neg (by simp), if_neg (by simp)]
      exact ih
    · rw [hGo o h]
      have h2 : (decide (o.orderId ≠ oid)) = true := by simp [h]
      rw [h2, if_pos rfl, if_pos rfl, ih]

/-- `DeleteOrder` on an order with an empty history fails the
`operations.back()` access. -/
theorem deleteOrderAct_emptyHist (st : EngineState) (oid : Nat) (draw : Bool)
    (O0 : Order) (hford : findOrder st oid = some O0)
    (hlast : O0.operations.getLast? = none) :
    DeleteOrderAct st oid draw = Except.error Err.emptyHistory := by
  simp only [DeleteOrderAct, hford, hlast]

/-- `DeleteOrder` unfolded on a resolvable order with a non-empty
history. -/
theorem deleteOrderAct_eq (st : EngineState) (oid : Nat) (draw : Bool)
    (O0 : Order) (prevOp : Operation)
    (hford : findOrder st oid = some O0)
    (hlast : O0.operations.getLast? = some prevOp) :
    DeleteOrderAct st oid draw =
      (if O0.orderState = OrderState.PriorToMarket then
        Except.ok
          { updateOrder (RemoveFromThrottle (stD st oid O0 prevOp) oid) oid
              (fun o => { o with orderState := OrderState.Finalised }) with
            orders := (updateOrder (RemoveFromThrottle (stD st oid O0 prevOp) oid) oid
              (fun o => { o with orderState := OrderState.Finalised })).orders.filter
                (fun o => o.orderId ≠ oid) }
      else
        if ¬ CheckThrottle (st4D st oid O0 prevOp) draw then
          Except.ok (PushToThrottle (st4D st oid O0 prevOp) st.nextId)
        else SendToMarket (st4D st oid O0 prevOp) st.nextId) := by
  simp only [DeleteOrderAct, hford, hlast]
  rfl

/-- The restricted separation clauses survive the append-style state
rewrite of one action: every other order is untouched and the quote
history is unchanged. -/
theorem sepx_transfer (st : EngineState) (oid : Nat) (n : Nat) (F : Order → Order)
    (hFid : ∀ o, (F o).orderId = o.orderId)
    (hneq : st.quotesId ≠ oid)
    (hsepx : ∀ b ∈ st.orders, ∀ s ∈ st.orders, b.orderId ≠ oid → s.orderId ≠ oid →
      b.isQuote = false → s.isQuote = false → b.side = Side.Buy → s.side = Side.Sell →
      liveOrd b → liveOrd s →
      GetLivePrice (fun a b => max a b) b < GetLivePrice (fun a b => min a b) s)
    (hsepQAx : ∀ b ∈ st.orders, b.orderId ≠ oid → b.isQuote = false → b.side = Side.Buy →
      liveOrd b → GetLivePrice (fun a b => max a b) b < askScanMin st)
    (hsepQBx : ∀ s ∈ st.orders, s.orderId ≠ oid → s.isQuote = false → s.side = Side.Sell →
      liveOrd s → bidScanMax st < GetLivePrice (fun a b => min a b) s) :
    (∀ b ∈ ({ updateOrder st oid F with nextId := n } : EngineState).orders,
      ∀ s ∈ ({ updateOrder st oid F with nextId := n } : EngineState).orders,
      b.orderId ≠ oid → s.orderId ≠ oid →
      b.isQuote = false → s.isQuote = false → b.side = Side.Buy → s.side = Side.Sell →
      liveOrd b → liveOrd s →
      GetLivePrice (fun a b => max a b) b < GetLivePrice (fun a b => min a b) s) ∧
    (∀ b ∈ ({ updateOrder st oid F with nextId := n } : EngineState).orders,
      b.orderId ≠ oid → b.isQuote = false → b.side = Side.Buy → liveOrd b →
      GetLivePrice (fun a b => max a b) b <
        askScanMin { updateOrder st oid F with nextId := n }) ∧
    (∀ s ∈ ({ updateOrder st oid F with nextId := n } : EngineState).orders,
      s.orderId ≠ oid → s.isQuote = false → s.side = Side.Sell → liveOrd s →
      bidScanMax { updateOrder st oid F with nextId := n } <
        GetLivePrice (fun a b => min a b) s) := by
  have hqops : quoteOps ({ updateOrder st oid F with nextId := n } : EngineState) =
      quoteOps st := by
    have h1 : quoteOps ({ updateOrder st oid F with nextId := n } : EngineState) =
        quoteOps (updateOrder st oid F) := rfl
    rw [h1, quoteOps_updateOrder_other st oid hneq F hFid]
  have hscanA : askScanMin ({ updateOrder st oid F with nextId := n } : EngineState) =
      askScanMin st := by
    rw [askScanMin, askScanMin, hqops]
  have hscanB : bidScanMax ({ updateOrder st oid F with nextId := n } : EngineState) =
      bidScanMax st := by
    rw [bidScanMax, bidScanMax, hqops]
  have hmm : ∀ b ∈ ({ updateOrder st oid F with nextId := n } : EngineState).orders,
      b.orderId ≠ oid → b ∈ st.orders := by
    intro b hb hbne
    have hb2 : b ∈ st.orders.map (fun o => if o.orderId = oid then F o else o) := hb
    obtain ⟨b0, hb0, he⟩ := List.mem_map.mp hb2
    by_cases h : b0.orderId = oid
    · rw [if_pos h] at he
      rw [← he, hFid b0] at hbne
      exact absurd h hbne
    · rw [if_neg h] at he
      rw [← he]
      exact hb0
  refine ⟨?_, ?_, ?_⟩
  · intro b hb s hs hbne hsne hbq hsq hbs hss hbl hsl
    exact hsepx b (hmm b hb hbne) s (hmm s hs hsne) hbne hsne hbq hsq hbs hss hbl hsl
  · intro b hb hbne hbq hbs hbl
    rw [hscanA]
    exact hsepQAx b (hmm b hb hbne) hbne hbq hbs hbl
  · intro s hs hsne hsq hss hsl
    rw [hscanB]
    exact hsepQBx s (hmm s hs hsne) hsne hsq hss hsl

/-- Deleting a PriorToMarket order disposes of it entirely: the order
leaves the store, its throttle entries leave the queue and nothing else
changes, so the invariant survives. -/
theorem deletePurge_inv (st : EngineState) (oid : Nat)
    (hIB : InvBase st) (hT : ThrOK st st.throttle) (hNI : NoInit st)
    (hsepx : ∀ b ∈ st.orders, ∀ s ∈ st.orders, b.orderId ≠ oid → s.orderId ≠ oid →
      b.isQuote = false → s.isQuote = false → b.side = Side.Buy → s.side = Side.Sell →
      liveOrd b → liveOrd s →
      GetLivePrice (fun a b => max a b) b < GetLivePrice (fun a b => min a b) s)
    (hsepQAx : ∀ b ∈ st.orders, b.orderId ≠ oid → b.isQuote = false → b.side = Side.Buy →
      liveOrd b → GetLivePrice (fun a b => max a b) b < askScanMin st)
    (hsepQBx : ∀ s ∈ st.orders, s.orderId ≠ oid → s.isQuote = false → s.side = Side.Sell →
      liveOrd s → bidScanMax st < GetLivePrice (fun a b => min a b) s)
    (hneq : st.quotesId ≠ oid)
    (O0 : Order) (hford : findOrder st oid = some O0)
    (hPTM : O0.orderState = OrderState.PriorToMarket)
    (stP : EngineState)
    (hordP : stP.orders = st.orders.filter (fun o => o.orderId ≠ oid))
    (hthrP : stP.throttle = st.throttle.filter (fun tid =>
      match findOp st tid with
      | some p => p.orderId ≠ oid
      | none => true))
    (hbookP : stP.marketOperations = st.marketOperations)
    (hqidP : stP.quotesId = st.quotesId)
    (hnP : st.nextId ≤ stP.nextId) :
    Inv stP := by
  have hOmem : O0 ∈ st.orders := (findOrder_some st oid O0 hford).1
  have hOid : O0.orderId = oid := (findOrder_some st oid O0 hford).2
  have hmemP : ∀ o : Order, o ∈ stP.orders ↔ o ∈ st.orders ∧ o.orderId ≠ oid := by
    intro o
    rw [hordP, List.mem_filter]
    simp
  have hsubP : stP.orders.Sublist st.orders := by
    rw [hordP]
    exact List.filter_sublist _
  have hallsubP : (allOps stP).Sublist (allOps st) := by
    rw [allOps, allOps]
    exact sublist_flatMap_ops _ _ hsubP
  have hopsNP : ((allOps stP).map (fun p => p.opId)).Nodup :=
    List.Nodup.sublist (List.Sublist.map _ hallsubP) hIB.opsNodup
  have hordNP : (stP.orders.map (fun o => o.orderId)).Nodup :=
    List.Nodup.sublist (List.Sublist.map _ hsubP) hIB.ordersNodup
  have hallP : ∀ p ∈ allOps stP, p ∈ allOps st := fun p hp => hallsubP.subset hp
  have hfopP2 : ∀ (j : Nat) (p : Operation), findOp stP j = some p → findOp st j = some p := by
    intro j p h
    have hf := findOp_some_facts stP j p h
    have h1 := findOp_of_mem st hIB.opsNodup p (hallP p hf.1)
    rw [hf.2] at h1
    exact h1
  have hnoidP : ∀ p ∈ allOps stP, p.orderId ≠ oid := by
    intro p hp
    obtain ⟨o, ho, hpo⟩ := (mem_allOps stP p).mp hp
    rw [hIB.owner o ((hmemP o).mp ho).1 p hpo]
    exact ((hmemP o).mp ho).2
  have hLD0 : lastDispatched O0 = none := (hIB.stateHist O0 hOmem).1 hPTM
  have hbookno : ∀ j ∈ st.marketOperations, ∀ p, findOp st j = some p → p.orderId ≠ oid := by
    intro j hj p hp hpoid
    obtain ⟨d, hd, _⟩ := hIB.entryOut O0 hOmem j hj p hp (by rw [hpoid, hOid])
    rw [hLD0] at hd
    cases hd
  obtain ⟨q1, hq1f, hq1q⟩ := hIB.quoteWF
  have hq1ne : q1.orderId ≠ oid := by
    rw [(findOrder_some st st.quotesId q1 hq1f).2]
    exact hneq
  have hq1mem : q1 ∈ stP.orders :=
    (hmemP q1).mpr ⟨(findOrder_some st st.quotesId q1 hq1f).1, hq1ne⟩
  have hqP : findOrder stP st.quotesId = some q1 := by
    have h1 := findOrder_of_mem stP hordNP q1 hq1mem
    rw [(findOrder_some st st.quotesId q1 hq1f).2] at h1
    exact h1
  have hqopsP : quoteOps stP = quoteOps st := by
    rw [quoteOps, quoteOps, hqidP, hqP, hq1f]
  have hmemop : ∀ p ∈ allOps st, p.orderId ≠ oid → p ∈ allOps stP := by
    intro p hp hpne
    obtain ⟨o, ho, hpo⟩ := (mem_allOps st p).mp hp
    have hone : o.orderId ≠ oid := by
      rw [← hIB.owner o ho p hpo]
      exact hpne
    exact (mem_allOps stP p).mpr ⟨o, (hmemP o).mpr ⟨ho, hone⟩, hpo⟩
  have hfopP : ∀ (j : Nat) (p : Operation), findOp st j = some p → p.orderId ≠ oid →
      findOp stP j = some p := by
    intro j p hp hpne
    have hf := findOp_some_facts st j p hp
    have h1 := findOp_of_mem stP hopsNP p (hmemop p hf.1 hpne)
    rw [hf.2] at h1
    exact h1
  refine ⟨⟨hordNP, hopsNP, ?_, ?_, ?_, ?_, ?_, ?_, ?_, ?_, ?_, ?_, ?_, ?_, ?_, ?_, ?_,
    ?_, ?_, ?_, ?_, ?_, ?_⟩, ⟨?_, ?_, ?_⟩, ?_⟩
  · intro o ho p hp
    exact hIB.owner o (hsubP.subset ho) p hp
  · intro p hp
    exact lt_of_lt_of_le (hIB.opsFresh p (hallP p hp)) hnP
  · intro o ho
    exact lt_of_lt_of_le (hIB.ordersFresh o (hsubP.subset ho)) hnP
  · rw [hbookP]
    exact hIB.bookNodup
  · intro j hj
    rw [hbookP] at hj
    obtain ⟨p, o, hp, ho, hdisp, hndel⟩ := hIB.bookResolves j hj
    have hpne : p.orderId ≠ oid := hbookno j hj p hp
    have homem : o ∈ st.orders := (findOrder_some st p.orderId o ho).1
    have hoid2 : o.orderId = p.orderId := (findOrder_some st p.orderId o ho).2
    have homem2 : o ∈ stP.orders := (hmemP o).mpr ⟨homem, by rw [hoid2]; exact hpne⟩
    refine ⟨p, o, hfopP j p hp hpne, ?_, hdisp, hndel⟩
    have h1 := findOrder_of_mem stP hordNP o homem2
    rw [hoid2] at h1
    exact h1
  · refine ⟨q1, ?_, hq1q⟩
    rw [hqidP]
    exact hqP
  · intro o ho hq
    rw [hqidP]
    exact hIB.isQuoteId o (hsubP.subset ho) hq
  · intro p hp
    rw [hqopsP] at hp
    exact hIB.quoteOpWF p hp
  · intro o ho hq p hp
    exact hIB.orderOpWF o (hsubP.subset ho) hq p hp
  · intro o ho
    exact hIB.queuedLast o (hsubP.subset ho)
  · intro o ho
    exact hIB.ackedPrefix o (hsubP.subset ho)
  · intro o ho
    exact hIB.deleteLast o (hsubP.subset ho)
  · intro o ho q hql hqst
    exact hIB.chain o (hsubP.subset ho) q hql hqst
  · intro o ho d hd hnd
    rw [hbookP]
    exact hIB.entryIn o (hsubP.subset ho) d hd hnd
  · intro o ho j hj p hp hpo
    rw [hbookP] at hj
    exact hIB.entryOut o (hsubP.subset ho) j hj p (hfopP2 j p hp) hpo
  · intro o ho
    exact hIB.stateHist o (hsubP.subset ho)
  · intro o ho p hp hq hd
    exact hIB.queuedDelZombie o (hsubP.subset ho) p hp hq hd
  · intro b hb s hs hbq hsq hbs hss hbl hsl
    exact hsepx b ((hmemP b).mp hb).1 s ((hmemP s).mp hs).1 ((hmemP b).mp hb).2
      ((hmemP s).mp hs).2 hbq hsq hbs hss hbl hsl
  · intro b hb hbq hbs hbl
    rw [askScanMin, hqopsP]
    exact hsepQAx b ((hmemP b).mp hb).1 ((hmemP b).mp hb).2 hbq hbs hbl
  · intro s hs hsq hss hsl
    rw [bidScanMax, hqopsP]
    exact hsepQBx s ((hmemP s).mp hs).1 ((hmemP s).mp hs).2 hsq hss hsl
  · intro i hi j hj p1 o1 p2 o2 b a hres1 hres2 hbid hask
    rw [hbookP] at hi hj
    obtain ⟨hf1, hfo1⟩ := resolveBookEntry_elim stP i p1 o1 hres1
    obtain ⟨hf2, hfo2⟩ := resolveBookEntry_elim stP j p2 o2 hres2
    have hf1' := hfopP2 i p1 hf1
    have hf2' := hfopP2 j p2 hf2
    have ho1mem : o1 ∈ st.orders := hsubP.subset (findOrder_some stP p1.orderId o1 hfo1).1
    have ho1id : o1.orderId = p1.orderId := (findOrder_some stP p1.orderId o1 hfo1).2
    have ho2mem : o2 ∈ st.orders := hsubP.subset (findOrder_some stP p2.orderId o2 hfo2).1
    have ho2id : o2.orderId = p2.orderId := (findOrder_some stP p2.orderId o2 hfo2).2
    have hfo1' : findOrder st p1.orderId = some o1 := by
      have h1 := findOrder_of_mem st hIB.ordersNodup o1 ho1mem
      rw [ho1id] at h1
      exact h1
    have hfo2' : findOrder st p2.orderId = some o2 := by
      have h1 := findOrder_of_mem st hIB.ordersNodup o2 ho2mem
      rw [ho2id] at h1
      exact h1
    exact hIB.bookSep i hi j hj p1 o1 p2 o2 b a
      (resolveBookEntry_some st i p1 o1 hf1' hfo1')
      (resolveBookEntry_some st j p2 o2 hf2' hfo2') hbid hask
  · rw [hthrP]
    exact List.Nodup.filter _ hT.thrNodup
  · intro t ht
    rw [hthrP] at ht
    have ht2 := List.mem_filter.mp ht
    obtain ⟨p, hp, hpq⟩ := hT.thrQueued t ht2.1
    have hpne : p.orderId ≠ oid := by
      have hpred := ht2.2
      rw [hp] at hpred
      exact of_decide_eq_true hpred
    exact ⟨p, hfopP t p hp hpne, hpq⟩
  · intro p hp hq
    rw [hthrP]
    have hpa := hallP p hp
    refine List.mem_filter.mpr ⟨hT.queuedThr p hpa hq, ?_⟩
    have h1 := findOp_of_mem st hIB.opsNodup p hpa
    rw [h1]
    exact decide_eq_true (hnoidP p hp)
  · intro p hp
    exact hNI p (hallP p hp)

/-- `DeleteOrder` on a live non-quote order neither trips the book-cross
assertion nor breaks the invariant, given the invariant clauses that
survive a rejected amend's price rewrite. -/
theorem delete_sound (st : EngineState) (oid : Nat) (draw : Bool)
    (hIB : InvBase st) (hT : ThrOK st st.throttle) (hNI : NoInit st)
    (hsepx : ∀ b ∈ st.orders, ∀ s ∈ st.orders, b.orderId ≠ oid → s.orderId ≠ oid →
      b.isQuote = false → s.isQuote = false → b.side = Side.Buy → s.side = Side.Sell →
      liveOrd b → liveOrd s →
      GetLivePrice (fun a b => max a b) b < GetLivePrice (fun a b => min a b) s)
    (hsepQAx : ∀ b ∈ st.orders, b.orderId ≠ oid → b.isQuote = false → b.side = Side.Buy →
      liveOrd b → GetLivePrice (fun a b => max a b) b < askScanMin st)
    (hsepQBx : ∀ s ∈ st.orders, s.orderId ≠ oid → s.isQuote = false → s.side = Side.Sell →
      liveOrd s → bidScanMax st < GetLivePrice (fun a b => min a b) s)
    (O0 : Order) (hford : findOrder st oid = some O0)
    (hlive : liveOrd O0) (hq : O0.isQuote = false)
    (hO0nd : ∀ r ∈ O0.operations, r.operationType ≠ OperationType.DeleteOrder) :
    (DeleteOrderAct st oid draw ≠ Except.error Err.inCross) ∧
    (∀ st', DeleteOrderAct st oid draw = Except.ok st' → Inv st') := by
  have hOmem : O0 ∈ st.orders := (findOrder_some st oid O0 hford).1
  have hOid : O0.orderId = oid := (findOrder_some st oid O0 hford).2
  have hneq : st.quotesId ≠ oid := by
    have h1 := nonquote_ne_quotesId st hIB.ordersNodup hIB.quoteWF O0 hOmem hq
    rw [hOid] at h1
    exact fun h => h1 h.symm
  cases hlast : O0.operations.getLast? with
  | none =>
    rw [deleteOrderAct_emptyHist st oid draw O0 hford hlast]
    refine ⟨?_, ?_⟩
    · intro hc
      exact Err.noConfusion (Except.error.inj hc)
    · intro st' hc
      exact Except.noConfusion hc
  | some prevOp =>
    rw [deleteOrderAct_eq st oid draw O0 prevOp hford hlast]
    set dOp : Operation := dOpD st oid O0 prevOp with hdOpdef
    set F : Order → Order :=
      fun o => { o with operations := o.operations ++ [dOp] } with hFdef
    set st1 : EngineState := stD st oid O0 prevOp with hst1def
    have hst1F : st1 = { updateOrder st oid F with nextId := st.nextId + 1 } := rfl
    obtain ⟨hford1, hfind1, hThr1, hNIx1, hLD1,
      ⟨K, qsL, hops1, hKnq1, hqsL, hprevN1, hprevQ1⟩, hQLximp⟩ :=
      appendOp_invQL st oid O0 dOp F (st.nextId + 1) st1 (F O0) hIB hT hNI hford
        hst1F rfl rfl (fun o => rfl) (fun o => rfl) (fun o => rfl) (fun o => rfl)
        rfl rfl rfl
        (by rw [hlast]; rfl)
        (Nat.lt_succ_self _)
        (by intro hcq; rw [hq] at hcq; cases hcq)
        (fun _ => Or.inr (Or.inr rfl))
        hO0nd
        (by rcases hlive with h | h <;> simp [h])
    have hsep1 := sepx_transfer st oid (st.nextId + 1) F (fun o => rfl) hneq
      hsepx hsepQAx hsepQBx
    have hQLx1 : InvQLx st1 oid := hQLximp hsep1.1 hsep1.2.1 hsep1.2.2
    by_cases hPTM : O0.orderState = OrderState.PriorToMarket
    · rw [if_pos hPTM]
      refine ⟨?_, ?_⟩
      · intro hc
        exact Except.noConfusion hc
      · intro st' hc
        cases hc
        apply deletePurge_inv st oid hIB hT hNI hsepx hsepQAx hsepQBx hneq O0 hford hPTM
        · show ((st.orders.map (fun o => if o.orderId = oid then F o else o)).map
            (fun o => if o.orderId = oid then
              { o with orderState := OrderState.Finalised } else o)).filter
                (fun o => o.orderId ≠ oid) = _
          rw [List.map_map]
          refine map_filter_other st.orders oid _ ?_ ?_
          · intro o
            by_cases h : o.orderId = oid
            · simp [Function.comp, hFdef, h]
            · simp [Function.comp, h]
          · intro o h
            simp [Function.comp, h]
        · show st.throttle.filter (fun tid =>
            match findOp st1 tid with
            | some p => p.orderId ≠ oid
            | none => true) = _
          apply List.filter_congr
          intro tid htid
          obtain ⟨p, hp, _⟩ := hT.thrQueued tid htid
          have hpf := findOp_some_facts st tid p hp
          have htidlt : tid < st.nextId := by
            have h2 := hIB.opsFresh p hpf.1
            rw [hpf.2] at h2
            exact h2
          have hne : tid ≠ dOp.opId := by
            show tid ≠ st.nextId
            omega
          have hfop1 : findOp st1 tid = findOp st tid :=
            find?_append_ops_other
              (fun o _ ho => by
                show (if o.orderId = oid then F o else o).operations = o.operations ++ [dOp]
                rw [if_pos ho])
              (fun o _ ho => by
                show (if o.orderId = oid then F o else o).operations = o.operations
                rw [if_neg ho])
              hne
          rw [hfop1]
        · rfl
        · rfl
        · show st.nextId ≤ st.nextId + 1
          omega
    · rw [if_neg hPTM]
      have hOM : O0.orderState = OrderState.OnMarket := by
        rcases hlive with h | h
        · exact h
        · exact absurd h hPTM
      set st2 : EngineState := RemoveFromThrottle st1 oid with hst2def
      have hQLx2 : InvQLx st2 oid := invQLx_throttle st1 _ oid hQLx1
      set dOp' : Operation :=
        (match qsL.head? with
         | none => dOp
         | some qa => { dOp with previousOperation := qa.previousOperation }) with hdOp'def
      have hdOp'fields : dOp'.opId = dOp.opId ∧ dOp'.orderId = oid ∧
          dOp'.operationState = OperationState.Initial ∧
          dOp'.operationType = OperationType.DeleteOrder := by
        rcases hqsL with h | ⟨qa, h, _⟩
        · rw [ hdOp'def, h]
          exact ⟨rfl, rfl, rfl, rfl⟩
        · rw [ hdOp'def, h]
          exact ⟨rfl, rfl, rfl, rfl⟩
      obtain ⟨hQLxC, hfordC, hfindC, hmemC2, hmemC5, hNIxC, hldC, hprevC⟩ :=
        conflate_invQLx st2 oid hQLx2
          (show st2.quotesId ≠ oid from hneq) (F O0)
          (show findOrder st2 oid = some (F O0) from hford1)
          K qsL dOp dOp'
          (show ∀ r ∈ allOps st2, r.operationState = OperationState.Initial →
            r.opId = dOp.opId from hNIx1)
          hops1 hKnq1 hqsL rfl hdOp'def hprevQ1 hprevN1
      obtain ⟨hIQL4, hford4, hfop4, hall4⟩ :=
        markDSTM_invQL
          (updateOrder st2 oid (fun o =>
            { o with operations := RemoveDiscardedFromList o.operations dOp.opId }))
          oid hQLxC
          { (F O0) with operations := K ++ [dOp'] } hfordC dOp'
          (List.getLast?_concat _)
          hdOp'fields.2.2.1 hdOp'fields.2.2.2
      have hst4eq : st4D st oid O0 prevOp =
          updateOrder (updateOrder st2 oid (fun o =>
            { o with operations := RemoveDiscardedFromList o.operations dOp.opId })) oid
            (fun o => { o with orderState := OrderState.DeleteSentToMarket }) := by
        have hst3eq : RemoveDiscardedOperations (RemoveFromThrottle (stD st oid O0 prevOp) oid)
            st.nextId = updateOrder st2 oid (fun o =>
              { o with operations := RemoveDiscardedFromList o.operations dOp.opId }) := by
          rw [removeDiscarded_eq _ st.nextId dOp
            (show findOp (RemoveFromThrottle (stD st oid O0 prevOp) oid) st.nextId = some dOp
              from hfind1)]
          rfl
        rw [st4D, hst3eq]
      rw [hst4eq]
      have hThr4 : ThrOK (updateOrder (updateOrder st2 oid (fun o =>
          { o with operations := RemoveDiscardedFromList o.operations dOp.opId })) oid
            (fun o => { o with orderState := OrderState.DeleteSentToMarket }))
          st2.throttle := by
        refine ⟨?_, ?_, ?_⟩
        · exact List.Nodup.filter _ hThr1.thrNodup
        · intro t ht
          have ht2 := List.mem_filter.mp
            (show t ∈ st1.throttle.filter (fun tid =>
              match findOp st1 tid with
              | some p => decide (p.orderId ≠ oid)
              | none => true) from ht)
          obtain ⟨p, hp, hpq⟩ := hThr1.thrQueued t ht2.1
          have hpne : p.orderId ≠ oid := by
            have hpred := ht2.2
            rw [hp] at hpred
            exact of_decide_eq_true hpred
          have hpS := findOp_some_facts st1 t p hp
          have hpC := hmemC2 p hpS.1 hpne
          refine ⟨p, ?_, hpq⟩
          rw [hfop4 t]
          have h1 := findOp_of_mem (updateOrder st2 oid (fun o =>
            { o with operations := RemoveDiscardedFromList o.operations dOp.opId }))
            hQLxC.opsNodup p hpC
          rw [hpS.2] at h1
          exact h1
        · intro p hp hq1
          rw [hall4] at hp
          obtain ⟨hpne, hpa⟩ := hmemC5 p hp hq1
          have hthr := hThr1.queuedThr p hpa hq1
          refine List.mem_filter.mpr ⟨hthr, ?_⟩
          have h1 := findOp_of_mem st1 hQLx1.opsNodup p hpa
          rw [h1]
          exact decide_eq_true hpne
      have hIQ4 : InvQL (updateOrder (updateOrder st2 oid (fun o =>
          { o with operations := RemoveDiscardedFromList o.operations dOp.opId })) oid
            (fun o => { o with orderState := OrderState.DeleteSentToMarket }))
          dOp'.orderId := by
        rw [hdOp'fields.2.1]
        exact hIQL4
      have hNIx4 : ∀ r ∈ allOps (updateOrder (updateOrder st2 oid (fun o =>
          { o with operations := RemoveDiscardedFromList o.operations dOp.opId })) oid
            (fun o => { o with orderState := OrderState.DeleteSentToMarket })),
          r.operationState = OperationState.Initial → r.opId = st.nextId := by
        intro r hr hrI
        rw [hall4] at hr
        exact hNIxC r hr hrI
      have hfind4 : findOp (updateOrder (updateOrder st2 oid (fun o =>
          { o with operations := RemoveDiscardedFromList o.operations dOp.opId })) oid
            (fun o => { o with orderState := OrderState.DeleteSentToMarket }))
          st.nextId = some dOp' := by
        rw [hfop4]
        exact hfindC
      have hford4' : findOrder (updateOrder (updateOrder st2 oid (fun o =>
          { o with operations := RemoveDiscardedFromList o.operations dOp.opId })) oid
            (fun o => { o with orderState := OrderState.DeleteSentToMarket }))
          dOp'.orderId = some { { (F O0) with operations := K ++ [dOp'] } with
            orderState := OrderState.DeleteSentToMarket } := by
        rw [hdOp'fields.2.1]
        exact hford4
      by_cases hb : CheckThrottle (updateOrder (updateOrder st2 oid (fun o =>
          { o with operations := RemoveDiscardedFromList o.operations dOp.opId })) oid
            (fun o => { o with orderState := OrderState.DeleteSentToMarket })) draw = true
      · rw [if_neg (not_not_intro hb)]
        have hemp : (updateOrder (updateOrder st2 oid (fun o =>
            { o with operations := RemoveDiscardedFromList o.operations dOp.opId })) oid
              (fun o => { o with orderState := OrderState.DeleteSentToMarket })).throttle
            = [] := by
          rw [CheckThrottle] at hb
          cases hte : (updateOrder (updateOrder st2 oid (fun o =>
              { o with operations := RemoveDiscardedFromList o.operations dOp.opId })) oid
                (fun o => { o with orderState := OrderState.DeleteSentToMarket })).throttle with
          | nil => rfl
          | cons x xs =>
            rw [hte] at hb
            simp [List.isEmpty] at hb
        have hdisp := dispatchInit_sound
          (updateOrder (updateOrder st2 oid (fun o =>
            { o with operations := RemoveDiscardedFromList o.operations dOp.opId })) oid
              (fun o => { o with orderState := OrderState.DeleteSentToMarket }))
          st.nextId dOp'
          { { (F O0) with operations := K ++ [dOp'] } with
            orderState := OrderState.DeleteSentToMarket } K
          hIQ4 hThr4 hNIx4 hemp hfind4 hford4' rfl hdOp'fields.1 hdOp'fields.2.2.1
          (show dOp'.previousOperation = _ from hprevC)
          (by
            intro _ hdel
            rw [hdOp'fields.2.2.2] at hdel
            simp [isDeleteType] at hdel)
          (by
            intro hdel
            rw [hdOp'fields.2.2.2] at hdel
            simp [isDeleteType] at hdel)
        exact hdisp
      · rw [if_pos hb]
        have hpush := pushQueue_preserves
          (updateOrder (updateOrder st2 oid (fun o =>
            { o with operations := RemoveDiscardedFromList o.operations dOp.opId })) oid
              (fun o => { o with orderState := OrderState.DeleteSentToMarket }))
          st.nextId dOp'
          { { (F O0) with operations := K ++ [dOp'] } with
            orderState := OrderState.DeleteSentToMarket } K []
          OrderState.DeleteSentToMarket
          hIQ4 hThr4 hNIx4 hfind4 hford4'
          (by
            show K ++ [dOp'] = (K ++ []) ++ [dOp']
            rw [List.append_nil])
          hKnq1 (Or.inl rfl) hdOp'fields.1 hdOp'fields.2.2.1
          (fun _ => show dOp'.previousOperation = _ from hprevC)
          (fun qa hqa => absurd hqa (List.not_mem_nil qa))
          (fun hc => OrderState.noConfusion hc)
          (fun _ => rfl)
          (fun hc => OrderState.noConfusion hc)
          (fun hc => OrderState.noConfusion hc)
          (fun _ => Or.inl hdOp'fields.2.2.2)
          (by
            intro hc
            rcases hc with h | h
            · exact OrderState.noConfusion h
            · exact OrderState.noConfusion h)
        refine ⟨?_, ?_⟩
        · intro hc
          exact Except.noConfusion hc
        · intro st' hc
          cases hc
          exact hpush.2 rfl

/-- Growing `nextId` preserves `InvBase`. -/
theorem invBase_nextId_mono (st : EngineState) (n : Nat) (h : InvBase st)
    (hn : st.nextId ≤ n) : InvBase { st with nextId := n } := by
  refine ⟨h.ordersNodup, h.opsNodup, h.owner, ?_, ?_, h.bookNodup, h.bookResolves,
    h.quoteWF, h.isQuoteId, h.quoteOpWF, h.orderOpWF, h.queuedLast, h.ackedPrefix,
    h.deleteLast, h.chain, h.entryIn, h.entryOut, h.stateHist, h.queuedDelZombie, h.bookSep⟩
  · intro p hp
    exact lt_of_lt_of_le (h.opsFresh p hp) hn
  · intro o ho
    exact lt_of_lt_of_le (h.ordersFresh o ho) hn

/-- `AmendOrder` with no live order to pick is a no-op. -/
theorem amendOrderAct_none (st : EngineState) (inp : ActionInputs)
    (hrand : GetRandomLiveOrder st inp.picks = none) :
    AmendOrderAct st inp = Except.ok st := by
  simp only [AmendOrderAct, hrand]

/-- `AmendOrder` on an order with an empty history fails the
`operations.back()` access. -/
theorem amendOrderAct_emptyHist (st : EngineState) (inp : ActionInputs) (order : Order)
    (hrand : GetRandomLiveOrder st inp.picks = some order)
    (hlast : order.operations.getLast? = none) :
    AmendOrderAct st inp = Except.error Err.emptyHistory := by
  simp only [AmendOrderAct, hrand, hlast]

/-- `AmendOrder` unfolded on a picked order with a non-empty history. -/
theorem amendOrderAct_eq (st : EngineState) (inp : ActionInputs)
    (order : Order) (prevOp : Operation) (order1 : Order)
    (hrand : GetRandomLiveOrder st inp.picks = some order)
    (hlast : order.operations.getLast? = some prevOp)
    (hford1 : findOrder (stAm st order.orderId inp prevOp) order.orderId = some order1) :
    AmendOrderAct st inp =
      (if ¬ CheckPendingInsertOrAmend (stAm st order.orderId inp prevOp) order1 then
        DeleteOrderAct (updateOrder (stAm st order.orderId inp prevOp) order.orderId
          (fun o => { o with operations := o.operations.dropLast }))
          order.orderId inp.throttleOpen2
      else if ¬ CheckThrottle (stAm st order.orderId inp prevOp) inp.throttleOpen then
        Except.ok (PushToThrottle (stAm st order.orderId inp prevOp) st.nextId)
      else
        if prevOp.operationState = OperationState.Queued then Except.error Err.assertFailed
        else SendToMarket (stAm st order.orderId inp prevOp) st.nextId) := by
  simp only [AmendOrderAct, hrand, hlast]
  split
  · next heq =>
      have h2 : findOrder (stAm st order.orderId inp prevOp) order.orderId = none := heq
      rw [hford1] at h2
      cases h2
  · next x heq =>
      have h2 : findOrder (stAm st order.orderId inp prevOp) order.orderId = some x := heq
      rw [hford1] at h2
      cases Option.some.inj h2
      rfl

/-- `ThrOK` ignores the id counter. -/
theorem thrOK_nextId (st : EngineState) (n : Nat) (V : List Nat) (h : ThrOK st V) :
    ThrOK { st with nextId := n } V :=
  ⟨h.thrNodup, h.thrQueued, h.queuedThr⟩

/-- `NoInit` ignores the id counter. -/
theorem noInit_nextId (st : EngineState) (n : Nat) (h : NoInit st) :
    NoInit { st with nextId := n } := h

/-- `AmendOrder` neither trips the book-cross assertion nor breaks the
invariant: an accepted amend stays separated by the cross guard, a
rejected amend schedules a delete whose invariant needs are met by the
clauses that survive the price rewrite. -/
theorem amend_sound (st : EngineState) (inp : ActionInputs) (hInv : Inv st) :
    (AmendOrderAct st inp ≠ Except.error Err.inCross) ∧
    (∀ st', AmendOrderAct st inp = Except.ok st' → Inv st') := by
  have hI := hInv.1
  have hT := hInv.2.1
  have hNI := hInv.2.2
  cases hrand : GetRandomLiveOrder st inp.picks with
  | none =>
    rw [amendOrderAct_none st inp hrand]
    refine ⟨?_, ?_⟩
    · intro hc
      exact Except.noConfusion hc
    · intro st' hc
      cases hc
      exact hInv
  | some order =>
    obtain ⟨homem, holive, hoq⟩ := getRandomLiveOrder_spec st inp.picks order hrand
    have hnotF : order.orderState ≠ OrderState.Finalised := by
      rcases holive with h | h <;> simp [h]
    have hnotD : order.orderState ≠ OrderState.DeleteSentToMarket := by
      rcases holive with h | h <;> simp [h]
    have hford : findOrder st order.orderId = some order :=
      findOrder_of_mem st hI.ordersNodup order homem
    have hneq : st.quotesId ≠ order.orderId := by
      have h1 := nonquote_ne_quotesId st hI.ordersNodup hI.quoteWF order homem hoq
      exact fun h => h1 h.symm
    cases hlast : order.operations.getLast? with
    | none =>
      rw [amendOrderAct_emptyHist st inp order hrand hlast]
      refine ⟨?_, ?_⟩
      · intro hc
        exact Err.noConfusion (Except.error.inj hc)
      · intro st' hc
        exact Except.noConfusion hc
    | some prevOp =>
      set aOp : Operation := aOpD st order.orderId inp prevOp with haOpdef
      set Fam : Order → Order := fun o =>
        { o with price := inp.price, qty := inp.qty,
                 operations := o.operations ++ [aOp] } with hFamdef
      have hcomp : stAm st order.orderId inp prevOp =
          { updateOrder st order.orderId Fam with nextId := st.nextId + 1 } := by
        apply engineState_eq
        · show (st.orders.map _).map _ = st.orders.map _
          rw [List.map_map]
          apply List.map_congr_left
          intro o _
          by_cases h : o.orderId = order.orderId
          · simp [Function.comp, hFamdef, h]
          · simp [Function.comp, h]
        · rfl
        · rfl
        · rfl
        · rfl
      obtain ⟨hford1, hfind1, hThr1, hNIx1, hLD1,
        ⟨K, qsL, hops1, hKnq1, hqsL, hprevN1, hprevQ1⟩, hQLximp⟩ :=
        appendOp_invQL st order.orderId order aOp Fam (st.nextId + 1)
          ({ updateOrder st order.orderId Fam with nextId := st.nextId + 1 }) (Fam order)
          (invBase_of_invCore st hI) hT hNI hford rfl rfl rfl
          (fun o => rfl) (fun o => rfl) (fun o => rfl) (fun o => rfl)
          rfl rfl rfl
          (by rw [hlast]; rfl)
          (Nat.lt_succ_self _)
          (by intro hcq; rw [hoq] at hcq; cases hcq)
          (fun _ => Or.inr (Or.inl rfl))
          (live_no_delete_hist st hI hNI order homem holive)
          (by rcases holive with h | h <;> simp [h])
      have hsep1r := sepx_transfer st order.orderId (st.nextId + 1) Fam (fun o => rfl) hneq
        (fun b hb s hs _ _ hbq hsq hbs hss hbl hsl => hI.sep b hb s hs hbq hsq hbs hss hbl hsl)
        (fun b hb _ hbq hbs hbl => hI.sepQA b hb hbq hbs hbl)
        (fun s hs _ hsq hss hsl => hI.sepQB s hs hsq hss hsl)
      have hQLx1 : InvQLx
          ({ updateOrder st order.orderId Fam with nextId := st.nextId + 1 } : EngineState)
          order.orderId := hQLximp hsep1r.1 hsep1r.2.1 hsep1r.2.2
      have hford1' : findOrder (stAm st order.orderId inp prevOp) order.orderId =
          some (Fam order) := by
        rw [hcomp]
        exact hford1
      rw [amendOrderAct_eq st inp order prevOp (Fam order) hrand hlast hford1', hcomp]
      have hOwnEq1 : ∀ o ∈ ({ updateOrder st order.orderId Fam with
          nextId := st.nextId + 1 } : EngineState).orders,
          o.orderId = order.orderId → o = Fam order := by
        intro o ho hoid2
        have h1 := findOrder_of_mem
          ({ updateOrder st order.orderId Fam with nextId := st.nextId + 1 }) hQLx1.ordersNodup
          o ho
        rw [hoid2, hford1] at h1
        exact (Option.some.inj h1).symm
      have hqops1 : quoteOps ({ updateOrder st order.orderId Fam with
          nextId := st.nextId + 1 } : EngineState) = quoteOps st := by
        have h0 : quoteOps ({ updateOrder st order.orderId Fam with
            nextId := st.nextId + 1 } : EngineState) =
            quoteOps (updateOrder st order.orderId Fam) := rfl
        rw [h0, quoteOps_updateOrder_other st order.orderId hneq Fam (fun o => rfl)]
      have hscanA1 : askScanMin ({ updateOrder st order.orderId Fam with
          nextId := st.nextId + 1 } : EngineState) = askScanMin st := by
        rw [askScanMin, askScanMin, hqops1]
      have hscanB1 : bidScanMax ({ updateOrder st order.orderId Fam with
          nextId := st.nextId + 1 } : EngineState) = bidScanMax st := by
        rw [bidScanMax, bidScanMax, hqops1]
      by_cases hchk : CheckPendingInsertOrAmend
        ({ updateOrder st order.orderId Fam with nextId := st.nextId + 1 }) (Fam order) = true
      · rw [if_neg (not_not_intro hchk)]
        have hphase := checkPendingIoA_spec _ (Fam order) hchk
        have hspec := checkAgainstOrders_spec (Fam order) _ hphase.2.2
        have hsep1own : ∀ b ∈ ({ updateOrder st order.orderId Fam with
            nextId := st.nextId + 1 } : EngineState).orders,
            ∀ s ∈ ({ updateOrder st order.orderId Fam with
            nextId := st.nextId + 1 } : EngineState).orders,
            b.orderId = order.orderId ∨ s.orderId = order.orderId →
            b.isQuote = false → s.isQuote = false → b.side = Side.Buy → s.side = Side.Sell →
            liveOrd b → liveOrd s →
            GetLivePrice (fun a b => max a b) b < GetLivePrice (fun a b => min a b) s := by
          intro b hb s hs hor hbq hsq hbs hss hbl hsl
          have hsnF : s.orderState ≠ OrderState.Finalised := by
            rcases hsl with h | h <;> simp [h]
          have hsnD : s.orderState ≠ OrderState.DeleteSentToMarket := by
            rcases hsl with h | h <;> simp [h]
          have hbnF : b.orderState ≠ OrderState.Finalised := by
            rcases hbl with h | h <;> simp [h]
          have hbnD : b.orderState ≠ OrderState.DeleteSentToMarket := by
            rcases hbl with h | h <;> simp [h]
          rcases hor with hor | hor
          · have hbO : b = Fam order := hOwnEq1 b hb hor
            have hside : s.side ≠ (Fam order).side := by
              rw [← hbO, hbs, hss]
              intro hc
              exact Side.noConfusion hc
            have h2 := (hspec s hs hside hsnF hsnD).1 (by rw [← hbO]; exact hbs)
            rw [hbO]
            exact h2
          · have hsO : s = Fam order := hOwnEq1 s hs hor
            have hside : b.side ≠ (Fam order).side := by
              rw [← hsO, hbs, hss]
              intro hc
              exact Side.noConfusion hc
            have h2 := (hspec b hb hside hbnF hbnD).2 (by rw [← hsO]; exact hss)
            rw [hsO]
            exact h2
        have hsepQA1own : ∀ b ∈ ({ updateOrder st order.orderId Fam with
            nextId := st.nextId + 1 } : EngineState).orders,
            b.orderId = order.orderId → b.isQuote = false → b.side = Side.Buy → liveOrd b →
            GetLivePrice (fun a b => max a b) b <
              askScanMin ({ updateOrder st order.orderId Fam with
                nextId := st.nextId + 1 }) := by
          intro b hb hbid hbq hbs hbl
          have hbO : b = Fam order := hOwnEq1 b hb hbid
          have hord : order.side = Side.Buy := by
            have h2 : (Fam order).side = Side.Buy := by
              rw [← hbO]
              exact hbs
            exact h2
          have hglp : GetLivePrice (fun a b => max a b) (Fam order) ≤
              max (GetLivePrice (fun a b => max a b) order) inp.price :=
            getLivePrice_append_max (Fam order) order.operations aOp inp.price rfl rfl
              (show OperationState.Initial ≠ OperationState.Acked from by
                intro hc
                exact OperationState.noConfusion hc)
              rfl order rfl
          have hold : GetLivePrice (fun a b => max a b) order < askScanMin st :=
            hI.sepQA order homem hoq hord holive
          have hnew : inp.price <
              askScanMin ({ updateOrder st order.orderId Fam with
                nextId := st.nextId + 1 }) :=
            hphase.1 (show (Fam order).side = Side.Buy from by rw [← hbO]; exact hbs)
          rw [hbO]
          refine lt_of_le_of_lt hglp (max_lt ?_ hnew)
          rw [hscanA1]
          exact hold
        have hsepQB1own : ∀ s ∈ ({ updateOrder st order.orderId Fam with
            nextId := st.nextId + 1 } : EngineState).orders,
            s.orderId = order.orderId → s.isQuote = false → s.side = Side.Sell → liveOrd s →
            bidScanMax ({ updateOrder st order.orderId Fam with
              nextId := st.nextId + 1 }) <
              GetLivePrice (fun a b => min a b) s := by
          intro s hs hsid hsq hss hsl
          have hsO : s = Fam order := hOwnEq1 s hs hsid
          have hord : order.side = Side.Sell := by
            have h2 : (Fam order).side = Side.Sell := by
              rw [← hsO]
              exact hss
            exact h2
          have hglp : min (GetLivePrice (fun a b => min a b) order) inp.price ≤
              GetLivePrice (fun a b => min a b) (Fam order) :=
            getLivePrice_append_min (Fam order) order.operations aOp inp.price rfl rfl
              (show OperationState.Initial ≠ OperationState.Acked from by
                intro hc
                exact OperationState.noConfusion hc)
              rfl order rfl
          have hold : bidScanMax st < GetLivePrice (fun a b => min a b) order :=
            hI.sepQB order homem hoq hord holive
          have hnew : bidScanMax ({ updateOrder st order.orderId Fam with
              nextId := st.nextId + 1 }) < inp.price :=
            hphase.2.1 (show (Fam order).side = Side.Sell from by rw [← hsO]; exact hss)
          rw [hsO]
          refine lt_of_lt_of_le (lt_min ?_ hnew) hglp
          rw [hscanB1]
          exact hold
        have hIQL1 : InvQL
            ({ updateOrder st order.orderId Fam with nextId := st.nextId + 1 } : EngineState)
            order.orderId :=
          invQL_of_invQLx _ order.orderId hQLx1 hsep1own hsepQA1own hsepQB1own
        by_cases hctr : CheckThrottle
            ({ updateOrder st order.orderId Fam with nextId := st.nextId + 1 })
            inp.throttleOpen = true
        · rw [if_neg (not_not_intro hctr)]
          by_cases hpq : prevOp.operationState = OperationState.Queued
          · rw [if_pos hpq]
            refine ⟨?_, ?_⟩
            · intro hc
              exact Err.noConfusion (Except.error.inj hc)
            · intro st' hc
              exact Except.noConfusion hc
          · rw [if_neg hpq]
            have hemp : ({ updateOrder st order.orderId Fam with
                nextId := st.nextId + 1 } : EngineState).throttle = [] := by
              rw [CheckThrottle] at hctr
              cases hte : ({ updateOrder st order.orderId Fam with
                  nextId := st.nextId + 1 } : EngineState).throttle with
              | nil => rfl
              | cons x xs =>
                rw [hte] at hctr
                simp [List.isEmpty] at hctr
            have hqsLnil : qsL = [] := by
              rcases hqsL with h | ⟨qa, h, hqa⟩
              · exact h
              · exfalso
                have hqam : qa ∈ (Fam order).operations := by
                  rw [hops1, h]
                  exact List.mem_append_left [aOp]
                    (List.mem_append_right K (List.mem_singleton.mpr rfl))
                have hqaall : qa ∈ allOps ({ updateOrder st order.orderId Fam with
                    nextId := st.nextId + 1 }) :=
                  (mem_allOps _ qa).mpr ⟨Fam order, (findOrder_some _ _ _ hford1).1, hqam⟩
                have h2 := hThr1.queuedThr qa hqaall hqa
                rw [hemp] at h2
                exact absurd h2 (List.not_mem_nil _)
            have hopsK : (Fam order).operations = K ++ [aOp] := by
              rw [hops1, hqsLnil, List.append_nil]
            exact dispatchInit_sound _ st.nextId aOp (Fam order) K hIQL1 hThr1 hNIx1 hemp
              hfind1 hford1 hopsK rfl rfl (hprevN1 hqsLnil)
              (fun _ _ => holive)
              (by
                intro _ r hr hrI hrd
                have hre := hNIx1 r hr hrI
                have hamem : aOp ∈ allOps ({ updateOrder st order.orderId Fam with
                    nextId := st.nextId + 1 }) :=
                  (mem_allOps _ aOp).mpr ⟨Fam order, (findOrder_some _ _ _ hford1).1,
                    by rw [hopsK]; exact List.mem_append_right K (List.mem_singleton.mpr rfl)⟩
                have hra : r = aOp :=
                  List.inj_on_of_nodup_map hIQL1.opsNodup hr hamem (by rw [hre])
                rw [hra] at hrd
                exact OperationType.noConfusion
                  (show OperationType.AmendOrder = OperationType.DeleteOrder from hrd))
        · rw [if_pos hctr]
          have hpush := pushQueue_preserves _ st.nextId aOp (Fam order) K qsL
            (Fam order).orderState hIQL1 hThr1 hNIx1 hfind1 hford1 hops1 hKnq1 hqsL rfl rfl
            hprevN1 hprevQ1
            (show (Fam order).orderState ≠ OrderState.Finalised from hnotF)
            (fun hc => OperationType.noConfusion
              (show OperationType.AmendOrder = OperationType.DeleteOrder from hc))
            (fun h => by
              rw [hLD1]
              exact (hI.stateHist order homem).1 h)
            (fun h => by
              rw [hLD1]
              exact (hI.stateHist order homem).2.1 h)
            (fun h => absurd (show order.orderState = OrderState.DeleteSentToMarket from h)
              hnotD)
            (fun _ => holive)
          refine ⟨?_, ?_⟩
          · intro hc
            exact Except.noConfusion hc
          · intro st' hc
            cases hc
            exact hpush.2 rfl
      · rw [if_pos hchk]
        have hpop : updateOrder
            ({ updateOrder st order.orderId Fam with nextId := st.nextId + 1 })
            order.orderId (fun o => { o with operations := o.operations.dropLast }) =
            ({ updateOrder st order.orderId
                (fun o => { o with price := inp.price, qty := inp.qty }) with
              nextId := st.nextId + 1 } : EngineState) := by
          apply engineState_eq
          · show (st.orders.map _).map _ = st.orders.map _
            rw [List.map_map]
            apply List.map_congr_left
            intro o _
            by_cases h : o.orderId = order.orderId
            · simp [Function.comp, hFamdef, h, List.dropLast_concat]
            · simp [Function.comp, h]
          · rfl
          · rfl
          · rfl
          · rfl
        rw [hpop]
        have hIB2 : InvBase ({ updateOrder st order.orderId
            (fun o => { o with price := inp.price, qty := inp.qty }) with
              nextId := st.nextId + 1 } : EngineState) := by
          have h1 := updatePQ_invBase st (invBase_of_invCore st hI) order.orderId
            (fun o => { o with price := inp.price, qty := inp.qty })
            (fun o => rfl) (fun o => rfl) (fun o => rfl) (fun o => rfl) (fun o => rfl)
          exact invBase_nextId_mono _ (st.nextId + 1) h1 (Nat.le_succ _)
        have hT2 : ThrOK ({ updateOrder st order.orderId
            (fun o => { o with price := inp.price, qty := inp.qty }) with
              nextId := st.nextId + 1 } : EngineState)
            ({ updateOrder st order.orderId
              (fun o => { o with price := inp.price, qty := inp.qty }) with
              nextId := st.nextId + 1 } : EngineState).throttle :=
          thrOK_nextId (updateOrder st order.orderId
              (fun o => { o with price := inp.price, qty := inp.qty })) (st.nextId + 1)
            st.throttle
            (thrOK_updateOrder st st.throttle order.orderId
              (fun o => { o with price := inp.price, qty := inp.qty }) (fun o => rfl) hT)
        have hNI2 : NoInit ({ updateOrder st order.orderId
            (fun o => { o with price := inp.price, qty := inp.qty }) with
              nextId := st.nextId + 1 } : EngineState) :=
          noInit_nextId (updateOrder st order.orderId
              (fun o => { o with price := inp.price, qty := inp.qty })) (st.nextId + 1)
            (noInit_updateOrder st order.orderId
              (fun o => { o with price := inp.price, qty := inp.qty }) (fun o => rfl) hNI)
        have hsx := sepx_transfer st order.orderId (st.nextId + 1)
          (fun o => { o with price := inp.price, qty := inp.qty }) (fun o => rfl) hneq
          (fun b hb s hs _ _ hbq hsq hbs hss hbl hsl =>
            hI.sep b hb s hs hbq hsq hbs hss hbl hsl)
          (fun b hb _ hbq hbs hbl => hI.sepQA b hb hbq hbs hbl)
          (fun s hs _ hsq hss hsl => hI.sepQB s hs hsq hss hsl)
        have hfordO2 : findOrder ({ updateOrder st order.orderId
            (fun o => { o with price := inp.price, qty := inp.qty }) with
              nextId := st.nextId + 1 } : EngineState) order.orderId =
            some { order with price := inp.price, qty := inp.qty } := by
          have h1 : findOrder (updateOrder st order.orderId
              (fun o => { o with price := inp.price, qty := inp.qty })) order.orderId =
              some { order with price := inp.price, qty := inp.qty } := by
            rw [findOrder_updateOrder st order.orderId
              (fun o => { o with price := inp.price, qty := inp.qty }) (fun o => rfl), hford]
            show some (if order.orderId = order.orderId then _ else order) = _
            rw [if_pos rfl]
          exact h1
        exact delete_sound _ order.orderId inp.throttleOpen2 hIB2 hT2 hNI2
          hsx.1 hsx.2.1 hsx.2.2
          { order with price := inp.price, qty := inp.qty } hfordO2 holive hoq
          (live_no_delete_hist st hI hNI order homem holive)

/-- `Quote` unfolded on the resolved quote entity. -/
theorem quoteAct_eq (st : EngineState) (inp : ActionInputs) (q : Order)
    (hford : findOrder st st.quotesId = some q) :
    QuoteAct st inp =
      (if ¬ CheckPendingQuote (stQ st inp q) (qOpD st inp q) then
        Except.ok (updateOrder (stQ st inp q) st.quotesId
          (fun o => { o with operations := o.operations.dropLast }))
      else if ¬ CheckThrottle (stQ st inp q) inp.throttleOpen then
        Except.ok (PushToThrottle (stQ st inp q) st.nextId)
      else SendToMarket (stQ st inp q) st.nextId) := by
  simp only [QuoteAct, hford]
  rfl

/-- `Quote` neither trips the book-cross assertion nor breaks the
invariant: the cross guard keeps every live order strictly separated from
the tightened effective quote. -/
theorem quote_sound (st : EngineState) (inp : ActionInputs) (hInv : Inv st)
    (hvi : ValidInputs inp) :
    (QuoteAct st inp ≠ Except.error Err.inCross) ∧
    (∀ st', QuoteAct st inp = Except.ok st' → Inv st') := by
  have hI := hInv.1
  have hT := hInv.2.1
  have hNI := hInv.2.2
  obtain ⟨hv1, hv2, hv3, hv4, hv5, hv6, hv7, hv8, hv9, hv10, hv11, hv12⟩ := hvi
  obtain ⟨q, hqf, hqq⟩ := hI.quoteWF
  have hqmem : q ∈ st.orders := (findOrder_some st st.quotesId q hqf).1
  have hqid : q.orderId = st.quotesId := (findOrder_some st st.quotesId q hqf).2
  have hqnotD : q.orderState ≠ OrderState.DeleteSentToMarket :=
    quote_not_dstm st (invBase_of_invCore st hI) q hqf
  have hqnotF : q.orderState ≠ OrderState.Finalised :=
    quote_not_finalised st hI q hqmem hqq
  have hqlive : liveOrd q := by
    cases hst : q.orderState with
    | PriorToMarket => exact Or.inr hst
    | OnMarket => exact Or.inl hst
    | Finalised => exact absurd hst hqnotF
    | DeleteSentToMarket => exact absurd hst hqnotD
  have hqnd : ∀ r ∈ q.operations, r.operationType ≠ OperationType.DeleteOrder := by
    intro r hr hc
    have h2 := (hI.quoteOpWF r (by rw [quoteOps, hqf]; exact hr)).1
    rw [h2] at hc
    cases hc
  rw [quoteAct_eq st inp q hqf]
  set qOp : Operation := qOpD st inp q with hqOpdef
  set FQ : Order → Order :=
    fun o => { o with operations := o.operations ++ [qOp] } with hFQdef
  have hstQF : stQ st inp q =
      { updateOrder st st.quotesId FQ with nextId := st.nextId + 1 } := rfl
  rw [hstQF]
  obtain ⟨hford1, hfind1, hThr1, hNIx1, hLD1,
    ⟨K, qsL, hops1, hKnq1, hqsL, hprevN1, hprevQ1⟩, hQLximp⟩ :=
    appendOp_invQL st st.quotesId q qOp FQ (st.nextId + 1)
      ({ updateOrder st st.quotesId FQ with nextId := st.nextId + 1 }) (FQ q)
      (invBase_of_invCore st hI) hT hNI hqf rfl rfl rfl
      (fun o => rfl) (fun o => rfl) (fun o => rfl) (fun o => rfl)
      rfl rfl rfl rfl
      (Nat.lt_succ_self _)
      (fun _ => ⟨rfl, hv7, hv9, hv11⟩)
      (by intro hcq; rw [hqq] at hcq; cases hcq)
      hqnd hqnotD
  have hqops1 : quoteOps ({ updateOrder st st.quotesId FQ with
      nextId := st.nextId + 1 } : EngineState) = q.operations ++ [qOp] := by
    show (match findOrder ({ updateOrder st st.quotesId FQ with
      nextId := st.nextId + 1 } : EngineState) st.quotesId with
          | some qq => qq.operations
          | none => []) = _
    rw [hford1]
  have hqops0 : quoteOps st = q.operations := by
    rw [quoteOps, hqf]
  have haQ : qOp.askQty ≠ -1 := by
    show inp.askQty ≠ -1
    omega
  have hbQ : qOp.bidQty ≠ -1 := by
    show inp.bidQty ≠ -1
    omega
  have hqNA : qOp.operationState ≠ OperationState.Acked := by
    intro hc
    exact OperationState.noConfusion
      (show OperationState.Initial = OperationState.Acked from hc)
  have hscanA1 : askScanMin ({ updateOrder st st.quotesId FQ with
      nextId := st.nextId + 1 } : EngineState) = min (askScanMin st) qOp.askPrice :=
    askScanMin_append _ st qOp (by rw [hqops1, hqops0]) haQ hqNA
  have hscanB1 : bidScanMax ({ updateOrder st st.quotesId FQ with
      nextId := st.nextId + 1 } : EngineState) = max (bidScanMax st) qOp.bidPrice :=
    bidScanMax_append _ st qOp (by rw [hqops1, hqops0]) hbQ hqNA
  have hmm1 : ∀ b ∈ ({ updateOrder st st.quotesId FQ with
      nextId := st.nextId + 1 } : EngineState).orders,
      b.orderId ≠ st.quotesId → b ∈ st.orders := by
    intro b hb hbne
    have hb2 : b ∈ st.orders.map (fun o => if o.orderId = st.quotesId then FQ o else o) := hb
    obtain ⟨b0, hb0, he⟩ := List.mem_map.mp hb2
    by_cases h : b0.orderId = st.quotesId
    · rw [if_pos h] at he
      rw [← he] at hbne
      exact absurd h hbne
    · rw [if_neg h] at he
      rw [← he]
      exact hb0
  by_cases hchk : CheckPendingQuote
      ({ updateOrder st st.quotesId FQ with nextId := st.nextId + 1 }) qOp = true
  · rw [if_neg (not_not_intro hchk)]
    have hspecAll := checkQuoteAgainstOrders_spec qOp _ (show CheckQuoteAgainstOrders qOp
      ({ updateOrder st st.quotesId FQ with nextId := st.nextId + 1 } :
        EngineState).orders = true from hchk)
    have hQLx1 : InvQLx ({ updateOrder st st.quotesId FQ with
        nextId := st.nextId + 1 } : EngineState) st.quotesId := by
      refine hQLximp ?_ ?_ ?_
      · intro b hb s hs hbne hsne hbq hsq hbs hss hbl hsl
        exact hI.sep b (hmm1 b hb hbne) s (hmm1 s hs hsne) hbq hsq hbs hss hbl hsl
      · intro b hb hbne hbq hbs hbl
        rw [hscanA1]
        refine lt_min (hI.sepQA b (hmm1 b hb hbne) hbq hbs hbl) ?_
        exact (hspecAll b hb hbq
          (by rcases hbl with h | h <;> simp [h])
          (by rcases hbl with h | h <;> simp [h])).1 hbs
      · intro s hs hsne hsq hss hsl
        rw [hscanB1]
        refine max_lt (hI.sepQB s (hmm1 s hs hsne) hsq hss hsl) ?_
        exact (hspecAll s hs hsq
          (by rcases hsl with h | h <;> simp [h])
          (by rcases hsl with h | h <;> simp [h])).2 hss
    have hOwn1 : ∀ o ∈ ({ updateOrder st st.quotesId FQ with
        nextId := st.nextId + 1 } : EngineState).orders,
        o.orderId = st.quotesId → o = FQ q := by
      intro o ho hoid2
      have h1 := findOrder_of_mem _ hQLx1.ordersNodup o ho
      rw [hoid2, hford1] at h1
      exact (Option.some.inj h1).symm
    have hIQL1 : InvQL ({ updateOrder st st.quotesId FQ with
        nextId := st.nextId + 1 } : EngineState) st.quotesId := by
      refine invQL_of_invQLx _ st.quotesId hQLx1 ?_ ?_ ?_
      · intro b hb s hs hor hbq hsq hbs hss hbl hsl
        exfalso
        rcases hor with hor | hor
        · have hbO : b = FQ q := hOwn1 b hb hor
          have h2 : q.isQuote = false := by
            rw [hbO] at hbq
            exact hbq
          rw [hqq] at h2
          cases h2
        · have hsO : s = FQ q := hOwn1 s hs hor
          have h2 : q.isQuote = false := by
            rw [hsO] at hsq
            exact hsq
          rw [hqq] at h2
          cases h2
      · intro b hb hbid hbq hbs hbl
        exfalso
        have hbO : b = FQ q := hOwn1 b hb hbid
        have h2 : q.isQuote = false := by
          rw [hbO] at hbq
          exact hbq
        rw [hqq] at h2
        cases h2
      · intro s hs hsid hsq hss hsl
        exfalso
        have hsO : s = FQ q := hOwn1 s hs hsid
        have h2 : q.isQuote = false := by
          rw [hsO] at hsq
          exact hsq
        rw [hqq] at h2
        cases h2
    by_cases hctr : CheckThrottle
        ({ updateOrder st st.quotesId FQ with nextId := st.nextId + 1 })
        inp.throttleOpen = true
    · rw [if_neg (not_not_intro hctr)]
      have hemp : ({ updateOrder st st.quotesId FQ with
          nextId := st.nextId + 1 } : EngineState).throttle = [] := by
        rw [CheckThrottle] at hctr
        cases hte : ({ updateOrder st st.quotesId FQ with
            nextId := st.nextId + 1 } : EngineState).throttle with
        | nil => rfl
        | cons x xs =>
          rw [hte] at hctr
          simp [List.isEmpty] at hctr
      have hqsLnil : qsL = [] := by
        rcases hqsL with h | ⟨qa, h, hqa⟩
        · exact h
        · exfalso
          have hqam : qa ∈ (FQ q).operations := by
            rw [hops1, h]
            exact List.mem_append_left [qOp]
              (List.mem_append_right K (List.mem_singleton.mpr rfl))
          have hqaall : qa ∈ allOps ({ updateOrder st st.quotesId FQ with
              nextId := st.nextId + 1 }) :=
            (mem_allOps _ qa).mpr ⟨FQ q, (findOrder_some _ _ _ hford1).1, hqam⟩
          have h2 := hThr1.queuedThr qa hqaall hqa
          rw [hemp] at h2
          exact absurd h2 (List.not_mem_nil _)
      have hopsK : (FQ q).operations = K ++ [qOp] := by
        rw [hops1, hqsLnil, List.append_nil]
      exact dispatchInit_sound _ st.nextId qOp (FQ q) K hIQL1 hThr1 hNIx1 hemp
        hfind1 hford1 hopsK rfl rfl (hprevN1 hqsLnil)
        (fun _ _ => hqlive)
        (by
          intro _ r hr hrI hrd
          have hre := hNIx1 r hr hrI
          have hamem : qOp ∈ allOps ({ updateOrder st st.quotesId FQ with
              nextId := st.nextId + 1 }) :=
            (mem_allOps _ qOp).mpr ⟨FQ q, (findOrder_some _ _ _ hford1).1,
              by rw [hopsK]; exact List.mem_append_right K (List.mem_singleton.mpr rfl)⟩
          have hra : r = qOp :=
            List.inj_on_of_nodup_map hIQL1.opsNodup hr hamem (by rw [hre])
          rw [hra] at hrd
          exact OperationType.noConfusion
            (show OperationType.InsertQuote = OperationType.DeleteOrder from hrd))
    · rw [if_pos hctr]
      have hpush := pushQueue_preserves _ st.nextId qOp (FQ q) K qsL
        (FQ q).orderState hIQL1 hThr1 hNIx1 hfind1 hford1 hops1 hKnq1 hqsL rfl rfl
        hprevN1 hprevQ1
        (show (FQ q).orderState ≠ OrderState.Finalised from hqnotF)
        (fun hc => OperationType.noConfusion
          (show OperationType.InsertQuote = OperationType.DeleteOrder from hc))
        (fun h => by
          rw [hLD1]
          exact (hI.stateHist q hqmem).1 h)
        (fun h => by
          rw [hLD1]
          exact (hI.stateHist q hqmem).2.1 h)
        (fun h => absurd (show q.orderState = OrderState.DeleteSentToMarket from h) hqnotD)
        (fun _ => hqlive)
      refine ⟨?_, ?_⟩
      · intro hc
        exact Except.noConfusion hc
      · intro st' hc
        cases hc
        exact hpush.2 rfl
  · rw [if_pos hchk]
    have hpop : updateOrder
        ({ updateOrder st st.quotesId FQ with nextId := st.nextId + 1 })
        st.quotesId (fun o => { o with operations := o.operations.dropLast }) =
        ({ st with nextId := st.nextId + 1 } : EngineState) := by
      apply engineState_eq
      · show (st.orders.map _).map _ = st.orders
        rw [List.map_map]
        have h1 : ∀ o ∈ st.orders,
            ((fun o => if o.orderId = st.quotesId then
              { o with operations := o.operations.dropLast } else o) ∘
             (fun o => if o.orderId = st.quotesId then FQ o else o)) o = id o := by
          intro o _
          by_cases h : o.orderId = st.quotesId
          · simp only [Function.comp_apply, hFQdef, if_pos h, List.dropLast_concat, id_eq]
          · simp [Function.comp, h]
        rw [List.map_congr_left h1, List.map_id]
      · rfl
      · rfl
      · rfl
      · rfl
    rw [hpop]
    refine ⟨?_, ?_⟩
    · intro hc
      exact Except.noConfusion hc
    · intro st' hc
      cases hc
      exact inv_nextId_mono st (st.nextId + 1) hInv (Nat.le_succ _)

/-- `InsertOrder` restated over the staging definitions. -/
theorem insertOrderAct_eq (st : EngineState) (inp : ActionInputs) :
    InsertOrderAct st inp =
      (if ¬ CheckPendingInsertOrAmend (stIns st inp) (newOrderD st inp) then
        Except.ok { stIns st inp with orders := (stIns st inp).orders.dropLast }
      else if ¬ CheckThrottle (stIns st inp) inp.throttleOpen then
        Except.ok (PushToThrottle (stIns st inp) (st.nextId + 1))
      else SendToMarket (stIns st inp) (st.nextId + 1)) := rfl

/-- A freshly inserted order's live maximum is its price: the history holds
a single pending InsertOrder at that price. -/
theorem glp_newOrder_max (st : EngineState) (inp : ActionInputs) :
    GetLivePrice (fun a b => max a b) (newOrderD st inp) = inp.price := by
  simp [GetLivePrice, newOrderD, iOpD, livePriceStep]

/-- A freshly inserted order's live minimum is its price. -/
theorem glp_newOrder_min (st : EngineState) (inp : ActionInputs) :
    GetLivePrice (fun a b => min a b) (newOrderD st inp) = inp.price := by
  simp [GetLivePrice, newOrderD, iOpD, livePriceStep]

/-- A freshly inserted order has no dispatched operation. -/
theorem lastDispatched_newOrder (st : EngineState) (inp : ActionInputs) :
    lastDispatched (newOrderD st inp) = none := by
  simp [lastDispatched, newOrderD, iOpD, isDispatchedOp]

/-- `InsertOrder` never trips the book-cross assertion, and every state it
returns satisfies the reachability invariant. -/
theorem insert_sound (st : EngineState) (inp : ActionInputs) (hInv : Inv st)
    (hvi : ValidInputs inp) :
    (InsertOrderAct st inp ≠ Except.error Err.inCross) ∧
    (∀ st', InsertOrderAct st inp = Except.ok st' → Inv st') := by
  have hI := hInv.1
  have hT := hInv.2.1
  have hNI := hInv.2.2
  obtain ⟨hv1, hv2, hv3, hv4, hv5, hv6, hv7, hv8, hv9, hv10, hv11, hv12⟩ := hvi
  rw [insertOrderAct_eq st inp]
  set iOp : Operation := iOpD st inp with hiOpdef
  set nO : Order := newOrderD st inp with hnOdef
  have hnOid : nO.orderId = st.nextId := rfl
  have hnOq : nO.isQuote = false := rfl
  have hnOst : nO.orderState = OrderState.PriorToMarket := rfl
  have hnOops : nO.operations = [iOp] := rfl
  have hnOprice : nO.price = inp.price := rfl
  have hiid : iOp.opId = st.nextId + 1 := rfl
  have hioid : iOp.orderId = st.nextId := rfl
  have hiSt : iOp.operationState = OperationState.Initial := rfl
  have hiTy : iOp.operationType = OperationType.InsertOrder := rfl
  have hLDn : lastDispatched nO = none := lastDispatched_newOrder st inp
  have hord1 : (stIns st inp).orders = st.orders ++ [nO] := rfl
  have hall1 : allOps (stIns st inp) = allOps st ++ [iOp] := by
    show (st.orders ++ [nO]).flatMap (fun o => o.operations) = _
    rw [List.flatMap_append]
    rfl
  have hmemsplit : ∀ o ∈ (stIns st inp).orders, o ∈ st.orders ∨ o = nO := by
    intro o ho
    rw [hord1] at ho
    rcases List.mem_append.mp ho with h | h
    · exact Or.inl h
    · exact Or.inr (List.mem_singleton.mp h)
  have hmemL : ∀ o ∈ st.orders, o ∈ (stIns st inp).orders := by
    intro o ho
    rw [hord1]
    exact List.mem_append_left _ ho
  have hnOmem : nO ∈ (stIns st inp).orders := by
    rw [hord1]
    exact List.mem_append_right _ (List.mem_singleton_self _)
  have hallsplit : ∀ p ∈ allOps (stIns st inp), p ∈ allOps st ∨ p = iOp := by
    intro p hp
    rw [hall1] at hp
    rcases List.mem_append.mp hp with h | h
    · exact Or.inl h
    · exact Or.inr (List.mem_singleton.mp h)
  have hallL : ∀ p ∈ allOps st, p ∈ allOps (stIns st inp) := by
    intro p hp
    rw [hall1]
    exact List.mem_append_left _ hp
  have hiOpall : iOp ∈ allOps (stIns st inp) := by
    rw [hall1]
    exact List.mem_append_right _ (List.mem_singleton_self _)
  have hfreshO : ∀ o ∈ st.orders, o.orderId ≠ st.nextId :=
    fun o ho => Nat.ne_of_lt (hI.ordersFresh o ho)
  have hfreshP : ∀ p ∈ allOps st, p.opId ≠ st.nextId + 1 := by
    intro p hp
    have := hI.opsFresh p hp
    omega
  have hordN1 : ((stIns st inp).orders.map (fun o => o.orderId)).Nodup := by
    rw [hord1, List.map_append, List.nodup_append]
    refine ⟨hI.ordersNodup, List.nodup_singleton _, ?_⟩
    intro a ha hb
    obtain ⟨o, ho, hoe⟩ := List.mem_map.mp ha
    obtain ⟨o2, ho2, hoe2⟩ := List.mem_map.mp hb
    have ho2n : o2 = nO := List.mem_singleton.mp ho2
    exact hfreshO o ho (by rw [hoe, ← hoe2, ho2n, hnOid])
  have hopsN1 : ((allOps (stIns st inp)).map (fun p => p.opId)).Nodup := by
    rw [hall1, List.map_append, List.nodup_append]
    refine ⟨hI.opsNodup, List.nodup_singleton _, ?_⟩
    intro a ha hb
    obtain ⟨p, hp, hpe⟩ := List.mem_map.mp ha
    obtain ⟨p2, hp2, hpe2⟩ := List.mem_map.mp hb
    have hp2i : p2 = iOp := List.mem_singleton.mp hp2
    exact hfreshP p hp (by rw [hpe, ← hpe2, hp2i, hiid])
  have hfopT : ∀ (j : Nat) (p : Operation), findOp st j = some p →
      findOp (stIns st inp) j = some p := by
    intro j p h
    have hf := findOp_some_facts st j p h
    have h1 := findOp_of_mem (stIns st inp) hopsN1 p (hallL p hf.1)
    rw [hf.2] at h1
    exact h1
  have hfordT : ∀ (oid : Nat) (o : Order), findOrder st oid = some o →
      findOrder (stIns st inp) oid = some o := by
    intro oid o h
    have hm := (findOrder_some st oid o h).1
    have hid := (findOrder_some st oid o h).2
    have h1 := findOrder_of_mem (stIns st inp) hordN1 o (hmemL o hm)
    rw [hid] at h1
    exact h1
  have hfind1 : findOp (stIns st inp) (st.nextId + 1) = some iOp := by
    have h1 := findOp_of_mem (stIns st inp) hopsN1 iOp hiOpall
    rw [hiid] at h1
    exact h1
  have hford1 : findOrder (stIns st inp) st.nextId = some nO := by
    have h1 := findOrder_of_mem (stIns st inp) hordN1 nO hnOmem
    rw [hnOid] at h1
    exact h1
  obtain ⟨q, hqf, hqq⟩ := hI.quoteWF
  have hqf1 : findOrder (stIns st inp) (stIns st inp).quotesId = some q :=
    hfordT st.quotesId q hqf
  have hqops1 : quoteOps (stIns st inp) = quoteOps st := by
    rw [quoteOps, quoteOps, hqf, hqf1]
  have hscanA1 : askScanMin (stIns st inp) = askScanMin st := by
    rw [askScanMin, askScanMin, hqops1]
  have hscanB1 : bidScanMax (stIns st inp) = bidScanMax st := by
    rw [bidScanMax, bidScanMax, hqops1]
  have hprev1 : iOp.previousOperation = (lastDispatched nO).map (fun r => r.opId) := by
    rw [hLDn]
    rfl
  by_cases hchk : CheckPendingInsertOrAmend (stIns st inp) nO = true
  · rw [if_neg (not_not_intro hchk)]
    obtain ⟨hchkA, hchkB, hchkO⟩ := checkPendingIoA_spec (stIns st inp) nO hchk
    have hspecAll := checkAgainstOrders_spec nO (stIns st inp).orders hchkO
    have hglpmax : GetLivePrice (fun a b => max a b) nO = inp.price :=
      glp_newOrder_max st inp
    have hglpmin : GetLivePrice (fun a b => min a b) nO = inp.price :=
      glp_newOrder_min st inp
    have hIQL1 : InvQL (stIns st inp) st.nextId := by
      refine ⟨hordN1, hopsN1, ?_, ?_, ?_, ?_, ?_, ?_, ?_, ?_, ?_, ?_, ?_, ?_, ?_, ?_, ?_,
        ?_, ?_, ?_, ?_, ?_, ?_, ?_⟩
      · intro o ho p hp
        rcases hmemsplit o ho with h | h
        · exact hI.owner o h p hp
        · rw [h] at hp ⊢
          rw [hnOops] at hp
          rw [List.mem_singleton.mp hp, hioid, hnOid]
      · intro p hp
        rcases hallsplit p hp with h | h
        · show p.opId < st.nextId + 2
          have h3 := hI.opsFresh p h
          omega
        · rw [h, hiid]
          show st.nextId + 1 < st.nextId + 2
          omega
      · intro o ho
        rcases hmemsplit o ho with h | h
        · show o.orderId < st.nextId + 2
          have h3 := hI.ordersFresh o h
          omega
        · rw [h, hnOid]
          show st.nextId < st.nextId + 2
          omega
      · exact hI.bookNodup
      · intro i hi
        obtain ⟨p, o, hp, ho, hdisp, hndel⟩ := hI.bookResolves i hi
        exact ⟨p, o, hfopT i p hp, hfordT p.orderId o ho, hdisp, hndel⟩
      · exact ⟨q, hqf1, hqq⟩
      · intro o ho hq2
        rcases hmemsplit o ho with h | h
        · exact hI.isQuoteId o h hq2
        · rw [h, hnOq] at hq2
          exact Bool.noConfusion hq2
      · intro p hp
        rw [hqops1] at hp
        exact hI.quoteOpWF p hp
      · intro o ho hq2 p hp
        rcases hmemsplit o ho with h | h
        · exact hI.orderOpWF o h hq2 p hp
        · rw [h, hnOops] at hp
          rw [List.mem_singleton.mp hp, hiTy]
          exact Or.inl rfl
      · intro o ho hne
        rcases hmemsplit o ho with h | h
        · exact hI.queuedLast o h
        · rw [h] at hne
          exact absurd hnOid hne
      · intro o ho heq
        rcases hmemsplit o ho with h | h
        · exact absurd heq (hfreshO o h)
        · rw [h, hnOops]
          intro p hp
          exact absurd hp (List.not_mem_nil p)
      · intro o ho
        rcases hmemsplit o ho with h | h
        · exact hI.ackedPrefix o h
        · rw [h, hnOops]
          exact (ackedPrefixL_cons iOp []).mpr
            ⟨ackedPrefixL_nil, Or.inr (fun r hr => absurd hr (List.not_mem_nil r))⟩
      · intro o ho
        rcases hmemsplit o ho with h | h
        · exact hI.deleteLast o h
        · rw [h, hnOops]
          intro p hp
          exact absurd hp (List.not_mem_nil p)
      · intro o ho q2 hql hqst
        rcases hmemsplit o ho with h | h
        · exact hI.chain o h q2 hql hqst
        · rw [h, hnOops] at hql
          have hgl : ([iOp] : List Operation).getLast? = some iOp := rfl
          rw [hgl] at hql
          rw [← Option.some.inj hql] at hqst
          rw [hiSt] at hqst
          exact OperationState.noConfusion hqst
      · intro o ho d hd hnd2
        rcases hmemsplit o ho with h | h
        · exact hI.entryIn o h d hd hnd2
        · rw [h, hLDn] at hd
          exact Option.noConfusion hd
      · intro o ho i hi p hp hpo
        have hple : p ∈ allOps st := by
          rcases hallsplit p (findOp_some_facts _ i p hp).1 with hin | hin
          · exact hin
          · exfalso
            obtain ⟨p0, o0, hp0, _, _, _⟩ := hI.bookResolves i hi
            have h1 := (findOp_some_facts st i p0 hp0).1
            have h2 := (findOp_some_facts st i p0 hp0).2
            have h3 := hI.opsFresh p0 h1
            have hpi : p.opId = i := (findOp_some_facts _ i p hp).2
            rw [hin, hiid] at hpi
            omega
        have hpst : findOp st i = some p := by
          have h1 := findOp_of_mem st hI.opsNodup p hple
          rw [(findOp_some_facts _ i p hp).2] at h1
          exact h1
        rcases hmemsplit o ho with h | h
        · exact hI.entryOut o h i hi p hpst hpo
        · exfalso
          obtain ⟨o2, ho2, hpo2⟩ := (mem_allOps st p).mp hple
          have h4 : p.orderId = o2.orderId := hI.owner o2 ho2 p hpo2
          have h5 := hI.ordersFresh o2 ho2
          rw [h, hnOid] at hpo
          omega
      · intro o ho
        rcases hmemsplit o ho with h | h
        · exact hI.stateHist o h
        · rw [h]
          refine ⟨fun _ => hLDn, ?_, ?_, ?_⟩
          · intro hc
            rw [hnOst] at hc
            exact OrderState.noConfusion hc
          · intro hc
            rw [hnOst] at hc
            exact OrderState.noConfusion hc
          · intro hc
            rw [hnOst] at hc
            exact OrderState.noConfusion hc
      · intro o ho p hp hq2 hd2
        rcases hmemsplit o ho with h | h
        · exact hI.queuedDelZombie o h p hp hq2 hd2
        · rw [h, hnOops] at hp
          rw [List.mem_singleton.mp hp, hiSt] at hq2
          exact OperationState.noConfusion hq2
      · intro b hb s hs hbq hsq hbs hss hbl hsl
        rcases hmemsplit b hb with hbC | hbC <;> rcases hmemsplit s hs with hsC | hsC
        · exact hI.sep b hbC s hsC hbq hsq hbs hss hbl hsl
        · rw [hsC] at hss
          rw [hsC]
          have hside : b.side ≠ nO.side := by
            rw [hbs, hss]
            intro hc
            exact Side.noConfusion hc
          exact (hspecAll b hb hside
            (by rcases hbl with h | h <;> simp [h])
            (by rcases hbl with h | h <;> simp [h])).2 hss
        · rw [hbC] at hbs
          rw [hbC]
          have hside : s.side ≠ nO.side := by
            rw [hss, hbs]
            intro hc
            exact Side.noConfusion hc
          exact (hspecAll s hs hside
            (by rcases hsl with h | h <;> simp [h])
            (by rcases hsl with h | h <;> simp [h])).1 hbs
        · rw [hbC] at hbs
          rw [hsC] at hss
          rw [hbs] at hss
          exact Side.noConfusion hss
      · intro b hb hbq hbs hbl
        rcases hmemsplit b hb with h | h
        · rw [hscanA1]
          exact hI.sepQA b h hbq hbs hbl
        · rw [h] at hbs
          rw [h, hglpmax]
          have h2 := hchkA hbs
          rw [hnOprice] at h2
          exact h2
      · intro s hs hsq hss hsl
        rcases hmemsplit s hs with h | h
        · rw [hscanB1]
          exact hI.sepQB s h hsq hss hsl
        · rw [h] at hss
          rw [h, hglpmin]
          have h2 := hchkB hss
          rw [hnOprice] at h2
          exact h2
      · intro i hi j hj p1 o1 p2 o2 b a hres1 hres2 hbid hask
        have htrans : ∀ (i2 : Nat), i2 ∈ st.marketOperations →
            ∀ (p : Operation) (o : Order),
            findOp (stIns st inp) i2 = some p →
            findOrder (stIns st inp) p.orderId = some o →
            findOp st i2 = some p ∧ findOrder st p.orderId = some o := by
          intro i2 hi2 p o hp ho
          have hpmem : p ∈ allOps st := by
            rcases hallsplit p (findOp_some_facts _ i2 p hp).1 with hin | hin
            · exact hin
            · exfalso
              obtain ⟨p0, o0, hp0, _, _, _⟩ := hI.bookResolves i2 hi2
              have h1 := (findOp_some_facts st i2 p0 hp0).1
              have h2 := (findOp_some_facts st i2 p0 hp0).2
              have h3 := hI.opsFresh p0 h1
              have hpi : p.opId = i2 := (findOp_some_facts _ i2 p hp).2
              rw [hin, hiid] at hpi
              omega
          have hpst : findOp st i2 = some p := by
            have h1 := findOp_of_mem st hI.opsNodup p hpmem
            rw [(findOp_some_facts _ i2 p hp).2] at h1
            exact h1
          have homem : o ∈ st.orders := by
            rcases hmemsplit o (findOrder_some _ p.orderId o ho).1 with hin | hin
            · exact hin
            · exfalso
              obtain ⟨o2, ho2, hpo2⟩ := (mem_allOps st p).mp hpmem
              have h4 : p.orderId = o2.orderId := hI.owner o2 ho2 p hpo2
              have h5 := hI.ordersFresh o2 ho2
              have h6 : o.orderId = p.orderId := (findOrder_some _ p.orderId o ho).2
              rw [hin, hnOid] at h6
              omega
          have host : findOrder st p.orderId = some o := by
            have h1 := findOrder_of_mem st hI.ordersNodup o homem
            rw [(findOrder_some _ p.orderId o ho).2] at h1
            exact h1
          exact ⟨hpst, host⟩
        obtain ⟨hf1, hfo1⟩ := resolveBookEntry_elim (stIns st inp) i p1 o1 hres1
        obtain ⟨hf2, hfo2⟩ := resolveBookEntry_elim (stIns st inp) j p2 o2 hres2
        obtain ⟨hf1s, hfo1s⟩ := htrans i hi p1 o1 hf1 hfo1
        obtain ⟨hf2s, hfo2s⟩ := htrans j hj p2 o2 hf2 hfo2
        exact hI.bookSep i hi j hj p1 o1 p2 o2 b a
          (resolveBookEntry_some st i p1 o1 hf1s hfo1s)
          (resolveBookEntry_some st j p2 o2 hf2s hfo2s) hbid hask
    have hThr1 : ThrOK (stIns st inp) (stIns st inp).throttle := by
      refine ⟨hT.thrNodup, ?_, ?_⟩
      · intro t ht
        obtain ⟨p, hp, hpq⟩ := hT.thrQueued t ht
        exact ⟨p, hfopT t p hp, hpq⟩
      · intro p hp hq2
        rcases hallsplit p hp with h | h
        · exact hT.queuedThr p h hq2
        · exfalso
          rw [h, hiSt] at hq2
          exact OperationState.noConfusion hq2
    have hNIx1 : ∀ r ∈ allOps (stIns st inp),
        r.operationState = OperationState.Initial → r.opId = st.nextId + 1 := by
      intro r hr hri
      rcases hallsplit r hr with h | h
      · exact absurd hri (hNI r h)
      · rw [h, hiid]
    by_cases hctr : CheckThrottle (stIns st inp) inp.throttleOpen = true
    · rw [if_neg (not_not_intro hctr)]
      have hemp : (stIns st inp).throttle = [] := by
        rw [CheckThrottle] at hctr
        cases hte : (stIns st inp).throttle with
        | nil => rfl
        | cons x xs =>
          rw [hte] at hctr
          simp [List.isEmpty] at hctr
      exact dispatchInit_sound (stIns st inp) (st.nextId + 1) iOp nO []
        hIQL1 hThr1 hNIx1 hemp hfind1 hford1 rfl rfl rfl hprev1
        (fun _ _ => Or.inr hnOst)
        (by
          intro _ r hr hrI hrd
          have hre := hNIx1 r hr hrI
          have hra : r = iOp :=
            List.inj_on_of_nodup_map hopsN1 hr hiOpall (by rw [hre, hiid])
          rw [hra, hiTy] at hrd
          exact OperationType.noConfusion hrd)
    · rw [if_pos hctr]
      have hpush := pushQueue_preserves (stIns st inp) (st.nextId + 1) iOp nO [] []
        OrderState.PriorToMarket hIQL1 hThr1 hNIx1 hfind1 hford1 rfl
        (fun r hr => absurd hr (List.not_mem_nil r))
        (Or.inl rfl) rfl rfl
        (fun _ => hprev1)
        (fun qa hqa => absurd hqa (List.not_mem_nil qa))
        (fun hc => OrderState.noConfusion hc)
        (fun hc => OperationType.noConfusion
          (show OperationType.InsertOrder = OperationType.DeleteOrder from hc))
        (fun _ => hLDn)
        (fun hc => OrderState.noConfusion hc)
        (fun hc => OrderState.noConfusion hc)
        (fun _ => Or.inr hnOst)
      refine ⟨fun hc => Except.noConfusion hc, ?_⟩
      intro st' hc
      cases hc
      exact hpush.2 hnOst.symm
  · rw [if_pos hchk]
    have hpop : ({ stIns st inp with
        orders := (stIns st inp).orders.dropLast } : EngineState) =
        ({ st with nextId := st.nextId + 2 } : EngineState) := by
      apply engineState_eq
      · show (st.orders ++ [nO]).dropLast = st.orders
        exact List.dropLast_concat
      · rfl
      · rfl
      · rfl
      · rfl
    rw [hpop]
    refine ⟨fun hc => Except.noConfusion hc, ?_⟩
    intro st' hc
    cases hc
    exact inv_nextId_mono st (st.nextId + 2) hInv (by omega)

/-- Every branch of `PerformAction` is safe: no action trips the
book-cross assertion, and every state an action returns satisfies the
reachability invariant. -/
theorem performAction_sound (st : EngineState) (a : Action) (inp : ActionInputs)
    (hInv : Inv st) (hvi : ValidInputs inp) :
    (PerformAction st a inp ≠ Except.error Err.inCross) ∧
    (∀ st', PerformAction st a inp = Except.ok st' → Inv st') := by
  have hI := hInv.1
  have hT := hInv.2.1
  have hNI := hInv.2.2
  cases a with
  | INSERT_ORDER => exact insert_sound st inp hInv hvi
  | QUOTE_ONCE => exact quote_sound st inp hInv hvi
  | QUOTE_TWICE => exact quote_sound st inp hInv hvi
  | QUOTE_THREE_TIMES => exact quote_sound st inp hInv hvi
  | QUOTE_FOUR_TIMES => exact quote_sound st inp hInv hvi
  | QUOTE_FIVE_TIMES => exact quote_sound st inp hInv hvi
  | QUOTE_SIX_TIMES => exact quote_sound st inp hInv hvi
  | AMEND_ONCE => exact amend_sound st inp hInv
  | AMEND_TWICE => exact amend_sound st inp hInv
  | AMEND_THREE_TIMES => exact amend_sound st inp hInv
  | DELETE_QUOTE =>
    refine ⟨fun hc => Except.noConfusion hc, ?_⟩
    intro st' hc
    cases Except.ok.inj hc
    exact hInv
  | DELETE_ORDER =>
    rcases hrl : GetRandomLiveOrder st inp.picks with _ | o
    · simp only [PerformAction, hrl]
      refine ⟨fun hc => Except.noConfusion hc, ?_⟩
      intro st' hc
      cases Except.ok.inj hc
      exact hInv
    · simp only [PerformAction, hrl]
      obtain ⟨homem, holive, hoq⟩ := getRandomLiveOrder_spec st inp.picks o hrl
      have hford : findOrder st o.orderId = some o :=
        findOrder_of_mem st hI.ordersNodup o homem
      exact delete_sound st o.orderId inp.throttleOpen
        (invBase_of_invCore st hI) hT hNI
        (fun b hb s hs _ _ hbq hsq hbs hss hbl hsl =>
          hI.sep b hb s hs hbq hsq hbs hss hbl hsl)
        (fun b hb _ hbq hbs hbl => hI.sepQA b hb hbq hbs hbl)
        (fun s hs _ hsq hss hsl => hI.sepQB s hs hsq hss hsl)
        o hford holive hoq
        (live_no_delete_hist st hI hNI o homem holive)

/-- `GenerateOrderOperations` is safe: running any action list with
in-range inputs from an invariant state never trips the book-cross
assertion and lands in an invariant state. -/
theorem runActs_sound (acts : List (Action × ActionInputs)) :
    ∀ (st : EngineState), Inv st → (∀ a ∈ acts, ValidInputs a.2) →
    (runActs st acts ≠ Except.error Err.inCross) ∧
    (∀ st', runActs st acts = Except.ok st' → Inv st') := by
  induction acts with
  | nil =>
    intro st hInv _
    refine ⟨fun hc => Except.noConfusion hc, ?_⟩
    intro st' hc
    cases Except.ok.inj hc
    exact hInv
  | cons a rest ih =>
    intro st hInv hval
    have hpa := performAction_sound st a.1 a.2 hInv (hval a (List.mem_cons_self a rest))
    rcases hres : PerformAction st a.1 a.2 with e | st1
    · simp only [runActs, hres]
      refine ⟨?_, ?_⟩
      · intro hc
        have he2 : e = Err.inCross := Except.error.inj hc
        rw [he2] at hres
        exact hpa.1 hres
      · intro st' hc
        exact Except.noConfusion hc
    · simp only [runActs, hres]
      exact ih st1 (hpa.2 st1 hres) (fun b hb => hval b (List.mem_cons_of_mem a hb))

/-- One driver tick is safe: generation, the throttle drain, the acks and
both garbage collections preserve the invariant, and none of them trips
the book-cross assertion. -/
theorem tick_sound (st : EngineState) (t : TickInput) (hInv : Inv st)
    (hval : ∀ a ∈ t.acts, ValidInputs a.2) :
    (Tick st t ≠ Except.error Err.inCross) ∧
    (∀ st', Tick st t = Except.ok st' → Inv st') := by
  have hra := runActs_sound t.acts st hInv hval
  rcases hr1 : runActs st t.acts with e | st1
  · simp only [Tick, hr1]
    refine ⟨?_, ?_⟩
    · intro hc
      have he2 : e = Err.inCross := Except.error.inj hc
      rw [he2] at hr1
      exact hra.1 hr1
    · intro st' hc
      exact Except.noConfusion hc
  · simp only [Tick, hr1]
    have hInv1 : Inv st1 := hra.2 st1 hr1
    have hpt := processThrottle_sound st1 hInv1 t.window
    rcases hr2 : ProcessThrottleQueue st1 t.window with e | st2
    · simp only [hr2]
      refine ⟨?_, ?_⟩
      · intro hc
        have he2 : e = Err.inCross := Except.error.inj hc
        rw [he2] at hr2
        exact hpt.1 hr2
      · intro st' hc
        exact Except.noConfusion hc
    · simp only [hr2]
      have hInv2 : Inv st2 := hpt.2 st2 hr2
      refine ⟨fun hc => Except.noConfusion hc, ?_⟩
      intro st' hc
      cases Except.ok.inj hc
      exact gcQuotes_preserves _ (gcOrders_preserves _ (ack_preserves st2 hInv2 t.acks))

/-- The driver loop is safe for any number of ticks. -/
theorem runTicks_sound (ts : List TickInput) :
    ∀ (st : EngineState), Inv st → (∀ t ∈ ts, ∀ a ∈ t.acts, ValidInputs a.2) →
    (runTicks st ts ≠ Except.error Err.inCross) ∧
    (∀ st', runTicks st ts = Except.ok st' → Inv st') := by
  induction ts with
  | nil =>
    intro st hInv _
    refine ⟨fun hc => Except.noConfusion hc, ?_⟩
    intro st' hc
    cases Except.ok.inj hc
    exact hInv
  | cons t rest ih =>
    intro st hInv hval
    have htick := tick_sound st t hInv (hval t (List.mem_cons_self t rest))
    rcases hr : Tick st t with e | st1
    · simp only [runTicks, hr]
      refine ⟨?_, ?_⟩
      · intro hc
        have he2 : e = Err.inCross := Except.error.inj hc
        rw [he2] at hr
        exact htick.1 hr
      · intro st' hc
        exact Except.noConfusion hc
    · simp only [runTicks, hr]
      exact ih st1 (htick.2 st1 hr) (fun t2 ht2 => hval t2 (List.mem_cons_of_mem t ht2))

/-- The startup state — a single quote entity with an empty history and an
otherwise empty store — satisfies the reachability invariant. -/
theorem inv_init (sideDraw : Side) : Inv (InitQuotes sideDraw) := by
  have hops0 : allOps (InitQuotes sideDraw) = [] := rfl
  have hbook0 : (InitQuotes sideDraw).marketOperations = [] := rfl
  have hthr0 : (InitQuotes sideDraw).throttle = [] := rfl
  have hqops0 : quoteOps (InitQuotes sideDraw) = [] := rfl
  have hmem1 : ∀ o ∈ (InitQuotes sideDraw).orders,
      o = { orderId := 0, price := 0, qty := -1, side := sideDraw,
            orderState := OrderState.PriorToMarket, operations := [], isQuote := true } := by
    intro o ho
    exact List.mem_singleton.mp ho
  refine ⟨⟨?_, ?_, ?_, ?_, ?_, ?_, ?_, ?_, ?_, ?_, ?_, ?_, ?_, ?_, ?_, ?_, ?_, ?_, ?_, ?_,
    ?_, ?_, ?_⟩, ⟨?_, ?_, ?_⟩, ?_⟩
  · exact List.nodup_singleton 0
  · exact List.nodup_nil
  · intro o ho p hp
    rw [hmem1 o ho] at hp
    exact absurd hp (List.not_mem_nil p)
  · intro p hp
    rw [hops0] at hp
    exact absurd hp (List.not_mem_nil p)
  · intro o ho
    rw [hmem1 o ho]
    exact Nat.zero_lt_one
  · exact List.nodup_nil
  · intro i hi
    rw [hbook0] at hi
    exact absurd hi (List.not_mem_nil i)
  · exact ⟨⟨0, 0, -1, sideDraw, OrderState.PriorToMarket, [], true⟩, rfl, rfl⟩
  · intro o ho _
    rw [hmem1 o ho]
    rfl
  · intro p hp
    rw [hqops0] at hp
    exact absurd hp (List.not_mem_nil p)
  · intro o ho hq2 p hp
    rw [hmem1 o ho] at hq2
    exact Bool.noConfusion hq2
  · intro o ho p hp
    rw [hmem1 o ho] at hp
    exact absurd hp (List.not_mem_nil p)
  · intro o ho
    rw [hmem1 o ho]
    exact ackedPrefixL_nil
  · intro o ho p hp
    rw [hmem1 o ho] at hp
    exact absurd hp (List.not_mem_nil p)
  · intro o ho q2 hql hqst
    rw [hmem1 o ho] at hql
    exact Option.noConfusion hql
  · intro o ho d hd _
    rw [hmem1 o ho] at hd
    exact Option.noConfusion hd
  · intro o ho i hi p hp hpo
    rw [hbook0] at hi
    exact absurd hi (List.not_mem_nil i)
  · intro o ho
    rw [hmem1 o ho]
    refine ⟨fun _ => rfl, ?_, ?_, ?_⟩
    · intro hc
      exact OrderState.noConfusion hc
    · intro hc
      exact OrderState.noConfusion hc
    · intro hc
      exact OrderState.noConfusion hc
  · intro o ho p hp _ _
    rw [hmem1 o ho] at hp
    exact absurd hp (List.not_mem_nil p)
  · intro b hb s hs hbq _ _ _ _ _
    rw [hmem1 b hb] at hbq
    exact Bool.noConfusion hbq
  · intro b hb hbq _ _
    rw [hmem1 b hb] at hbq
    exact Bool.noConfusion hbq
  · intro s hs hsq _ _
    rw [hmem1 s hs] at hsq
    exact Bool.noConfusion hsq
  · intro i hi
    rw [hbook0] at hi
    exact absurd hi (List.not_mem_nil i)
  · exact List.nodup_nil
  · intro t ht
    rw [hthr0] at ht
    exact absurd ht (List.not_mem_nil t)
  · intro p hp
    rw [hops0] at hp
    exact absurd hp (List.not_mem_nil p)
  · intro p hp
    rw [hops0] at hp
    exact absurd hp (List.not_mem_nil p)

/-- C1: in every reachable state of the core — for all action, throttle,
window and ack oracle draws with in-range inputs — the run started from the
startup state never returns the book-cross error, i.e. the assertion run
after every dispatch never fires; moreover the shadow book of every state a
completed run returns aggregates to no price level whose bid and ask
quantities are both positive (`InCross` is false). -/
theorem C1_theorem (sideDraw : Side) (ts : List TickInput)
    (hval : ∀ t ∈ ts, ∀ a ∈ t.acts, ValidInputs a.2) :
    (runTicks (InitQuotes sideDraw) ts ≠ Except.error Err.inCross) ∧
    (∀ st', runTicks (InitQuotes sideDraw) ts = Except.ok st' → InCross st' = false) := by
  have h := runTicks_sound ts (InitQuotes sideDraw) (inv_init sideDraw) hval
  exact ⟨h.1, fun st' hc => bookSep_inCross_false st' ((h.2 st' hc).1.bookSep)⟩

/-- A concrete one-tick run through `C1_theorem`: the single inserted order
has in-range draws, and the run does not trip the book-cross assertion. -/
theorem C1_witness :
    (∀ t ∈ ([{ acts := [(Action.INSERT_ORDER,
        { price := 5, qty := 10, side := Side.Buy, throttleOpen := true,
          throttleOpen2 := true, picks := [], bidPrice := 4, bidQty := 1,
          askPrice := 6, askQty := 1 })], window := 2, acks := 2 }] : List TickInput),
      ∀ a ∈ t.acts, ValidInputs a.2) ∧
    runTicks (InitQuotes Side.Buy)
      [{ acts := [(Action.INSERT_ORDER,
        { price := 5, qty := 10, side := Side.Buy, throttleOpen := true,
          throttleOpen2 := true, picks := [], bidPrice := 4, bidQty := 1,
          askPrice := 6, askQty := 1 })], window := 2, acks := 2 }] ≠
      Except.error Err.inCross := by
  have hv : ∀ t ∈ ([{ acts := [(Action.INSERT_ORDER,
      { price := 5, qty := 10, side := Side.Buy, throttleOpen := true,
        throttleOpen2 := true, picks := [], bidPrice := 4, bidQty := 1,
        askPrice := 6, askQty := 1 })], window := 2, acks := 2 }] : List TickInput),
      ∀ a ∈ t.acts, ValidInputs a.2 := by
    intro t ht a ha
    rw [List.mem_singleton.mp ht] at ha
    rw [List.mem_singleton.mp ha]
    exact ⟨by decide, by decide, by decide, by decide, by decide, by decide,
      by decide, by decide, by decide, by decide, by decide, by decide⟩
  exact ⟨hv, (C1_theorem Side.Buy _ hv).1⟩

end Throttling
